import Mathlib

/-!
Expression AST builder of lily (lily_ast.c)

A shallow embedding of the AST pool and of the merge engine of lily_ast.c, and
theorems about the trees it builds.

Memory model.  A pointer to a tree is `Option Nat` (`none` is NULL).  The trees
live in `mem : Nat → lily_ast`; `brk` counts the trees obtained from
lily_malloc so far, and the next lily_malloc returns address `brk`.  Nothing
clears a tree when it is handed out, so the fields of a tree that the builder
does not write keep whatever `mem` held: the theorems quantify over `mem`.
Dereferencing NULL and indexing `saved_trees` outside `[0, save_size)` are
reported as faults, and so is the lily_raise_nomem of lily_ast_enter_tree when
lily_realloc returns NULL, which the C library does for a block of size 0;
lily_malloc and lily_realloc of a block of non-zero size are taken to succeed.  The two `while` loops of the source walk pointer chains;
they are given `brk` iterations, which a chain of distinct allocated trees
cannot exceed, and report `no_return` beyond that.
-/

namespace Lily

/-- Modelled from the spec: the declaration of `lily_tree_type` (lily_ast.h) is
not among the sources.  The ten kinds are those of the data model of the spec
and of the source (`tree_call` ... `tree_binary`). -/
inductive lily_tree_type where
  | tree_call
  | tree_subscript
  | tree_list
  | tree_parenth
  | tree_local_var
  | tree_var
  | tree_literal
  | tree_unary
  | tree_typecast
  | tree_binary
  deriving DecidableEq, Repr

open lily_tree_type

/-- Modelled from the spec: the numeric order of the kinds in the missing enum
declaration.  The source compares kinds with `< tree_typecast`,
`>= tree_typecast` and `< tree_binary` only.  The value kinds (leaves and
groupings) are below `tree_typecast`; `tree_binary` is the greatest
(`push_binary_op` treats everything below it as a value); `tree_unary` is below
`tree_typecast`: merge_value tests `== tree_unary` after `>= tree_typecast`
failed, merge_absorb calls the kinds below `tree_typecast` the
"non-binary/typecast trees", and the unary merge of the spec reaches the `left`
slot of an active unary. -/
def tree_rank : lily_tree_type → Nat
  | tree_call => 0
  | tree_subscript => 1
  | tree_list => 2
  | tree_parenth => 3
  | tree_local_var => 4
  | tree_var => 5
  | tree_literal => 6
  | tree_unary => 7
  | tree_typecast => 8
  | tree_binary => 9

/-- Modelled from the spec: the declaration of `lily_expr_op` (lily_ast.h) is
not among the sources; the operators are the cases of the switch of
priority_for_op, which are the operators of the priority table. -/
inductive lily_expr_op where
  | expr_assign
  | expr_div_assign
  | expr_mul_assign
  | expr_plus_assign
  | expr_minus_assign
  | expr_left_shift_assign
  | expr_right_shift_assign
  | expr_logical_or
  | expr_logical_and
  | expr_eq_eq
  | expr_not_eq
  | expr_lt
  | expr_gr
  | expr_lt_eq
  | expr_gr_eq
  | expr_bitwise_or
  | expr_bitwise_xor
  | expr_bitwise_and
  | expr_left_shift
  | expr_right_shift
  | expr_plus
  | expr_minus
  | expr_multiply
  | expr_divide
  | expr_modulo
  | expr_unary_not
  | expr_unary_minus
  deriving DecidableEq, Repr

open lily_expr_op

/-- Modelled from the spec: the declaration of `lily_ast` (lily_ast.h) is not
among the sources; the fields are those the source reads and writes, which are
the fields of the node record of the spec.  `result` and `sig` are handles the
builder never dereferences. -/
structure lily_ast where
  tree_type : lily_tree_type
  line_num : Nat
  result : Option Nat
  sig : Option Nat
  op : lily_expr_op
  priority : Int
  left : Option Nat
  right : Option Nat
  parent : Option Nat
  arg_start : Option Nat
  arg_top : Option Nat
  args_collected : Int
  next_arg : Option Nat
  next_tree : Option Nat
  deriving DecidableEq

/-- Modelled from the spec: the declaration of `lily_ast_pool` (lily_ast.h) is
not among the sources; the fields are those lily_new_ast_pool initialises
(the raiser apart) and `lex_linenum`, here the line number it points to.
`mem` and `brk` are the memory the trees live in. -/
structure lily_ast_pool where
  mem : Nat → lily_ast
  brk : Nat
  saved_trees : Nat → Option Nat
  active : Option Nat
  root : Option Nat
  save_index : Int
  save_size : Int
  available_start : Option Nat
  available_current : Option Nat
  lex_linenum : Nat

/-- What the C code does not survive. -/
inductive Fault where
  | null_deref
  | out_of_bounds
  | no_return
  | no_memory
  deriving DecidableEq, Repr

/-- Write to the tree at address `a`. -/
def poke (ap : lily_ast_pool) (a : Nat) (f : lily_ast → lily_ast) : lily_ast_pool :=
  { ap with mem := fun x => if x = a then f (ap.mem x) else ap.mem x }

/-- The loop of lily_new_ast_pool: `n` trees from lily_malloc, each linked to
the one made before it. -/
def new_pool_trees (mem : Nat → lily_ast) : Nat → (Nat → lily_ast) × Option Nat
  | 0 => (mem, none)
  | i + 1 =>
    let r := new_pool_trees mem i
    ((fun x => if x = i then { r.1 x with next_tree := r.2 } else r.1 x), some i)

/-- lily_new_ast_pool, on a memory with arbitrary content. -/
def lily_new_ast_pool (mem : Nat → lily_ast) (buf : Nat → Option Nat) (line : Nat)
    (pool_size : Nat) : lily_ast_pool :=
  let r := new_pool_trees mem pool_size
  { mem := r.1
    brk := pool_size
    saved_trees := buf
    active := none
    root := none
    save_index := 0
    save_size := pool_size
    available_start := r.2
    available_current := r.2
    lex_linenum := line }

/-- lily_ast_reset_pool. -/
def lily_ast_reset_pool (ap : lily_ast_pool) : lily_ast_pool :=
  { ap with root := none, active := none, available_current := ap.available_start }

/-- merge_absorb. -/
def merge_absorb (ap : lily_ast_pool) (active new_ast : Nat) : lily_ast_pool :=
  let fill (ap : lily_ast_pool) (target : Option Nat) : lily_ast_pool :=
    poke ap new_ast (fun n =>
      { n with arg_start := target, arg_top := target, args_collected := 1, next_arg := none })
  if tree_rank (ap.mem active).tree_type < tree_rank tree_typecast then
    let ap1 := if ap.root = some active then { ap with root := some new_ast } else ap
    fill { ap1 with active := some new_ast } (some active)
  else
    let target := (ap.mem active).right
    fill (poke ap active (fun n => { n with right := some new_ast })) target

/-- The `while` loop of merge_unary: walk down `left` while the tree and its
left are unary. -/
def unary_descend (mem : Nat → lily_ast) : Nat → Nat → Option Nat
  | fuel, active =>
    if (mem active).tree_type = tree_unary then
      match (mem active).left with
      | none => some active
      | some l =>
        if (mem l).tree_type = tree_unary then
          match fuel with
          | 0 => none
          | f + 1 => unary_descend mem f l
        else some active
    else some active

/-- merge_unary. -/
def merge_unary (ap : lily_ast_pool) (new_active new_ast : Nat) :
    Except Fault lily_ast_pool :=
  if tree_rank tree_typecast ≤ tree_rank (ap.mem new_active).tree_type
      ∧ (ap.mem new_active).right = none then
    .ok (poke (poke ap new_active (fun n => { n with right := some new_ast }))
      new_ast (fun n => { n with parent := some new_active }))
  else
    let start : Option Nat :=
      if tree_rank tree_typecast ≤ tree_rank (ap.mem new_active).tree_type then
        (ap.mem new_active).right
      else some new_active
    match start with
    | none => .error Fault.null_deref
    | some a0 =>
      match unary_descend ap.mem ap.brk a0 with
      | none => .error Fault.no_return
      | some active =>
        let ap1 :=
          match (ap.mem active).left with
          | none => poke ap active (fun n => { n with left := some new_ast })
          | some l =>
            if (ap.mem new_ast).tree_type = tree_subscript then
              poke (merge_absorb ap l new_ast) active (fun n => { n with left := some new_ast })
            else ap
        .ok (poke ap1 new_ast (fun n => { n with parent := some active }))

/-- merge_value. -/
def merge_value (ap : lily_ast_pool) (new_ast : Nat) : Except Fault lily_ast_pool :=
  match ap.active with
  | some active =>
    if tree_rank tree_typecast ≤ tree_rank (ap.mem active).tree_type then
      match (ap.mem active).right with
      | none => .ok (poke ap active (fun n => { n with right := some new_ast }))
      | some r =>
        if (ap.mem r).tree_type = tree_unary then merge_unary ap active new_ast
        else .ok (merge_absorb ap active new_ast)
    else if (ap.mem active).tree_type = tree_unary then merge_unary ap active new_ast
    else .ok (merge_absorb ap active new_ast)
  | none =>
    let ap1 := if ap.root = none then { ap with root := some new_ast } else ap
    .ok { ap1 with active := some new_ast }

/-- make_new_tree: the new tree becomes the start of the chain of the pool;
`available_current` is not updated. -/
def make_new_tree (ap : lily_ast_pool) : Nat × lily_ast_pool :=
  (ap.brk,
    { poke ap ap.brk (fun n => { n with next_tree := ap.available_start }) with
      available_start := some ap.brk
      brk := ap.brk + 1 })

/-- The first lines of every push function and of lily_ast_enter_tree: take
`available_current` and advance it, or make a new tree. -/
def acquire_tree (ap : lily_ast_pool) : Nat × lily_ast_pool :=
  match ap.available_current with
  | some a => (a, { ap with available_current := (ap.mem a).next_tree })
  | none => make_new_tree ap

/-- priority_for_op. -/
def priority_for_op : lily_expr_op → Int
  | expr_assign => 0
  | expr_div_assign => 0
  | expr_mul_assign => 0
  | expr_plus_assign => 0
  | expr_minus_assign => 0
  | expr_left_shift_assign => 0
  | expr_right_shift_assign => 0
  | expr_logical_or => 1
  | expr_logical_and => 2
  | expr_eq_eq => 3
  | expr_not_eq => 3
  | expr_lt => 4
  | expr_gr => 4
  | expr_lt_eq => 4
  | expr_gr_eq => 4
  | expr_bitwise_or => 5
  | expr_bitwise_xor => 6
  | expr_bitwise_and => 7
  | expr_left_shift => 8
  | expr_right_shift => 8
  | expr_plus => 9
  | expr_minus => 9
  | expr_multiply => 10
  | expr_divide => 10
  | expr_modulo => 10
  | expr_unary_not => 11
  | expr_unary_minus => 11

/-- push_tree_arg. -/
def push_tree_arg (ap : lily_ast_pool) (call : Nat) (tree : Option Nat) :
    Except Fault lily_ast_pool :=
  let linked : Except Fault lily_ast_pool :=
    match (ap.mem call).arg_start with
    | none => .ok (poke ap call (fun n => { n with arg_start := tree, arg_top := tree }))
    | some _ =>
      match (ap.mem call).arg_top with
      | none => .error Fault.null_deref
      | some top =>
        .ok (poke (poke ap top (fun n => { n with next_arg := tree }))
          call (fun n => { n with arg_top := tree }))
  match linked with
  | .error e => .error e
  | .ok ap1 =>
    match tree with
    | none => .ok ap1
    | some t =>
      .ok (poke (poke (poke ap1 t (fun n => { n with parent := some call }))
        t (fun n => { n with next_arg := none }))
        call (fun n => { n with args_collected := n.args_collected + 1 }))

/-- Read `saved_trees[i]`. -/
def saved_at (ap : lily_ast_pool) (i : Int) : Except Fault (Option Nat) :=
  if 0 ≤ i ∧ i < ap.save_size then .ok (ap.saved_trees i.toNat)
  else .error Fault.out_of_bounds

/-- Write `saved_trees[i] = v`. -/
def saved_put (ap : lily_ast_pool) (i : Int) (v : Option Nat) : Except Fault lily_ast_pool :=
  if 0 ≤ i ∧ i < ap.save_size then
    .ok { ap with saved_trees := fun x => if x = i.toNat then v else ap.saved_trees x }
  else .error Fault.out_of_bounds

/-- lily_ast_collect_arg. -/
def lily_ast_collect_arg (ap : lily_ast_pool) : Except Fault lily_ast_pool :=
  match saved_at ap (ap.save_index - 1) with
  | .error e => .error e
  | .ok none => .error Fault.null_deref
  | .ok (some a) =>
    match push_tree_arg ap a ap.root with
    | .error e => .error e
    | .ok ap1 => .ok { ap1 with root := none, active := none }

/-- The lily_realloc of the save stack. lily_realloc (lily_impl.h) is not among
the sources: it is the realloc of the C library. Like lily_malloc it is taken to
succeed for a block of non-zero size, keeping the entries; for size 0 the C
library frees the block and returns NULL. -/
def lily_realloc (saved : Nat → Option Nat) (entries : Int) : Option (Nat → Option Nat) :=
  if entries = 0 then none else some saved

/-- The `if` of lily_ast_enter_tree that doubles the save stack when the two
entries to write would reach its end: `save_size *= 2`, then lily_realloc, and
lily_raise_nomem, reported as `no_memory`, when lily_realloc returns NULL. -/
def grow_saved (ap : lily_ast_pool) : Except Fault lily_ast_pool :=
  if ap.save_index + 2 ≥ ap.save_size then
    match lily_realloc ap.saved_trees (ap.save_size * 2) with
    | none => .error Fault.no_memory
    | some new_saved =>
      .ok { ap with save_size := ap.save_size * 2, saved_trees := new_saved }
  else .ok ap

/-- lily_ast_enter_tree. -/
def lily_ast_enter_tree (ap : lily_ast_pool) (tt : lily_tree_type) (var : Option Nat) :
    Except Fault lily_ast_pool :=
  let (a, ap0) := acquire_tree ap
  let ap1 := poke ap0 a (fun n =>
    { n with tree_type := tt, line_num := ap0.lex_linenum, result := var,
             args_collected := 0, arg_start := none, arg_top := none })
  match merge_value ap1 a with
  | .error e => .error e
  | .ok ap2 =>
    let ap3 := poke ap2 a (fun n => { n with parent := ap2.active })
    match grow_saved ap3 with
    | .error e => .error e
    | .ok ap4 =>
      match saved_put ap4 ap4.save_index ap4.root with
      | .error e => .error e
      | .ok ap5 =>
        match saved_put ap5 (ap5.save_index + 1) (some a) with
        | .error e => .error e
        | .ok ap6 =>
          .ok { ap6 with root := none, active := none, save_index := ap6.save_index + 2 }

/-- lily_ast_caller_tree_type. -/
def lily_ast_caller_tree_type (ap : lily_ast_pool) : Except Fault lily_tree_type :=
  match saved_at ap (ap.save_index - 1) with
  | .error e => .error e
  | .ok none => .error Fault.null_deref
  | .ok (some a) => .ok (ap.mem a).tree_type

/-- lily_ast_leave_tree. -/
def lily_ast_leave_tree (ap : lily_ast_pool) : Except Fault lily_ast_pool :=
  let ap0 := { ap with save_index := ap.save_index - 1 }
  match saved_at ap0 ap0.save_index with
  | .error e => .error e
  | .ok none => .error Fault.null_deref
  | .ok (some a) =>
    match push_tree_arg ap0 a ap0.root with
    | .error e => .error e
    | .ok ap1 =>
      let ap2 := { ap1 with save_index := ap1.save_index - 1 }
      match saved_at ap2 ap2.save_index with
      | .error e => .error e
      | .ok r =>
        let ap3 := { ap2 with root := r, active := (ap2.mem a).parent }
        .ok (if (ap3.mem a).parent = some a then
          poke ap3 a (fun n => { n with parent := none }) else ap3)

/-- The `while` loop of the climb of lily_ast_push_binary_op: go up `parent`
until there is none or the parent has a lower priority than the new tree. -/
def climb (mem : Nat → lily_ast) (new_prio : Int) : Nat → Nat → Option Nat
  | fuel, tree =>
    match (mem tree).parent with
    | none => some tree
    | some p =>
      if new_prio > (mem p).priority then some tree
      else
        match fuel with
        | 0 => none
        | f + 1 => climb mem new_prio f p

/-- lily_ast_push_binary_op. -/
def lily_ast_push_binary_op (ap : lily_ast_pool) (op : lily_expr_op) :
    Except Fault lily_ast_pool :=
  let (new_ast, ap0) := acquire_tree ap
  let active := ap0.active
  let ap1 := poke ap0 new_ast (fun n =>
    { n with tree_type := tree_binary, line_num := ap0.lex_linenum,
             priority := priority_for_op op, op := op,
             left := none, right := none, parent := none })
  match active with
  | none => .error Fault.null_deref
  | some active =>
    if tree_rank (ap1.mem active).tree_type < tree_rank tree_binary then
      let ap2 := if ap1.root = some active then { ap1 with root := some new_ast } else ap1
      .ok { poke ap2 new_ast (fun n => { n with left := some active }) with
            active := some new_ast }
    else if (ap1.mem active).tree_type = tree_binary then
      let new_prio := (ap1.mem new_ast).priority
      let active_prio := (ap1.mem active).priority
      if new_prio > active_prio ∨ new_prio = 0 then
        let ap2 := poke ap1 new_ast (fun n => { n with left := (ap1.mem active).right })
        let ap3 := poke ap2 active (fun n => { n with right := some new_ast })
        .ok { poke ap3 new_ast (fun n => { n with parent := some active }) with
              active := some new_ast }
      else
        match climb ap1.mem new_prio ap1.brk active with
        | none => .error Fault.no_return
        | some tree =>
          let ap2 :=
            match (ap1.mem tree).parent with
            | some parent =>
              let ap2 :=
                if (ap1.mem parent).left = some tree then
                  poke ap1 parent (fun n => { n with left := some new_ast })
                else poke ap1 parent (fun n => { n with right := some new_ast })
              poke ap2 new_ast (fun n => { n with parent := (ap2.mem active).parent })
            | none =>
              { poke ap1 tree (fun n => { n with parent := some new_ast }) with
                root := some new_ast }
          .ok { poke ap2 new_ast (fun n => { n with left := some tree }) with
                active := some new_ast }
    else .ok ap1

/-- lily_ast_push_empty_list. -/
def lily_ast_push_empty_list (ap : lily_ast_pool) (sig : Option Nat) :
    Except Fault lily_ast_pool :=
  let (a, ap0) := acquire_tree ap
  merge_value (poke ap0 a (fun n =>
    { n with tree_type := tree_list, line_num := ap0.lex_linenum, result := none,
             args_collected := 0, arg_start := none, arg_top := none, sig := sig })) a

/-- lily_ast_push_unary_op. -/
def lily_ast_push_unary_op (ap : lily_ast_pool) (op : lily_expr_op) :
    Except Fault lily_ast_pool :=
  let (a, ap0) := acquire_tree ap
  let active := ap0.active
  let ap1 := poke ap0 a (fun n =>
    { n with left := none, line_num := ap0.lex_linenum, tree_type := tree_unary,
             priority := priority_for_op op, op := op })
  match active with
  | some active =>
    if (ap1.mem active).tree_type = tree_var ∨ (ap1.mem active).tree_type = tree_local_var
        ∨ (ap1.mem active).tree_type = tree_call
        ∨ (ap1.mem active).tree_type = tree_literal then
      .ok { poke ap1 active (fun n => { n with parent := some a }) with
            active := some a, root := some a }
    else merge_unary ap1 active a
  | none => .ok { ap1 with active := some a, root := some a }

/-- lily_ast_push_local_var. -/
def lily_ast_push_local_var (ap : lily_ast_pool) (var : Option Nat) :
    Except Fault lily_ast_pool :=
  let (a, ap0) := acquire_tree ap
  merge_value (poke ap0 a (fun n =>
    { n with tree_type := tree_local_var, line_num := ap0.lex_linenum, result := var })) a

/-- lily_ast_push_sym. -/
def lily_ast_push_sym (ap : lily_ast_pool) (s : Option Nat) : Except Fault lily_ast_pool :=
  let (a, ap0) := acquire_tree ap
  merge_value (poke ap0 a (fun n =>
    { n with tree_type := tree_var, line_num := ap0.lex_linenum, result := s })) a

/-- lily_ast_push_literal. -/
def lily_ast_push_literal (ap : lily_ast_pool) (lit : Option Nat) :
    Except Fault lily_ast_pool :=
  let (a, ap0) := acquire_tree ap
  merge_value (poke ap0 a (fun n =>
    { n with tree_type := tree_literal, line_num := ap0.lex_linenum, result := lit })) a

/-- lily_ast_push_sig. -/
def lily_ast_push_sig (ap : lily_ast_pool) (sig : Option Nat) : Except Fault lily_ast_pool :=
  let (a, ap0) := acquire_tree ap
  merge_value (poke ap0 a (fun n =>
    { n with tree_type := tree_typecast, sig := sig, right := none,
             line_num := ap0.lex_linenum, result := none })) a

/-- A value the driver pushes with push_sym, push_literal or push_local_var. -/
inductive Leaf where
  | sym (s : Option Nat)
  | literal (lit : Option Nat)
  | local_var (var : Option Nat)
  deriving DecidableEq, Repr

/-- The builder operations the parser calls. -/
inductive Op where
  | push_local_var (var : Option Nat)
  | push_sym (s : Option Nat)
  | push_literal (lit : Option Nat)
  | push_sig (sig : Option Nat)
  | push_empty_list (sig : Option Nat)
  | push_unary_op (op : lily_expr_op)
  | push_binary_op (op : lily_expr_op)
  | enter_tree (tt : lily_tree_type) (var : Option Nat)
  | collect_arg
  | leave_tree
  | reset_pool
  deriving DecidableEq, Repr

/-- One call of the parser into the builder. -/
def step (ap : lily_ast_pool) : Op → Except Fault lily_ast_pool
  | Op.push_local_var v => lily_ast_push_local_var ap v
  | Op.push_sym s => lily_ast_push_sym ap s
  | Op.push_literal l => lily_ast_push_literal ap l
  | Op.push_sig g => lily_ast_push_sig ap g
  | Op.push_empty_list g => lily_ast_push_empty_list ap g
  | Op.push_unary_op o => lily_ast_push_unary_op ap o
  | Op.push_binary_op o => lily_ast_push_binary_op ap o
  | Op.enter_tree tt v => lily_ast_enter_tree ap tt v
  | Op.collect_arg => lily_ast_collect_arg ap
  | Op.leave_tree => lily_ast_leave_tree ap
  | Op.reset_pool => .ok (lily_ast_reset_pool ap)

/-- A sequence of calls, stopping at the first fault. -/
def run : List Op → lily_ast_pool → Except Fault lily_ast_pool
  | [], ap => .ok ap
  | o :: os, ap =>
    match step ap o with
    | .error e => .error e
    | .ok ap1 => run os ap1

/-- The call that pushes a leaf. -/
def Leaf.push : Leaf → Op
  | Leaf.sym s => Op.push_sym s
  | Leaf.literal l => Op.push_literal l
  | Leaf.local_var v => Op.push_local_var v

/-- The kind of tree a leaf becomes. -/
def Leaf.kind : Leaf → lily_tree_type
  | Leaf.sym _ => tree_var
  | Leaf.literal _ => tree_literal
  | Leaf.local_var _ => tree_local_var

/-- The handle a leaf carries in `result`. -/
def Leaf.handle : Leaf → Option Nat
  | Leaf.sym s => s
  | Leaf.literal l => l
  | Leaf.local_var v => v

/-- A tree with no pointer in it, to fill example memories. -/
def blank_tree : lily_ast :=
  { tree_type := tree_call, line_num := 0, result := none, sig := none, op := expr_assign,
    priority := 0, left := none, right := none, parent := none, arg_start := none,
    arg_top := none, args_collected := 0, next_arg := none, next_tree := none }

/-- A pool of two trees made by lily_new_ast_pool on blank memory. -/
def example_pool : lily_ast_pool :=
  lily_new_ast_pool (fun _ => blank_tree) (fun _ => none) 1 2

/-! ## Reading trees out of the memory -/

/-- The shape of an expression tree. -/
inductive Tree where
  | leaf (kind : lily_tree_type) (res : Option Nat)
  | unary (op : lily_expr_op) (t : Tree)
  | binary (op : lily_expr_op) (l r : Tree)
  deriving DecidableEq, Repr

/-- The tree a leaf becomes. -/
def Leaf.tree (l : Leaf) : Tree := Tree.leaf l.kind l.handle

/-- The memory holds the tree `t` at pointer `p`: kinds, operators, priorities
and handles are those of `t`, a unary has its operand in `left`, a binary its
operands in `left` and `right`; a leaf of `t` is a tree of a value kind, so
that `t` is the whole tree under `p`. -/
def tree_at (mem : Nat → lily_ast) : Tree → Option Nat → Prop
  | _, none => False
  | Tree.leaf k r, some a =>
    (mem a).tree_type = k ∧ (mem a).result = r ∧ tree_rank k < tree_rank tree_unary
  | Tree.unary o t, some a =>
    (mem a).tree_type = tree_unary ∧ (mem a).op = o
      ∧ (mem a).priority = priority_for_op o ∧ tree_at mem t (mem a).left
  | Tree.binary o l r, some a =>
    (mem a).tree_type = tree_binary ∧ (mem a).op = o
      ∧ (mem a).priority = priority_for_op o
      ∧ tree_at mem l (mem a).left ∧ tree_at mem r (mem a).right

/-- The calls `ops` on `ap` end without a fault, in a pool that satisfies `P`. -/
@[irreducible]
def ends_with (ops : List Op) (ap : lily_ast_pool) (P : lily_ast_pool → Prop) : Prop :=
  match run ops ap with
  | .ok ap1 => P ap1
  | .error _ => False

/-- Follow `right` for `k` steps from `p`. -/
def walk_right (mem : Nat → lily_ast) : Nat → Option Nat → Option Nat
  | 0, p => p
  | _ + 1, none => none
  | k + 1, some a => walk_right mem k (mem a).right

/-- The calls for `v0 o1 v1 ... on vn`: a value, then operator and value in
turn. -/
def alternating (v0 : Leaf) (rest : List (lily_expr_op × Leaf)) : List Op :=
  v0.push :: rest.flatMap (fun p => [Op.push_binary_op p.1, p.2.push])

/-- The fully left-nested tree `Binary(on, ... Binary(o1, t, v1) ..., vn)`. -/
def left_nested : Tree → List (lily_expr_op × Leaf) → Tree
  | t, [] => t
  | t, p :: rest => left_nested (Tree.binary p.1 t p.2.tree) rest

/-- The fully right-nested tree `Binary(o1, v0, Binary(o2, v1, ... vn))`. -/
def right_nested : Leaf → List (lily_expr_op × Leaf) → Tree
  | v0, [] => v0.tree
  | v0, p :: rest => Tree.binary p.1 v0.tree (right_nested p.2 rest)

/-- A token of an expression: an operator, or a value with its kind and
handle. -/
inductive Token where
  | op (o : lily_expr_op)
  | val (kind : lily_tree_type) (res : Option Nat)
  deriving DecidableEq, Repr

/-- The in-order traversal of a tree: left subtree, node, right subtree; for a
unary tree the node, then its operand. -/
def Tree.inorder : Tree → List Token
  | Tree.leaf k r => [Token.val k r]
  | Tree.unary o t => Token.op o :: t.inorder
  | Tree.binary o l r => l.inorder ++ Token.op o :: r.inorder

/-- The tokens of the expression `v0 o1 v1 ... on vn`, in the order of the
calls of `alternating`. -/
def tokens (v0 : Leaf) (rest : List (lily_expr_op × Leaf)) : List Token :=
  Token.val v0.kind v0.handle
    :: rest.flatMap (fun p => [Token.op p.1, Token.val p.2.kind p.2.handle])

/-- The priority of the top node of a tree, when it is a binary. -/
def root_prio : Tree → Option Int
  | Tree.binary o _ _ => some (priority_for_op o)
  | _ => none

/-- The precedence property as the spec states it: a binary child of a binary
`B` has a higher priority than `B`, or the same priority and is the left child
with that priority not 0, or the same priority and is the right child with
that priority 0. -/
def prec_claim : Tree → Prop
  | Tree.leaf _ _ => True
  | Tree.unary _ t => prec_claim t
  | Tree.binary o l r =>
    (∀ c, root_prio l = some c →
        priority_for_op o < c ∨ (priority_for_op o = c ∧ priority_for_op o ≠ 0))
      ∧ (∀ c, root_prio r = some c →
        priority_for_op o < c ∨ (priority_for_op o = c ∧ priority_for_op o = 0))
      ∧ prec_claim l ∧ prec_claim r

/-- The precedence property the builder keeps: as `prec_claim`, but a right
child of priority 0 is allowed under a binary of any priority. -/
def prec_ok : Tree → Prop
  | Tree.leaf _ _ => True
  | Tree.unary _ t => prec_ok t
  | Tree.binary o l r =>
    (∀ c, root_prio l = some c →
        priority_for_op o < c ∨ (priority_for_op o = c ∧ priority_for_op o ≠ 0))
      ∧ (∀ c, root_prio r = some c → priority_for_op o < c ∨ c = 0)
      ∧ prec_ok l ∧ prec_ok r

/-- The `next_tree` chain from `p` is the list `F` and ends at NULL. -/
def free_chain (mem : Nat → lily_ast) : List Nat → Option Nat → Prop
  | [], p => p = none
  | a :: F, p => p = some a ∧ free_chain mem F (mem a).next_tree

/-- The chain of the pool from `available_start` is a list of distinct trees
obtained from lily_malloc.  lily_new_ast_pool establishes this and every
operation keeps it. -/
def pool_ok (ap : lily_ast_pool) : Prop :=
  ∃ F : List Nat, free_chain ap.mem F ap.available_start ∧ F.Nodup ∧ ∀ a ∈ F, a < ap.brk

/-- The last of `x :: ds`. -/
def last_from {α : Type} : α → List α → α
  | x, [] => x
  | _, d :: ds => last_from d ds

/-- The `next_arg` chain from `p` is the list `rs` and ends at NULL. -/
def arg_chain (mem : Nat → lily_ast) : List Nat → Option Nat → Prop
  | [], p => p = none
  | r :: rs, p => p = some r ∧ arg_chain mem rs (mem r).next_arg

/-- The `next_arg` chain from `p` is the list `rs`; the `next_arg` of the last
tree is not looked at. -/
def open_chain (mem : Nat → lily_ast) : List Nat → Option Nat → Prop
  | [], p => p = none
  | [r], p => p = some r
  | r :: r2 :: rs, p => p = some r ∧ open_chain mem (r2 :: rs) (mem r).next_arg

/-- The calls between lily_ast_enter_tree and the end of a grouping: the
argument sub-expressions, lily_ast_collect_arg between them, and
lily_ast_leave_tree. -/
def args_ops : List (List Op) → List Op
  | [] => [Op.leave_tree]
  | [seg] => seg ++ [Op.leave_tree]
  | seg :: seg2 :: segs => seg ++ Op.collect_arg :: args_ops (seg2 :: segs)

/-- The calls of an open grouping after lily_ast_enter_tree when the argument
sub-expressions `segs` are complete: each is followed by
lily_ast_collect_arg. -/
def collected : List (List Op) → List Op
  | [] => []
  | seg :: segs => seg ++ Op.collect_arg :: collected segs

/-- The roots of the argument sub-expressions, in the order the driver emits
them: `root` at the end of each sub-expression. -/
def arg_roots : List (List Op) → lily_ast_pool → List (Option Nat)
  | [], _ => []
  | seg :: segs, ap =>
    match run seg ap with
    | .error _ => []
    | .ok ap1 =>
      ap1.root :: (match lily_ast_collect_arg ap1 with
        | .error _ => []
        | .ok ap2 => arg_roots segs ap2)

/-- The last of a list of trees, if any. -/
def last_opt : List Nat → Option Nat
  | [] => none
  | a :: l => some (last_from a l)

/-- Two pools differ in their memory only. -/
def same_but_mem (ap1 ap : lily_ast_pool) : Prop :=
  ap1.brk = ap.brk ∧ ap1.available_current = ap.available_current
    ∧ ap1.available_start = ap.available_start ∧ ap1.saved_trees = ap.saved_trees
    ∧ ap1.save_index = ap.save_index ∧ ap1.save_size = ap.save_size
    ∧ ap1.root = ap.root ∧ ap1.active = ap.active ∧ ap1.lex_linenum = ap.lex_linenum

/-- The trees not yet handed out are the list `F`, from `available_current`
on: distinct trees obtained from lily_malloc.  A tree is in use when it was
obtained from lily_malloc and is not in `F`. -/
def chain_ok (ap : lily_ast_pool) (F : List Nat) : Prop :=
  free_chain ap.mem F ap.available_current ∧ F.Nodup ∧ ∀ a ∈ F, a < ap.brk

/-- The save stack holds whole frames and has room: what lily_new_ast_pool
with a size of at least 1 establishes and lily_ast_enter_tree and
lily_ast_leave_tree keep. -/
def stack_ok (ap : lily_ast_pool) : Prop :=
  0 ≤ ap.save_index ∧ ap.save_index % 2 = 0 ∧ ap.save_index ≤ ap.save_size ∧ 1 ≤ ap.save_size

/-- A well-formed sub-expression, seen from outside: started with `root` and
`active` empty it ends without a fault with its tree under `root`, a tree that
was not in use before; it leaves every tree that was in use untouched and in
use, and the frames of the save stack as they were. -/
def isolated (seg : List Op) : Prop :=
  ∀ (ap : lily_ast_pool) (F : List Nat), chain_ok ap F → stack_ok ap →
    ap.root = none → ap.active = none →
    ∃ ap1 F1 r, run seg ap = .ok ap1 ∧ chain_ok ap1 F1 ∧ stack_ok ap1
      ∧ ap1.root = some r ∧ ¬ (r < ap.brk ∧ r ∉ F) ∧ r < ap1.brk ∧ r ∉ F1
      ∧ (∀ x, x < ap.brk → x ∉ F → x < ap1.brk ∧ x ∉ F1 ∧ ap1.mem x = ap.mem x)
      ∧ ap1.save_index = ap.save_index ∧ ap.save_size ≤ ap1.save_size
      ∧ (∀ i : Nat, (i : Int) < ap.save_index → ap1.saved_trees i = ap.saved_trees i)

/-- The arguments of `f(a, (2))`: a variable, and a literal in parentheses. -/
def example_args : List (List Op) :=
  [[Op.push_sym (some 1)],
    Op.enter_tree tree_parenth none :: args_ops [[Op.push_literal (some 2)]]]

/-- A grouping that is collecting its arguments: its tree, the trees it took
over at lily_ast_enter_tree, the index of its two entries of `saved_trees`, the
root saved there, its `parent` while it collects, its kind, and the trees,
memory and `saved_trees` that the calls between lily_ast_enter_tree and
lily_ast_leave_tree leave alone. -/
structure GInfo where
  node : Nat
  pre : List Nat
  si : Nat
  saved_root : Option Nat
  up : Option Nat
  kind : lily_tree_type
  old : Nat → Prop
  mem0 : Nat → lily_ast
  st0 : Nat → Option Nat
  sz0 : Int

/-- The memory and `saved_trees` while the grouping `g` collects its arguments,
the roots `rs` being collected so far. -/
structure Collecting (g : GInfo) (rs : List Nat) (ap : lily_ast_pool) (F : List Nat) :
    Prop where
  chain : chain_ok ap F
  node_used : g.node < ap.brk ∧ g.node ∉ F
  args_used : ∀ r ∈ g.pre ++ rs, r < ap.brk ∧ r ∉ F
  nodup : (g.node :: (g.pre ++ rs)).Nodup
  node_new : ¬ g.old g.node
  args_new : ∀ r ∈ g.pre ++ rs, ¬ g.old r
  frame : ∀ x, g.old x → x < ap.brk ∧ x ∉ F ∧ ap.mem x = g.mem0 x
  count : (ap.mem g.node).args_collected = ((g.pre ++ rs).length : Int)
  args : open_chain ap.mem (g.pre ++ rs) (ap.mem g.node).arg_start
  top : (ap.mem g.node).arg_top = last_opt (g.pre ++ rs)
  parents : ∀ r ∈ rs, (ap.mem r).parent = some g.node
  kind_eq : (ap.mem g.node).tree_type = g.kind
  up_eq : (ap.mem g.node).parent = g.up
  even : g.si % 2 = 0
  size : (g.si : Int) + 2 ≤ ap.save_size
  size0 : g.sz0 ≤ ap.save_size
  pre_kept : ∀ r ∈ g.pre, (ap.mem r).tree_type = (g.mem0 r).tree_type
    ∧ (ap.mem r).result = (g.mem0 r).result
  node_res : (ap.mem g.node).result = (g.mem0 g.node).result
  saved_node : ap.saved_trees (g.si + 1) = some g.node
  saved_root : ap.saved_trees g.si = g.saved_root
  saved_low : ∀ i : Nat, i < g.si → ap.saved_trees i = g.st0 i

/-- The memory and `saved_trees` after push_tree_arg has ended the chain of
the grouping `g` at the last of the roots `rs`; `up` is the `parent` of the
grouping. -/
structure Pushed (g : GInfo) (up : Option Nat) (rs : List Nat) (ap : lily_ast_pool)
    (F : List Nat) : Prop where
  chain : chain_ok ap F
  node_used : g.node < ap.brk ∧ g.node ∉ F
  args_used : ∀ r ∈ g.pre ++ rs, r < ap.brk ∧ r ∉ F
  nodup : (g.node :: (g.pre ++ rs)).Nodup
  node_new : ¬ g.old g.node
  args_new : ∀ r ∈ g.pre ++ rs, ¬ g.old r
  frame : ∀ x, g.old x → x < ap.brk ∧ x ∉ F ∧ ap.mem x = g.mem0 x
  count : (ap.mem g.node).args_collected = ((g.pre ++ rs).length : Int)
  args : arg_chain ap.mem (g.pre ++ rs) (ap.mem g.node).arg_start
  parents : ∀ r ∈ rs, (ap.mem r).parent = some g.node
  kind_eq : (ap.mem g.node).tree_type = g.kind
  up_eq : (ap.mem g.node).parent = up
  even : g.si % 2 = 0
  size : (g.si : Int) + 2 ≤ ap.save_size
  size0 : g.sz0 ≤ ap.save_size
  pre_kept : ∀ r ∈ g.pre, (ap.mem r).tree_type = (g.mem0 r).tree_type
    ∧ (ap.mem r).result = (g.mem0 r).result
  node_res : (ap.mem g.node).result = (g.mem0 g.node).result
  saved_node : ap.saved_trees (g.si + 1) = some g.node
  saved_root : ap.saved_trees g.si = g.saved_root
  saved_low : ∀ i : Nat, i < g.si → ap.saved_trees i = g.st0 i

/-- The state after lily_ast_leave_tree has closed the grouping `g` with the
argument roots `rs`. -/
def Closed (g : GInfo) (rs : List Nat) (ap : lily_ast_pool) (F : List Nat) : Prop :=
  Pushed g (if g.up = some g.node then none else g.up) rs ap F
    ∧ ap.save_index = (g.si : Int) ∧ ap.root = g.saved_root ∧ ap.active = g.up

/-! ## The builder on shapes

What lily_ast_push_binary_op, lily_ast_push_unary_op and the value pushes do to
an expression `operand (binary-op operand)*` with `operand = unary-op* leaf`,
written on shapes.  `spine` lists the binary trees from `active` up to `root`
(each the `right` of the next), `chain` and `atom` are the operand being built
in the `right` of `active`.  `detoured` records that the `parent` of the binary
does not point at the binary above it but at a tree below it, which is what
the splice of the climb leaves behind. -/

/-- A binary tree of the spine. -/
structure SFrame where
  op : lily_expr_op
  left : Tree
  detoured : Bool
  deriving DecidableEq, Repr

/-- The builder on shapes. -/
structure SState where
  spine : List SFrame
  chain : List lily_expr_op
  atom : Option (lily_tree_type × Option Nat)
  deriving DecidableEq, Repr

/-- The operand: the unary operators of `chain`, outermost first, over `t`. -/
def s_operand : List lily_expr_op → Tree → Tree
  | [], t => t
  | o :: os, t => Tree.unary o (s_operand os t)

/-- The tree under the outermost binary of `spine`, with `inner` in the `right`
of the innermost. -/
def s_close : List SFrame → Tree → Tree
  | [], inner => inner
  | f :: fs, inner => s_close fs (Tree.binary f.op f.left inner)

/-- The tokens to the left of the operand in progress: for each binary tree of
the spine, outermost first, its left operand and its operator. -/
def spine_tokens : List SFrame → List Token
  | [] => []
  | f :: fs => spine_tokens fs ++ f.left.inorder ++ [Token.op f.op]

/-- The climb of lily_ast_push_binary_op on shapes: `f` is the binary reached,
`inner` its right operand, `w` tells whether the walk has left `active`. -/
def s_climb (q : Int) (o : lily_expr_op) : Tree → SFrame → List SFrame → Bool → List SFrame
  | inner, f, [], _ => [⟨o, Tree.binary f.op f.left inner, false⟩]
  | inner, f, g :: gs, w =>
    if q > priority_for_op g.op then
      ⟨o, if f.detoured then f.left else Tree.binary f.op f.left inner, w || f.detoured⟩
        :: g :: gs
    else s_climb q o (Tree.binary f.op f.left inner) g gs true

/-- One call on shapes; `none` when the call is not one of a well-formed
operator expression. -/
def s_step (s : SState) : Op → Option SState
  | Op.push_sym r =>
    if s.atom = none then some { s with atom := some (tree_var, r) } else none
  | Op.push_literal r =>
    if s.atom = none then some { s with atom := some (tree_literal, r) } else none
  | Op.push_local_var r =>
    if s.atom = none then some { s with atom := some (tree_local_var, r) } else none
  | Op.push_unary_op o =>
    if s.atom = none then some { s with chain := s.chain ++ [o] } else none
  | Op.push_binary_op o =>
    match s.atom with
    | none => none
    | some (k, r) =>
      let t := s_operand s.chain (Tree.leaf k r)
      match s.spine with
      | [] => some ⟨[⟨o, t, false⟩], [], none⟩
      | f :: fs =>
        if priority_for_op o > priority_for_op f.op ∨ priority_for_op o = 0 then
          some ⟨⟨o, t, false⟩ :: f :: fs, [], none⟩
        else some ⟨s_climb (priority_for_op o) o t f fs false, [], none⟩
  | _ => none

/-- A sequence of calls on shapes. -/
def s_run : List Op → SState → Option SState
  | [], s => some s
  | o :: os, s =>
    match s_step s o with
    | none => none
    | some s1 => s_run os s1

/-- The tree of a complete expression. -/
def SState.tree (s : SState) : Option Tree :=
  match s.atom with
  | none => none
  | some (k, r) => some (s_close s.spine (s_operand s.chain (Tree.leaf k r)))

/-- No call yet. -/
def SState.empty : SState := ⟨[], [], none⟩

/-- The precedence property along a spine: each left operand is in order under
its binary, and each binary has a higher priority than the binary above it, or
priority 0. -/
def spine_ok : List SFrame → Prop
  | [] => True
  | f :: fs =>
    prec_ok f.left
      ∧ (∀ c, root_prio f.left = some c →
        priority_for_op f.op < c ∨ (priority_for_op f.op = c ∧ priority_for_op f.op ≠ 0))
      ∧ (∀ g, fs.head? = some g →
        priority_for_op g.op < priority_for_op f.op ∨ priority_for_op f.op = 0)
      ∧ spine_ok fs

/-! ## The builder on trees with addresses -/

/-- An expression tree with the address of every node. -/
inductive ATree where
  | leaf (a : Nat) (kind : lily_tree_type) (res : Option Nat)
  | unary (a : Nat) (op : lily_expr_op) (t : ATree)
  | binary (a : Nat) (op : lily_expr_op) (l r : ATree)

/-- The address of the top node. -/
def ATree.addr : ATree → Nat
  | ATree.leaf a _ _ => a
  | ATree.unary a _ _ => a
  | ATree.binary a _ _ _ => a

/-- The addresses of all nodes: for a binary, those of the right operand come
first. -/
def ATree.cells : ATree → List Nat
  | ATree.leaf a _ _ => [a]
  | ATree.unary a _ t => a :: t.cells
  | ATree.binary a _ l r => r.cells ++ a :: l.cells

/-- Forget the addresses. -/
def ATree.shape : ATree → Tree
  | ATree.leaf _ k r => Tree.leaf k r
  | ATree.unary _ o t => Tree.unary o t.shape
  | ATree.binary _ o l r => Tree.binary o l.shape r.shape

/-- The memory holds the tree at its addresses. -/
def Rep (mem : Nat → lily_ast) : ATree → Prop
  | ATree.leaf a k r =>
    (mem a).tree_type = k ∧ (mem a).result = r ∧ tree_rank k < tree_rank tree_unary
  | ATree.unary a o t =>
    (mem a).tree_type = tree_unary ∧ (mem a).op = o
      ∧ (mem a).priority = priority_for_op o ∧ (mem a).left = some t.addr ∧ Rep mem t
  | ATree.binary a o l r =>
    (mem a).tree_type = tree_binary ∧ (mem a).op = o
      ∧ (mem a).priority = priority_for_op o
      ∧ (mem a).left = some l.addr ∧ (mem a).right = some r.addr ∧ Rep mem l ∧ Rep mem r

/-- A binary tree of the spine: its address, operator, left operand, and the
trees its `parent` chain passes before it reaches the binary above. -/
structure Frame where
  node : Nat
  op : lily_expr_op
  left : ATree
  detour : List Nat

/-- The builder state with addresses. -/
structure Abs where
  spine : List Frame
  chain : List (Nat × lily_expr_op)
  atom : Option (Nat × lily_tree_type × Option Nat)

/-- The pointer in the operand slot. -/
def operand_root (chain : List (Nat × lily_expr_op))
    (atom : Option (Nat × lily_tree_type × Option Nat)) : Option Nat :=
  match chain with
  | u :: _ => some u.1
  | [] => atom.map (fun x => x.1)

/-- The operand as a tree. -/
def a_operand : List (Nat × lily_expr_op) → ATree → ATree
  | [], t => t
  | u :: us, t => ATree.unary u.1 u.2 (a_operand us t)

/-- The tree under the outermost binary of the spine. -/
def a_close : List Frame → ATree → ATree
  | [], inner => inner
  | f :: fs, inner => a_close fs (ATree.binary f.node f.op f.left inner)

/-- The climb with addresses: `acc` lists the trees passed since `active`. -/
def a_climb (q : Int) (n : Nat) (o : lily_expr_op) :
    List Nat → ATree → Frame → List Frame → List Frame
  | _, inner, f, [] => [⟨n, o, ATree.binary f.node f.op f.left inner, []⟩]
  | acc, inner, f, g :: gs =>
    if q > priority_for_op g.op then
      ⟨n, o, if f.detour = [] then ATree.binary f.node f.op f.left inner else f.left,
        acc ++ f.detour⟩ :: g :: gs
    else a_climb q n o (acc ++ f.detour ++ [g.node])
      (ATree.binary f.node f.op f.left inner) g gs

/-- lily_ast_push_binary_op with addresses; `n` is the new tree. -/
def a_push_binary (n : Nat) (o : lily_expr_op) (s : Abs) : Abs :=
  match s.atom with
  | none => s
  | some (a, k, r) =>
    let t := a_operand s.chain (ATree.leaf a k r)
    match s.spine with
    | [] => ⟨[⟨n, o, t, []⟩], [], none⟩
    | f :: fs =>
      if priority_for_op o > priority_for_op f.op ∨ priority_for_op o = 0 then
        ⟨⟨n, o, t, []⟩ :: f :: fs, [], none⟩
      else ⟨a_climb (priority_for_op o) n o [] t f fs, [], none⟩

/-- Forget the addresses of a frame. -/
def Frame.shape (f : Frame) : SFrame := ⟨f.op, f.left.shape, !f.detour.isEmpty⟩

/-- Forget the addresses of a state. -/
def Abs.shape (s : Abs) : SState :=
  ⟨s.spine.map Frame.shape, s.chain.map (fun u => u.2), s.atom.map (fun x => x.2)⟩

/-- The addresses of the binary trees of the spine and of their left operands. -/
def spine_cells : List Frame → List Nat
  | [] => []
  | f :: fs => f.node :: f.left.cells ++ spine_cells fs

/-- The addresses of the operand and of the trees under the spine. -/
def Abs.cells (s : Abs) : List Nat :=
  s.chain.map (fun u => u.1) ++ (s.atom.map (fun x => x.1)).toList ++ spine_cells s.spine

/-- The `parent` chain from `active`. -/
def ups : List Frame → List Nat
  | [] => []
  | f :: fs => f.node :: (f.detour ++ ups fs)

/-- The unary trees of the chain are linked through `left`. -/
def ChainRep (mem : Nat → lily_ast) (atom : Option (Nat × lily_tree_type × Option Nat)) :
    List (Nat × lily_expr_op) → Prop
  | [] => True
  | u :: us =>
    (mem u.1).tree_type = tree_unary ∧ (mem u.1).op = u.2
      ∧ (mem u.1).priority = priority_for_op u.2
      ∧ (mem u.1).left = operand_root us atom ∧ ChainRep mem atom us

/-- The binary trees of the spine are linked through `right`; `r` is what the
`right` of the first holds. -/
def SpineRep (mem : Nat → lily_ast) : List Frame → Option Nat → Prop
  | [], _ => True
  | f :: fs, r =>
    (mem f.node).tree_type = tree_binary ∧ (mem f.node).op = f.op
      ∧ (mem f.node).priority = priority_for_op f.op
      ∧ (mem f.node).left = some f.left.addr ∧ (mem f.node).right = r
      ∧ Rep mem f.left ∧ SpineRep mem fs (some f.node)

/-- The `parent` pointers from `x` pass the trees `ds` and end at `tgt`. -/
def path (mem : Nat → lily_ast) : Nat → List Nat → Option Nat → Prop
  | x, [], tgt => (mem x).parent = tgt
  | x, d :: ds, tgt => (mem x).parent = some d ∧ path mem d ds tgt

/-- The `parent` pointers of the spine: from each binary a path to the binary
above it, through trees of priority at least its own, the last of which is its
left operand; the outermost binary has no parent. -/
def SpineUp (mem : Nat → lily_ast) : List Frame → Prop
  | [] => True
  | [f] => f.detour = [] ∧ (mem f.node).parent = none
  | f :: g :: fs =>
    path mem f.node f.detour (some g.node)
      ∧ (∀ d ∈ f.detour, priority_for_op f.op ≤ (mem d).priority)
      ∧ (f.detour ≠ [] → last_from f.node f.detour = f.left.addr)
      ∧ SpineUp mem (g :: fs)

/-- The tree one of whose slots receives the next operand tree: the last unary
of the chain (its `left`), else the active binary (its `right`), else none
(the tree becomes `root` and `active`). -/
def operand_slot (s : Abs) : Option Nat :=
  match s.chain, s.spine with
  | u :: us, _ => some (last_from u us).1
  | [], f :: _ => some f.node
  | [], [] => none

/-- Two trees agree on the fields an expression tree is read from. -/
def same_fwd (n1 n2 : lily_ast) : Prop :=
  n1.tree_type = n2.tree_type ∧ n1.result = n2.result ∧ n1.op = n2.op
    ∧ n1.priority = n2.priority ∧ n1.left = n2.left ∧ n1.right = n2.right

/-- The pool `ap` is in the state `s`: `used` are the trees handed out since
the reset, `F` the trees still on the chain of the pool. -/
structure Refines (s : Abs) (used F : List Nat) (ap : lily_ast_pool) : Prop where
  free : free_chain ap.mem F ap.available_current
  free_nodup : F.Nodup
  free_lt : ∀ a ∈ F, a < ap.brk
  used_lt : ∀ u ∈ used, u < ap.brk
  used_free : ∀ u ∈ used, u ∉ F
  cells_nodup : s.cells.Nodup
  cells_used : ∀ x ∈ s.cells, x ∈ used
  ups_nodup : (ups s.spine).Nodup
  ups_used : ∀ x ∈ ups s.spine, x ∈ used
  active_eq : ap.active = (match s.spine with
    | f :: _ => some f.node
    | [] => operand_root s.chain s.atom)
  root_eq : ap.root = (match s.spine with
    | f :: fs => some (last_from f fs).node
    | [] => operand_root s.chain s.atom)
  chain_rep : ChainRep ap.mem s.atom s.chain
  atom_rep : ∀ x ∈ s.atom, (ap.mem x.1).tree_type = x.2.1 ∧ (ap.mem x.1).result = x.2.2
    ∧ tree_rank x.2.1 < tree_rank tree_unary
  spine_rep : SpineRep ap.mem s.spine (operand_root s.chain s.atom)
  spine_up : SpineUp ap.mem s.spine

/-! ## Frames -/

/-- The save stack of `ap1` is that of `ap`. -/
def same_stack (ap1 ap : lily_ast_pool) : Prop :=
  ap1.saved_trees = ap.saved_trees ∧ ap1.save_index = ap.save_index
    ∧ ap1.save_size = ap.save_size

/-- The pool of `ap1` is that of `ap`: the trees obtained from lily_malloc, the
two heads of the chain and every `next_tree`. -/
def same_pool (ap1 ap : lily_ast_pool) : Prop :=
  ap1.brk = ap.brk ∧ ap1.available_start = ap.available_start
    ∧ ap1.available_current = ap.available_current
    ∧ ∀ y, (ap1.mem y).next_tree = (ap.mem y).next_tree

/-- The calls that take a tree from the pool: all but lily_ast_collect_arg,
lily_ast_leave_tree and lily_ast_reset_pool. -/
def Op.acquires : Op → Bool
  | Op.collect_arg => false
  | Op.leave_tree => false
  | Op.reset_pool => false
  | _ => true

/-- The pool a call works on after its first lines. -/
def after_acquire (ap : lily_ast_pool) (o : Op) : lily_ast_pool :=
  if o.acquires then (acquire_tree ap).2 else ap

/-- The largest number of trees one expression of `ops` takes, the expression
in progress having taken `cur`; lily_ast_reset_pool ends an expression. -/
def largest_expr : List Op → Nat → Nat
  | [], cur => cur
  | Op.reset_pool :: os, cur => max cur (largest_expr os 0)
  | o :: os, cur => largest_expr os (cur + if o.acquires then 1 else 0)

/-- A sequence of calls in which every lily_ast_enter_tree has its
lily_ast_leave_tree. -/
inductive balanced : List Op → Prop
  | nil : balanced []
  | plain (o : Op) (os : List Op) :
      (∀ tt var, o ≠ Op.enter_tree tt var) → o ≠ Op.leave_tree → balanced os →
      balanced (o :: os)
  | group (tt : lily_tree_type) (var : Option Nat) (inner rest : List Op) :
      balanced inner → balanced rest →
      balanced (Op.enter_tree tt var :: (inner ++ Op.leave_tree :: rest))

/-- The chain of the pool from `available_start` is `U ++ Fc`: the trees `U`
taken since the last reset, then the trees `Fc` from `available_current` on;
these are all the trees obtained from lily_malloc. -/
def pool_split (ap : lily_ast_pool) (U Fc : List Nat) : Prop :=
  free_chain ap.mem (U ++ Fc) ap.available_start ∧ free_chain ap.mem Fc ap.available_current
    ∧ (U ++ Fc).Nodup ∧ (∀ a ∈ U ++ Fc, a < ap.brk) ∧ ap.brk = (U ++ Fc).length

/-- A call has taken the tree `n` from the pool: `n` was not in use and is
now, the trees that were in use still are, and the save stack is as it was. -/
def took (ap ap1 : lily_ast_pool) (F F1 : List Nat) (n : Nat) : Prop :=
  chain_ok ap1 F1 ∧ ¬ (n < ap.brk ∧ n ∉ F) ∧ n < ap1.brk ∧ n ∉ F1
    ∧ (∀ x, x < ap.brk → x ∉ F → x < ap1.brk ∧ x ∉ F1) ∧ same_stack ap1 ap

/-! ## Parents -/

/-- `x` is on the `next_arg` chain that starts at `p`. -/
inductive on_args (mem : Nat → lily_ast) : Option Nat → Nat → Prop
  | head (x : Nat) : on_args mem (some x) x
  | next (y x : Nat) : on_args mem (mem y).next_arg x → on_args mem (some y) x

/-- The tree `p` refers to `x` through its `left`: unary and binary trees use
that slot. -/
def via_left (mem : Nat → lily_ast) (p x : Nat) : Prop :=
  ((mem p).tree_type = tree_unary ∨ (mem p).tree_type = tree_binary) ∧ (mem p).left = some x

/-- The tree `p` refers to `x` through its `right`: typecast and binary trees
use that slot. -/
def via_right (mem : Nat → lily_ast) (p x : Nat) : Prop :=
  ((mem p).tree_type = tree_typecast ∨ (mem p).tree_type = tree_binary)
    ∧ (mem p).right = some x

/-- The tree `p` refers to `x` through its argument chain: the trees that
lily_ast_enter_tree makes use that slot. -/
def via_args (mem : Nat → lily_ast) (p x : Nat) : Prop :=
  tree_rank (mem p).tree_type ≤ tree_rank tree_parenth ∧ on_args mem (mem p).arg_start x

/-- The tree `x` is reachable from `p` through the slots in use. -/
inductive reach (mem : Nat → lily_ast) : Nat → Nat → Prop
  | left (p x : Nat) : via_left mem p x → reach mem p x
  | right (p x : Nat) : via_right mem p x → reach mem p x
  | args (p x : Nat) : via_args mem p x → reach mem p x
  | trans (p y x : Nat) : reach mem p y → reach mem y x → reach mem p x

/-- Whether a shape is a binary. -/
def Tree.is_binary : Tree → Bool
  | Tree.binary _ _ _ => true
  | _ => false

/-- The `parent` pointers in the tree `t` under the pointer `p`: the operand of
a unary has the unary as `parent`, a binary operand of a binary has that binary
as `parent` and is in one slot of it only. -/
def parents_at (mem : Nat → lily_ast) : Tree → Option Nat → Prop
  | _, none => False
  | Tree.leaf _ _, some _ => True
  | Tree.unary _ t, some a =>
    (∃ c, (mem a).left = some c ∧ (mem c).parent = some a) ∧ parents_at mem t (mem a).left
  | Tree.binary _ l r, some a =>
    (l.is_binary = true →
        ∃ c, (mem a).left = some c ∧ (mem c).parent = some a ∧ (mem a).right ≠ some c)
      ∧ (r.is_binary = true →
        ∃ c, (mem a).right = some c ∧ (mem c).parent = some a ∧ (mem a).left ≠ some c)
      ∧ parents_at mem l (mem a).left ∧ parents_at mem r (mem a).right

/-- The new binary operator `o` would have to go between two binary trees of
the spine: it has neither priority 0 nor a higher priority than the active
binary, and it has a higher priority than some binary above the active one.
This is when lily_ast_push_binary_op takes the branch `tree->parent != NULL`
of its climb. -/
def s_splices (s : SState) (o : lily_expr_op) : Bool :=
  match s.spine with
  | [] => false
  | f :: fs =>
    !(decide (priority_for_op o > priority_for_op f.op ∨ priority_for_op o = 0))
      && fs.any (fun g => decide (priority_for_op o > priority_for_op g.op))

/-- No binary operator of `ops` has to go between two binary trees. -/
def s_splice_free : List Op → SState → Bool
  | [], _ => true
  | o :: os, s =>
    (match o with
      | Op.push_binary_op b => !(s_splices s b)
      | _ => true)
    && (match s_step s o with
      | some s1 => s_splice_free os s1
      | none => true)

/-- Whether a tree with addresses is a binary. -/
def ATree.is_binary : ATree → Bool
  | ATree.binary _ _ _ _ => true
  | _ => false

/-- The `parent` pointers inside a tree with addresses. -/
def PT (mem : Nat → lily_ast) : ATree → Prop
  | ATree.leaf _ _ _ => True
  | ATree.unary a _ t => (mem t.addr).parent = some a ∧ PT mem t
  | ATree.binary a _ l r =>
    (l.is_binary = true → (mem l.addr).parent = some a)
      ∧ (r.is_binary = true → (mem r.addr).parent = some a)
      ∧ PT mem l ∧ PT mem r

/-- The `parent` pointers along the chain of unary trees. -/
def ChainPar (mem : Nat → lily_ast) (atom : Option (Nat × lily_tree_type × Option Nat)) :
    List (Nat × lily_expr_op) → Prop
  | [] => True
  | u :: us =>
    (∀ c, operand_root us atom = some c → (mem c).parent = some u.1) ∧ ChainPar mem atom us

/-- The `parent` pointers of the left operands of the spine, no binary of
which was spliced in. -/
def SpinePar (mem : Nat → lily_ast) : List Frame → Prop
  | [] => True
  | f :: fs =>
    f.detour = [] ∧ PT mem f.left
      ∧ (f.left.is_binary = true → (mem f.left.addr).parent = some f.node)
      ∧ SpinePar mem fs

/-! ## The symbol table (lily_symtab.c)

The vars and the literals live in memories of their own, `var_mem` and
`lit_mem`; `var_brk` and `lit_brk` count the objects obtained from lily_malloc,
which is taken to succeed.  The ids are C `int`s: incrementing one that holds
INT_MAX is reported as a fault. -/

/-- Modelled from the source: lily_var (lily_symtab.h is not among the
sources), with the fields that add_var, init_symbols and lily_new_var write,
`flags` apart; `name`, `sig` and `properties` are handles. -/
structure lily_var where
  id : Int
  next : Option Nat
  name : Option Nat
  sig : Option Nat
  properties : Option Nat
  line_num : Nat

/-- Modelled from the source: lily_literal, with the fields that
lily_new_literal writes, `flags` apart. -/
structure lily_literal where
  id : Int
  next : Option Nat
  sig : Option Nat

/-- Modelled from the source: lily_symtab, without the classes, the storages,
`main` and `error`. -/
structure lily_symtab where
  var_mem : Nat → lily_var
  var_brk : Nat
  lit_mem : Nat → lily_literal
  lit_brk : Nat
  next_lit_id : Int
  next_var_id : Int
  var_start : Option Nat
  var_top : Option Nat
  lit_start : Option Nat
  lit_top : Option Nat
  lex_linenum : Nat

/-- What the code of the symbol table does not survive. -/
inductive SymFault where
  | null_deref
  | int_overflow
  deriving DecidableEq, Repr

/-- The greatest `int` (32 bits). -/
def INT_MAX : Int := 2147483647

/-- add_var. -/
def add_var (symtab : lily_symtab) (s : Nat) : Except SymFault lily_symtab :=
  if symtab.next_var_id ≥ INT_MAX then .error SymFault.int_overflow
  else
    let st1 : lily_symtab :=
      { symtab with
        var_mem := fun x =>
          if x = s then { symtab.var_mem x with id := symtab.next_var_id, next := none }
          else symtab.var_mem x
        next_var_id := symtab.next_var_id + 1 }
    match st1.var_start with
    | none => .ok { st1 with var_start := some s, var_top := some s }
    | some _ =>
      match st1.var_top with
      | none => .error SymFault.null_deref
      | some t =>
        .ok { st1 with
              var_mem := fun x =>
                if x = t then { st1.var_mem x with next := some s } else st1.var_mem x
              var_top := some s }

/-- One turn of the loop of init_symbols: a var for the seed `(name, sig,
properties)`. -/
def init_symbol (symtab : lily_symtab) (seed : Option Nat × Option Nat × Option Nat) :
    Except SymFault lily_symtab :=
  let new_var := symtab.var_brk
  add_var
    { symtab with
      var_brk := symtab.var_brk + 1
      var_mem := fun x =>
        if x = new_var then
          { symtab.var_mem x with name := seed.1, sig := seed.2.1, line_num := 0,
                                  properties := seed.2.2 }
        else symtab.var_mem x } new_var

/-- init_symbols, for the seeds `func_seeds`. -/
def init_symbols : lily_symtab → List (Option Nat × Option Nat × Option Nat) →
    Except SymFault lily_symtab
  | symtab, [] => .ok symtab
  | symtab, seed :: seeds =>
    match init_symbol symtab seed with
    | .error e => .error e
    | .ok st1 => init_symbols st1 seeds

/-- lily_new_symtab: the fields set to 0 and NULL, then init_symbols. -/
def lily_new_symtab (var_mem : Nat → lily_var) (var_brk : Nat) (lit_mem : Nat → lily_literal)
    (lit_brk : Nat) (line : Nat) (func_seeds : List (Option Nat × Option Nat × Option Nat)) :
    Except SymFault lily_symtab :=
  init_symbols
    { var_mem := var_mem, var_brk := var_brk, lit_mem := lit_mem, lit_brk := lit_brk,
      next_lit_id := 0, next_var_id := 0, var_start := none, var_top := none,
      lit_start := none, lit_top := none, lex_linenum := line } func_seeds

/-- lily_new_literal; `cls_sig` is `cls->sig`. -/
def lily_new_literal (symtab : lily_symtab) (cls_sig : Option Nat) :
    Except SymFault (Nat × lily_symtab) :=
  let lit := symtab.lit_brk
  let st1 : lily_symtab :=
    { symtab with
      lit_brk := symtab.lit_brk + 1
      lit_mem := fun x =>
        if x = lit then { symtab.lit_mem x with sig := cls_sig, next := none }
        else symtab.lit_mem x }
  let linked : Except SymFault lily_symtab :=
    match st1.lit_start with
    | none => .ok { st1 with lit_start := some lit }
    | some _ =>
      match st1.lit_top with
      | none => .error SymFault.null_deref
      | some t =>
        .ok { st1 with
              lit_mem := fun x =>
                if x = t then { st1.lit_mem x with next := some lit } else st1.lit_mem x }
  match linked with
  | .error e => .error e
  | .ok st2 =>
    if st2.next_lit_id ≥ INT_MAX then .error SymFault.int_overflow
    else
      .ok (lit,
        { st2 with
          lit_top := some lit
          lit_mem := fun x =>
            if x = lit then { st2.lit_mem x with id := st2.next_lit_id } else st2.lit_mem x
          next_lit_id := st2.next_lit_id + 1 })

/-- lily_new_var; `cls_sig` is `cls->sig`, `name` the handle of the copy of the
name. -/
def lily_new_var (symtab : lily_symtab) (cls_sig name : Option Nat) :
    Except SymFault (Nat × lily_symtab) :=
  let var := symtab.var_brk
  match add_var
      { symtab with
        var_brk := symtab.var_brk + 1
        var_mem := fun x =>
          if x = var then
            { symtab.var_mem x with name := name, sig := cls_sig, properties := none,
                                    line_num := symtab.lex_linenum }
          else symtab.var_mem x } var with
  | .error e => .error e
  | .ok st1 => .ok (var, st1)

/-- The calls of the parser into the symbol table that make a symbol. -/
inductive SymOp where
  | new_var (cls_sig name : Option Nat)
  | new_literal (cls_sig : Option Nat)
  deriving DecidableEq, Repr

/-- A sequence of calls, stopping at the first fault: the vars and the literals
that the calls return, in the order of the calls, and the table afterwards. -/
def sym_trace : List SymOp → lily_symtab → Except SymFault (List Nat × List Nat × lily_symtab)
  | [], st => .ok ([], [], st)
  | SymOp.new_var c n :: os, st =>
    match lily_new_var st c n with
    | .error e => .error e
    | .ok r =>
      match sym_trace os r.2 with
      | .error e => .error e
      | .ok t => .ok (r.1 :: t.1, t.2.1, t.2.2)
  | SymOp.new_literal c :: os, st =>
    match lily_new_literal st c with
    | .error e => .error e
    | .ok r =>
      match sym_trace os r.2 with
      | .error e => .error e
      | .ok t => .ok (t.1, r.1 :: t.2.1, t.2.2)

/-- The number of vars that the calls make. -/
def count_vars : List SymOp → Nat
  | [] => 0
  | SymOp.new_var _ _ :: os => count_vars os + 1
  | SymOp.new_literal _ :: os => count_vars os

/-- The number of literals that the calls make. -/
def count_lits : List SymOp → Nat
  | [] => 0
  | SymOp.new_var _ _ :: os => count_lits os
  | SymOp.new_literal _ :: os => count_lits os + 1

/-- The chain from `p` along `nxt` is the list `L` and ends at NULL. -/
def next_chain (nxt : Nat → Option Nat) : List Nat → Option Nat → Prop
  | [], p => p = none
  | a :: L, p => p = some a ∧ next_chain nxt L (nxt a)

/-- The vars of the table are the `n` objects obtained from lily_malloc since
`b`, in that order from `var_start` along `next`, the last being `var_top`;
the var number `j` has id `j`, and `next_var_id` is `n`. -/
def vars_ok (b n : Nat) (st : lily_symtab) : Prop :=
  st.var_brk = b + n ∧ st.next_var_id = (n : Int)
    ∧ next_chain (fun x => (st.var_mem x).next) ((List.range n).map (fun j => b + j))
        st.var_start
    ∧ st.var_top = last_opt ((List.range n).map (fun j => b + j))
    ∧ ∀ j, j < n → (st.var_mem (b + j)).id = (j : Int)

/-- The same for the literals. -/
def lits_ok (b n : Nat) (st : lily_symtab) : Prop :=
  st.lit_brk = b + n ∧ st.next_lit_id = (n : Int)
    ∧ next_chain (fun x => (st.lit_mem x).next) ((List.range n).map (fun j => b + j))
        st.lit_start
    ∧ st.lit_top = last_opt ((List.range n).map (fun j => b + j))
    ∧ ∀ j, j < n → (st.lit_mem (b + j)).id = (j : Int)

/-- The trees that the calls `ops` take from the pool, in the order of the
calls: every call but lily_ast_collect_arg, lily_ast_leave_tree and
lily_ast_reset_pool starts by taking one. -/
def handed_out : List Op → lily_ast_pool → List Nat
  | [], _ => []
  | o :: os, ap =>
    match step ap o with
    | .error _ => []
    | .ok ap1 => (if o.acquires then [(acquire_tree ap).1] else []) ++ handed_out os ap1

/-- A call, or a sequence of calls, returned. -/
def returned (e : Except Fault lily_ast_pool) : Bool :=
  match e with
  | .ok _ => true
  | .error _ => false

/-- The state that a call, or a sequence of calls, returned. -/
def state_of (e : Except Fault lily_ast_pool) : lily_ast_pool :=
  match e with
  | .ok x => x
  | .error _ => example_pool

/-- The groupings that a sequence of calls leaves open: the calls of
lily_ast_enter_tree less the calls of lily_ast_leave_tree. -/
def open_count : List Op → Int
  | [] => 0
  | Op.enter_tree _ _ :: os => open_count os + 1
  | Op.leave_tree :: os => open_count os - 1
  | _ :: os => open_count os

/-! ## Sub-expressions in progress -/

/-- The trees `Lv` of a sub-expression in progress are closed under the links
that the merges follow: the `left` of a unary tree, the `right` of a typecast or
binary tree, and the `parent` of a binary tree, which is a binary tree again;
`h` decreases from a binary tree to its `parent`. -/
def lv_closed (mem : Nat → lily_ast) (Lv : List Nat) (h : Nat → Int) : Prop :=
  (∀ x ∈ Lv, (mem x).tree_type = tree_unary → ∀ l, (mem x).left = some l → l ∈ Lv)
    ∧ (∀ x ∈ Lv, tree_rank tree_typecast ≤ tree_rank (mem x).tree_type →
        ∀ r, (mem x).right = some r → r ∈ Lv)
    ∧ (∀ x ∈ Lv, (mem x).tree_type = tree_binary → ∀ p, (mem x).parent = some p →
        p ∈ Lv ∧ (mem p).tree_type = tree_binary ∧ h p < h x)

/-- What a merge of the new tree `n` into the sub-expression `Lv` may write: the
trees outside `Lv` other than `n` are left alone, no `tree_type` changes, a
`left` or `right` of a tree of `Lv` changes to `n` only, the `parent` of a binary
tree of `Lv` does not change, and the `left` and `right` of `n` do not change. -/
def touch (m1 m : Nat → lily_ast) (Lv : List Nat) (n : Nat) : Prop :=
  (∀ x, x ∉ Lv → x ≠ n → m1 x = m x)
    ∧ (∀ x, (m1 x).tree_type = (m x).tree_type)
    ∧ (∀ x ∈ Lv, ((m1 x).left = (m x).left ∨ (m1 x).left = some n)
        ∧ ((m1 x).right = (m x).right ∨ (m1 x).right = some n))
    ∧ (∀ x ∈ Lv, (m x).tree_type = tree_binary → (m1 x).parent = (m x).parent)
    ∧ (m1 n).left = (m n).left ∧ (m1 n).right = (m n).right

/-- A grouping that is collecting its arguments: its tree, the trees of the
sub-expression that lily_ast_enter_tree set aside (the tree of the grouping among
them), the tree that the grouping took over as its first argument, and the trees
that were in use when lily_ast_enter_tree returned. -/
structure Level where
  node : Nat
  trees : List Nat
  recv : Option Nat
  old : Nat → Prop

/-- The groupings that are collecting, innermost first: each has its two entries
of `saved_trees`, its tree records a `parent` among the trees set aside, these
trees are closed under the links that the merges follow, and they are apart from
the trees that were in use when an outer grouping was entered. -/
def levels_ok (ap : lily_ast_pool) (F : List Nat) (h : Nat → Int) (b : Nat) :
    List Level → Prop
  | [] => True
  | fr :: rest =>
    ap.saved_trees (b + 2 * rest.length + 1) = some fr.node
      ∧ (∀ r, ap.saved_trees (b + 2 * rest.length) = some r → r ∈ fr.trees)
      ∧ fr.node ∈ fr.trees
      ∧ (∃ p ∈ fr.trees, (ap.mem fr.node).parent = some p)
      ∧ tree_rank (ap.mem fr.node).tree_type ≤ tree_rank tree_parenth
      ∧ (∀ x ∈ fr.trees, fr.old x) ∧ (∀ x, fr.old x → x < ap.brk ∧ x ∉ F)
      ∧ lv_closed ap.mem fr.trees h
      ∧ (∀ t, (ap.mem fr.node).arg_top = some t → fr.old t → fr.recv = some t)
      ∧ (∀ r, fr.recv = some r → r ∈ fr.trees ∧ r ≠ fr.node)
      ∧ fr.trees.Nodup
      ∧ (∀ below ∈ rest, (∀ x ∈ fr.trees, ¬ below.old x) ∧ (∀ x, below.old x → fr.old x))
      ∧ levels_ok ap F h b rest

/-- The state between two calls: the trees `Lv` of the sub-expression in
progress are in use, closed under the links that the merges follow, hold `root`
and `active`, and were not in use when the groupings that are collecting were
entered. The entries of `saved_trees` below `b` are those that were there at the
last lily_ast_reset_pool, which does not set `save_index` back. -/
def level_inv (ap : lily_ast_pool) (F : List Nat) (Lv : List Nat) (stack : List Level)
    (h : Nat → Int) (b : Nat) : Prop :=
  chain_ok ap F ∧ stack_ok ap ∧ ap.save_index = (b : Int) + 2 * (stack.length : Int)
    ∧ Lv.Nodup ∧ (∀ x ∈ Lv, x < ap.brk ∧ x ∉ F)
    ∧ lv_closed ap.mem Lv h
    ∧ (∀ a, ap.active = some a → a ∈ Lv) ∧ (∀ r, ap.root = some r → r ∈ Lv)
    ∧ (∀ fr ∈ stack, ∀ x ∈ Lv, ¬ fr.old x)
    ∧ levels_ok ap F h b stack

/-! ## The trees of the sub-expression in progress -/

/-- The effect of one call on the record of the sub-expressions in progress: the
trees of the innermost one, and the trees of each one that is set aside while a
grouping collects its arguments. A push adds the tree it takes to the innermost;
lily_ast_enter_tree sets the innermost aside, with the tree of the grouping, and
starts an empty one; lily_ast_collect_arg starts an empty one;
lily_ast_leave_tree goes back to the one set aside last. -/
def nest_step (ap : lily_ast_pool) (o : Op) (t : List Nat × List (List Nat)) :
    List Nat × List (List Nat) :=
  match o with
  | Op.enter_tree _ _ => ([], ((acquire_tree ap).1 :: t.1) :: t.2)
  | Op.collect_arg => ([], t.2)
  | Op.leave_tree => (t.2.headD [], t.2.tail)
  | Op.reset_pool => ([], [])
  | _ => ((acquire_tree ap).1 :: t.1, t.2)

/-- The record of the sub-expressions in progress after the calls `ops`, up to
the first fault. -/
def nesting : List Op → lily_ast_pool → List Nat × List (List Nat) →
    List Nat × List (List Nat)
  | [], _, t => t
  | o :: os, ap, t =>
    match step ap o with
    | .error _ => t
    | .ok ap1 => nesting os ap1 (nest_step ap o t)

/-- The trees of the sub-expression in progress after the calls `ops` on a
builder that has just been reset. -/
def current_trees (ops : List Op) (ap : lily_ast_pool) : List Nat :=
  (nesting ops ap ([], [])).1

/-- The chain of `parent` links: `chain` lists the trees from `t` on, each the
`parent` of the one before, and the last has no parent. -/
def parent_chain (mem : Nat → lily_ast) : Option Nat → List Nat → Prop
  | t, [] => t = none
  | t, x :: rest => t = some x ∧ parent_chain mem (mem x).parent rest

/-- The number of iterations of the `while` loop of the climb of
lily_ast_push_binary_op, counted along `climb`. -/
def climb_count (mem : Nat → lily_ast) (new_prio : Int) : Nat → Nat → Option Nat
  | fuel, tree =>
    match (mem tree).parent with
    | none => some 0
    | some p =>
      if new_prio > (mem p).priority then some 0
      else
        match fuel with
        | 0 => none
        | f + 1 => (climb_count mem new_prio f p).map (fun k => k + 1)

/-- The state of lily_ast_push_binary_op once the new tree is taken and
initialised, before it is merged: the state that the climb reads. -/
def binary_init (ap : lily_ast_pool) (op : lily_expr_op) : lily_ast_pool :=
  poke (acquire_tree ap).2 (acquire_tree ap).1 (fun n =>
    { n with tree_type := tree_binary, line_num := (acquire_tree ap).2.lex_linenum,
             priority := priority_for_op op, op := op,
             left := none, right := none, parent := none })

/-- Between `ap` and `ap1` the trees that were in use when the grouping `fr` was
entered are left alone: the tree of the grouping keeps every field but
arg_start, arg_top and args_collected, every other tree keeps every field but
next_arg, and keeps next_arg too unless it is the receiver that the grouping
absorbed; the first `n` entries of `saved_trees` are the same. -/
def kept (fr : Level) (n : Nat) (ap ap1 : lily_ast_pool) : Prop :=
  (∀ x, fr.old x → x ≠ fr.node →
      { ap1.mem x with next_arg := (ap.mem x).next_arg } = ap.mem x)
    ∧ (∀ x, fr.old x → x ≠ fr.node → fr.recv ≠ some x → ap1.mem x = ap.mem x)
    ∧ { ap1.mem fr.node with arg_start := (ap.mem fr.node).arg_start,
                             arg_top := (ap.mem fr.node).arg_top,
                             args_collected := (ap.mem fr.node).args_collected }
        = ap.mem fr.node
    ∧ (∀ i, i < n → ap1.saved_trees i = ap.saved_trees i)

/-! ## The references between the trees in use -/

/-- The trees that the groupings took over when they were entered: for each
call of lily_ast_enter_tree the `arg_start` of the new tree when the call
returns. -/
def absorbed : List Op → lily_ast_pool → List Nat
  | [], _ => []
  | o :: os, ap =>
    match step ap o with
    | .error _ => []
    | .ok ap1 =>
      (match o with
        | Op.enter_tree _ _ => (ap1.mem (acquire_tree ap).1).arg_start.toList
        | _ => []) ++ absorbed os ap1

@[simp] theorem poke_mem (ap : lily_ast_pool) (a : Nat) (f : lily_ast → lily_ast) (x : Nat) :
    (poke ap a f).mem x = if x = a then f (ap.mem x) else ap.mem x := rfl

@[simp] theorem poke_brk (ap : lily_ast_pool) (a : Nat) (f : lily_ast → lily_ast) :
    (poke ap a f).brk = ap.brk := rfl

@[simp] theorem poke_active (ap : lily_ast_pool) (a : Nat) (f : lily_ast → lily_ast) :
    (poke ap a f).active = ap.active := rfl

@[simp] theorem poke_root (ap : lily_ast_pool) (a : Nat) (f : lily_ast → lily_ast) :
    (poke ap a f).root = ap.root := rfl

@[simp] theorem poke_available_current (ap : lily_ast_pool) (a : Nat) (f : lily_ast → lily_ast) :
    (poke ap a f).available_current = ap.available_current := rfl

@[simp] theorem poke_available_start (ap : lily_ast_pool) (a : Nat) (f : lily_ast → lily_ast) :
    (poke ap a f).available_start = ap.available_start := rfl

@[simp] theorem poke_saved_trees (ap : lily_ast_pool) (a : Nat) (f : lily_ast → lily_ast) :
    (poke ap a f).saved_trees = ap.saved_trees := rfl

@[simp] theorem poke_save_index (ap : lily_ast_pool) (a : Nat) (f : lily_ast → lily_ast) :
    (poke ap a f).save_index = ap.save_index := rfl

@[simp] theorem poke_save_size (ap : lily_ast_pool) (a : Nat) (f : lily_ast → lily_ast) :
    (poke ap a f).save_size = ap.save_size := rfl

@[simp] theorem poke_lex_linenum (ap : lily_ast_pool) (a : Nat) (f : lily_ast → lily_ast) :
    (poke ap a f).lex_linenum = ap.lex_linenum := rfl

theorem free_chain_congr {mem mem1 : Nat → lily_ast} :
    ∀ (F : List Nat) (p : Option Nat), (∀ x ∈ F, mem1 x = mem x) →
      free_chain mem F p → free_chain mem1 F p
  | [], _, _, h => h
  | a :: F, p, hag, h => by
    obtain ⟨h1, h2⟩ := h
    refine ⟨h1, ?_⟩
    rw [hag a (List.mem_cons_self a F)]
    exact free_chain_congr F _ (fun x hx => hag x (List.mem_cons_of_mem a hx)) h2

/-- What taking a tree from the pool gives: a tree that was not handed out
before, and a pool whose chain is still in order. -/
theorem acquire_spec {ap ap0 : lily_ast_pool} {a : Nat} {used F : List Nat}
    (hacq : acquire_tree ap = (a, ap0))
    (hfree : free_chain ap.mem F ap.available_current) (hnd : F.Nodup)
    (hlt : ∀ x ∈ F, x < ap.brk) (hul : ∀ u ∈ used, u < ap.brk)
    (huf : ∀ u ∈ used, u ∉ F) :
    a ∉ used ∧ a < ap0.brk ∧ ap.brk ≤ ap0.brk
      ∧ (∀ x, x ≠ a → ap0.mem x = ap.mem x)
      ∧ ap0.active = ap.active ∧ ap0.root = ap.root
      ∧ ap0.saved_trees = ap.saved_trees ∧ ap0.save_index = ap.save_index
      ∧ ap0.save_size = ap.save_size ∧ ap0.lex_linenum = ap.lex_linenum
      ∧ ∃ F1, free_chain ap0.mem F1 ap0.available_current ∧ F1.Nodup
          ∧ (∀ x ∈ F1, x < ap0.brk) ∧ a ∉ F1 ∧ (∀ u ∈ used, u ∉ F1) := by
  unfold acquire_tree at hacq
  cases F with
  | nil =>
    have hc : ap.available_current = none := hfree
    rw [hc] at hacq
    simp only [make_new_tree, Prod.mk.injEq] at hacq
    obtain ⟨ha, hap⟩ := hacq
    subst hap
    subst ha
    refine ⟨fun h => lt_irrefl _ (hul _ h), by simp, by simp, ?_, rfl, rfl, rfl, rfl, rfl, rfl,
      [], ?_, List.nodup_nil, by simp, by simp, by simp⟩
    · intro x hx; simp [hx]
    · exact hc
  | cons b F =>
    obtain ⟨hc, hrest⟩ := hfree
    rw [hc] at hacq
    simp only [Prod.mk.injEq] at hacq
    obtain ⟨ha, hap⟩ := hacq
    subst hap
    subst ha
    have hb : b ∉ F := (List.nodup_cons.mp hnd).1
    refine ⟨fun h => huf _ h (List.mem_cons_self _ _), hlt _ (List.mem_cons_self _ _),
      le_refl _, fun _ _ => rfl, rfl, rfl, rfl, rfl, rfl, rfl,
      F, hrest, (List.nodup_cons.mp hnd).2, fun x hx => hlt x (List.mem_cons_of_mem _ hx), hb,
      fun u hu h => huf u hu (List.mem_cons_of_mem _ h)⟩

theorem same_fwd_refl (n : lily_ast) : same_fwd n n := ⟨rfl, rfl, rfl, rfl, rfl, rfl⟩

theorem Rep_congr {mem mem1 : Nat → lily_ast} :
    ∀ (t : ATree), (∀ x ∈ t.cells, same_fwd (mem1 x) (mem x)) → Rep mem t → Rep mem1 t
  | ATree.leaf a k r, hag, h => by
    obtain ⟨e1, e2, _, _, _, _⟩ := hag a (by simp [ATree.cells])
    exact ⟨by rw [e1]; exact h.1, by rw [e2]; exact h.2.1, h.2.2⟩
  | ATree.unary a o t, hag, h => by
    obtain ⟨e1, _, e3, e4, e5, _⟩ := hag a (by simp [ATree.cells])
    obtain ⟨h1, h2, h3, h4, h5⟩ := h
    exact ⟨by rw [e1]; exact h1, by rw [e3]; exact h2, by rw [e4]; exact h3,
      by rw [e5]; exact h4, Rep_congr t (fun x hx => hag x (by simp [ATree.cells, hx])) h5⟩
  | ATree.binary a o l r, hag, h => by
    obtain ⟨e1, _, e3, e4, e5, e6⟩ := hag a (by simp [ATree.cells])
    obtain ⟨h1, h2, h3, h4, h5, h6, h7⟩ := h
    exact ⟨by rw [e1]; exact h1, by rw [e3]; exact h2, by rw [e4]; exact h3,
      by rw [e5]; exact h4, by rw [e6]; exact h5,
      Rep_congr l (fun x hx => hag x (by simp [ATree.cells, hx])) h6,
      Rep_congr r (fun x hx => hag x (by simp [ATree.cells, hx])) h7⟩

theorem ATree.addr_mem_cells : ∀ t : ATree, t.addr ∈ t.cells
  | ATree.leaf _ _ _ => by simp [ATree.addr, ATree.cells]
  | ATree.unary _ _ _ => by simp [ATree.addr, ATree.cells]
  | ATree.binary _ _ _ _ => by simp [ATree.addr, ATree.cells]

theorem ChainRep_congr {mem mem1 : Nat → lily_ast}
    (atom : Option (Nat × lily_tree_type × Option Nat)) :
    ∀ (us : List (Nat × lily_expr_op)), (∀ u ∈ us, same_fwd (mem1 u.1) (mem u.1)) →
      ChainRep mem atom us → ChainRep mem1 atom us
  | [], _, _ => trivial
  | u :: us, hag, h => by
    obtain ⟨e1, _, e3, e4, e5, _⟩ := hag u (List.mem_cons_self _ _)
    obtain ⟨h1, h2, h3, h4, h5⟩ := h
    exact ⟨by rw [e1]; exact h1, by rw [e3]; exact h2, by rw [e4]; exact h3, by rw [e5]; exact h4,
      ChainRep_congr atom us (fun v hv => hag v (List.mem_cons_of_mem _ hv)) h5⟩

theorem path_congr {mem mem1 : Nat → lily_ast} :
    ∀ (ds : List Nat) (x : Nat) (tgt : Option Nat),
      (∀ y ∈ x :: ds, (mem1 y).parent = (mem y).parent) → path mem x ds tgt → path mem1 x ds tgt
  | [], x, tgt, hag, h => by
    have := hag x (List.mem_cons_self _ _)
    simpa [path, this] using h
  | d :: ds, x, tgt, hag, h => by
    have hx := hag x (List.mem_cons_self _ _)
    obtain ⟨h1, h2⟩ := h
    exact ⟨by rw [hx]; exact h1,
      path_congr ds d tgt (fun y hy => hag y (List.mem_cons_of_mem _ hy)) h2⟩

theorem SpineRep_congr {mem mem1 : Nat → lily_ast} :
    ∀ (fs : List Frame) (r : Option Nat), (∀ x ∈ spine_cells fs, same_fwd (mem1 x) (mem x)) →
      SpineRep mem fs r → SpineRep mem1 fs r
  | [], _, _, _ => trivial
  | f :: fs, r, hag, h => by
    obtain ⟨e1, _, e3, e4, e5, e6⟩ := hag f.node (by simp [spine_cells])
    obtain ⟨h1, h2, h3, h4, h5, h6, h7⟩ := h
    exact ⟨by rw [e1]; exact h1, by rw [e3]; exact h2, by rw [e4]; exact h3,
      by rw [e5]; exact h4, by rw [e6]; exact h5,
      Rep_congr f.left (fun x hx => hag x (by simp [spine_cells, hx])) h6,
      SpineRep_congr fs _ (fun x hx => hag x (by simp [spine_cells, hx])) h7⟩

theorem SpineRep_right {mem : Nat → lily_ast} {fs : List Frame} {r r1 : Option Nat}
    (h : SpineRep mem fs r) (hr : ∀ f, fs.head? = some f → (mem f.node).right = r1) :
    SpineRep mem fs r1 := by
  cases fs with
  | nil => trivial
  | cons f fs =>
    obtain ⟨h1, h2, h3, h4, _, h6, h7⟩ := h
    exact ⟨h1, h2, h3, h4, hr f rfl, h6, h7⟩

theorem SpineUp_congr {mem mem1 : Nat → lily_ast} :
    ∀ (fs : List Frame),
      (∀ x ∈ ups fs, (mem1 x).parent = (mem x).parent ∧ (mem1 x).priority = (mem x).priority) →
      SpineUp mem fs → SpineUp mem1 fs
  | [], _, _ => trivial
  | [f], hag, h => by
    obtain ⟨h1, h2⟩ := h
    exact ⟨h1, by rw [(hag f.node (by simp [ups])).1]; exact h2⟩
  | f :: g :: fs, hag, h => by
    obtain ⟨h1, h2, h3, h4⟩ := h
    refine ⟨path_congr _ _ _ (fun y hy => (hag y ?_).1) h1, ?_, h3,
      SpineUp_congr (g :: fs) (fun x hx => hag x ?_) h4⟩
    · simp only [ups, List.mem_cons, List.mem_append] at hy ⊢
      rcases hy with hy | hy
      · exact Or.inl hy
      · exact Or.inr (Or.inl hy)
    · intro d hd
      rw [(hag d (by simp [ups, hd])).2]
      exact h2 d hd
    · simp only [ups, List.mem_cons, List.mem_append] at hx ⊢
      exact Or.inr (Or.inr hx)

theorem path_last {mem : Nat → lily_ast} :
    ∀ (ds : List Nat) (x : Nat) (tgt : Option Nat), path mem x ds tgt →
      (mem (last_from x ds)).parent = tgt
  | [], _, _, h => h
  | d :: ds, _, tgt, h => path_last ds d tgt h.2

theorem path_append {mem : Nat → lily_ast} :
    ∀ (ds : List Nat) (x y : Nat) (es : List Nat) (tgt : Option Nat),
      path mem x ds (some y) → path mem y es tgt → path mem x (ds ++ y :: es) tgt
  | [], _, _, _, _, h1, h2 => ⟨h1, h2⟩
  | d :: ds, _, y, es, tgt, h1, h2 => ⟨h1.1, path_append ds d y es tgt h1.2 h2⟩

theorem unary_descend_chain {mem : Nat → lily_ast}
    {atom : Option (Nat × lily_tree_type × Option Nat)}
    (hat : ∀ x ∈ atom, (mem x.1).tree_type ≠ tree_unary) :
    ∀ (us : List (Nat × lily_expr_op)) (u : Nat × lily_expr_op) (fuel : Nat),
      ChainRep mem atom (u :: us) → us.length ≤ fuel →
      unary_descend mem fuel u.1 = some ((last_from u us).1)
  | [], u, fuel, h, _ => by
    obtain ⟨h1, _, _, h4, _⟩ := h
    unfold unary_descend
    simp only [h1, if_true, h4, operand_root]
    cases atom with
    | none => simp [last_from]
    | some x => simp [hat x rfl, last_from]
  | v :: us, u, fuel, h, hf => by
    obtain ⟨h1, _, _, h4, h5⟩ := h
    have hv : (mem v.1).tree_type = tree_unary := h5.1
    cases fuel with
    | zero => simp at hf
    | succ f =>
      unfold unary_descend
      simp only [h1, if_true, h4, operand_root, hv]
      simpa [last_from] using unary_descend_chain hat us v f h5 (by simpa using hf)

theorem climb_path {mem : Nat → lily_ast} {q : Int} :
    ∀ (ds : List Nat) (x : Nat) (y : Option Nat) (fuel : Nat),
      path mem x ds y → (∀ d ∈ ds, q ≤ (mem d).priority) →
      climb mem q (ds.length + fuel) x = climb mem q fuel (last_from x ds)
  | [], x, _, fuel, _, _ => by simp [last_from]
  | d :: ds, x, y, fuel, h, hq => by
    have hd : ¬ q > (mem d).priority := not_lt.mpr (hq d (List.mem_cons_self _ _))
    have ih := climb_path ds d y fuel h.2 (fun e he => hq e (List.mem_cons_of_mem _ he))
    have hlen : (d :: ds).length + fuel = (ds.length + fuel) + 1 := by
      simp only [List.length_cons]; omega
    rw [hlen]
    conv_lhs => unfold climb
    simp only [h.1, hd, if_false]
    simpa [last_from] using ih

theorem last_from_append {α : Type} :
    ∀ (ds : List α) (x y : α) (es : List α), last_from x (ds ++ y :: es) = last_from y es
  | [], _, _, _ => rfl
  | d :: ds, _, y, es => last_from_append ds d y es

theorem ups_length_pos (g : Frame) (gs : List Frame) : 1 ≤ (ups (g :: gs)).length := by
  simp [ups]

/-- What the loop of the climb finds on a spine. -/
theorem climb_spec {mem : Nat → lily_ast} {q : Int} (n : Nat) (o : lily_expr_op) :
    ∀ (fs : List Frame) (f : Frame) (acc : List Nat) (inner : ATree) (fuel : Nat),
      Rep mem inner →
      SpineRep mem (f :: fs) (some inner.addr) →
      SpineUp mem (f :: fs) →
      q ≤ priority_for_op f.op →
      (ups (f :: fs)).length ≤ fuel + 1 →
      ∃ (L : ATree) (D0 : List Nat) (rest : List Frame),
        climb mem q fuel f.node = some L.addr
        ∧ Rep mem L
        ∧ (L.cells ++ spine_cells rest).Sublist (inner.cells ++ spine_cells (f :: fs))
        ∧ ((rest = [] ∧ a_climb q n o acc inner f fs = [⟨n, o, L, []⟩]
              ∧ (mem L.addr).parent = none)
          ∨ (∃ g gs, rest = g :: gs
              ∧ a_climb q n o acc inner f fs = ⟨n, o, L, acc ++ D0⟩ :: g :: gs
              ∧ (mem L.addr).parent = some g.node
              ∧ priority_for_op g.op < q
              ∧ path mem f.node D0 (some g.node)
              ∧ (∀ d ∈ D0, q ≤ (mem d).priority)
              ∧ last_from f.node D0 = L.addr
              ∧ D0 ++ ups (g :: gs) = (ups (f :: fs)).tail
              ∧ last_from g gs = last_from f fs
              ∧ (∃ r, SpineRep mem (g :: gs) r)
              ∧ SpineUp mem (g :: gs)))
  | [], f, acc, inner, fuel, hin, hrep, hup, _, _ => by
    obtain ⟨h1, h2, h3, h4, h5, h6, _⟩ := hrep
    obtain ⟨_, hpar⟩ := hup
    refine ⟨ATree.binary f.node f.op f.left inner, [], [], ?_, ⟨h1, h2, h3, h4, h5, h6, hin⟩, ?_,
      Or.inl ⟨rfl, rfl, hpar⟩⟩
    · unfold climb
      simp [hpar, ATree.addr]
    · simp [ATree.cells, spine_cells]
  | g :: gs, f, acc, inner, fuel, hin, hrep, hup, hq, hlen => by
    obtain ⟨h1, h2, h3, h4, h5, h6, hrest⟩ := hrep
    obtain ⟨hpath, hprio, hlast, hup1⟩ := hup
    have hgp : (mem g.node).priority = priority_for_op g.op := hrest.2.2.1
    have hpos := ups_length_pos g gs
    have hlen1 : f.detour.length + (ups (g :: gs)).length ≤ fuel := by
      simp only [ups, List.length_cons, List.length_append] at hlen hpos ⊢
      omega
    obtain ⟨fuel1, hfuel⟩ : ∃ k, fuel = f.detour.length + k := ⟨fuel - f.detour.length, by omega⟩
    have hdq : ∀ d ∈ f.detour, q ≤ (mem d).priority := fun d hd => le_trans hq (hprio d hd)
    have hwalk := climb_path f.detour f.node (some g.node) fuel1 hpath hdq
    have hTp : (mem (last_from f.node f.detour)).parent = some g.node := path_last _ _ _ hpath
    by_cases hbrk : q > priority_for_op g.op
    · -- the loop stops under `g`
      have hclimb : climb mem q fuel f.node = some (last_from f.node f.detour) := by
        rw [hfuel, hwalk]
        unfold climb
        simp [hTp, hgp, hbrk]
      by_cases hdet : f.detour = []
      · refine ⟨ATree.binary f.node f.op f.left inner, f.detour, g :: gs, ?_,
          ⟨h1, h2, h3, h4, h5, h6, hin⟩, ?_, Or.inr ⟨g, gs, rfl, ?_, ?_, hbrk, hpath, hdq, ?_, ?_,
            rfl, ⟨_, hrest⟩, hup1⟩⟩
        · rw [hclimb, hdet]; rfl
        · simp [ATree.cells, spine_cells]
        · simp [a_climb, hbrk, hdet]
        · have := hTp
          rw [hdet] at this
          exact this
        · rw [hdet]; rfl
        · simp [ups]
      · refine ⟨f.left, f.detour, g :: gs, ?_, h6, ?_, Or.inr ⟨g, gs, rfl, ?_, ?_, hbrk, hpath,
          hdq, hlast hdet, ?_, rfl, ⟨_, hrest⟩, hup1⟩⟩
        · rw [hclimb, hlast hdet]
        · simp only [spine_cells]
          exact (List.sublist_cons_self _ _).trans (List.sublist_append_right _ _)
        · simp [a_climb, hbrk, hdet]
        · rw [← hlast hdet]; exact hTp
        · simp [ups]
    · -- the loop passes `g`
      have hq1 : q ≤ priority_for_op g.op := not_lt.mp hbrk
      obtain ⟨fuel2, hfuel2⟩ : ∃ k, fuel1 = k + 1 := ⟨fuel1 - 1, by omega⟩
      have hstep : climb mem q fuel f.node = climb mem q fuel2 g.node := by
        rw [hfuel, hwalk, hfuel2]
        conv_lhs => unfold climb
        simp [hTp, hgp, hbrk]
      have hunf : a_climb q n o acc inner f (g :: gs)
          = a_climb q n o (acc ++ f.detour ++ [g.node])
              (ATree.binary f.node f.op f.left inner) g gs := by
        rw [a_climb]; simp only [hbrk, if_false]
      have hin1 : Rep mem (ATree.binary f.node f.op f.left inner) :=
        ⟨h1, h2, h3, h4, h5, h6, hin⟩
      obtain ⟨L, D1, rest, hc, hL, hsub, hcase⟩ :=
        climb_spec n o gs g (acc ++ f.detour ++ [g.node])
          (ATree.binary f.node f.op f.left inner) fuel2 hin1 hrest hup1 hq1 (by omega)
      refine ⟨L, f.detour ++ g.node :: D1, rest, by rw [hstep]; exact hc, hL, ?_, ?_⟩
      · simpa [ATree.cells, spine_cells, List.append_assoc] using hsub
      · rcases hcase with ⟨hr, ha, hp⟩ | ⟨g1, gs1, hr, ha, hp, hlt, hpth, hpr, hlst, hups, hgl, hsr, hsu⟩
        · exact Or.inl ⟨hr, by rw [hunf, ha], hp⟩
        · refine Or.inr ⟨g1, gs1, hr, ?_, hp, hlt, path_append _ _ _ _ _ hpath hpth, ?_, ?_, ?_,
            hgl, hsr, hsu⟩
          · rw [hunf, ha]; simp [List.append_assoc]
          · intro d hd
            simp only [List.mem_append, List.mem_cons] at hd
            rcases hd with hd | hd | hd
            · exact hdq d hd
            · rw [hd, hgp]; exact hq1
            · exact hpr d hd
          · rw [last_from_append]; exact hlst
          · have : ups (g :: gs) = g.node :: (ups (g :: gs)).tail := by simp [ups]
            simp only [ups, List.tail_cons, List.append_assoc, List.cons_append] at hups ⊢
            rw [hups]

theorem operand_rep {mem : Nat → lily_ast} {a : Nat} {k : lily_tree_type} {r : Option Nat}
    (hk : (mem a).tree_type = k) (hr : (mem a).result = r)
    (hrk : tree_rank k < tree_rank tree_unary) :
    ∀ chain : List (Nat × lily_expr_op), ChainRep mem (some (a, k, r)) chain →
      Rep mem (a_operand chain (ATree.leaf a k r))
        ∧ some (a_operand chain (ATree.leaf a k r)).addr = operand_root chain (some (a, k, r))
        ∧ (a_operand chain (ATree.leaf a k r)).cells = chain.map (fun u => u.1) ++ [a]
  | [], _ => ⟨⟨hk, hr, hrk⟩, rfl, rfl⟩
  | u :: us, h => by
    obtain ⟨h1, h2, h3, h4, h5⟩ := h
    obtain ⟨i1, i2, i3⟩ := operand_rep hk hr hrk us h5
    refine ⟨⟨h1, h2, h3, ?_, i1⟩, rfl, ?_⟩
    · rw [h4, ← i2]
    · simp [a_operand, ATree.cells, i3]

theorem nodup_length_le {l : List Nat} {n : Nat} (hnd : l.Nodup) (hlt : ∀ x ∈ l, x < n) :
    l.length ≤ n := by
  have h1 : l.toFinset ⊆ Finset.range n := by
    intro x hx
    exact Finset.mem_range.mpr (hlt x (List.mem_toFinset.mp hx))
  have h2 := Finset.card_le_card h1
  rw [List.toFinset_card_of_nodup hnd, Finset.card_range] at h2
  exact h2

theorem last_from_of_ne_nil {α : Type} (x y : α) :
    ∀ ds : List α, ds ≠ [] → last_from x ds = last_from y ds
  | [], h => absurd rfl h
  | _ :: _, _ => rfl

theorem path_head {mem : Nat → lily_ast} {x : Nat} {tgt : Option Nat} :
    ∀ ds : List Nat, path mem x ds tgt →
      (mem x).parent = (match ds with
        | [] => tgt
        | d :: _ => some d)
  | [], h => h
  | _ :: _, h => h.1

theorem path_of_parent {mem mem1 : Nat → lily_ast} {x n : Nat} {tgt : Option Nat} :
    ∀ ds : List Nat, (mem1 n).parent = (mem x).parent →
      (∀ d ∈ ds, (mem1 d).parent = (mem d).parent) → path mem x ds tgt → path mem1 n ds tgt
  | [], hn, _, h => by
    have h0 : (mem x).parent = tgt := h
    show (mem1 n).parent = tgt
    rw [hn, h0]
  | d :: ds, hn, hd, h => by
    refine ⟨by rw [hn]; exact h.1, ?_⟩
    exact path_congr ds d tgt hd h.2

/-- lily_ast_push_binary_op against a value. -/
theorem push_binary_value {ap ap0 : lily_ast_pool} {n act : Nat} (o : lily_expr_op)
    (hacq : acquire_tree ap = (n, ap0)) (hact : ap0.active = some act) (hne : act ≠ n)
    (hrank : tree_rank (ap0.mem act).tree_type < tree_rank tree_binary) :
    lily_ast_push_binary_op ap o = .ok
      { poke (poke ap0 n (fun nd =>
          { nd with tree_type := tree_binary, line_num := ap0.lex_linenum,
                    priority := priority_for_op o, op := o,
                    left := none, right := none, parent := none }))
          n (fun nd => { nd with left := some act }) with
        active := some n
        root := if ap0.root = some act then some n else ap0.root } := by
  unfold lily_ast_push_binary_op
  simp only [hacq, hact, poke_mem, if_neg hne, hrank, if_true, poke_root]
  by_cases hr : ap0.root = some act <;> simp [hr, poke]

/-- lily_ast_push_binary_op, steal branch. -/
theorem push_binary_steal {ap ap0 ap1 : lily_ast_pool} {n act : Nat} (o : lily_expr_op)
    (hacq : acquire_tree ap = (n, ap0)) (hact : ap0.active = some act) (hne : act ≠ n)
    (hap1 : ap1 = poke ap0 n (fun nd =>
          { nd with tree_type := tree_binary, line_num := ap0.lex_linenum,
                    priority := priority_for_op o, op := o,
                    left := none, right := none, parent := none }))
    (hbin : (ap0.mem act).tree_type = tree_binary)
    (hprio : priority_for_op o > (ap0.mem act).priority ∨ priority_for_op o = 0) :
    lily_ast_push_binary_op ap o = .ok
      { poke (poke (poke ap1 n (fun nd => { nd with left := (ap0.mem act).right }))
          act (fun nd => { nd with right := some n }))
          n (fun nd => { nd with parent := some act }) with
        active := some n } := by
  subst hap1
  unfold lily_ast_push_binary_op
  simp only [hacq, hact, poke_mem, if_neg hne, hbin, if_true]
  simp [tree_rank, hprio]

/-- lily_ast_push_binary_op, climb branch, the new tree becoming the root. -/
theorem push_binary_climb_root {ap ap0 ap1 : lily_ast_pool} {n act tree : Nat} (o : lily_expr_op)
    (hacq : acquire_tree ap = (n, ap0)) (hact : ap0.active = some act) (hne : act ≠ n)
    (hap1 : ap1 = poke ap0 n (fun nd =>
          { nd with tree_type := tree_binary, line_num := ap0.lex_linenum,
                    priority := priority_for_op o, op := o,
                    left := none, right := none, parent := none }))
    (hbin : (ap0.mem act).tree_type = tree_binary)
    (hprio : ¬ (priority_for_op o > (ap0.mem act).priority ∨ priority_for_op o = 0))
    (hclimb : climb ap1.mem (priority_for_op o) ap1.brk act = some tree)
    (hpar : (ap1.mem tree).parent = none) :
    lily_ast_push_binary_op ap o = .ok
      { poke (poke ap1 tree (fun nd => { nd with parent := some n }))
          n (fun nd => { nd with left := some tree }) with
        active := some n
        root := some n } := by
  subst hap1
  unfold lily_ast_push_binary_op
  simp only [hacq, hact, poke_mem, if_neg hne, hbin, if_true] at hclimb hpar ⊢
  simp only [tree_rank, hprio, if_false, hclimb, hpar]
  simp [poke]

/-- lily_ast_push_binary_op, climb branch, the new tree spliced under `par`. -/
theorem push_binary_climb_splice {ap ap0 ap1 : lily_ast_pool} {n act tree par : Nat}
    (o : lily_expr_op)
    (hacq : acquire_tree ap = (n, ap0)) (hact : ap0.active = some act) (hne : act ≠ n)
    (hap1 : ap1 = poke ap0 n (fun nd =>
          { nd with tree_type := tree_binary, line_num := ap0.lex_linenum,
                    priority := priority_for_op o, op := o,
                    left := none, right := none, parent := none }))
    (hbin : (ap0.mem act).tree_type = tree_binary)
    (hprio : ¬ (priority_for_op o > (ap0.mem act).priority ∨ priority_for_op o = 0))
    (hclimb : climb ap1.mem (priority_for_op o) ap1.brk act = some tree)
    (hpar : (ap1.mem tree).parent = some par)
    (hleft : (ap1.mem par).left ≠ some tree) (hpa : par ≠ act) :
    lily_ast_push_binary_op ap o = .ok
      { poke (poke (poke ap1 par (fun nd => { nd with right := some n }))
          n (fun nd => { nd with parent := (ap0.mem act).parent }))
          n (fun nd => { nd with left := some tree }) with
        active := some n } := by
  subst hap1
  unfold lily_ast_push_binary_op
  simp only [hacq, hact, poke_mem, if_neg hne, hbin, if_true] at hclimb hpar hleft ⊢
  simp only [tree_rank, hprio, if_false, hclimb, hpar, hleft]
  simp [poke, hne, Ne.symm hpa]

theorem operand_rank {mem : Nat → lily_ast} {a : Nat} {k : lily_tree_type} {r : Option Nat}
    (hk : (mem a).tree_type = k) (hrk : tree_rank k < tree_rank tree_unary) :
    ∀ chain : List (Nat × lily_expr_op), ChainRep mem (some (a, k, r)) chain →
      tree_rank (mem (a_operand chain (ATree.leaf a k r)).addr).tree_type
        < tree_rank tree_binary
  | [], _ => by
    simp only [a_operand, ATree.addr, hk]
    exact lt_trans hrk (by decide)
  | u :: us, h => by
    simp only [a_operand, ATree.addr, h.1]
    decide

theorem cells_of_atom {s : Abs} {a : Nat} {k : lily_tree_type} {r : Option Nat}
    (hatom : s.atom = some (a, k, r)) :
    s.cells = (s.chain.map (fun u => u.1) ++ [a]) ++ spine_cells s.spine := by
  simp [Abs.cells, hatom]

/-- lily_ast_push_binary_op keeps the pool in step with `a_push_binary`. -/
theorem push_binary_refines {s : Abs} {used F : List Nat} {ap : lily_ast_pool}
    (o : lily_expr_op) (h : Refines s used F ap) (hat : s.atom ≠ none) :
    ∃ n ap1 F1, n = (acquire_tree ap).1 ∧ lily_ast_push_binary_op ap o = .ok ap1 ∧ n ∉ used
      ∧ Refines (a_push_binary n o s) (n :: used) F1 ap1
      ∧ ap1.saved_trees = ap.saved_trees ∧ ap1.save_index = ap.save_index
      ∧ ap1.save_size = ap.save_size := by
  rcases hacq : acquire_tree ap with ⟨n, ap0⟩
  obtain ⟨hnu, hnb, hbrk, hmem0, hact0, hroot0, hsv0, hsi0, hss0, hll0, F1, hfree1, hnd1, hlt1,
    hnF1, huf1⟩ := acquire_spec hacq h.free h.free_nodup h.free_lt h.used_lt h.used_free
  obtain ⟨⟨a, k, r⟩, hatom⟩ := Option.ne_none_iff_exists'.mp hat
  have hcn : ∀ x ∈ s.cells, x ≠ n := fun x hx e => hnu (e ▸ h.cells_used x hx)
  have hun : ∀ x ∈ ups s.spine, x ≠ n := fun x hx e => hnu (e ▸ h.ups_used x hx)
  have hatr := h.atom_rep (a, k, r) (by simp [hatom])
  have hchain : ChainRep ap.mem (some (a, k, r)) s.chain := hatom ▸ h.chain_rep
  obtain ⟨hRt, htaddr, htcells⟩ := operand_rep hatr.1 hatr.2.1 hatr.2.2 s.chain hchain
  have hcells := cells_of_atom hatom
  rw [← htcells] at hcells
  have hcnd := h.cells_nodup
  rw [hcells] at hcnd
  have hul1 : ∀ u ∈ n :: used, u < ap0.brk := by
    intro u hu
    rcases List.mem_cons.mp hu with e | hu
    · rw [e]; exact hnb
    · exact lt_of_lt_of_le (h.used_lt u hu) hbrk
  have huf2 : ∀ u ∈ n :: used, u ∉ F1 := by
    intro u hu
    rcases List.mem_cons.mp hu with e | hu
    · rw [e]; exact hnF1
    · exact huf1 u hu
  cases hsp : s.spine with
  | nil =>
    have hact : ap0.active = some (a_operand s.chain (ATree.leaf a k r)).addr := by
      rw [hact0, h.active_eq, hsp, htaddr, hatom]
    have hroot : ap0.root = some (a_operand s.chain (ATree.leaf a k r)).addr := by
      rw [hroot0, h.root_eq, hsp, htaddr, hatom]
    have htn : (a_operand s.chain (ATree.leaf a k r)).addr ≠ n :=
      hcn _ (by rw [hcells]; exact List.mem_append_left _ (ATree.addr_mem_cells _))
    have hrank : tree_rank (ap0.mem (a_operand s.chain (ATree.leaf a k r)).addr).tree_type
        < tree_rank tree_binary := by
      rw [hmem0 _ htn]
      exact operand_rank hatr.1 hatr.2.2 s.chain hchain
    refine ⟨n, _, F1, rfl, push_binary_value o hacq hact htn hrank, hnu, ?_, hsv0, hsi0, hss0⟩
    have hs1 : a_push_binary n o s
        = ⟨[⟨n, o, a_operand s.chain (ATree.leaf a k r), []⟩], [], none⟩ := by
      simp [a_push_binary, hatom, hsp]
    rw [hs1]
    have hm : ∀ x, x ≠ n → (ap0.mem x) = ap.mem x := hmem0
    rw [hsp] at hcnd
    simp only [spine_cells, List.append_nil] at hcnd
    exact
      { free := free_chain_congr F1 _ (fun x hx => by
            have : x ≠ n := fun e => hnF1 (e ▸ hx)
            simp [this]) hfree1
        free_nodup := hnd1
        free_lt := hlt1
        used_lt := hul1
        used_free := huf2
        cells_nodup := by
          simp only [Abs.cells, List.map_nil, Option.map_none', Option.toList_none, List.nil_append,
            spine_cells, List.append_nil]
          refine List.nodup_cons.mpr ⟨fun hx => ?_, hcnd⟩
          exact hcn n (by rw [hcells]; exact List.mem_append_left _ hx) rfl
        cells_used := by
          intro x hx
          simp only [Abs.cells, List.map_nil, Option.map_none', Option.toList_none, List.nil_append,
            spine_cells, List.append_nil, List.mem_cons] at hx
          rcases hx with e | hx
          · rw [e]; exact List.mem_cons_self _ _
          · exact List.mem_cons_of_mem _ (h.cells_used x (by
              rw [hcells]; exact List.mem_append_left _ hx))
        ups_nodup := by simp [ups]
        ups_used := by simp [ups]
        active_eq := rfl
        root_eq := by simp [hroot, last_from]
        chain_rep := trivial
        atom_rep := by simp
        spine_rep := by
          refine ⟨by simp, by simp, by simp, by simp, by simp [operand_root], ?_, trivial⟩
          refine Rep_congr _ (fun x hx => ?_) hRt
          have : x ≠ n := hcn x (by rw [hcells]; exact List.mem_append_left _ hx)
          simp [this, hm x this, same_fwd_refl]
        spine_up := ⟨rfl, by simp⟩ }
  | cons f fs =>
    have hsr : SpineRep ap.mem (f :: fs) (some (a_operand s.chain (ATree.leaf a k r)).addr) := by
      have := h.spine_rep
      rw [hsp, hatom, ← htaddr] at this
      exact this
    have hsu : SpineUp ap.mem (f :: fs) := hsp ▸ h.spine_up
    rw [hsp] at hcnd hun
    have hund : (ups (f :: fs)).Nodup := hsp ▸ h.ups_nodup
    have huu : ∀ x ∈ ups (f :: fs), x ∈ used := hsp ▸ h.ups_used
    have hmid := List.nodup_middle.mp (show ((a_operand s.chain (ATree.leaf a k r)).cells
        ++ f.node :: (f.left.cells ++ spine_cells fs)).Nodup from hcnd)
    obtain ⟨hfn, hrestnd⟩ := List.nodup_cons.mp hmid
    have hfn1 : f.node ∉ (a_operand s.chain (ATree.leaf a k r)).cells :=
      fun hx => hfn (List.mem_append_left _ hx)
    have hfn2 : f.node ∉ f.left.cells :=
      fun hx => hfn (List.mem_append_right _ (List.mem_append_left _ hx))
    have hfn3 : f.node ∉ spine_cells fs :=
      fun hx => hfn (List.mem_append_right _ (List.mem_append_right _ hx))
    have hfnn : f.node ≠ n := hcn _ (by rw [hcells, hsp]; simp [spine_cells])
    have hact : ap0.active = some f.node := by rw [hact0, h.active_eq, hsp]
    have hroot : ap0.root = some (last_from f fs).node := by
      rw [hroot0, h.root_eq, hsp]
    obtain ⟨f1, f2, f3, f4, f5, f6, f7⟩ := hsr
    have hbin : (ap0.mem f.node).tree_type = tree_binary := by rw [hmem0 _ hfnn]; exact f1
    have hfp : (ap0.mem f.node).priority = priority_for_op f.op := by rw [hmem0 _ hfnn]; exact f3
    have hcellsn : ∀ x ∈ (a_operand s.chain (ATree.leaf a k r)).cells ++ spine_cells (f :: fs),
        x ≠ n := fun x hx => hcn x (by rw [hcells, hsp]; exact hx)
    by_cases hprio : priority_for_op o > priority_for_op f.op ∨ priority_for_op o = 0
    · -- the new tree steals the right operand
      refine ⟨n, _, F1, rfl, push_binary_steal o hacq hact hfnn rfl hbin (by rw [hfp]; exact hprio),
        hnu, ?_, hsv0, hsi0, hss0⟩
      have hs1 : a_push_binary n o s
          = ⟨⟨n, o, a_operand s.chain (ATree.leaf a k r), []⟩ :: f :: fs, [], none⟩ := by
        simp [a_push_binary, hatom, hsp, hprio]
      rw [hs1]
      have hright : (ap0.mem f.node).right = some (a_operand s.chain (ATree.leaf a k r)).addr := by
        rw [hmem0 _ hfnn]; exact f5
      have hnf : n ≠ f.node := Ne.symm hfnn
      exact
        { free := free_chain_congr F1 _ (fun x hx => by
              have h1 : x ≠ n := fun e => hnF1 (e ▸ hx)
              have h2 : x ≠ f.node := fun e => huf1 f.node
                (h.cells_used _ (by rw [hcells, hsp]; simp [spine_cells])) (e ▸ hx)
              simp [h1, h2]) hfree1
          free_nodup := hnd1
          free_lt := hlt1
          used_lt := hul1
          used_free := huf2
          cells_nodup := by
            simp only [Abs.cells, List.map_nil, Option.map_none', Option.toList_none,
              List.nil_append]
            show (n :: ((a_operand s.chain (ATree.leaf a k r)).cells
              ++ spine_cells (f :: fs))).Nodup
            exact List.nodup_cons.mpr ⟨fun hx => hcellsn n hx rfl, hcnd⟩
          cells_used := by
            intro x hx
            simp only [Abs.cells, List.map_nil, Option.map_none', Option.toList_none,
              List.nil_append] at hx
            rcases List.mem_cons.mp hx with e | hx
            · rw [e]; exact List.mem_cons_self _ _
            · exact List.mem_cons_of_mem _ (h.cells_used x (by rw [hcells, hsp]; exact hx))
          ups_nodup := by
            show (n :: ([] ++ ups (f :: fs))).Nodup
            exact List.nodup_cons.mpr ⟨fun hx => hun n hx rfl, hund⟩
          ups_used := by
            intro x hx
            rcases List.mem_cons.mp hx with e | hx
            · rw [e]; exact List.mem_cons_self _ _
            · exact List.mem_cons_of_mem _ (huu x hx)
          active_eq := rfl
          root_eq := hroot
          chain_rep := trivial
          atom_rep := by simp
          spine_rep := by
            refine ⟨by simp [hnf], by simp [hnf], by simp [hnf], by simp [hnf, hright],
              by simp [hnf, operand_root], ?_, ?_, ?_, ?_, ?_, ?_, ?_, ?_⟩
            · refine Rep_congr _ (fun x hx => ?_) hRt
              have h1 : x ≠ n := hcellsn x (List.mem_append_left _ hx)
              have h2 : x ≠ f.node := fun e => hfn1 (e ▸ hx)
              simp [h1, h2, hmem0 x h1, same_fwd_refl]
            · simp [hfnn, hmem0 _ hfnn, f1]
            · simp [hfnn, hmem0 _ hfnn, f2]
            · simp [hfnn, hmem0 _ hfnn, f3]
            · simp [hfnn, hmem0 _ hfnn, f4]
            · simp [hfnn]
            · refine Rep_congr _ (fun x hx => ?_) f6
              have h1 : x ≠ n := hcellsn x (by simp [spine_cells, hx])
              have h2 : x ≠ f.node := fun e => hfn2 (e ▸ hx)
              simp [h1, h2, hmem0 x h1, same_fwd_refl]
            · refine SpineRep_congr _ _ (fun x hx => ?_) f7
              have h1 : x ≠ n := hcellsn x (by simp [spine_cells, hx])
              have h2 : x ≠ f.node := fun e => hfn3 (e ▸ hx)
              simp [h1, h2, hmem0 x h1, same_fwd_refl]
          spine_up := by
            refine ⟨by simp [path, hnf], by simp, by simp, ?_⟩
            refine SpineUp_congr _ (fun x hx => ?_) hsu
            have h1 : x ≠ n := hun x hx
            by_cases h2 : x = f.node
            · subst h2; simp [h1, hmem0 _ h1]
            · simp [h1, h2, hmem0 x h1] }
    · -- the climb
      have hq : priority_for_op o ≤ priority_for_op f.op :=
        not_lt.mp (not_or.mp hprio).1
      obtain ⟨ap1, hap1⟩ : ∃ ap1, ap1 = poke ap0 n (fun nd =>
          { nd with tree_type := tree_binary, line_num := ap0.lex_linenum,
                    priority := priority_for_op o, op := o,
                    left := none, right := none, parent := none }) := ⟨_, rfl⟩
      have hm1 : ∀ x, x ≠ n → ap1.mem x = ap.mem x := by
        intro x hx; rw [hap1]; simp [hx, hmem0 x hx]
      have hb1 : ap1.brk = ap0.brk := by rw [hap1]; rfl
      have hRt1 : Rep ap1.mem (a_operand s.chain (ATree.leaf a k r)) :=
        Rep_congr _ (fun x hx => by
          rw [hm1 x (hcellsn x (List.mem_append_left _ hx))]; exact same_fwd_refl _) hRt
      have hsr1 : SpineRep ap1.mem (f :: fs)
          (some (a_operand s.chain (ATree.leaf a k r)).addr) :=
        SpineRep_congr _ _ (fun x hx => by
          rw [hm1 x (hcellsn x (List.mem_append_right _ hx))]; exact same_fwd_refl _)
          ⟨f1, f2, f3, f4, f5, f6, f7⟩
      have hsu1 : SpineUp ap1.mem (f :: fs) :=
        SpineUp_congr _ (fun x hx => by rw [hm1 x (hun x hx)]; exact ⟨rfl, rfl⟩) hsu
      have hlen : (ups (f :: fs)).length ≤ ap1.brk + 1 := by
        have := nodup_length_le hund (fun x hx => lt_of_lt_of_le (h.used_lt x (huu x hx)) hbrk)
        rw [hb1]; omega
      obtain ⟨L, D0, rest, hc, hL, hsub, hcase⟩ :=
        climb_spec n o fs f [] (a_operand s.chain (ATree.leaf a k r)) ap1.brk hRt1 hsr1 hsu1 hq hlen
      have hsubn : ∀ x ∈ L.cells ++ spine_cells rest, x ≠ n :=
        fun x hx => hcellsn x (hsub.subset hx)
      have hnd2 : (L.cells ++ spine_cells rest).Nodup := hcnd.sublist hsub
      have hLn : L.addr ≠ n := hsubn _ (List.mem_append_left _ (ATree.addr_mem_cells L))
      have hprio0 : ¬ (priority_for_op o > (ap0.mem f.node).priority ∨ priority_for_op o = 0) := by
        rw [hfp]; exact hprio
      have hfree2 : ∀ (ap2 : lily_ast_pool), ap2.available_current = ap0.available_current →
          (∀ x, x ∉ n :: used → ap2.mem x = ap0.mem x) →
          free_chain ap2.mem F1 ap2.available_current := by
        intro ap2 e1 e2
        rw [e1]
        refine free_chain_congr F1 _ (fun x hx => e2 x ?_) hfree1
        intro hxu
        exact huf2 x hxu hx
      have huc : ∀ x ∈ L.cells ++ spine_cells rest, x ∈ used :=
        fun x hx => h.cells_used x (by rw [hcells, hsp]; exact hsub.subset hx)
      rcases hcase with ⟨hr, ha, hp⟩ | ⟨g, gs, hr, ha, hp, hlt, hpth, hpr, hlst, hups, hgl, hsr2, hsu2⟩
      · -- the new tree becomes the root
        refine ⟨n, _, F1, rfl, push_binary_climb_root o hacq hact hfnn hap1 hbin hprio0 hc hp,
          hnu, ?_, by rw [hap1]; exact hsv0, by rw [hap1]; exact hsi0, by rw [hap1]; exact hss0⟩
        have hs1 : a_push_binary n o s = ⟨[⟨n, o, L, []⟩], [], none⟩ := by
          simp [a_push_binary, hatom, hsp, hprio, ha]
        rw [hs1]
        subst hr
        simp only [spine_cells, List.append_nil] at hsubn hnd2 huc
        have hnL : n ≠ L.addr := Ne.symm hLn
        have hfr := hfree2 _ (show (poke (poke ap1 L.addr (fun nd => { nd with parent := some n }))
            n (fun nd => { nd with left := some L.addr })).available_current
              = ap0.available_current by rw [hap1]; rfl) (fun x hx => by
                have h1 : x ≠ n := fun e => hx (e ▸ List.mem_cons_self _ _)
                have h2 : x ≠ L.addr := fun e => hx (List.mem_cons_of_mem _
                  (e ▸ huc _ (ATree.addr_mem_cells L)))
                rw [hap1]; simp [h1, h2])
        subst hap1
        exact
          { free := hfr
            free_nodup := hnd1
            free_lt := hlt1
            used_lt := hul1
            used_free := huf2
            cells_nodup := by
              simp only [Abs.cells, List.map_nil, Option.map_none', Option.toList_none,
                List.nil_append, spine_cells, List.append_nil]
              exact List.nodup_cons.mpr ⟨fun hx => hsubn n hx rfl, hnd2⟩
            cells_used := by
              intro x hx
              simp only [Abs.cells, List.map_nil, Option.map_none', Option.toList_none,
                List.nil_append, spine_cells, List.append_nil] at hx
              rcases List.mem_cons.mp hx with e | hx
              · rw [e]; exact List.mem_cons_self _ _
              · exact List.mem_cons_of_mem _ (huc x hx)
            ups_nodup := by simp [ups]
            ups_used := by simp [ups]
            active_eq := rfl
            root_eq := by simp [last_from]
            chain_rep := trivial
            atom_rep := by simp
            spine_rep := by
              refine ⟨by simp [hnL], by simp [hnL], by simp [hnL], by simp,
                by simp [hnL, operand_root], ?_, trivial⟩
              refine Rep_congr _ (fun x hx => ?_) hL
              have h1 : x ≠ n := hsubn x hx
              by_cases h2 : x = L.addr
              · subst h2; simp [h1, same_fwd]
              · simp [h1, h2, same_fwd_refl]
            spine_up := ⟨rfl, by simp [hnL]⟩ }
      · -- the new tree is spliced under `g`
        subst hr
        obtain ⟨r2, g1, g2, g3, g4, _, g6, g7⟩ := hsr2
        obtain ⟨_, _, hdisj⟩ := List.nodup_append.mp hnd2
        have hgleft : g.left.addr ∈ spine_cells (g :: gs) := by
          simp [spine_cells, ATree.addr_mem_cells]
        have hleft : (ap1.mem g.node).left ≠ some L.addr := by
          rw [g4]
          intro e
          exact hdisj (ATree.addr_mem_cells L) ((Option.some.inj e) ▸ hgleft)
        have htail : (ups (f :: fs)).tail = D0 ++ ups (g :: gs) := hups.symm
        have hupseq : ups (f :: fs) = f.node :: (D0 ++ ups (g :: gs)) := by
          rw [← htail]; simp [ups]
        have hund2 := hund
        rw [hupseq] at hund2
        obtain ⟨hfnt, htnd⟩ := List.nodup_cons.mp hund2
        have hgin : g.node ∈ D0 ++ ups (g :: gs) := by simp [ups]
        have hpa : g.node ≠ f.node := fun e => hfnt (e ▸ hgin)
        have htn : ∀ x ∈ D0 ++ ups (g :: gs), x ≠ n :=
          fun x hx => hun x (by rw [hupseq]; exact List.mem_cons_of_mem _ hx)
        have htu : ∀ x ∈ D0 ++ ups (g :: gs), x ∈ used :=
          fun x hx => huu x (by rw [hupseq]; exact List.mem_cons_of_mem _ hx)
        have hgn : g.node ≠ n := htn _ hgin
        have hng : n ≠ g.node := Ne.symm hgn
        have hfpar : (ap0.mem f.node).parent = (ap1.mem f.node).parent := by
          rw [hm1 _ hfnn, hmem0 _ hfnn]
        have hgnd := List.nodup_cons.mp (show (g.node :: (g.left.cells ++ spine_cells gs)).Nodup
          from (List.nodup_append.mp hnd2).2.1)
        have hgL : g.node ∉ L.cells := fun hx => hdisj hx (by simp [spine_cells])
        refine ⟨n, _, F1, rfl,
          push_binary_climb_splice o hacq hact hfnn hap1 hbin hprio0 hc hp hleft hpa,
          hnu, ?_, by rw [hap1]; exact hsv0, by rw [hap1]; exact hsi0, by rw [hap1]; exact hss0⟩
        have hs1 : a_push_binary n o s = ⟨⟨n, o, L, D0⟩ :: g :: gs, [], none⟩ := by
          simp [a_push_binary, hatom, hsp, hprio, ha]
        rw [hs1, hfpar]
        have hfr := hfree2 (poke (poke (poke ap1 g.node (fun nd => { nd with right := some n }))
            n (fun nd => { nd with parent := (ap1.mem f.node).parent }))
            n (fun nd => { nd with left := some L.addr }))
            (by rw [hap1]; rfl) (fun x hx => by
                have h1 : x ≠ n := fun e => hx (e ▸ List.mem_cons_self _ _)
                have h2 : x ≠ g.node := fun e => hx (List.mem_cons_of_mem _
                  (e ▸ htu _ hgin))
                rw [hap1]; simp [h1, h2])
        have hpar1 := path_head D0 hpth
        exact
          { free := hfr
            free_nodup := hnd1
            free_lt := by rw [hap1]; exact hlt1
            used_lt := by rw [hap1]; exact hul1
            used_free := huf2
            cells_nodup := by
              simp only [Abs.cells, List.map_nil, Option.map_none', Option.toList_none,
                List.nil_append]
              show (n :: (L.cells ++ spine_cells (g :: gs))).Nodup
              exact List.nodup_cons.mpr ⟨fun hx => hsubn n hx rfl, hnd2⟩
            cells_used := by
              intro x hx
              simp only [Abs.cells, List.map_nil, Option.map_none', Option.toList_none,
                List.nil_append] at hx
              rcases List.mem_cons.mp hx with e | hx
              · rw [e]; exact List.mem_cons_self _ _
              · exact List.mem_cons_of_mem _ (huc x hx)
            ups_nodup := by
              show (n :: (D0 ++ ups (g :: gs))).Nodup
              exact List.nodup_cons.mpr ⟨fun hx => htn n hx rfl, htnd⟩
            ups_used := by
              intro x hx
              rcases List.mem_cons.mp hx with e | hx
              · rw [e]; exact List.mem_cons_self _ _
              · exact List.mem_cons_of_mem _ (htu x hx)
            active_eq := rfl
            root_eq := by
              show ap1.root = some (last_from g gs).node
              rw [hgl, hap1]; exact hroot
            chain_rep := trivial
            atom_rep := by simp
            spine_rep := by
              refine ⟨by rw [hap1]; simp [hng], by rw [hap1]; simp [hng],
                by rw [hap1]; simp [hng], by simp,
                by rw [hap1]; simp [hng, operand_root], ?_, ?_, ?_, ?_, ?_, ?_, ?_, ?_⟩
              · refine Rep_congr _ (fun x hx => ?_) hL
                have h1 : x ≠ n := hsubn x (List.mem_append_left _ hx)
                have h2 : x ≠ g.node := fun e => hgL (e ▸ hx)
                simp [h1, h2, same_fwd_refl]
              · simp [hgn, g1]
              · simp [hgn, g2]
              · simp [hgn, g3]
              · simp [hgn, g4]
              · simp [hgn]
              · refine Rep_congr _ (fun x hx => ?_) g6
                have h1 : x ≠ n := hsubn x (by simp [spine_cells, hx])
                have h2 : x ≠ g.node := fun e => hgnd.1 (e ▸ List.mem_append_left _ hx)
                simp [h1, h2, same_fwd_refl]
              · refine SpineRep_congr _ _ (fun x hx => ?_) g7
                have h1 : x ≠ n := hsubn x (by simp [spine_cells, hx])
                have h2 : x ≠ g.node := fun e => hgnd.1 (e ▸ List.mem_append_right _ hx)
                simp [h1, h2, same_fwd_refl]
            spine_up := by
              refine ⟨path_of_parent D0 (by simp) (fun d hd => ?_) hpth, fun d hd => ?_,
                fun hne => ?_, SpineUp_congr _ (fun x hx => ?_) hsu2⟩
              · have h1 : d ≠ n := htn d (List.mem_append_left _ hd)
                by_cases h2 : d = g.node
                · subst h2; simp [h1]
                · simp [h1, h2]
              · have h1 : d ≠ n := htn d (List.mem_append_left _ hd)
                have := hpr d hd
                by_cases h2 : d = g.node
                · subst h2; simpa [h1] using this
                · simpa [h1, h2] using this
              · rw [last_from_of_ne_nil n f.node D0 hne]; exact hlst
              · have h1 : x ≠ n := htn x (List.mem_append_right _ hx)
                by_cases h2 : x = g.node
                · subst h2; simp [h1]
                · simp [h1, h2] }

theorem last_from_mem {α : Type} : ∀ (ds : List α) (x : α), last_from x ds ∈ x :: ds
  | [], x => List.mem_cons_self x []
  | d :: ds, x => List.mem_cons_of_mem x (last_from_mem ds d)

/-- Hanging `x` under the last unary of a chain. -/
theorem ChainRep_extend {mem mem1 : Nat → lily_ast} {x : Nat}
    (atom1 : Option (Nat × lily_tree_type × Option Nat)) (tl : List (Nat × lily_expr_op))
    (hroot : operand_root tl atom1 = some x) (htl : ChainRep mem1 atom1 tl) :
    ∀ (us : List (Nat × lily_expr_op)) (u : Nat × lily_expr_op),
      ChainRep mem none (u :: us) → ((u :: us).map (fun v => v.1)).Nodup →
      (∀ v ∈ u :: us, v.1 ≠ (last_from u us).1 → same_fwd (mem1 v.1) (mem v.1)) →
      (mem1 (last_from u us).1).tree_type = (mem (last_from u us).1).tree_type →
      (mem1 (last_from u us).1).op = (mem (last_from u us).1).op →
      (mem1 (last_from u us).1).priority = (mem (last_from u us).1).priority →
      (mem1 (last_from u us).1).left = some x →
      ChainRep mem1 atom1 (u :: us ++ tl)
  | [], u, h, _, _, e1, e2, e3, e4 => by
    obtain ⟨h1, h2, h3, _, _⟩ := h
    simp only [last_from] at e1 e2 e3 e4
    exact ⟨by rw [e1]; exact h1, by rw [e2]; exact h2, by rw [e3]; exact h3,
      by rw [e4]; exact hroot.symm, htl⟩
  | v :: vs, u, h, hnd, hsame, e1, e2, e3, e4 => by
    obtain ⟨h1, h2, h3, h4, h5⟩ := h
    simp only [List.map_cons, List.nodup_cons] at hnd
    have hlow : u.1 ≠ (last_from u (v :: vs)).1 := by
      intro e
      apply hnd.1
      have hm := last_from_mem vs v
      have : (last_from u (v :: vs)).1 ∈ (v :: vs).map (fun w => w.1) :=
        List.mem_map_of_mem (fun w => w.1) hm
      rw [← e] at this
      simpa using this
    obtain ⟨s1, _, s3, s4, s5, _⟩ := hsame u (List.mem_cons_self _ _) hlow
    refine ⟨by rw [s1]; exact h1, by rw [s3]; exact h2, by rw [s4]; exact h3, ?_, ?_⟩
    · rw [s5, h4]; rfl
    · exact ChainRep_extend atom1 tl hroot htl vs v h5
        (by simpa using hnd.2)
        (fun w hw hne => hsame w (List.mem_cons_of_mem _ hw) hne) e1 e2 e3 e4

theorem ChainRep_last_left {mem : Nat → lily_ast} :
    ∀ (us : List (Nat × lily_expr_op)) (u : Nat × lily_expr_op),
      ChainRep mem none (u :: us) → (mem (last_from u us).1).left = none
  | [], _, h => h.2.2.2.1
  | v :: vs, _, h => ChainRep_last_left vs v h.2.2.2.2

/-- merge_unary when the walk down the unary trees ends at a free `left`. -/
theorem merge_unary_descend {ap : lily_ast_pool} {act n a0 low : Nat}
    (hcond : ¬ (tree_rank tree_typecast ≤ tree_rank (ap.mem act).tree_type
      ∧ (ap.mem act).right = none))
    (hstart : (if tree_rank tree_typecast ≤ tree_rank (ap.mem act).tree_type then
        (ap.mem act).right else some act) = some a0)
    (hdesc : unary_descend ap.mem ap.brk a0 = some low)
    (hleft : (ap.mem low).left = none) :
    merge_unary ap act n = .ok
      (poke (poke ap low (fun nd => { nd with left := some n }))
        n (fun nd => { nd with parent := some low })) := by
  unfold merge_unary
  rw [if_neg hcond]
  simp only [hstart, hdesc, hleft]

/-- Putting the pieces of `Refines` together after a tree was put in the
operand slot. -/
theorem refines_operand {s s1 : Abs} {used F F1 : List Nat} {ap ap0 ap1 : lily_ast_pool}
    {n : Nat} (h : Refines s used F ap)
    (hnu : n ∉ used) (hnb : n < ap0.brk) (hbrk : ap.brk ≤ ap0.brk)
    (hfree1 : free_chain ap0.mem F1 ap0.available_current) (hnd1 : F1.Nodup)
    (hlt1 : ∀ x ∈ F1, x < ap0.brk) (hnF1 : n ∉ F1) (huf1 : ∀ u ∈ used, u ∉ F1)
    (hsp : s1.spine = s.spine)
    (hcells : s1.cells = s.chain.map (fun u => u.1) ++ n :: spine_cells s.spine)
    (hat : s.atom = none)
    (hb : ap1.brk = ap0.brk) (hav : ap1.available_current = ap0.available_current)
    (hmemF : ∀ x, x ∉ n :: used → ap1.mem x = ap0.mem x)
    (hact : ap1.active = (match s.spine with
      | f :: _ => some f.node
      | [] => operand_root s1.chain s1.atom))
    (hroot : ap1.root = (match s.spine with
      | f :: fs => some (last_from f fs).node
      | [] => operand_root s1.chain s1.atom))
    (hchain : ChainRep ap1.mem s1.atom s1.chain)
    (hatom : ∀ x ∈ s1.atom, (ap1.mem x.1).tree_type = x.2.1 ∧ (ap1.mem x.1).result = x.2.2
      ∧ tree_rank x.2.1 < tree_rank tree_unary)
    (hspine : SpineRep ap1.mem s.spine (operand_root s1.chain s1.atom))
    (hup : SpineUp ap1.mem s.spine) :
    Refines s1 (n :: used) F1 ap1 := by
  have hsc : s.cells = s.chain.map (fun u => u.1) ++ spine_cells s.spine := by
    simp [Abs.cells, hat]
  have hcnd := h.cells_nodup
  rw [hsc] at hcnd
  have hcn : n ∉ s.chain.map (fun u => u.1) ++ spine_cells s.spine :=
    fun hx => hnu (h.cells_used n (hsc ▸ hx))
  exact
    { free := by
        rw [hav]
        exact free_chain_congr F1 _ (fun x hx => hmemF x (fun hxu => by
          rcases List.mem_cons.mp hxu with e | hxu
          · exact hnF1 (e ▸ hx)
          · exact huf1 x hxu hx)) hfree1
      free_nodup := hnd1
      free_lt := by rw [hb]; exact hlt1
      used_lt := by
        intro u hu
        rw [hb]
        rcases List.mem_cons.mp hu with e | hu
        · rw [e]; exact hnb
        · exact lt_of_lt_of_le (h.used_lt u hu) hbrk
      used_free := by
        intro u hu
        rcases List.mem_cons.mp hu with e | hu
        · rw [e]; exact hnF1
        · exact huf1 u hu
      cells_nodup := by
        rw [hcells]
        exact List.nodup_middle.mpr (List.nodup_cons.mpr ⟨hcn, hcnd⟩)
      cells_used := by
        intro x hx
        rw [hcells] at hx
        rcases List.mem_append.mp hx with hx | hx
        · exact List.mem_cons_of_mem _ (h.cells_used x (hsc ▸ List.mem_append_left _ hx))
        · rcases List.mem_cons.mp hx with e | hx
          · rw [e]; exact List.mem_cons_self _ _
          · exact List.mem_cons_of_mem _ (h.cells_used x (hsc ▸ List.mem_append_right _ hx))
      ups_nodup := by rw [hsp]; exact h.ups_nodup
      ups_used := by
        intro x hx
        rw [hsp] at hx
        exact List.mem_cons_of_mem _ (h.ups_used x hx)
      active_eq := by rw [hsp]; exact hact
      root_eq := by rw [hsp]; exact hroot
      chain_rep := hchain
      atom_rep := hatom
      spine_rep := by rw [hsp]; exact hspine
      spine_up := by rw [hsp]; exact hup }

/-- The pool after a tree `n` was put in the operand slot. -/
theorem fill_refines {s : Abs} {used F F1 : List Nat} {ap ap0 ap2 : lily_ast_pool}
    {n : Nat} (h : Refines s used F ap) (hat : s.atom = none)
    (hnu : n ∉ used) (hnb : n < ap0.brk) (hbrk : ap.brk ≤ ap0.brk)
    (hfree1 : free_chain ap0.mem F1 ap0.available_current) (hnd1 : F1.Nodup)
    (hlt1 : ∀ x ∈ F1, x < ap0.brk) (hnF1 : n ∉ F1) (huf1 : ∀ u ∈ used, u ∉ F1)
    (hmem0 : ∀ x, x ≠ n → ap0.mem x = ap.mem x)
    (tl : List (Nat × lily_expr_op)) (atom1 : Option (Nat × lily_tree_type × Option Nat))
    (hb : ap2.brk = ap0.brk) (hav : ap2.available_current = ap0.available_current)
    (hact : ap2.active = if operand_slot s = none then some n else ap.active)
    (hroot : ap2.root = if operand_slot s = none then some n else ap.root)
    (hM : ∀ x, x ≠ n → some x ≠ operand_slot s → ap2.mem x = ap.mem x)
    (hS : ∀ y, operand_slot s = some y →
      (ap2.mem y).tree_type = (ap.mem y).tree_type ∧ (ap2.mem y).op = (ap.mem y).op
      ∧ (ap2.mem y).priority = (ap.mem y).priority ∧ (ap2.mem y).result = (ap.mem y).result
      ∧ (ap2.mem y).parent = (ap.mem y).parent
      ∧ (if s.chain = [] then (ap2.mem y).left = (ap.mem y).left ∧ (ap2.mem y).right = some n
          else (ap2.mem y).left = some n))
    (hN1 : ChainRep ap2.mem atom1 tl)
    (hN2 : ∀ x ∈ atom1, (ap2.mem x.1).tree_type = x.2.1 ∧ (ap2.mem x.1).result = x.2.2
      ∧ tree_rank x.2.1 < tree_rank tree_unary)
    (hN3 : operand_root tl atom1 = some n)
    (hN4 : tl.map (fun u => u.1) ++ (atom1.map (fun x => x.1)).toList = [n]) :
    Refines ⟨s.spine, s.chain ++ tl, atom1⟩ (n :: used) F1 ap2 := by
  have hsc : s.cells = s.chain.map (fun u => u.1) ++ spine_cells s.spine := by
    simp [Abs.cells, hat]
  have hcnd := h.cells_nodup
  rw [hsc] at hcnd
  have hcn : ∀ x ∈ s.chain.map (fun u => u.1) ++ spine_cells s.spine, x ≠ n :=
    fun x hx e => hnu (e ▸ h.cells_used x (hsc ▸ hx))
  have hun : ∀ x ∈ ups s.spine, x ≠ n := fun x hx e => hnu (e ▸ h.ups_used x hx)
  have hchain0 : ChainRep ap.mem none s.chain := hat ▸ h.chain_rep
  have hspine0 : SpineRep ap.mem s.spine (operand_root s.chain none) := hat ▸ h.spine_rep
  have hslotu : ∀ y, operand_slot s = some y → y ∈ used := by
    intro y hy
    unfold operand_slot at hy
    apply h.cells_used
    rw [hsc]
    cases hc : s.chain with
    | nil =>
      cases hs : s.spine with
      | nil => simp [hc, hs] at hy
      | cons f fs =>
        simp only [hc, hs, Option.some.injEq] at hy
        simp [← hy, spine_cells]
    | cons u us =>
      simp only [hc, Option.some.injEq] at hy
      rw [← hy]
      exact List.mem_append_left _ (List.mem_map_of_mem (fun v => v.1) (last_from_mem us u))
  have hup : SpineUp ap2.mem s.spine := by
    refine SpineUp_congr _ (fun x hx => ?_) h.spine_up
    have h1 : x ≠ n := hun x hx
    by_cases h2 : some x = operand_slot s
    · obtain ⟨_, _, e3, _, e5, _⟩ := hS x h2.symm
      exact ⟨e5, e3⟩
    · rw [hM x h1 h2]; exact ⟨rfl, rfl⟩
  refine refines_operand h hnu hnb hbrk hfree1 hnd1 hlt1 hnF1 huf1 rfl ?_ hat hb hav ?_ ?_ ?_
    ?_ hN2 ?_ hup
  · -- cells
    simp only [Abs.cells, List.map_append, List.append_assoc]
    rw [← List.append_assoc (List.map (fun u => u.1) tl), hN4]
    rfl
  · -- the chain of the pool
    intro x hx
    have h1 : x ≠ n := fun e => hx (e ▸ List.mem_cons_self _ _)
    have h2 : some x ≠ operand_slot s := fun e => hx (List.mem_cons_of_mem _ (hslotu x e.symm))
    rw [hM x h1 h2, hmem0 x h1]
  · -- active
    rw [hact]
    cases hs : s.spine with
    | nil =>
      cases hc : s.chain with
      | nil => simp [operand_slot, hs, hc, hN3]
      | cons u us =>
        have := h.active_eq
        rw [hs, hc] at this
        simp [operand_slot, hc, this, operand_root]
    | cons f fs =>
      have := h.active_eq
      rw [hs] at this
      cases hc : s.chain with
      | nil => simp [operand_slot, hs, hc, this]
      | cons u us => simp [operand_slot, hs, hc, this]
  · -- root
    rw [hroot]
    cases hs : s.spine with
    | nil =>
      cases hc : s.chain with
      | nil => simp [operand_slot, hs, hc, hN3]
      | cons u us =>
        have := h.root_eq
        rw [hs, hc] at this
        simp [operand_slot, hc, this, operand_root]
    | cons f fs =>
      have := h.root_eq
      rw [hs] at this
      cases hc : s.chain with
      | nil => simp [operand_slot, hs, hc, this]
      | cons u us => simp [operand_slot, hs, hc, this]
  · -- the unary chain
    show ChainRep ap2.mem atom1 (s.chain ++ tl)
    cases hc : s.chain with
    | nil => exact hN1
    | cons u us =>
      rw [hc] at hchain0 hcnd
      have hslot : operand_slot s = some (last_from u us).1 := by simp [operand_slot, hc]
      obtain ⟨e1, e2, e3, _, _, e6⟩ := hS _ hslot
      rw [if_neg (by simp [hc])] at e6
      refine ChainRep_extend atom1 tl hN3 hN1 us u hchain0
        (List.nodup_append.mp hcnd).1 (fun v hv hne => ?_) e1 e2 e3 e6
      have h1 : v.1 ≠ n := hcn v.1 (by
        rw [hc]; exact List.mem_append_left _ (List.mem_map_of_mem (fun w => w.1) hv))
      have h2 : some v.1 ≠ operand_slot s := by
        rw [hslot]; exact fun e => hne (Option.some.inj e)
      rw [hM v.1 h1 h2]
      exact same_fwd_refl _
  · -- the spine
    show SpineRep ap2.mem s.spine (operand_root (s.chain ++ tl) atom1)
    cases hc : s.chain with
    | nil =>
      rw [hc] at hspine0 hcnd
      simp only [List.nil_append, hN3]
      cases hs : s.spine with
      | nil => trivial
      | cons f fs =>
        rw [hs] at hspine0 hcnd hcn
        have hslot : operand_slot s = some f.node := by simp [operand_slot, hc, hs]
        obtain ⟨e1, e2, e3, _, _, e6⟩ := hS _ hslot
        rw [if_pos hc] at e6
        obtain ⟨f1, f2, f3, f4, _, f6, f7⟩ := hspine0
        simp only [List.map_nil, List.nil_append, spine_cells] at hcnd hcn
        obtain ⟨hfn, _⟩ := List.nodup_cons.mp hcnd
        refine ⟨by rw [e1]; exact f1, by rw [e2]; exact f2, by rw [e3]; exact f3,
          by rw [e6.1]; exact f4, e6.2, ?_, ?_⟩
        · refine Rep_congr _ (fun x hx => ?_) f6
          have h1 : x ≠ n := hcn x (by simp [hx])
          have h2 : some x ≠ operand_slot s := by
            rw [hslot]; exact fun e => hfn (List.mem_append_left _ (Option.some.inj e ▸ hx))
          rw [hM x h1 h2]; exact same_fwd_refl _
        · refine SpineRep_congr _ _ (fun x hx => ?_) f7
          have h1 : x ≠ n := hcn x (by simp [hx])
          have h2 : some x ≠ operand_slot s := by
            rw [hslot]; exact fun e => hfn (List.mem_append_right _ (Option.some.inj e ▸ hx))
          rw [hM x h1 h2]; exact same_fwd_refl _
    | cons u us =>
      rw [hc] at hspine0 hcnd
      have hslot : operand_slot s = some (last_from u us).1 := by simp [operand_slot, hc]
      have hroot1 : operand_root (u :: us ++ tl) atom1 = operand_root (u :: us) none := rfl
      rw [hroot1]
      refine SpineRep_congr _ _ (fun x hx => ?_) hspine0
      have h1 : x ≠ n := hcn x (by rw [hc]; exact List.mem_append_right _ hx)
      have h2 : some x ≠ operand_slot s := by
        rw [hslot]
        intro e
        have hlow : (last_from u us).1 ∈ (u :: us).map (fun v => v.1) :=
          List.mem_map_of_mem (fun v => v.1) (last_from_mem us u)
        exact (List.nodup_append.mp hcnd).2.2 hlow (Option.some.inj e ▸ hx)
      rw [hM x h1 h2]; exact same_fwd_refl _

theorem push_leaf_eq (ap : lily_ast_pool) (l : Leaf) :
    step ap l.push = merge_value (poke (acquire_tree ap).2 (acquire_tree ap).1 (fun nd =>
      { nd with tree_type := l.kind, line_num := (acquire_tree ap).2.lex_linenum,
                result := l.handle })) (acquire_tree ap).1 := by
  cases l <;> rfl

theorem leaf_rank (l : Leaf) : tree_rank l.kind < tree_rank tree_unary := by
  cases l <;> simp [Leaf.kind, tree_rank]

/-- merge_unary on a chain of unary trees whose last `left` is free. -/
theorem merge_unary_chain {s : Abs} {used F : List Nat} {ap ap1 : lily_ast_pool} {n : Nat}
    {u : Nat × lily_expr_op} {us : List (Nat × lily_expr_op)}
    (h : Refines s used F ap) (hat : s.atom = none) (hc : s.chain = u :: us)
    (hnu : n ∉ used) (hm1 : ∀ x, x ≠ n → ap1.mem x = ap.mem x) (hb1 : ap.brk ≤ ap1.brk) :
    merge_unary ap1 (match s.spine with
        | f :: _ => f.node
        | [] => u.1) n
      = .ok (poke (poke ap1 (last_from u us).1 (fun nd => { nd with left := some n }))
          n (fun nd => { nd with parent := some (last_from u us).1 })) := by
  have hsc : s.cells = s.chain.map (fun u => u.1) ++ spine_cells s.spine := by
    simp [Abs.cells, hat]
  have hcn : ∀ x ∈ s.cells, x ≠ n := fun x hx e => hnu (e ▸ h.cells_used x hx)
  have hchain0 : ChainRep ap.mem none (u :: us) := by
    have := h.chain_rep; rw [hat, hc] at this; exact this
  have hchain1 : ChainRep ap1.mem none (u :: us) :=
    ChainRep_congr none _ (fun v hv => by
      rw [hm1 v.1 (hcn v.1 (by
        rw [hsc, hc]; exact List.mem_append_left _ (List.mem_map_of_mem (fun w => w.1) hv)))]
      exact same_fwd_refl _) hchain0
  have hlen : us.length ≤ ap1.brk := by
    have hnd : ((u :: us).map (fun v => v.1)).Nodup := by
      have := h.cells_nodup
      rw [hsc, hc] at this
      exact (List.nodup_append.mp this).1
    have := nodup_length_le hnd (fun x hx => lt_of_lt_of_le (h.used_lt x (h.cells_used x (by
      rw [hsc, hc]; exact List.mem_append_left _ hx))) hb1)
    simp only [List.length_map, List.length_cons] at this
    omega
  have hdesc := @unary_descend_chain ap1.mem none (by simp) us u ap1.brk
    hchain1 hlen
  have hleft := ChainRep_last_left us u hchain1
  have hu1 : (ap1.mem u.1).tree_type = tree_unary := hchain1.1
  cases hs : s.spine with
  | nil =>
    refine @merge_unary_descend ap1 _ n u.1 _ ?_ ?_ hdesc hleft
    · simp [hu1, tree_rank]
    · simp [hu1, tree_rank]
  | cons f fs =>
    have hsr := h.spine_rep
    rw [hs, hat, hc] at hsr
    have hfn : f.node ≠ n := hcn _ (by rw [hsc, hs]; simp [spine_cells])
    have hf1 : (ap1.mem f.node).tree_type = tree_binary := by rw [hm1 _ hfn]; exact hsr.1
    have hf5 : (ap1.mem f.node).right = some u.1 := by rw [hm1 _ hfn]; exact hsr.2.2.2.2.1
    refine @merge_unary_descend ap1 _ n u.1 _ ?_ ?_ hdesc hleft
    · simp [hf5]
    · simp [hf1, hf5, tree_rank]

/-- merge_value on a chain of unary trees goes to merge_unary. -/
theorem merge_value_chain {s : Abs} {used F : List Nat} {ap ap1 : lily_ast_pool} {n : Nat}
    {u : Nat × lily_expr_op} {us : List (Nat × lily_expr_op)}
    (h : Refines s used F ap) (hat : s.atom = none) (hc : s.chain = u :: us)
    (hnu : n ∉ used) (hm1 : ∀ x, x ≠ n → ap1.mem x = ap.mem x)
    (hact1 : ap1.active = ap.active) :
    merge_value ap1 n = merge_unary ap1 (match s.spine with
        | f :: _ => f.node
        | [] => u.1) n := by
  have hsc : s.cells = s.chain.map (fun u => u.1) ++ spine_cells s.spine := by
    simp [Abs.cells, hat]
  have hcn : ∀ x ∈ s.cells, x ≠ n := fun x hx e => hnu (e ▸ h.cells_used x hx)
  have hchain0 : ChainRep ap.mem none (u :: us) := by
    have := h.chain_rep; rw [hat, hc] at this; exact this
  have hun : u.1 ≠ n := hcn u.1 (by rw [hsc, hc]; simp)
  have hu1 : (ap1.mem u.1).tree_type = tree_unary := by rw [hm1 _ hun]; exact hchain0.1
  have hact := h.active_eq
  unfold merge_value
  cases hs : s.spine with
  | nil =>
    rw [hs, hc] at hact
    simp [hact1, hact, operand_root, hu1, tree_rank]
  | cons f fs =>
    rw [hs] at hact
    have hsr := h.spine_rep
    rw [hs, hat, hc] at hsr
    have hfn : f.node ≠ n := hcn _ (by rw [hsc, hs]; simp [spine_cells])
    have hf1 : (ap1.mem f.node).tree_type = tree_binary := by rw [hm1 _ hfn]; exact hsr.1
    have hf5 : (ap1.mem f.node).right = some u.1 := by rw [hm1 _ hfn]; exact hsr.2.2.2.2.1
    simp [hact1, hact, hf1, hf5, hu1, tree_rank]

/-- A value push keeps the pool in step: the leaf becomes the atom of the
operand. -/
theorem push_leaf_refines {s : Abs} {used F : List Nat} {ap : lily_ast_pool} (l : Leaf)
    (h : Refines s used F ap) (hat : s.atom = none) :
    ∃ n ap2 F1, n = (acquire_tree ap).1 ∧ step ap l.push = .ok ap2 ∧ n ∉ used
      ∧ Refines ⟨s.spine, s.chain, some (n, l.kind, l.handle)⟩ (n :: used) F1 ap2
      ∧ (∀ u us, s.chain = u :: us → (ap2.mem n).parent = some (last_from u us).1)
      ∧ ap2.saved_trees = ap.saved_trees ∧ ap2.save_index = ap.save_index
      ∧ ap2.save_size = ap.save_size := by
  rcases hacq : acquire_tree ap with ⟨n, ap0⟩
  obtain ⟨hnu, hnb, hbrk, hmem0, hact0, hroot0, hsv0, hsi0, hss0, _, F1, hfree1, hnd1, hlt1,
    hnF1, huf1⟩ := acquire_spec hacq h.free h.free_nodup h.free_lt h.used_lt h.used_free
  have heq := push_leaf_eq ap l
  rw [hacq] at heq
  simp only at heq
  obtain ⟨ap1, hap1⟩ : ∃ ap1, ap1 = poke ap0 n (fun nd =>
      { nd with tree_type := l.kind, line_num := ap0.lex_linenum, result := l.handle }) :=
    ⟨_, rfl⟩
  rw [← hap1] at heq
  have hm1 : ∀ x, x ≠ n → ap1.mem x = ap.mem x := by
    intro x hx; rw [hap1]; simp [hx, hmem0 x hx]
  have hn1 : (ap1.mem n).tree_type = l.kind ∧ (ap1.mem n).result = l.handle := by
    rw [hap1]; simp
  have hb1 : ap1.brk = ap0.brk := by rw [hap1]; rfl
  have hav1 : ap1.available_current = ap0.available_current := by rw [hap1]; rfl
  have hact1 : ap1.active = ap.active := by rw [hap1]; exact hact0
  have hroot1 : ap1.root = ap.root := by rw [hap1]; exact hroot0
  have hsv1 : ap1.saved_trees = ap.saved_trees ∧ ap1.save_index = ap.save_index
      ∧ ap1.save_size = ap.save_size := by rw [hap1]; exact ⟨hsv0, hsi0, hss0⟩
  have hsc : s.cells = s.chain.map (fun u => u.1) ++ spine_cells s.spine := by
    simp [Abs.cells, hat]
  have hcn : ∀ x ∈ s.cells, x ≠ n := fun x hx e => hnu (e ▸ h.cells_used x hx)
  have key : ∀ ap2 : lily_ast_pool, ap2.brk = ap0.brk →
      ap2.available_current = ap0.available_current →
      (ap2.active = if operand_slot s = none then some n else ap.active) →
      (ap2.root = if operand_slot s = none then some n else ap.root) →
      (∀ x, x ≠ n → some x ≠ operand_slot s → ap2.mem x = ap.mem x) →
      (∀ y, operand_slot s = some y →
        (ap2.mem y).tree_type = (ap.mem y).tree_type ∧ (ap2.mem y).op = (ap.mem y).op
        ∧ (ap2.mem y).priority = (ap.mem y).priority ∧ (ap2.mem y).result = (ap.mem y).result
        ∧ (ap2.mem y).parent = (ap.mem y).parent
        ∧ (if s.chain = [] then (ap2.mem y).left = (ap.mem y).left ∧ (ap2.mem y).right = some n
            else (ap2.mem y).left = some n)) →
      ((ap2.mem n).tree_type = l.kind ∧ (ap2.mem n).result = l.handle) →
      Refines ⟨s.spine, s.chain, some (n, l.kind, l.handle)⟩ (n :: used) F1 ap2 := by
    intro ap2 e1 e2 e3 e4 e5 e6 e7
    have := fill_refines h hat hnu hnb hbrk hfree1 hnd1 hlt1 hnF1 huf1 hmem0 []
      (some (n, l.kind, l.handle)) e1 e2 e3 e4 e5 e6 trivial
      (by intro x hx; simp at hx; subst hx; exact ⟨e7.1, e7.2, leaf_rank l⟩) rfl rfl
    simpa using this
  cases hc : s.chain with
  | nil =>
    cases hs : s.spine with
    | nil =>
      have hslot : operand_slot s = none := by simp [operand_slot, hc, hs]
      have ha := h.active_eq
      have hr := h.root_eq
      rw [hs, hc, hat] at ha hr
      have hmv : merge_value ap1 n = .ok { ap1 with root := some n, active := some n } := by
        unfold merge_value
        simp [hact1, ha, hroot1, hr, operand_root]
      refine ⟨n, _, F1, rfl, heq.trans hmv, hnu, ?_, (fun _ _ e => by simp [hc] at e), hsv1⟩
      rw [← hs, ← hc]
      exact key { ap1 with root := some n, active := some n } hb1 hav1 (by simp [hslot])
        (by simp [hslot])
        (fun x hx _ => hm1 x hx) (by simp [hslot]) hn1
    | cons f fs =>
      have hslot : operand_slot s = some f.node := by simp [operand_slot, hc, hs]
      have ha := h.active_eq
      rw [hs] at ha
      have hsr := h.spine_rep
      rw [hs, hat, hc] at hsr
      have hfn : f.node ≠ n := hcn _ (by rw [hsc, hs]; simp [spine_cells])
      have hf1 : (ap1.mem f.node).tree_type = tree_binary := by rw [hm1 _ hfn]; exact hsr.1
      have hf5 : (ap1.mem f.node).right = none := by rw [hm1 _ hfn]; exact hsr.2.2.2.2.1
      have hmv : merge_value ap1 n
          = .ok (poke ap1 f.node (fun nd => { nd with right := some n })) := by
        unfold merge_value
        simp [hact1, ha, hf1, hf5, tree_rank]
      refine ⟨n, _, F1, rfl, heq.trans hmv, hnu, ?_, (fun _ _ e => by simp [hc] at e), hsv1⟩
      rw [← hs, ← hc]
      refine key (poke ap1 f.node (fun nd => { nd with right := some n })) hb1 hav1
        (by simp [hslot, hact1]) (by simp [hslot, hroot1])
        (fun x hx hy => ?_) (fun y hy => ?_) (by simp [Ne.symm hfn, hn1])
      · have : x ≠ f.node := fun e => hy (by rw [hslot, e])
        simp [this, hm1 x hx]
      · rw [hslot] at hy
        have := Option.some.inj hy
        subst this
        simp [hc, hm1 _ hfn]
  | cons u us =>
    have hslot : operand_slot s = some (last_from u us).1 := by simp [operand_slot, hc]
    have hlown : (last_from u us).1 ≠ n := hcn _ (by
      rw [hsc, hc]
      exact List.mem_append_left _ (List.mem_map_of_mem (fun w => w.1) (last_from_mem us u)))
    have hmv := (merge_value_chain h hat hc hnu hm1 hact1).trans
      (merge_unary_chain h hat hc hnu hm1 (by rw [hb1]; exact hbrk))
    refine ⟨n, _, F1, rfl, heq.trans hmv, hnu, ?_, (fun u1 us1 e => by
        simp only [hc, List.cons.injEq] at e
        rw [← e.1, ← e.2]; simp), hsv1⟩
    rw [← hc]
    refine key (poke (poke ap1 (last_from u us).1 (fun nd => { nd with left := some n }))
        n (fun nd => { nd with parent := some (last_from u us).1 })) hb1 hav1
      (by simp [hslot, hact1]) (by simp [hslot, hroot1])
      (fun x hx hy => ?_) (fun y hy => ?_) (by simp [Ne.symm hlown, hn1])
    · have : x ≠ (last_from u us).1 := fun e => hy (by rw [hslot, e])
      simp [this, hx, hm1 x hx]
    · rw [hslot] at hy
      have := Option.some.inj hy
      subst this
      simp [hc, hlown, hm1 _ hlown]

/-- lily_ast_push_unary_op keeps the pool in step: the unary goes to the end of
the chain of the operand. -/
theorem push_unary_refines {s : Abs} {used F : List Nat} {ap : lily_ast_pool}
    (o : lily_expr_op) (h : Refines s used F ap) (hat : s.atom = none) :
    ∃ n ap2 F1, n = (acquire_tree ap).1 ∧ lily_ast_push_unary_op ap o = .ok ap2
      ∧ n ∉ used
      ∧ Refines ⟨s.spine, s.chain ++ [(n, o)], none⟩ (n :: used) F1 ap2
      ∧ (∀ u us, s.chain = u :: us → (ap2.mem n).parent = some (last_from u us).1)
      ∧ ap2.saved_trees = ap.saved_trees ∧ ap2.save_index = ap.save_index
      ∧ ap2.save_size = ap.save_size := by
  rcases hacq : acquire_tree ap with ⟨n, ap0⟩
  obtain ⟨hnu, hnb, hbrk, hmem0, hact0, hroot0, hsv0, hsi0, hss0, _, F1, hfree1, hnd1, hlt1,
    hnF1, huf1⟩ := acquire_spec hacq h.free h.free_nodup h.free_lt h.used_lt h.used_free
  obtain ⟨ap1, hap1⟩ : ∃ ap1, ap1 = poke ap0 n (fun nd =>
      { nd with left := none, line_num := ap0.lex_linenum, tree_type := tree_unary,
                priority := priority_for_op o, op := o }) := ⟨_, rfl⟩
  have heq : lily_ast_push_unary_op ap o = (match ap0.active with
      | some active =>
        if (ap1.mem active).tree_type = tree_var ∨ (ap1.mem active).tree_type = tree_local_var
            ∨ (ap1.mem active).tree_type = tree_call
            ∨ (ap1.mem active).tree_type = tree_literal then
          .ok { poke ap1 active (fun nd => { nd with parent := some n }) with
                active := some n, root := some n }
        else merge_unary ap1 active n
      | none => .ok { ap1 with active := some n, root := some n }) := by
    unfold lily_ast_push_unary_op
    rw [hacq, hap1]
  have hm1 : ∀ x, x ≠ n → ap1.mem x = ap.mem x := by
    intro x hx; rw [hap1]; simp [hx, hmem0 x hx]
  have hn1 : (ap1.mem n).tree_type = tree_unary ∧ (ap1.mem n).op = o
      ∧ (ap1.mem n).priority = priority_for_op o ∧ (ap1.mem n).left = none := by
    rw [hap1]; simp
  have hb1 : ap1.brk = ap0.brk := by rw [hap1]; rfl
  have hav1 : ap1.available_current = ap0.available_current := by rw [hap1]; rfl
  have hact1 : ap1.active = ap.active := by rw [hap1]; exact hact0
  have hroot1 : ap1.root = ap.root := by rw [hap1]; exact hroot0
  have hsv1 : ap1.saved_trees = ap.saved_trees ∧ ap1.save_index = ap.save_index
      ∧ ap1.save_size = ap.save_size := by rw [hap1]; exact ⟨hsv0, hsi0, hss0⟩
  have hsc : s.cells = s.chain.map (fun u => u.1) ++ spine_cells s.spine := by
    simp [Abs.cells, hat]
  have hcn : ∀ x ∈ s.cells, x ≠ n := fun x hx e => hnu (e ▸ h.cells_used x hx)
  have key : ∀ ap2 : lily_ast_pool, ap2.brk = ap0.brk →
      ap2.available_current = ap0.available_current →
      (ap2.active = if operand_slot s = none then some n else ap.active) →
      (ap2.root = if operand_slot s = none then some n else ap.root) →
      (∀ x, x ≠ n → some x ≠ operand_slot s → ap2.mem x = ap.mem x) →
      (∀ y, operand_slot s = some y →
        (ap2.mem y).tree_type = (ap.mem y).tree_type ∧ (ap2.mem y).op = (ap.mem y).op
        ∧ (ap2.mem y).priority = (ap.mem y).priority ∧ (ap2.mem y).result = (ap.mem y).result
        ∧ (ap2.mem y).parent = (ap.mem y).parent
        ∧ (if s.chain = [] then (ap2.mem y).left = (ap.mem y).left ∧ (ap2.mem y).right = some n
            else (ap2.mem y).left = some n)) →
      ((ap2.mem n).tree_type = tree_unary ∧ (ap2.mem n).op = o
        ∧ (ap2.mem n).priority = priority_for_op o ∧ (ap2.mem n).left = none) →
      Refines ⟨s.spine, s.chain ++ [(n, o)], none⟩ (n :: used) F1 ap2 := by
    intro ap2 e1 e2 e3 e4 e5 e6 e7
    exact fill_refines h hat hnu hnb hbrk hfree1 hnd1 hlt1 hnF1 huf1 hmem0 [(n, o)]
      none e1 e2 e3 e4 e5 e6 ⟨e7.1, e7.2.1, e7.2.2.1, e7.2.2.2, trivial⟩
      (by intro x hx; simp at hx) rfl rfl
  cases hc : s.chain with
  | nil =>
    cases hs : s.spine with
    | nil =>
      have hslot : operand_slot s = none := by simp [operand_slot, hc, hs]
      have ha := h.active_eq
      rw [hs, hc, hat] at ha
      have hmv : lily_ast_push_unary_op ap o
          = .ok { ap1 with active := some n, root := some n } := by
        rw [heq, hact0, ha]; rfl
      have hk := key { ap1 with active := some n, root := some n } hb1 hav1 (by simp [hslot])
        (by simp [hslot]) (fun x hx _ => hm1 x hx) (by simp [hslot]) hn1
      rw [hs, hc] at hk
      exact ⟨n, _, F1, rfl, hmv, hnu, hk, (fun _ _ e => by simp [hc] at e), hsv1⟩
    | cons f fs =>
      have hslot : operand_slot s = some f.node := by simp [operand_slot, hc, hs]
      have ha := h.active_eq
      rw [hs] at ha
      have hsr := h.spine_rep
      rw [hs, hat, hc] at hsr
      have hfn : f.node ≠ n := hcn _ (by rw [hsc, hs]; simp [spine_cells])
      have hf1 : (ap1.mem f.node).tree_type = tree_binary := by rw [hm1 _ hfn]; exact hsr.1
      have hf5 : (ap1.mem f.node).right = none := by rw [hm1 _ hfn]; exact hsr.2.2.2.2.1
      have hmv : lily_ast_push_unary_op ap o
          = .ok (poke (poke ap1 f.node (fun nd => { nd with right := some n }))
              n (fun nd => { nd with parent := some f.node })) := by
        rw [heq, hact0, ha]
        simp only [hf1]
        unfold merge_unary
        simp [hf1, hf5, tree_rank]
      have hk : Refines ⟨s.spine, s.chain ++ [(n, o)], none⟩ (n :: used) F1
          (poke (poke ap1 f.node (fun nd => { nd with right := some n }))
            n (fun nd => { nd with parent := some f.node })) := by
        refine key (poke (poke ap1 f.node (fun nd => { nd with right := some n }))
            n (fun nd => { nd with parent := some f.node })) hb1 hav1
          (by simp [hslot, hact1]) (by simp [hslot, hroot1])
          (fun x hx hy => ?_) (fun y hy => ?_) (by simp [Ne.symm hfn, hn1])
        · have : x ≠ f.node := fun e => hy (by rw [hslot, e])
          simp [this, hx, hm1 x hx]
        · rw [hslot] at hy
          have := Option.some.inj hy
          subst this
          simp [hc, hfn, hm1 _ hfn]
      rw [hs, hc] at hk
      exact ⟨n, _, F1, rfl, hmv, hnu, hk, (fun _ _ e => by simp [hc] at e), hsv1⟩
  | cons u us =>
    have hslot : operand_slot s = some (last_from u us).1 := by simp [operand_slot, hc]
    have hlown : (last_from u us).1 ≠ n := hcn _ (by
      rw [hsc, hc]
      exact List.mem_append_left _ (List.mem_map_of_mem (fun w => w.1) (last_from_mem us u)))
    have hchain0 : ChainRep ap.mem none (u :: us) := by
      have := h.chain_rep; rw [hat, hc] at this; exact this
    have hun : u.1 ≠ n := hcn u.1 (by rw [hsc, hc]; simp)
    have hu1 : (ap1.mem u.1).tree_type = tree_unary := by rw [hm1 _ hun]; exact hchain0.1
    have hmu := merge_unary_chain h hat hc hnu hm1 (by rw [hb1]; exact hbrk)
    have hmv : lily_ast_push_unary_op ap o
        = .ok (poke (poke ap1 (last_from u us).1 (fun nd => { nd with left := some n }))
          n (fun nd => { nd with parent := some (last_from u us).1 })) := by
      rw [heq, hact0, ← hmu]
      have ha := h.active_eq
      cases hs : s.spine with
      | nil =>
        rw [hs, hc] at ha
        simp [ha, operand_root, hu1]
      | cons f fs =>
        rw [hs] at ha
        have hsr := h.spine_rep
        rw [hs, hat, hc] at hsr
        have hfn : f.node ≠ n := hcn _ (by rw [hsc, hs]; simp [spine_cells])
        have hf1 : (ap1.mem f.node).tree_type = tree_binary := by rw [hm1 _ hfn]; exact hsr.1
        simp [ha, hf1]
    refine ⟨n, _, F1, rfl, hmv, hnu, ?_, (fun u1 us1 e => by
        simp only [hc, List.cons.injEq] at e
        rw [← e.1, ← e.2]; simp), hsv1⟩
    rw [← hc]
    refine key (poke (poke ap1 (last_from u us).1 (fun nd => { nd with left := some n }))
        n (fun nd => { nd with parent := some (last_from u us).1 })) hb1 hav1
      (by simp [hslot, hact1]) (by simp [hslot, hroot1])
      (fun x hx hy => ?_) (fun y hy => ?_) (by simp [Ne.symm hlown, hn1])
    · have : x ≠ (last_from u us).1 := fun e => hy (by rw [hslot, e])
      simp [this, hx, hm1 x hx]
    · rw [hslot] at hy
      have := Option.some.inj hy
      subst this
      simp [hc, hlown, hm1 _ hlown]

/-- A freshly reset pool is in the empty state. -/
theorem reset_refines {ap : lily_ast_pool} (h : pool_ok ap) :
    ∃ F, Refines ⟨[], [], none⟩ [] F (lily_ast_reset_pool ap) := by
  obtain ⟨F, h1, h2, h3⟩ := h
  exact ⟨F,
    { free := h1
      free_nodup := h2
      free_lt := h3
      used_lt := by simp
      used_free := by simp
      cells_nodup := by simp [Abs.cells, spine_cells]
      cells_used := by simp [Abs.cells, spine_cells]
      ups_nodup := by simp [ups]
      ups_used := by simp [ups]
      active_eq := rfl
      root_eq := rfl
      chain_rep := trivial
      atom_rep := by simp
      spine_rep := trivial
      spine_up := trivial }⟩

theorem a_operand_shape (t : ATree) :
    ∀ chain : List (Nat × lily_expr_op),
      (a_operand chain t).shape = s_operand (chain.map (fun u => u.2)) t.shape
  | [] => rfl
  | u :: us => by simp [a_operand, s_operand, ATree.shape, a_operand_shape t us]

theorem a_close_shape :
    ∀ (fs : List Frame) (inner : ATree),
      (a_close fs inner).shape = s_close (fs.map Frame.shape) inner.shape
  | [], _ => rfl
  | f :: fs, inner => by
    simp [a_close, s_close, a_close_shape fs, ATree.shape, Frame.shape]

theorem a_climb_shape (q : Int) (n : Nat) (o : lily_expr_op) :
    ∀ (fs : List Frame) (f : Frame) (acc : List Nat) (inner : ATree),
      (a_climb q n o acc inner f fs).map Frame.shape
        = s_climb q o inner.shape f.shape (fs.map Frame.shape) (!acc.isEmpty)
  | [], f, acc, inner => by
    simp [a_climb, s_climb, Frame.shape, ATree.shape]
  | g :: gs, f, acc, inner => by
    by_cases hq : q > priority_for_op g.op
    · have hq1 : q > priority_for_op (Frame.shape g).op := hq
      simp only [a_climb, s_climb, List.map_cons, if_pos hq, if_pos hq1]
      cases hd : f.detour <;> cases hacc : acc <;>
        simp [Frame.shape, ATree.shape, hd]
    · have hq1 : ¬ q > priority_for_op (Frame.shape g).op := hq
      simp only [a_climb, s_climb, List.map_cons, if_neg hq, if_neg hq1]
      rw [a_climb_shape q n o gs g _ _]
      have hne : (!(acc ++ f.detour ++ [g.node]).isEmpty) = true := by
        cases acc <;> cases f.detour <;> rfl
      rw [hne]
      simp [Frame.shape, ATree.shape]

theorem a_push_binary_shape (n : Nat) (o : lily_expr_op) (s : Abs) (ss : SState)
    (h : s_step s.shape (Op.push_binary_op o) = some ss) :
    (a_push_binary n o s).shape = ss := by
  unfold s_step at h
  cases hat : s.atom with
  | none => simp [Abs.shape, hat] at h
  | some x =>
    obtain ⟨a, k, r⟩ := x
    cases hs : s.spine with
    | nil =>
      simp only [Abs.shape, hat, hs, Option.map_some', List.map_nil, Option.some.injEq] at h
      rw [← h]
      simp [a_push_binary, hat, hs, Abs.shape, Frame.shape, a_operand_shape, ATree.shape]
    | cons f fs =>
      simp only [Abs.shape, hat, hs, Option.map_some', List.map_cons] at h
      by_cases hp : priority_for_op o > priority_for_op f.op ∨ priority_for_op o = 0
      · have hp1 : priority_for_op o > priority_for_op (Frame.shape f).op
            ∨ priority_for_op o = 0 := hp
        rw [if_pos hp1] at h
        simp only [Option.some.injEq] at h
        rw [← h]
        simp [a_push_binary, hat, hs, hp, Abs.shape, Frame.shape, a_operand_shape, ATree.shape]
      · have hp1 : ¬ (priority_for_op o > priority_for_op (Frame.shape f).op
            ∨ priority_for_op o = 0) := hp
        rw [if_neg hp1] at h
        simp only [Option.some.injEq] at h
        rw [← h]
        simp only [a_push_binary, hat, hs, hp, if_false, Abs.shape, List.map_nil,
          Option.map_none']
        rw [a_climb_shape]
        simp [a_operand_shape, ATree.shape]

theorem Rep_tree_at {mem : Nat → lily_ast} :
    ∀ t : ATree, Rep mem t → tree_at mem t.shape (some t.addr)
  | ATree.leaf _ _ _, h => h
  | ATree.unary a _ t, h => by
    obtain ⟨h1, h2, h3, h4, h5⟩ := h
    exact ⟨h1, h2, h3, by
      show tree_at mem t.shape (mem a).left
      rw [h4]; exact Rep_tree_at t h5⟩
  | ATree.binary a _ l r, h => by
    obtain ⟨h1, h2, h3, h4, h5, h6, h7⟩ := h
    exact ⟨h1, h2, h3, by
      show tree_at mem l.shape (mem a).left
      rw [h4]; exact Rep_tree_at l h6, by
      show tree_at mem r.shape (mem a).right
      rw [h5]; exact Rep_tree_at r h7⟩

theorem Rep_close {mem : Nat → lily_ast} :
    ∀ (fs : List Frame) (inner : ATree), Rep mem inner → SpineRep mem fs (some inner.addr) →
      Rep mem (a_close fs inner)
  | [], _, h, _ => h
  | f :: fs, inner, h, hs => by
    obtain ⟨h1, h2, h3, h4, h5, h6, h7⟩ := hs
    exact Rep_close fs _ ⟨h1, h2, h3, h4, h5, h6, h⟩ h7

theorem a_close_addr :
    ∀ (fs : List Frame) (f : Frame) (inner : ATree),
      (a_close (f :: fs) inner).addr = (last_from f fs).node
  | [], _, _ => rfl
  | g :: gs, _, _ => a_close_addr gs g _

/-- The tree of a complete expression is in the memory under `root`. -/
theorem refines_tree {s : Abs} {used F : List Nat} {ap : lily_ast_pool} {t : Tree}
    (h : Refines s used F ap) (ht : s.shape.tree = some t) : tree_at ap.mem t ap.root := by
  cases hat : s.atom with
  | none => simp [SState.tree, Abs.shape, hat] at ht
  | some x =>
    obtain ⟨a, k, r⟩ := x
    have hatr := h.atom_rep (a, k, r) (by simp [hat])
    have hchain : ChainRep ap.mem (some (a, k, r)) s.chain := hat ▸ h.chain_rep
    obtain ⟨hRt, htaddr, _⟩ := operand_rep hatr.1 hatr.2.1 hatr.2.2 s.chain hchain
    have hsr := h.spine_rep
    rw [hat, ← htaddr] at hsr
    have hR := Rep_close s.spine _ hRt hsr
    have hroot : ap.root = some (a_close s.spine (a_operand s.chain (ATree.leaf a k r))).addr := by
      rw [h.root_eq]
      cases hs : s.spine with
      | nil => simp [a_close, hat, htaddr]
      | cons f fs => simp [a_close_addr]
    have hshape : t = (a_close s.spine (a_operand s.chain (ATree.leaf a k r))).shape := by
      simp only [SState.tree, Abs.shape, hat, Option.map_some', Option.some.injEq] at ht
      rw [← ht, a_close_shape, a_operand_shape]
      rfl
    rw [hroot, hshape]
    exact Rep_tree_at _ hR

/-- The builder follows the builder on shapes on every well-formed operator
expression. -/
theorem run_refines :
    ∀ (ops : List Op) (s : Abs) (used F : List Nat) (ap : lily_ast_pool) (ss : SState),
      Refines s used F ap → s_run ops s.shape = some ss →
      ∃ ap1 s1 used1 F1, run ops ap = .ok ap1 ∧ Refines s1 used1 F1 ap1 ∧ s1.shape = ss
        ∧ ap1.saved_trees = ap.saved_trees ∧ ap1.save_index = ap.save_index
        ∧ ap1.save_size = ap.save_size
  | [], s, used, F, ap, ss, h, hr => by
    simp only [s_run, Option.some.injEq] at hr
    exact ⟨ap, s, used, F, rfl, h, hr, rfl, rfl, rfl⟩
  | op :: ops, s, used, F, ap, ss, h, hr => by
    simp only [s_run] at hr
    cases hst : s_step s.shape op with
    | none => simp [hst] at hr
    | some s1 =>
      rw [hst] at hr
      simp only at hr
      have hnone : ∀ {α : Type} (c : Prop) [Decidable c] (x : α) (y : SState),
          (if c then some y else none) = some s1 → c ∧ y = s1 := by
        intro α c _ x y hy
        by_cases hc : c
        · rw [if_pos hc] at hy; exact ⟨hc, Option.some.inj hy⟩
        · rw [if_neg hc] at hy; exact absurd hy (by simp)
      have hatom : s.shape.atom = none → s.atom = none := by
        intro e
        cases hat : s.atom with
        | none => rfl
        | some x => simp [Abs.shape, hat] at e
      have step_ok : ∀ (ap1 : lily_ast_pool) (s2 : Abs) (used1 F1 : List Nat),
          step ap op = .ok ap1 → Refines s2 used1 F1 ap1 → s2.shape = s1 →
          ap1.saved_trees = ap.saved_trees ∧ ap1.save_index = ap.save_index
            ∧ ap1.save_size = ap.save_size →
          ∃ ap2 s3 used2 F2, run (op :: ops) ap = .ok ap2 ∧ Refines s3 used2 F2 ap2
            ∧ s3.shape = ss ∧ ap2.saved_trees = ap.saved_trees
            ∧ ap2.save_index = ap.save_index ∧ ap2.save_size = ap.save_size := by
        intro ap1 s2 used1 F1 e1 e2 e3 e4
        obtain ⟨ap2, s3, used2, F2, r1, r2, r3, r4, r5, r6⟩ :=
          run_refines ops s2 used1 F1 ap1 ss e2 (by rw [e3]; exact hr)
        refine ⟨ap2, s3, used2, F2, ?_, r2, r3, r4.trans e4.1, r5.trans e4.2.1,
          r6.trans e4.2.2⟩
        simp only [run, e1]
        exact r1
      cases op with
      | push_sym r =>
        obtain ⟨hc, hy⟩ := hnone _ () _ hst
        obtain ⟨n, ap1, F1, _, e1, _, e2, _, e4⟩ := push_leaf_refines (Leaf.sym r) h (hatom hc)
        exact step_ok ap1 _ _ F1 e1 e2 (by rw [← hy]; rfl) e4
      | push_literal r =>
        obtain ⟨hc, hy⟩ := hnone _ () _ hst
        obtain ⟨n, ap1, F1, _, e1, _, e2, _, e4⟩ := push_leaf_refines (Leaf.literal r) h (hatom hc)
        exact step_ok ap1 _ _ F1 e1 e2 (by rw [← hy]; rfl) e4
      | push_local_var r =>
        obtain ⟨hc, hy⟩ := hnone _ () _ hst
        obtain ⟨n, ap1, F1, _, e1, _, e2, _, e4⟩ := push_leaf_refines (Leaf.local_var r) h (hatom hc)
        exact step_ok ap1 _ _ F1 e1 e2 (by rw [← hy]; rfl) e4
      | push_unary_op o =>
        obtain ⟨hc, hy⟩ := hnone _ () _ hst
        obtain ⟨n, ap1, F1, _, e1, _, e2, _, e4⟩ := push_unary_refines o h (hatom hc)
        refine step_ok ap1 _ _ F1 e1 e2 ?_ e4
        rw [← hy]
        simp [Abs.shape, hatom hc]
      | push_binary_op o =>
        have hat : s.atom ≠ none := by
          intro e
          simp [s_step, Abs.shape, e] at hst
        obtain ⟨n, ap1, F1, _, e1, _, e2, e4⟩ := push_binary_refines o h hat
        exact step_ok ap1 _ _ F1 e1 e2 (a_push_binary_shape n o s s1 hst) e4
      | push_sig _ => simp [s_step] at hst
      | push_empty_list _ => simp [s_step] at hst
      | enter_tree _ _ => simp [s_step] at hst
      | collect_arg => simp [s_step] at hst
      | leave_tree => simp [s_step] at hst
      | reset_pool => simp [s_step] at hst

theorem s_step_leaf (s : SState) (l : Leaf) :
    s_step s l.push
      = if s.atom = none then some { s with atom := some (l.kind, l.handle) } else none := by
  cases l <;> rfl

/-- From the builder on shapes to the pool: a well-formed operator expression
on a freshly reset pool ends with its tree under `root`. -/
theorem ends_with_tree {ap : lily_ast_pool} (hp : pool_ok ap) {ops : List Op} (ss : SState)
    {t : Tree} (hr : s_run ops SState.empty = some ss) (ht : ss.tree = some t) :
    ends_with ops (lily_ast_reset_pool ap) (fun ap1 => tree_at ap1.mem t ap1.root) := by
  obtain ⟨F, h0⟩ := reset_refines hp
  obtain ⟨ap1, s1, used1, F1, e1, e2, e3, _⟩ :=
    run_refines ops ⟨[], [], none⟩ [] F _ ss h0 hr
  unfold ends_with
  rw [e1]
  exact refines_tree e2 (by rw [e3]; exact ht)

theorem s_step_leaf_lit (spine : List SFrame) (chain : List lily_expr_op) (l : Leaf) :
    s_step ⟨spine, chain, none⟩ l.push = some ⟨spine, chain, some (l.kind, l.handle)⟩ := by
  cases l <;> rfl

theorem s_step_unary_lit (spine : List SFrame) (chain : List lily_expr_op) (o : lily_expr_op) :
    s_step ⟨spine, chain, none⟩ (Op.push_unary_op o) = some ⟨spine, chain ++ [o], none⟩ := rfl

theorem s_step_binary_nil (chain : List lily_expr_op) (k : lily_tree_type) (r : Option Nat)
    (o : lily_expr_op) :
    s_step ⟨[], chain, some (k, r)⟩ (Op.push_binary_op o)
      = some ⟨[⟨o, s_operand chain (Tree.leaf k r), false⟩], [], none⟩ := rfl

theorem s_step_binary_cons (f : SFrame) (fs : List SFrame) (chain : List lily_expr_op)
    (k : lily_tree_type) (r : Option Nat) (o : lily_expr_op) :
    s_step ⟨f :: fs, chain, some (k, r)⟩ (Op.push_binary_op o)
      = if priority_for_op o > priority_for_op f.op ∨ priority_for_op o = 0 then
          some ⟨⟨o, s_operand chain (Tree.leaf k r), false⟩ :: f :: fs, [], none⟩
        else some ⟨s_climb (priority_for_op o) o (s_operand chain (Tree.leaf k r)) f fs false,
          [], none⟩ := rfl

theorem three_operand_shape (a b c : Leaf) (op1 op2 : lily_expr_op) :
    ∃ ss, s_run [a.push, Op.push_binary_op op1, b.push, Op.push_binary_op op2, c.push]
        SState.empty = some ss
      ∧ ss.tree = some
        (if priority_for_op op2 > priority_for_op op1 ∨ priority_for_op op2 = 0 then
          Tree.binary op1 a.tree (Tree.binary op2 b.tree c.tree)
        else Tree.binary op2 (Tree.binary op1 a.tree b.tree) c.tree) := by
  by_cases hp : priority_for_op op2 > priority_for_op op1 ∨ priority_for_op op2 = 0
  · refine ⟨⟨[⟨op2, b.tree, false⟩, ⟨op1, a.tree, false⟩], [], some (c.kind, c.handle)⟩, ?_, ?_⟩
    · simp only [s_run, SState.empty, s_step_leaf_lit, s_step_binary_nil, s_step_binary_cons,
        if_pos hp, s_operand, Leaf.tree]
    · simp [SState.tree, s_close, s_operand, hp, Leaf.tree]
  · refine ⟨⟨[⟨op2, Tree.binary op1 a.tree b.tree, false⟩], [], some (c.kind, c.handle)⟩,
      ?_, ?_⟩
    · simp only [s_run, SState.empty, s_step_leaf_lit, s_step_binary_nil, s_step_binary_cons,
        if_neg hp, s_operand, s_climb, Leaf.tree]
    · simp [SState.tree, s_close, s_operand, hp, Leaf.tree]

/-- The addresses `n - 1, ..., 0`. -/
theorem new_pool_chain (mem : Nat → lily_ast) :
    ∀ n : Nat, ∃ F : List Nat, free_chain (new_pool_trees mem n).1 F (new_pool_trees mem n).2
      ∧ F.Nodup ∧ ∀ a ∈ F, a < n
  | 0 => ⟨[], rfl, List.nodup_nil, by simp⟩
  | i + 1 => by
    obtain ⟨F, h1, h2, h3⟩ := new_pool_chain mem i
    refine ⟨i :: F, ⟨rfl, ?_⟩, List.nodup_cons.mpr ⟨fun h => lt_irrefl _ (h3 i h), h2⟩, ?_⟩
    · simp only [new_pool_trees, if_true]
      refine free_chain_congr F _ (fun x hx => ?_) h1
      have : x ≠ i := fun e => lt_irrefl _ (e ▸ h3 x hx)
      simp [this]
    · intro a ha
      rcases List.mem_cons.mp ha with e | ha
      · omega
      · exact Nat.lt_succ_of_lt (h3 a ha)

/-- lily_new_ast_pool makes a pool whose chain is in order. -/
theorem new_pool_ok (mem : Nat → lily_ast) (buf : Nat → Option Nat) (line n : Nat) :
    pool_ok (lily_new_ast_pool mem buf line n) :=
  new_pool_chain mem n

theorem example_pool_ok : pool_ok example_pool := new_pool_ok _ _ _ _

theorem walk_right_succ (mem : Nat → lily_ast) :
    ∀ (k : Nat) (p : Option Nat) (a : Nat), walk_right mem k p = some a →
      walk_right mem (k + 1) p = (mem a).right
  | 0, _, a, h => by
    simp only [walk_right] at h
    subst h
    rfl
  | k + 1, none, a, h => by simp [walk_right] at h
  | k + 1, some b, a, h => by
    simp only [walk_right] at h ⊢
    exact walk_right_succ mem k _ a h

theorem spine_walk {mem : Nat → lily_ast} :
    ∀ (fs : List Frame) (f : Frame) (r : Option Nat), SpineRep mem (f :: fs) r →
      walk_right mem fs.length (some (last_from f fs).node) = some f.node
  | [], _, _, _ => rfl
  | g :: gs, f, r, h => by
    have h1 := spine_walk gs g (some f.node) h.2.2.2.2.2.2
    have h2 := walk_right_succ mem _ _ _ h1
    rw [h.2.2.2.2.2.2.2.2.2.2.1] at h2
    exact h2

/-- In a pool that follows a state, `active` is reached from `root` by going
right once for each binary of the spine but the first. -/
theorem refines_active {s : Abs} {used F : List Nat} {ap : lily_ast_pool}
    (h : Refines s used F ap) :
    walk_right ap.mem (s.spine.length - 1) ap.root = ap.active := by
  rw [h.root_eq, h.active_eq]
  cases hs : s.spine with
  | nil => rfl
  | cons f fs =>
    have := h.spine_rep
    rw [hs] at this
    simpa using spine_walk fs f _ this

/-- From the builder on shapes to the pool, with the place of `active`. -/
theorem ends_with_shape {ap : lily_ast_pool} (hp : pool_ok ap) (ops : List Op) (ss : SState)
    (t : Tree) (hr : s_run ops SState.empty = some ss) (ht : ss.tree = some t) :
    ends_with ops (lily_ast_reset_pool ap) (fun ap1 => tree_at ap1.mem t ap1.root
      ∧ walk_right ap1.mem (ss.spine.length - 1) ap1.root = ap1.active) := by
  obtain ⟨F, h0⟩ := reset_refines hp
  obtain ⟨ap1, s1, used1, F1, e1, e2, e3, _⟩ :=
    run_refines ops ⟨[], [], none⟩ [] F _ ss h0 hr
  unfold ends_with
  rw [e1]
  refine ⟨refines_tree e2 (by rw [e3]; exact ht), ?_⟩
  have := refines_active e2
  rw [← e3]
  simpa [Abs.shape] using this

theorem s_run_append : ∀ (xs ys : List Op) (s : SState),
    s_run (xs ++ ys) s = (s_run xs s).bind (s_run ys)
  | [], _, _ => rfl
  | x :: xs, ys, s => by
    simp only [List.cons_append, s_run]
    cases s_step s x with
    | none => rfl
    | some s1 => exact s_run_append xs ys s1

/-- Operators of one non-zero priority on shapes: each climbs to the root. -/
theorem left_shape (p : Int) (hp0 : p ≠ 0) :
    ∀ (rest : List (lily_expr_op × Leaf)) (spine : List SFrame) (k : lily_tree_type)
      (r : Option Nat),
      (spine = [] ∨ ∃ o1 L, spine = [⟨o1, L, false⟩] ∧ priority_for_op o1 = p) →
      (∀ x ∈ rest, priority_for_op x.1 = p) →
      ∃ ss, s_run (rest.flatMap (fun q => [Op.push_binary_op q.1, q.2.push]))
          ⟨spine, [], some (k, r)⟩ = some ss
        ∧ ss.tree = some (left_nested (s_close spine (Tree.leaf k r)) rest)
  | [], spine, k, r, _, _ => ⟨_, rfl, rfl⟩
  | x :: rest, spine, k, r, hsp, hall => by
    have hx : priority_for_op x.1 = p := hall x (List.mem_cons_self _ _)
    have hstep : s_step ⟨spine, [], some (k, r)⟩ (Op.push_binary_op x.1)
        = some ⟨[⟨x.1, s_close spine (Tree.leaf k r), false⟩], [], none⟩ := by
      rcases hsp with e | ⟨o1, L, e, ho⟩
      · subst e; rfl
      · subst e
        have hc : ¬ (priority_for_op x.1 > priority_for_op o1 ∨ priority_for_op x.1 = 0) := by
          rw [hx, ho]
          simp [hp0]
        simp only [s_step_binary_cons, if_neg hc, s_climb, s_operand, s_close]
    obtain ⟨ss, h1, h2⟩ := left_shape p hp0 rest [⟨x.1, s_close spine (Tree.leaf k r), false⟩]
      x.2.kind x.2.handle (Or.inr ⟨_, _, rfl, hx⟩)
      (fun y hy => hall y (List.mem_cons_of_mem _ hy))
    refine ⟨ss, ?_, ?_⟩
    · simp only [List.flatMap_cons, List.cons_append, List.nil_append, s_run, hstep,
        s_step_leaf_lit]
      exact h1
    · rw [h2]
      rfl

/-- Operators of priority 0 on shapes: each steals the right operand. -/
theorem right_shape :
    ∀ (rest : List (lily_expr_op × Leaf)) (spine : List SFrame) (v0 : Leaf),
      (∀ x ∈ rest, priority_for_op x.1 = 0) →
      ∃ ss, s_run (rest.flatMap (fun q => [Op.push_binary_op q.1, q.2.push]))
          ⟨spine, [], some (v0.kind, v0.handle)⟩ = some ss
        ∧ ss.tree = some (s_close spine (right_nested v0 rest))
        ∧ ss.spine.length = spine.length + rest.length
  | [], spine, v0, _ => ⟨_, rfl, rfl, rfl⟩
  | x :: rest, spine, v0, hall => by
    have hx : priority_for_op x.1 = 0 := hall x (List.mem_cons_self _ _)
    have hstep : s_step ⟨spine, [], some (v0.kind, v0.handle)⟩ (Op.push_binary_op x.1)
        = some ⟨⟨x.1, v0.tree, false⟩ :: spine, [], none⟩ := by
      cases spine with
      | nil => rfl
      | cons f fs =>
        simp only [s_step_binary_cons, hx, or_true, if_true, s_operand, Leaf.tree]
    obtain ⟨ss, h1, h2, h3⟩ := right_shape rest (⟨x.1, v0.tree, false⟩ :: spine) x.2
      (fun y hy => hall y (List.mem_cons_of_mem _ hy))
    refine ⟨ss, ?_, ?_, ?_⟩
    · simp only [List.flatMap_cons, List.cons_append, List.nil_append, s_run, hstep,
        s_step_leaf_lit]
      exact h1
    · rw [h2]
      rfl
    · rw [h3]
      simp only [List.length_cons]
      omega

/-- Unary operators on shapes: each goes to the end of the chain. -/
theorem unary_shape (a : Leaf) :
    ∀ (us chain : List lily_expr_op),
      s_run (us.map Op.push_unary_op ++ [a.push]) ⟨[], chain, none⟩
        = some ⟨[], chain ++ us, some (a.kind, a.handle)⟩
  | [], chain => by
    simp only [List.map_nil, List.nil_append, s_run, s_step_leaf_lit, List.append_nil]
  | u :: us, chain => by
    have ih := unary_shape a us (chain ++ [u])
    simp only [List.map_cons, List.cons_append, s_run, s_step_unary_lit]
    simpa using ih

theorem ends_with_mono {ops : List Op} {ap : lily_ast_pool} {P Q : lily_ast_pool → Prop}
    (hpq : ∀ x, P x → Q x) (h : ends_with ops ap P) : ends_with ops ap Q := by
  unfold ends_with at h ⊢
  cases hr : run ops ap with
  | error e => rw [hr] at h; exact h
  | ok ap1 => rw [hr] at h; exact hpq ap1 h

/-- The tree under a pointer is determined by the memory. -/
theorem tree_at_unique {mem : Nat → lily_ast} :
    ∀ (t t1 : Tree) (p : Option Nat), tree_at mem t p → tree_at mem t1 p → t = t1
  | _, _, none, h, _ => absurd h (by simp [tree_at])
  | Tree.leaf k r, Tree.leaf k1 r1, some a, h, h1 => by
    obtain ⟨e1, e2, _⟩ := h
    obtain ⟨e3, e4, _⟩ := h1
    rw [← e1, ← e2, ← e3, ← e4]
  | Tree.leaf k r, Tree.unary _ _, some a, h, h1 => by
    obtain ⟨e1, _, e3⟩ := h
    rw [← e1, h1.1] at e3
    exact absurd e3 (by decide)
  | Tree.leaf k r, Tree.binary _ _ _, some a, h, h1 => by
    obtain ⟨e1, _, e3⟩ := h
    rw [← e1, h1.1] at e3
    exact absurd e3 (by decide)
  | Tree.unary _ _, Tree.leaf k r, some a, h, h1 => by
    obtain ⟨e1, _, e3⟩ := h1
    rw [← e1, h.1] at e3
    exact absurd e3 (by decide)
  | Tree.unary o t, Tree.unary o1 t1, some a, h, h1 => by
    obtain ⟨_, e2, _, e4⟩ := h
    obtain ⟨_, f2, _, f4⟩ := h1
    rw [← e2, ← f2, tree_at_unique t t1 _ e4 f4]
  | Tree.unary _ _, Tree.binary _ _ _, some a, h, h1 => by
    have := h.1
    rw [h1.1] at this
    exact absurd this (by decide)
  | Tree.binary _ _ _, Tree.leaf k r, some a, h, h1 => by
    obtain ⟨e1, _, e3⟩ := h1
    rw [← e1, h.1] at e3
    exact absurd e3 (by decide)
  | Tree.binary _ _ _, Tree.unary _ _, some a, h, h1 => by
    have := h.1
    rw [h1.1] at this
    exact absurd this (by decide)
  | Tree.binary o l r, Tree.binary o1 l1 r1, some a, h, h1 => by
    obtain ⟨_, e2, _, e4, e5⟩ := h
    obtain ⟨_, f2, _, f4, f5⟩ := h1
    rw [← e2, ← f2, tree_at_unique l l1 _ e4 f4, tree_at_unique r r1 _ e5 f5]

theorem root_prio_operand (k : lily_tree_type) (r : Option Nat) :
    ∀ chain : List lily_expr_op, root_prio (s_operand chain (Tree.leaf k r)) = none
  | [] => rfl
  | _ :: _ => rfl

theorem prec_ok_operand (k : lily_tree_type) (r : Option Nat) :
    ∀ chain : List lily_expr_op, prec_ok (s_operand chain (Tree.leaf k r))
  | [] => trivial
  | _ :: us => prec_ok_operand k r us

/-- A spine in order closes to a tree in order. -/
theorem close_ok :
    ∀ (spine : List SFrame) (inner : Tree), spine_ok spine → prec_ok inner →
      (∀ f, spine.head? = some f → ∀ c, root_prio inner = some c →
        priority_for_op f.op < c ∨ c = 0) →
      prec_ok (s_close spine inner)
  | [], _, _, h, _ => h
  | f :: fs, inner, hs, h, hr => by
    obtain ⟨h1, h2, h3, h4⟩ := hs
    refine close_ok fs _ h4 ⟨h2, hr f rfl, h1, h⟩ ?_
    intro g hg c hc
    simp only [root_prio, Option.some.injEq] at hc
    rw [← hc]
    exact h3 g hg

/-- The climb keeps the spine in order. -/
theorem climb_ok (q : Int) (o : lily_expr_op) (hq0 : q ≠ 0) (hqo : q = priority_for_op o) :
    ∀ (fs : List SFrame) (f : SFrame) (inner : Tree) (w : Bool),
      spine_ok (f :: fs) → prec_ok inner →
      (∀ c, root_prio inner = some c → priority_for_op f.op < c ∨ c = 0) →
      q ≤ priority_for_op f.op →
      spine_ok (s_climb q o inner f fs w)
  | [], f, inner, w, hs, hin, hr, hq => by
    obtain ⟨h1, h2, _, _⟩ := hs
    refine ⟨⟨h2, hr, h1, hin⟩, ?_, by simp, trivial⟩
    intro c hc
    simp only [root_prio, Option.some.injEq] at hc
    rw [← hc, ← hqo]
    rcases lt_or_eq_of_le hq with h | h
    · exact Or.inl h
    · exact Or.inr ⟨h, hq0⟩
  | g :: gs, f, inner, w, hs, hin, hr, hq => by
    obtain ⟨h1, h2, h3, h4⟩ := hs
    by_cases hb : q > priority_for_op g.op
    · simp only [s_climb, if_pos hb]
      refine ⟨?_, ?_, ?_, h4⟩
      · by_cases hd : f.detoured = true
        · simp only [hd, if_true]; exact h1
        · simp [hd]; exact ⟨h2, hr, h1, hin⟩
      · intro c hc
        rw [← hqo]
        by_cases hd : f.detoured = true
        · simp only [hd, if_true] at hc
          have hfc : priority_for_op f.op ≤ c := by
            rcases h2 c hc with h | h
            · exact le_of_lt h
            · exact le_of_eq h.1
          rcases lt_or_eq_of_le (le_trans hq hfc) with h | h
          · exact Or.inl h
          · exact Or.inr ⟨h, hq0⟩
        · simp [hd, root_prio] at hc
          subst hc
          rcases lt_or_eq_of_le hq with h | h
          · exact Or.inl h
          · exact Or.inr ⟨h, hq0⟩
      · intro g1 hg1
        simp only [List.head?_cons, Option.some.injEq] at hg1
        rw [← hg1, ← hqo]
        exact Or.inl hb
    · simp only [s_climb, if_neg hb]
      refine climb_ok q o hq0 hqo gs g _ true h4 ⟨h2, hr, h1, hin⟩ ?_ (not_lt.mp hb)
      intro c hc
      simp only [root_prio, Option.some.injEq] at hc
      rw [← hc]
      exact h3 g rfl

/-- Every call of an operator expression keeps the spine in order. -/
theorem step_ok (s s1 : SState) (op : Op) (hs : spine_ok s.spine)
    (h : s_step s op = some s1) : spine_ok s1.spine := by
  have hite : ∀ (c : Prop) [Decidable c] (y : SState),
      (if c then some y else none) = some s1 → y = s1 := by
    intro c _ y hy
    by_cases hc : c
    · rw [if_pos hc] at hy; exact Option.some.inj hy
    · rw [if_neg hc] at hy; exact absurd hy (by simp)
  cases op with
  | push_sym r => rw [← hite _ _ h]; exact hs
  | push_literal r => rw [← hite _ _ h]; exact hs
  | push_local_var r => rw [← hite _ _ h]; exact hs
  | push_unary_op o => rw [← hite _ _ h]; exact hs
  | push_binary_op o =>
    obtain ⟨spine, chain, atom⟩ := s
    cases atom with
    | none => simp [s_step] at h
    | some x =>
      obtain ⟨k, r⟩ := x
      cases spine with
      | nil =>
        rw [s_step_binary_nil] at h
        rw [← Option.some.inj h]
        exact ⟨prec_ok_operand k r chain, by simp [root_prio_operand], by simp, trivial⟩
      | cons f fs =>
        rw [s_step_binary_cons] at h
        by_cases hp : priority_for_op o > priority_for_op f.op ∨ priority_for_op o = 0
        · rw [if_pos hp] at h
          rw [← Option.some.inj h]
          refine ⟨prec_ok_operand k r chain, by simp [root_prio_operand], ?_, hs⟩
          intro g hg
          simp only [List.head?_cons, Option.some.injEq] at hg
          rw [← hg]
          exact hp
        · rw [if_neg hp] at h
          rw [← Option.some.inj h]
          obtain ⟨hp1, hp2⟩ := not_or.mp hp
          exact climb_ok _ o hp2 rfl fs f _ false hs (prec_ok_operand k r chain)
            (by simp [root_prio_operand]) (not_lt.mp hp1)
  | push_sig _ => simp [s_step] at h
  | push_empty_list _ => simp [s_step] at h
  | enter_tree _ _ => simp [s_step] at h
  | collect_arg => simp [s_step] at h
  | leave_tree => simp [s_step] at h
  | reset_pool => simp [s_step] at h

theorem run_ok : ∀ (ops : List Op) (s ss : SState), spine_ok s.spine →
    s_run ops s = some ss → spine_ok ss.spine
  | [], s, ss, hs, h => by
    simp only [s_run, Option.some.injEq] at h
    rw [← h]; exact hs
  | op :: ops, s, ss, hs, h => by
    simp only [s_run] at h
    cases hst : s_step s op with
    | none => simp [hst] at h
    | some s1 =>
      rw [hst] at h
      exact run_ok ops s1 ss (step_ok s s1 op hs hst) h

/-- The tree of an operator expression is in order. -/
theorem tree_ok (ops : List Op) (ss : SState) (t : Tree)
    (h : s_run ops SState.empty = some ss) (ht : ss.tree = some t) : prec_ok t := by
  have hs := run_ok ops SState.empty ss trivial h
  obtain ⟨spine, chain, atom⟩ := ss
  cases atom with
  | none => simp [SState.tree] at ht
  | some x =>
    obtain ⟨k, r⟩ := x
    simp only [SState.tree, Option.some.injEq] at ht
    rw [← ht]
    exact close_ok spine _ hs (prec_ok_operand k r chain) (by simp [root_prio_operand])

/-- Values and binary operators in turn always go through on shapes. -/
theorem alternating_runs :
    ∀ (rest : List (lily_expr_op × Leaf)) (spine : List SFrame) (chain : List lily_expr_op)
      (k : lily_tree_type) (r : Option Nat),
      ∃ ss t, s_run (rest.flatMap (fun q => [Op.push_binary_op q.1, q.2.push]))
          ⟨spine, chain, some (k, r)⟩ = some ss ∧ ss.tree = some t
  | [], spine, chain, k, r => ⟨_, _, rfl, rfl⟩
  | x :: rest, spine, chain, k, r => by
    have hstep : ∃ sp, s_step ⟨spine, chain, some (k, r)⟩ (Op.push_binary_op x.1)
        = some ⟨sp, [], none⟩ := by
      cases spine with
      | nil => exact ⟨_, rfl⟩
      | cons f fs =>
        rw [s_step_binary_cons]
        by_cases hp : priority_for_op x.1 > priority_for_op f.op ∨ priority_for_op x.1 = 0
        · rw [if_pos hp]; exact ⟨_, rfl⟩
        · rw [if_neg hp]; exact ⟨_, rfl⟩
    obtain ⟨sp, hsp⟩ := hstep
    obtain ⟨ss, t, h1, h2⟩ := alternating_runs rest sp [] x.2.kind x.2.handle
    refine ⟨ss, t, ?_, h2⟩
    simp only [List.flatMap_cons, List.cons_append, List.nil_append, s_run, hsp,
      s_step_leaf_lit]
    exact h1

theorem run_append : ∀ (xs ys : List Op) (ap : lily_ast_pool),
    run (xs ++ ys) ap = (match run xs ap with
      | .ok ap1 => run ys ap1
      | .error e => .error e)
  | [], _, _ => rfl
  | x :: xs, ys, ap => by
    simp only [List.cons_append, run]
    cases step ap x with
    | error e => rfl
    | ok ap1 => exact run_append xs ys ap1

theorem run_append_ok {xs ys : List Op} {ap ap1 : lily_ast_pool} (h : run xs ap = .ok ap1) :
    run (xs ++ ys) ap = run ys ap1 := by
  rw [run_append, h]

theorem arg_chain_open {mem : Nat → lily_ast} :
    ∀ (rs : List Nat) (p : Option Nat), arg_chain mem rs p → open_chain mem rs p
  | [], _, h => h
  | [_], _, h => h.1
  | _ :: r2 :: rs, _, h => ⟨h.1, arg_chain_open (r2 :: rs) _ h.2⟩

theorem last_from_ne_head {a : Nat} {rs : List Nat} (b : Nat) (hnd : (a :: b :: rs).Nodup) :
    a ≠ last_from a (b :: rs) := by
  intro e
  have hm : last_from a (b :: rs) ∈ b :: rs := last_from_mem rs b
  rw [← e] at hm
  exact (List.nodup_cons.mp hnd).1 hm

theorem open_chain_congr {mem mem1 : Nat → lily_ast} :
    ∀ (rs : List Nat) (a : Nat) (p : Option Nat), (a :: rs).Nodup →
      (∀ r ∈ a :: rs, r ≠ last_from a rs → (mem1 r).next_arg = (mem r).next_arg) →
      open_chain mem (a :: rs) p → open_chain mem1 (a :: rs) p
  | [], _, _, _, _, h => h
  | b :: rs, a, p, hnd, hag, h => by
    refine ⟨h.1, ?_⟩
    rw [hag a (List.mem_cons_self _ _) (last_from_ne_head b hnd)]
    exact open_chain_congr rs b _ (List.nodup_cons.mp hnd).2
      (fun r hr hrl => hag r (List.mem_cons_of_mem _ hr) hrl) h.2

/-- Linking `t` after the last tree of an argument chain. -/
theorem open_chain_snoc {mem mem1 : Nat → lily_ast} {t : Nat}
    (ht : (mem1 t).next_arg = none) :
    ∀ (rs : List Nat) (a : Nat) (p : Option Nat), open_chain mem (a :: rs) p →
      (a :: rs).Nodup →
      (∀ r ∈ a :: rs, r ≠ last_from a rs → (mem1 r).next_arg = (mem r).next_arg) →
      (mem1 (last_from a rs)).next_arg = some t →
      arg_chain mem1 (a :: rs ++ [t]) p
  | [], a, p, h, _, _, hl => ⟨h, by
      show arg_chain mem1 [t] (mem1 a).next_arg
      rw [show (mem1 a).next_arg = some t from hl]
      exact ⟨rfl, ht⟩⟩
  | b :: rs, a, p, h, hnd, hag, hl => by
    refine ⟨h.1, ?_⟩
    show arg_chain mem1 (b :: rs ++ [t]) (mem1 a).next_arg
    rw [hag a (List.mem_cons_self _ _) (last_from_ne_head b hnd)]
    exact open_chain_snoc ht rs b _ h.2 (List.nodup_cons.mp hnd).2
      (fun r hr hrl => hag r (List.mem_cons_of_mem _ hr) hrl) hl

/-- Ending an argument chain at its last tree. -/
theorem open_chain_close {mem mem1 : Nat → lily_ast} :
    ∀ (rs : List Nat) (a : Nat) (p : Option Nat), open_chain mem (a :: rs) p →
      (a :: rs).Nodup →
      (∀ r ∈ a :: rs, r ≠ last_from a rs → (mem1 r).next_arg = (mem r).next_arg) →
      (mem1 (last_from a rs)).next_arg = none →
      arg_chain mem1 (a :: rs) p
  | [], _, _, h, _, _, hl => ⟨h, hl⟩
  | b :: rs, a, p, h, hnd, hag, hl => by
    refine ⟨h.1, ?_⟩
    rw [hag a (List.mem_cons_self _ _) (last_from_ne_head b hnd)]
    exact open_chain_close rs b _ h.2 (List.nodup_cons.mp hnd).2
      (fun r hr hrl => hag r (List.mem_cons_of_mem _ hr) hrl) hl

theorem last_opt_snoc (t : Nat) : ∀ L : List Nat, last_opt (L ++ [t]) = some t
  | [] => rfl
  | a :: L => by
    show some (last_from a (L ++ [t])) = some t
    rw [last_from_append]
    rfl

theorem last_opt_mem {L : List Nat} {x : Nat} (h : last_opt L = some x) : x ∈ L := by
  cases L with
  | nil => simp [last_opt] at h
  | cons a l =>
    simp only [last_opt, Option.some.injEq] at h
    rw [← h]
    exact last_from_mem l a

/-- push_tree_arg with a tree: the tree is linked at the end of the chain of
the grouping `G`. -/
theorem push_tree_arg_some {ap : lily_ast_pool} {G t : Nat} {L : List Nat}
    (hnd : (G :: L).Nodup) (ht : t ∉ G :: L)
    (hargs : open_chain ap.mem L (ap.mem G).arg_start)
    (htop : (ap.mem G).arg_top = last_opt L) :
    ∃ ap1, push_tree_arg ap G (some t) = .ok ap1
      ∧ arg_chain ap1.mem (L ++ [t]) (ap1.mem G).arg_start
      ∧ (ap1.mem G).arg_top = last_opt (L ++ [t])
      ∧ (ap1.mem G).args_collected = (ap.mem G).args_collected + 1
      ∧ (ap1.mem G).tree_type = (ap.mem G).tree_type
      ∧ (ap1.mem G).parent = (ap.mem G).parent
      ∧ (ap1.mem t).parent = some G
      ∧ (∀ x, x ≠ t → (ap1.mem x).parent = (ap.mem x).parent)
      ∧ (∀ x, x ≠ t → x ≠ G → some x ≠ last_opt L → ap1.mem x = ap.mem x)
      ∧ same_but_mem ap1 ap := by
  have htG : t ≠ G := fun e => ht (e ▸ List.mem_cons_self _ _)
  have hGt : G ≠ t := Ne.symm htG
  have htL : t ∉ L := fun h => ht (List.mem_cons_of_mem _ h)
  have hGL : G ∉ L := (List.nodup_cons.mp hnd).1
  cases L with
  | nil =>
    have hs : (ap.mem G).arg_start = none := hargs
    refine ⟨_, by simp [push_tree_arg, hs]; rfl, ?_, ?_, ?_, ?_, ?_, ?_, ?_, ?_, ?_⟩
    · simp [arg_chain, hGt, htG]
    · simp [last_opt, last_from, hGt, htG]
    · simp [hGt]
    · simp [hGt]
    · simp [hGt]
    · simp [htG]
    · intro x hx
      by_cases hxG : x = G
      · rw [hxG]; simp [hGt, htG]
      · simp [hx, hxG]
    · intro x hx hxG _; simp [hx, hxG]
    · exact ⟨rfl, rfl, rfl, rfl, rfl, rfl, rfl, rfl, rfl⟩
  | cons a l =>
    have hs : (ap.mem G).arg_start = some a := by
      cases l with
      | nil => exact hargs
      | cons b l => exact hargs.1
    have htp : (ap.mem G).arg_top = some (last_from a l) := htop
    have hlm : last_from a l ∈ a :: l := last_from_mem l a
    have hlG : last_from a l ≠ G := fun e => hGL (e ▸ hlm)
    have hlt : last_from a l ≠ t := fun e => htL (e ▸ hlm)
    refine ⟨_, by simp [push_tree_arg, hs, htp]; rfl, ?_, ?_, ?_, ?_, ?_, ?_, ?_, ?_, ?_⟩
    · have hst : ∀ (m : Nat → lily_ast) (q : Option Nat), q = (ap.mem G).arg_start →
          arg_chain m (a :: l ++ [t]) (ap.mem G).arg_start → arg_chain m (a :: l ++ [t]) q := by
        intro m q e h; rw [e]; exact h
      refine hst _ _ (by simp [hGt, hlG, Ne.symm hlG]) ?_
      refine open_chain_snoc (by simp [htG]) l a _ hargs (List.nodup_cons.mp hnd).2
        (fun r hr hrl => ?_) (by simp [hlt, hlG])
      have hrG : r ≠ G := fun e => hGL (e ▸ hr)
      have hrt : r ≠ t := fun e => htL (e ▸ hr)
      simp [hrG, hrt, hrl]
    · rw [last_opt_snoc]
      simp [hGt, htG]
    · simp [hGt, hlG, Ne.symm hlG]
    · simp [hGt, hlG, Ne.symm hlG]
    · simp [hGt, hlG, Ne.symm hlG]
    · simp [htG]
    · intro x hx
      by_cases hxG : x = G
      · rw [hxG]; simp [hGt, htG, hlG, Ne.symm hlG]
      · by_cases hxl : x = last_from a l
        · rw [hxl]; simp [hlt, Ne.symm hlt, hlG, Ne.symm hlG]
        · simp [hx, hxG, hxl]
    · intro x hx hxG hxl
      have : x ≠ last_from a l := fun e => hxl (by rw [e]; rfl)
      simp [hx, hxG, this]
    · exact ⟨rfl, rfl, rfl, rfl, rfl, rfl, rfl, rfl, rfl⟩

/-- push_tree_arg without a tree: the chain of the grouping `G` ends at its
last tree. -/
theorem push_tree_arg_none {ap : lily_ast_pool} {G : Nat} {L : List Nat}
    (hnd : (G :: L).Nodup)
    (hargs : open_chain ap.mem L (ap.mem G).arg_start)
    (htop : (ap.mem G).arg_top = last_opt L) :
    ∃ ap1, push_tree_arg ap G none = .ok ap1
      ∧ arg_chain ap1.mem L (ap1.mem G).arg_start
      ∧ (ap1.mem G).args_collected = (ap.mem G).args_collected
      ∧ (ap1.mem G).tree_type = (ap.mem G).tree_type
      ∧ (ap1.mem G).parent = (ap.mem G).parent
      ∧ (∀ x, (ap1.mem x).parent = (ap.mem x).parent)
      ∧ (∀ x, x ≠ G → some x ≠ last_opt L → ap1.mem x = ap.mem x)
      ∧ same_but_mem ap1 ap := by
  have hGL : G ∉ L := (List.nodup_cons.mp hnd).1
  cases L with
  | nil =>
    have hs : (ap.mem G).arg_start = none := hargs
    refine ⟨_, by simp [push_tree_arg, hs]; rfl, ?_, ?_, ?_, ?_, ?_, ?_, ?_⟩
    · simp [arg_chain]
    · simp
    · simp
    · simp
    · intro x
      by_cases hxG : x = G
      · rw [hxG]; simp
      · simp [hxG]
    · intro x hxG _; simp [hxG]
    · exact ⟨rfl, rfl, rfl, rfl, rfl, rfl, rfl, rfl, rfl⟩
  | cons a l =>
    have hs : (ap.mem G).arg_start = some a := by
      cases l with
      | nil => exact hargs
      | cons b l => exact hargs.1
    have htp : (ap.mem G).arg_top = some (last_from a l) := htop
    have hlm : last_from a l ∈ a :: l := last_from_mem l a
    have hlG : last_from a l ≠ G := fun e => hGL (e ▸ hlm)
    refine ⟨_, by simp [push_tree_arg, hs, htp]; rfl, ?_, ?_, ?_, ?_, ?_, ?_, ?_⟩
    · have hst : ∀ (m : Nat → lily_ast) (q : Option Nat), q = (ap.mem G).arg_start →
          arg_chain m (a :: l) (ap.mem G).arg_start → arg_chain m (a :: l) q := by
        intro m q e h; rw [e]; exact h
      refine hst _ _ (by simp [hlG, Ne.symm hlG]) ?_
      refine open_chain_close l a _ hargs (List.nodup_cons.mp hnd).2
        (fun r hr hrl => ?_) (by simp [hlG])
      have hrG : r ≠ G := fun e => hGL (e ▸ hr)
      simp [hrG, hrl]
    · simp [hlG, Ne.symm hlG]
    · simp [hlG, Ne.symm hlG]
    · simp [hlG, Ne.symm hlG]
    · intro x
      by_cases hxG : x = G
      · rw [hxG]; simp [hlG, Ne.symm hlG]
      · by_cases hxl : x = last_from a l
        · rw [hxl]; simp [hlG, Ne.symm hlG]
        · simp [hxG, hxl]
    · intro x hxG hxl
      have : x ≠ last_from a l := fun e => hxl (by rw [e]; rfl)
      simp [hxG, this]
    · exact ⟨rfl, rfl, rfl, rfl, rfl, rfl, rfl, rfl, rfl⟩

/-- push_tree_arg writes neither `tree_type` nor `result`. -/
theorem push_tree_arg_keeps {ap ap1 : lily_ast_pool} {G : Nat} {t : Option Nat}
    (h : push_tree_arg ap G t = .ok ap1) (x : Nat) :
    (ap1.mem x).tree_type = (ap.mem x).tree_type ∧ (ap1.mem x).result = (ap.mem x).result := by
  unfold push_tree_arg at h
  cases hs : (ap.mem G).arg_start <;> cases ht : (ap.mem G).arg_top <;> cases t <;>
    simp only [hs, ht, Except.ok.injEq, reduceCtorEq] at h <;>
    (subst h; simp only [poke_mem]; split_ifs <;> exact ⟨rfl, rfl⟩)

theorem open_chain_same {mem mem1 : Nat → lily_ast} (L : List Nat) (p : Option Nat)
    (hnd : L.Nodup) (hag : ∀ r ∈ L, mem1 r = mem r) (h : open_chain mem L p) :
    open_chain mem1 L p := by
  cases L with
  | nil => exact h
  | cons a l => exact open_chain_congr l a p hnd (fun r hr _ => by rw [hag r hr]) h

/-- The state of a collecting grouping depends on the memory, the chain of the
pool and `saved_trees` only. -/
theorem Collecting.of_same {g : GInfo} {rs : List Nat} {ap ap1 : lily_ast_pool} {F : List Nat}
    (h : Collecting g rs ap F) (hm : ap1.mem = ap.mem) (hb : ap1.brk = ap.brk)
    (ha : ap1.available_current = ap.available_current)
    (hs : ap1.saved_trees = ap.saved_trees) (hz : ap1.save_size = ap.save_size) :
    Collecting g rs ap1 F :=
  { chain := by
      have := h.chain
      unfold chain_ok at this ⊢
      rw [hm, hb, ha]; exact this
    node_used := by rw [hb]; exact h.node_used
    args_used := by rw [hb]; exact h.args_used
    nodup := h.nodup
    node_new := h.node_new
    args_new := h.args_new
    frame := by rw [hb, hm]; exact h.frame
    count := by rw [hm]; exact h.count
    args := by rw [hm]; exact h.args
    top := by rw [hm]; exact h.top
    parents := by rw [hm]; exact h.parents
    kind_eq := by rw [hm]; exact h.kind_eq
    up_eq := by rw [hm]; exact h.up_eq
    even := h.even
    size := by rw [hz]; exact h.size
    size0 := by rw [hz]; exact h.size0
    pre_kept := by rw [hm]; exact h.pre_kept
    node_res := by rw [hm]; exact h.node_res
    saved_node := by rw [hs]; exact h.saved_node
    saved_root := by rw [hs]; exact h.saved_root
    saved_low := by rw [hs]; exact h.saved_low }

/-- An argument sub-expression leaves a collecting grouping as it is and ends
with a root that is new. -/
theorem Collecting.seg {g : GInfo} {rs : List Nat} {ap : lily_ast_pool} {F : List Nat}
    (h : Collecting g rs ap F) (hi : ap.save_index = (g.si : Int) + 2)
    (hr : ap.root = none) (ha : ap.active = none) {seg : List Op} (hseg : isolated seg) :
    ∃ ap1 F1 r, run seg ap = .ok ap1 ∧ ap1.root = some r ∧ Collecting g rs ap1 F1
      ∧ ap1.save_index = (g.si : Int) + 2
      ∧ r < ap1.brk ∧ r ∉ F1 ∧ r ∉ g.node :: (g.pre ++ rs) ∧ ¬ g.old r := by
  have hst : stack_ok ap := by
    have := h.size
    have := h.even
    refine ⟨by omega, by omega, by omega, by omega⟩
  obtain ⟨ap1, F1, r, hrun, hch1, _, hroot1, hrnew, hrb, hrF, hfr, hsi1, hsz1, hsv1⟩ :=
    hseg ap F h.chain hst hr ha
  have hin : ∀ x ∈ g.node :: (g.pre ++ rs), x < ap.brk ∧ x ∉ F := by
    intro x hx
    rcases List.mem_cons.mp hx with e | hx
    · rw [e]; exact h.node_used
    · exact h.args_used x hx
  have hmem : ∀ x ∈ g.node :: (g.pre ++ rs), ap1.mem x = ap.mem x :=
    fun x hx => (hfr x (hin x hx).1 (hin x hx).2).2.2
  have hG := hmem g.node (List.mem_cons_self _ _)
  have hsv : ∀ i : Nat, i < g.si + 2 → ap1.saved_trees i = ap.saved_trees i :=
    fun i hi2 => hsv1 i (by rw [hi]; omega)
  refine ⟨ap1, F1, r, hrun, hroot1, ?_, by rw [hsi1, hi], hrb, hrF,
    fun hx => hrnew (hin r hx), fun ho => hrnew ⟨(h.frame r ho).1, (h.frame r ho).2.1⟩⟩
  exact
    { chain := hch1
      node_used := ⟨(hfr _ h.node_used.1 h.node_used.2).1, (hfr _ h.node_used.1 h.node_used.2).2.1⟩
      args_used := fun x hx =>
        ⟨(hfr _ (h.args_used x hx).1 (h.args_used x hx).2).1,
          (hfr _ (h.args_used x hx).1 (h.args_used x hx).2).2.1⟩
      nodup := h.nodup
      node_new := h.node_new
      args_new := h.args_new
      frame := fun x ho => by
        obtain ⟨h1, h2, h3⟩ := h.frame x ho
        obtain ⟨k1, k2, k3⟩ := hfr x h1 h2
        exact ⟨k1, k2, k3.trans h3⟩
      count := by rw [hG]; exact h.count
      args := by
        rw [hG]
        exact open_chain_same _ _ (List.nodup_cons.mp h.nodup).2
          (fun x hx => hmem x (List.mem_cons_of_mem _ hx)) h.args
      top := by rw [hG]; exact h.top
      parents := fun x hx => by
        rw [hmem x (List.mem_cons_of_mem _ (List.mem_append_right _ hx))]
        exact h.parents x hx
      kind_eq := by rw [hG]; exact h.kind_eq
      up_eq := by rw [hG]; exact h.up_eq
      even := h.even
      size := le_trans h.size hsz1
      size0 := le_trans h.size0 hsz1
      pre_kept := fun r hr => by
        rw [hmem r (List.mem_cons_of_mem _ (List.mem_append_left _ hr))]
        exact h.pre_kept r hr
      node_res := by rw [hG]; exact h.node_res
      saved_node := by rw [hsv _ (by omega)]; exact h.saved_node
      saved_root := by rw [hsv _ (by omega)]; exact h.saved_root
      saved_low := fun i hi2 => by rw [hsv i (by omega)]; exact h.saved_low i hi2 }

theorem nodup_snoc {G t : Nat} {L : List Nat} (hnd : (G :: L).Nodup) (ht : t ∉ G :: L) :
    (G :: (L ++ [t])).Nodup := by
  have h1 : t ≠ G := fun e => ht (e ▸ List.mem_cons_self _ _)
  have h2 : t ∉ L := fun h => ht (List.mem_cons_of_mem _ h)
  obtain ⟨h3, h4⟩ := List.nodup_cons.mp hnd
  refine List.nodup_cons.mpr ⟨?_, ?_⟩
  · simp [h3, Ne.symm h1]
  · exact List.nodup_append.mpr ⟨h4, List.nodup_singleton t, by
      intro x hx hx2
      rw [List.mem_singleton] at hx2
      rw [hx2] at hx
      exact h2 hx⟩

/-- push_tree_arg with a new tree on a collecting grouping. -/
theorem Collecting.push {g : GInfo} {rs : List Nat} {ap : lily_ast_pool} {F : List Nat}
    {t : Nat} (h : Collecting g rs ap F) (htb : t < ap.brk) (htF : t ∉ F)
    (htn : t ∉ g.node :: (g.pre ++ rs)) (hto : ¬ g.old t) :
    ∃ ap2, push_tree_arg ap g.node (some t) = .ok ap2 ∧ same_but_mem ap2 ap
      ∧ Collecting g (rs ++ [t]) ap2 F ∧ Pushed g g.up (rs ++ [t]) ap2 F := by
  obtain ⟨ap2, hpush, hargs, htop, hcount, hkind, hup, htp, hpar, hmem, hsame⟩ :=
    push_tree_arg_some h.nodup htn h.args h.top
  obtain ⟨hb, hav, _, hsv, _, hsz, _, _, _⟩ := hsame
  have hass : g.pre ++ (rs ++ [t]) = (g.pre ++ rs) ++ [t] := (List.append_assoc _ _ _).symm
  have hGF := h.node_used.2
  have hch : chain_ok ap2 F := by
    obtain ⟨c1, c2, c3⟩ := h.chain
    refine ⟨?_, c2, by rw [hb]; exact c3⟩
    rw [hav]
    refine free_chain_congr F _ (fun x hx => hmem x (fun e => htF (e ▸ hx))
      (fun e => hGF (e ▸ hx)) (fun e => ?_)) c1
    exact (h.args_used x (last_opt_mem e.symm)).2 hx
  have hused : ∀ r ∈ g.pre ++ (rs ++ [t]), r < ap2.brk ∧ r ∉ F := by
    intro r hr
    rw [hass, List.mem_append, List.mem_singleton] at hr
    rw [hb]
    rcases hr with hr | hr
    · exact h.args_used r hr
    · rw [hr]; exact ⟨htb, htF⟩
  have hnd : (g.node :: (g.pre ++ (rs ++ [t]))).Nodup := by
    rw [hass]; exact nodup_snoc h.nodup htn
  have hnew : ∀ r ∈ g.pre ++ (rs ++ [t]), ¬ g.old r := by
    intro r hr
    rw [hass, List.mem_append, List.mem_singleton] at hr
    rcases hr with hr | hr
    · exact h.args_new r hr
    · rw [hr]; exact hto
  have hframe : ∀ x, g.old x → x < ap2.brk ∧ x ∉ F ∧ ap2.mem x = g.mem0 x := by
    intro x ho
    obtain ⟨h1, h2, h3⟩ := h.frame x ho
    refine ⟨by rw [hb]; exact h1, h2, ?_⟩
    rw [hmem x (fun e => hto (e ▸ ho)) (fun e => h.node_new (e ▸ ho))
      (fun e => h.args_new x (last_opt_mem e.symm) ho)]
    exact h3
  have hcnt : (ap2.mem g.node).args_collected = ((g.pre ++ (rs ++ [t])).length : Int) := by
    rw [hcount, h.count, hass]
    simp only [List.length_append, List.length_singleton, Nat.cast_add, Nat.cast_one]
  have hparents : ∀ r ∈ rs ++ [t], (ap2.mem r).parent = some g.node := by
    intro r hr
    rw [List.mem_append, List.mem_singleton] at hr
    rcases hr with hr | hr
    · have hrt : r ≠ t := fun e =>
        htn (List.mem_cons_of_mem _ (List.mem_append_right _ (e ▸ hr)))
      rw [hpar r hrt]
      exact h.parents r hr
    · rw [hr]; exact htp
  refine ⟨ap2, hpush, ⟨hb, hav, by assumption, hsv, by assumption, hsz, by assumption,
    by assumption, by assumption⟩, ?_, ?_⟩
  · exact
      { chain := hch
        node_used := by rw [hb]; exact h.node_used
        args_used := hused
        nodup := hnd
        node_new := h.node_new
        args_new := hnew
        frame := hframe
        count := hcnt
        args := by rw [hass]; exact arg_chain_open _ _ hargs
        top := by rw [hass]; exact htop
        parents := hparents
        kind_eq := by rw [hkind]; exact h.kind_eq
        up_eq := by rw [hup]; exact h.up_eq
        even := h.even
        size := by rw [hsz]; exact h.size
        size0 := by rw [hsz]; exact h.size0
        pre_kept := fun r hr => by
          rw [(push_tree_arg_keeps hpush r).1, (push_tree_arg_keeps hpush r).2]
          exact h.pre_kept r hr
        node_res := by rw [(push_tree_arg_keeps hpush g.node).2]; exact h.node_res
        saved_node := by rw [hsv]; exact h.saved_node
        saved_root := by rw [hsv]; exact h.saved_root
        saved_low := by rw [hsv]; exact h.saved_low }
  · exact
      { chain := hch
        node_used := by rw [hb]; exact h.node_used
        args_used := hused
        nodup := hnd
        node_new := h.node_new
        args_new := hnew
        frame := hframe
        count := hcnt
        args := by rw [hass]; exact hargs
        parents := hparents
        kind_eq := by rw [hkind]; exact h.kind_eq
        up_eq := by rw [hup]; exact h.up_eq
        even := h.even
        size := by rw [hsz]; exact h.size
        size0 := by rw [hsz]; exact h.size0
        pre_kept := fun r hr => by
          rw [(push_tree_arg_keeps hpush r).1, (push_tree_arg_keeps hpush r).2]
          exact h.pre_kept r hr
        node_res := by rw [(push_tree_arg_keeps hpush g.node).2]; exact h.node_res
        saved_node := by rw [hsv]; exact h.saved_node
        saved_root := by rw [hsv]; exact h.saved_root
        saved_low := by rw [hsv]; exact h.saved_low }

/-- push_tree_arg without a tree on a collecting grouping. -/
theorem Collecting.push_none {g : GInfo} {rs : List Nat} {ap : lily_ast_pool} {F : List Nat}
    (h : Collecting g rs ap F) :
    ∃ ap2, push_tree_arg ap g.node none = .ok ap2 ∧ same_but_mem ap2 ap
      ∧ Pushed g g.up rs ap2 F := by
  obtain ⟨ap2, hpush, hargs, hcount, hkind, hup, hpar, hmem, hsame⟩ :=
    push_tree_arg_none h.nodup h.args h.top
  obtain ⟨hb, hav, _, hsv, _, hsz, _, _, _⟩ := hsame
  have hGF := h.node_used.2
  refine ⟨ap2, hpush, ⟨hb, hav, by assumption, hsv, by assumption, hsz, by assumption,
    by assumption, by assumption⟩, ?_⟩
  exact
    { chain := by
        obtain ⟨c1, c2, c3⟩ := h.chain
        refine ⟨?_, c2, by rw [hb]; exact c3⟩
        rw [hav]
        refine free_chain_congr F _ (fun x hx => hmem x
          (fun e => hGF (e ▸ hx)) (fun e => ?_)) c1
        exact (h.args_used x (last_opt_mem e.symm)).2 hx
      node_used := by rw [hb]; exact h.node_used
      args_used := by rw [hb]; exact h.args_used
      nodup := h.nodup
      node_new := h.node_new
      args_new := h.args_new
      frame := by
        intro x ho
        obtain ⟨h1, h2, h3⟩ := h.frame x ho
        refine ⟨by rw [hb]; exact h1, h2, ?_⟩
        rw [hmem x (fun e => h.node_new (e ▸ ho))
          (fun e => h.args_new x (last_opt_mem e.symm) ho)]
        exact h3
      count := by rw [hcount]; exact h.count
      args := hargs
      parents := fun r hr => by rw [hpar r]; exact h.parents r hr
      kind_eq := by rw [hkind]; exact h.kind_eq
      up_eq := by rw [hup]; exact h.up_eq
      even := h.even
      size := by rw [hsz]; exact h.size
      size0 := by rw [hsz]; exact h.size0
      pre_kept := fun r hr => by
        rw [(push_tree_arg_keeps hpush r).1, (push_tree_arg_keeps hpush r).2]
        exact h.pre_kept r hr
      node_res := by rw [(push_tree_arg_keeps hpush g.node).2]; exact h.node_res
      saved_node := by rw [hsv]; exact h.saved_node
      saved_root := by rw [hsv]; exact h.saved_root
      saved_low := by rw [hsv]; exact h.saved_low }

theorem arg_chain_same {mem mem1 : Nat → lily_ast} :
    ∀ (rs : List Nat) (p : Option Nat), (∀ r ∈ rs, (mem1 r).next_arg = (mem r).next_arg) →
      arg_chain mem rs p → arg_chain mem1 rs p
  | [], _, _, h => h
  | r :: rs, p, hag, h => by
    refine ⟨h.1, ?_⟩
    rw [hag r (List.mem_cons_self _ _)]
    exact arg_chain_same rs _ (fun x hx => hag x (List.mem_cons_of_mem _ hx)) h.2

/-- The end of lily_ast_leave_tree: the saved root and the parent of the
grouping come back, and a grouping that is its own parent gets none. -/
theorem Pushed.leave {g : GInfo} {rs : List Nat} {ap : lily_ast_pool} {F : List Nat}
    (h : Pushed g g.up rs ap F) :
    Closed g rs
      (if g.up = some g.node then
        poke { ap with save_index := (g.si : Int), root := g.saved_root, active := g.up }
          g.node (fun n => { n with parent := none })
       else { ap with save_index := (g.si : Int), root := g.saved_root, active := g.up }) F := by
  by_cases hup : g.up = some g.node
  · rw [if_pos hup]
    have hGF := h.node_used.2
    have hne : ∀ r ∈ g.pre ++ rs, r ≠ g.node := fun r hr e =>
      (List.nodup_cons.mp h.nodup).1 (e ▸ hr)
    refine ⟨?_, rfl, rfl, rfl⟩
    exact
      { chain := by
          obtain ⟨c1, c2, c3⟩ := h.chain
          refine ⟨?_, c2, c3⟩
          refine free_chain_congr F _ (fun x hx => ?_) c1
          have : x ≠ g.node := fun e => hGF (e ▸ hx)
          simp [this]
        node_used := h.node_used
        args_used := h.args_used
        nodup := h.nodup
        node_new := h.node_new
        args_new := h.args_new
        frame := by
          intro x ho
          obtain ⟨h1, h2, h3⟩ := h.frame x ho
          refine ⟨h1, h2, ?_⟩
          have : x ≠ g.node := fun e => h.node_new (e ▸ ho)
          simp [this, h3]
        count := by simpa using h.count
        args := by
          have : arg_chain ap.mem (g.pre ++ rs) (ap.mem g.node).arg_start := h.args
          simp only [poke_mem, if_true]
          refine arg_chain_same _ _ (fun r _ => ?_) this
          by_cases hr : r = g.node <;> simp [hr]
        parents := fun r hr => by
          have : r ≠ g.node := hne r (List.mem_append_right _ hr)
          simp [this, h.parents r hr]
        kind_eq := by simpa using h.kind_eq
        up_eq := by simp [hup]
        even := h.even
        size := h.size
        size0 := h.size0
        pre_kept := fun r hr => by
          have : r ≠ g.node := hne r (List.mem_append_left _ hr)
          simp [this, h.pre_kept r hr]
        node_res := by simpa using h.node_res
        saved_node := h.saved_node
        saved_root := h.saved_root
        saved_low := h.saved_low }
  · rw [if_neg hup]
    refine ⟨?_, rfl, rfl, rfl⟩
    exact
      { chain := h.chain
        node_used := h.node_used
        args_used := h.args_used
        nodup := h.nodup
        node_new := h.node_new
        args_new := h.args_new
        frame := h.frame
        count := h.count
        args := h.args
        parents := h.parents
        kind_eq := h.kind_eq
        up_eq := by rw [if_neg hup]; exact h.up_eq
        even := h.even
        size := h.size
        size0 := h.size0
        pre_kept := h.pre_kept
        node_res := h.node_res
        saved_node := h.saved_node
        saved_root := h.saved_root
        saved_low := h.saved_low }

theorem toNat_si (si : Nat) : ((si : Int) + 2 - 1).toNat = si + 1 := by omega

theorem toNat_si1 (si : Nat) : ((si : Int) + 2 - 1 - 1).toNat = si := by omega

/-- An argument sub-expression followed by lily_ast_collect_arg. -/
theorem Collecting.collect {g : GInfo} {rs : List Nat} {ap : lily_ast_pool} {F : List Nat}
    (h : Collecting g rs ap F) (hi : ap.save_index = (g.si : Int) + 2)
    (hr : ap.root = none) (ha : ap.active = none) {seg : List Op} (hseg : isolated seg) :
    ∃ ap1 ap2 F2 r, run seg ap = .ok ap1 ∧ ap1.root = some r
      ∧ lily_ast_collect_arg ap1 = .ok ap2 ∧ Collecting g (rs ++ [r]) ap2 F2
      ∧ ap2.save_index = (g.si : Int) + 2 ∧ ap2.root = none ∧ ap2.active = none := by
  obtain ⟨ap1, F1, r, hrun, hroot, hc1, hi1, hrb, hrF, hrn, hro⟩ := h.seg hi hr ha hseg
  obtain ⟨ap2, hpush, hsame, hc2, _⟩ := hc1.push hrb hrF hrn hro
  obtain ⟨hb, hav, _, hsv, hsi, hsz, _, _, _⟩ := hsame
  have hsz1 := hc1.size
  refine ⟨ap1, { ap2 with root := none, active := none }, F1, r, hrun, hroot, ?_,
    hc2.of_same rfl rfl rfl rfl rfl, by show ap2.save_index = _; rw [hsi, hi1], rfl, rfl⟩
  unfold lily_ast_collect_arg saved_at
  rw [hi1, if_pos ⟨by omega, by omega⟩, toNat_si, hc1.saved_node]
  simp only [hroot, hpush]

/-- The last argument sub-expression followed by lily_ast_leave_tree. -/
theorem Collecting.leave_some {g : GInfo} {rs : List Nat} {ap : lily_ast_pool} {F : List Nat}
    (h : Collecting g rs ap F) (hi : ap.save_index = (g.si : Int) + 2)
    (hr : ap.root = none) (ha : ap.active = none) {seg : List Op} (hseg : isolated seg) :
    ∃ ap1 ap3 F3 r, run seg ap = .ok ap1 ∧ ap1.root = some r
      ∧ lily_ast_leave_tree ap1 = .ok ap3 ∧ Closed g (rs ++ [r]) ap3 F3 := by
  obtain ⟨ap1, F1, r, hrun, hroot, hc1, hi1, hrb, hrF, hrn, hro⟩ := h.seg hi hr ha hseg
  have hc0 : Collecting g rs { ap1 with save_index := ap1.save_index - 1 } F1 :=
    hc1.of_same rfl rfl rfl rfl rfl
  obtain ⟨ap2, hpush, hsame, _, hp2⟩ := hc0.push hrb hrF hrn hro
  obtain ⟨hb, hav, _, hsv, hsi, hsz, _, _, _⟩ := hsame
  have hsz1 := hc1.size
  have hsi2 : ap2.save_index = (g.si : Int) + 2 - 1 := by
    rw [hsi]; show ap1.save_index - 1 = _; rw [hi1]
  refine ⟨ap1, _, F1, r, hrun, hroot, ?_, Pushed.leave hp2⟩
  unfold lily_ast_leave_tree saved_at
  simp only [hi1]
  rw [if_pos ⟨by omega, by omega⟩, toNat_si, hc1.saved_node]
  simp only [hroot]
  simp only [hroot, hi1] at hpush
  rw [hpush]
  simp only [hsi2]
  rw [if_pos ⟨by omega, by rw [hsz]; show ((g.si : Int) + 2 - 1 - 1) < ap1.save_size; omega⟩,
    toNat_si1, hp2.saved_root, hp2.up_eq]
  have e : (g.si : Int) + 2 - 1 - 1 = (g.si : Int) := by omega
  simp only [e]

/-- lily_ast_leave_tree right after lily_ast_enter_tree. -/
theorem Collecting.leave_none {g : GInfo} {rs : List Nat} {ap : lily_ast_pool} {F : List Nat}
    (h : Collecting g rs ap F) (hi : ap.save_index = (g.si : Int) + 2)
    (hr : ap.root = none) :
    ∃ ap3, lily_ast_leave_tree ap = .ok ap3 ∧ Closed g rs ap3 F := by
  have hc0 : Collecting g rs { ap with save_index := ap.save_index - 1 } F :=
    h.of_same rfl rfl rfl rfl rfl
  obtain ⟨ap2, hpush, hsame, hp2⟩ := hc0.push_none
  obtain ⟨hb, hav, _, hsv, hsi, hsz, _, _, _⟩ := hsame
  have hsz1 := h.size
  have hsi2 : ap2.save_index = (g.si : Int) + 2 - 1 := by
    rw [hsi]; show ap.save_index - 1 = _; rw [hi]
  refine ⟨_, ?_, Pushed.leave hp2⟩
  unfold lily_ast_leave_tree saved_at
  simp only [hi]
  rw [if_pos ⟨by omega, by omega⟩, toNat_si, h.saved_node]
  simp only [hr]
  simp only [hr, hi] at hpush
  rw [hpush]
  simp only [hsi2]
  rw [if_pos ⟨by omega, by rw [hsz]; show ((g.si : Int) + 2 - 1 - 1) < ap.save_size; omega⟩,
    toNat_si1, hp2.saved_root, hp2.up_eq]
  have e : (g.si : Int) + 2 - 1 - 1 = (g.si : Int) := by omega
  simp only [e]

/-- The arguments of a grouping: the sub-expressions `segs`, separated by
lily_ast_collect_arg and closed by lily_ast_leave_tree, are linked to the
grouping in order. -/
theorem args_loop (g : GInfo) :
    ∀ (segs : List (List Op)), (∀ seg ∈ segs, isolated seg) →
      ∀ (rs : List Nat) (ap : lily_ast_pool) (F : List Nat), Collecting g rs ap F →
        ap.save_index = (g.si : Int) + 2 → ap.root = none → ap.active = none →
        ∃ ap1 F1 roots, run (args_ops segs) ap = .ok ap1
          ∧ arg_roots segs ap = roots.map some ∧ roots.length = segs.length
          ∧ Closed g (rs ++ roots) ap1 F1
  | [], _, rs, ap, F, h, hi, hr, _ => by
    obtain ⟨ap3, h1, h2⟩ := h.leave_none hi hr
    refine ⟨ap3, F, [], ?_, rfl, rfl, by rw [List.append_nil]; exact h2⟩
    simp only [args_ops, run, step, h1]
  | [seg], hs, rs, ap, F, h, hi, hr, ha => by
    obtain ⟨ap1, ap3, F3, r, h1, h2, h3, h4⟩ :=
      h.leave_some hi hr ha (hs seg (List.mem_cons_self _ _))
    refine ⟨ap3, F3, [r], ?_, ?_, rfl, h4⟩
    · simp only [args_ops]
      rw [run_append_ok h1]
      simp only [run, step, h3]
    · simp only [arg_roots, h1, h2]
      cases lily_ast_collect_arg ap1 <;> rfl
  | seg :: seg2 :: segs, hs, rs, ap, F, h, hi, hr, ha => by
    obtain ⟨ap1, ap2, F2, r, h1, h2, h3, h4, h5, h6, h7⟩ :=
      h.collect hi hr ha (hs seg (List.mem_cons_self _ _))
    obtain ⟨ap3, F3, roots, k1, k2, k3, k4⟩ := args_loop g (seg2 :: segs)
      (fun x hx => hs x (List.mem_cons_of_mem _ hx)) (rs ++ [r]) ap2 F2 h4 h5 h6 h7
    refine ⟨ap3, F3, r :: roots, ?_, ?_, by simp [k3], ?_⟩
    · simp only [args_ops]
      rw [run_append_ok h1]
      simp only [run, step, h3]
      exact k1
    · have e : arg_roots (seg :: seg2 :: segs) ap = some r :: arg_roots (seg2 :: segs) ap2 := by
        rw [arg_roots]
        simp only [h1, h2, h3]
      rw [e, k2, List.map_cons]
    · rw [List.append_assoc] at k4
      exact k4

/-- The tree that acquire_tree hands out is not in use, and the trees in use
stay so. -/
theorem acquire_inuse {ap ap0 : lily_ast_pool} {a : Nat} {F : List Nat}
    (hacq : acquire_tree ap = (a, ap0)) (hch : chain_ok ap F) :
    ∃ F1, chain_ok ap0 F1 ∧ ¬ (a < ap.brk ∧ a ∉ F) ∧ a < ap0.brk ∧ a ∉ F1
      ∧ (∀ x, x < ap.brk → x ∉ F → x < ap0.brk ∧ x ∉ F1)
      ∧ (∀ x, x ≠ a → ap0.mem x = ap.mem x)
      ∧ ap0.active = ap.active ∧ ap0.root = ap.root
      ∧ ap0.saved_trees = ap.saved_trees ∧ ap0.save_index = ap.save_index
      ∧ ap0.save_size = ap.save_size ∧ ap0.lex_linenum = ap.lex_linenum := by
  obtain ⟨c1, c2, c3⟩ := hch
  have hu : ∀ u ∈ (List.range ap.brk).filter (fun x => decide (x ∉ F)), u < ap.brk ∧ u ∉ F := by
    intro u hu
    simpa using hu
  obtain ⟨hnu, hnb, hbrk, hmem0, hact0, hroot0, hsv0, hsi0, hss0, hll0, F1, hfree1, hnd1, hlt1,
    hnF1, huf1⟩ := acquire_spec hacq c1 c2 c3 (fun u h => (hu u h).1) (fun u h => (hu u h).2)
  refine ⟨F1, ⟨hfree1, hnd1, hlt1⟩, fun h => hnu (by simpa using h), hnb, hnF1,
    fun x h1 h2 => ⟨lt_of_lt_of_le h1 hbrk, huf1 x (by simpa using And.intro h1 h2)⟩,
    hmem0, hact0, hroot0, hsv0, hsi0, hss0, hll0⟩

/-- The doubling of the save stack when lily_realloc returns a block. -/
theorem grow_saved_ok {ap ap4 : lily_ast_pool} (h : grow_saved ap = .ok ap4) :
    ap4 = (if ap.save_index + 2 ≥ ap.save_size then
      { ap with save_size := ap.save_size * 2 } else ap) := by
  unfold grow_saved lily_realloc at h
  by_cases hd : ap.save_index + 2 ≥ ap.save_size
  · rw [if_pos hd] at h ⊢
    by_cases h0 : ap.save_size * 2 = 0
    · rw [if_pos h0] at h
      simp at h
    · rw [if_neg h0] at h
      simp only [Except.ok.injEq] at h
      exact h.symm
  · rw [if_neg hd] at h ⊢
    simp only [Except.ok.injEq] at h
    exact h.symm

/-- With a save stack of at least one entry lily_realloc is asked for a block of
non-zero size. -/
theorem grow_saved_some (ap : lily_ast_pool) (h : 1 ≤ ap.save_size) :
    grow_saved ap = .ok (if ap.save_index + 2 ≥ ap.save_size then
      { ap with save_size := ap.save_size * 2 } else ap) := by
  unfold grow_saved lily_realloc
  by_cases hd : ap.save_index + 2 ≥ ap.save_size
  · rw [if_pos hd, if_pos hd, if_neg (by omega)]
  · rw [if_neg hd, if_neg hd]

/-- The save stack part of lily_ast_enter_tree. -/
theorem enter_spec {ap ap0 ap2 : lily_ast_pool} {a : Nat} (tt : lily_tree_type)
    (var : Option Nat) (hacq : acquire_tree ap = (a, ap0))
    (hmv : merge_value (poke ap0 a (fun n =>
      { n with tree_type := tt, line_num := ap0.lex_linenum, result := var,
               args_collected := 0, arg_start := none, arg_top := none })) a = .ok ap2)
    (hst : stack_ok ap2) :
    ∃ ape, lily_ast_enter_tree ap tt var = .ok ape
      ∧ ape.mem = (poke ap2 a (fun n => { n with parent := ap2.active })).mem
      ∧ ape.brk = ap2.brk ∧ ape.available_current = ap2.available_current
      ∧ ape.root = none ∧ ape.active = none
      ∧ ape.save_index = ap2.save_index + 2 ∧ ap2.save_size ≤ ape.save_size
      ∧ ap2.save_index + 2 ≤ ape.save_size
      ∧ ape.saved_trees ap2.save_index.toNat = ap2.root
      ∧ ape.saved_trees (ap2.save_index.toNat + 1) = some a
      ∧ (∀ i : Nat, i < ap2.save_index.toNat → ape.saved_trees i = ap2.saved_trees i) := by
  obtain ⟨h0, h1, h2, h3⟩ := hst
  unfold lily_ast_enter_tree
  rw [hacq]
  simp only [hmv, grow_saved_some (poke ap2 a (fun n => { n with parent := ap2.active })) h3]
  by_cases hd : ap2.save_index + 2 ≥ ap2.save_size
  · have hb1 : 0 ≤ ap2.save_index ∧ ap2.save_index < ap2.save_size * 2 := ⟨h0, by omega⟩
    have hb2 : 0 ≤ ap2.save_index + 1 ∧ ap2.save_index + 1 < ap2.save_size * 2 :=
      ⟨by omega, by omega⟩
    simp only [poke_save_index, poke_save_size, hd, if_true, saved_put, if_pos hb1, if_pos hb2]
    refine ⟨_, rfl, rfl, rfl, rfl, rfl, rfl, rfl, ?_, ?_, ?_, ?_, ?_⟩
    · show ap2.save_size ≤ ap2.save_size * 2
      omega
    · show ap2.save_index + 2 ≤ ap2.save_size * 2
      omega
    · show (if ap2.save_index.toNat = (ap2.save_index + 1).toNat then some a
        else if ap2.save_index.toNat = ap2.save_index.toNat then ap2.root
        else ap2.saved_trees ap2.save_index.toNat) = ap2.root
      rw [if_neg (by omega), if_pos rfl]
    · show (if ap2.save_index.toNat + 1 = (ap2.save_index + 1).toNat then some a
        else _) = some a
      rw [if_pos (by omega)]
    · intro i hi
      show (if i = (ap2.save_index + 1).toNat then some a
        else if i = ap2.save_index.toNat then ap2.root
        else ap2.saved_trees i) = ap2.saved_trees i
      rw [if_neg (by omega), if_neg (by omega)]
  · have hb1 : 0 ≤ ap2.save_index ∧ ap2.save_index < ap2.save_size := ⟨h0, by omega⟩
    have hb2 : 0 ≤ ap2.save_index + 1 ∧ ap2.save_index + 1 < ap2.save_size :=
      ⟨by omega, by omega⟩
    simp only [poke_save_index, poke_save_size, hd, if_false, saved_put, if_pos hb1, if_pos hb2]
    refine ⟨_, rfl, rfl, rfl, rfl, rfl, rfl, rfl, ?_, ?_, ?_, ?_, ?_⟩
    · exact le_refl _
    · show ap2.save_index + 2 ≤ ap2.save_size
      omega
    · show (if ap2.save_index.toNat = (ap2.save_index + 1).toNat then some a
        else if ap2.save_index.toNat = ap2.save_index.toNat then ap2.root
        else ap2.saved_trees ap2.save_index.toNat) = ap2.root
      rw [if_neg (by omega), if_pos rfl]
    · show (if ap2.save_index.toNat + 1 = (ap2.save_index + 1).toNat then some a
        else _) = some a
      rw [if_pos (by omega)]
    · intro i hi
      show (if i = (ap2.save_index + 1).toNat then some a
        else if i = ap2.save_index.toNat then ap2.root
        else ap2.saved_trees i) = ap2.saved_trees i
      rw [if_neg (by omega), if_neg (by omega)]

/-- After lily_ast_enter_tree has taken the tree `G` and merge_value has put it
in place, taking over the trees `pre`, the grouping is collecting. -/
theorem enter_collecting {ap ap0 ap2 : lily_ast_pool} {F : List Nat} {G : Nat}
    (tt : lily_tree_type) (var : Option Nat) (pre : List Nat)
    (hch : chain_ok ap F) (hst : stack_ok ap) (hacq : acquire_tree ap = (G, ap0))
    (hmv : merge_value (poke ap0 G (fun n =>
      { n with tree_type := tt, line_num := ap0.lex_linenum, result := var,
               args_collected := 0, arg_start := none, arg_top := none })) G = .ok ap2)
    (hpre : ∀ r ∈ pre, r < ap.brk ∧ r ∉ F) (hpnd : pre.Nodup)
    (hm : ∀ y, y ≠ G → ¬ (y < ap.brk ∧ y ∉ F) → ap2.mem y = ap0.mem y)
    (hb : ap2.brk = ap0.brk) (hav : ap2.available_current = ap0.available_current)
    (hsv : ap2.saved_trees = ap0.saved_trees) (hsi : ap2.save_index = ap0.save_index)
    (hsz : ap2.save_size = ap0.save_size)
    (hk : (ap2.mem G).tree_type = tt) (hcnt : (ap2.mem G).args_collected = (pre.length : Int))
    (hargs : open_chain ap2.mem pre (ap2.mem G).arg_start)
    (htop : (ap2.mem G).arg_top = last_opt pre) :
    ∃ ape F1, lily_ast_enter_tree ap tt var = .ok ape
      ∧ Collecting ⟨G, pre, ap.save_index.toNat, ap2.root, ap2.active, tt,
          fun y => (y < ap.brk ∧ y ∉ F) ∧ y ∉ pre, ape.mem, ap.saved_trees, ap.save_size⟩
          [] ape F1
      ∧ ape.save_index = (ap.save_index.toNat : Int) + 2 ∧ ape.root = none ∧ ape.active = none
      ∧ ¬ (G < ap.brk ∧ G ∉ F)
      ∧ (∀ x, x < ap.brk → x ∉ F → x < ape.brk ∧ x ∉ F1)
      ∧ (∀ y, y ≠ G → ape.mem y = ap2.mem y)
      ∧ ap.save_size ≤ ape.save_size := by
  obtain ⟨F1, hch1, hGn, hGb, hGF, huse, hmem0, _, _, hsv0, hsi0, hsz0, _⟩ :=
    acquire_inuse hacq hch
  obtain ⟨s0, s1, s2, s3⟩ := hst
  have hst2 : stack_ok ap2 := by
    refine ⟨?_, ?_, ?_, ?_⟩
    · rw [hsi, hsi0]; exact s0
    · rw [hsi, hsi0]; exact s1
    · rw [hsi, hsi0, hsz, hsz0]; exact s2
    · rw [hsz, hsz0]; exact s3
  obtain ⟨ape, hen, hme, hbe, have_, hre, hae, hie, hze, hze2, hs1, hs2, hs3⟩ :=
    enter_spec tt var hacq hmv hst2
  have hidx : ap2.save_index = ap.save_index := by rw [hsi, hsi0]
  have hnat : ((ap.save_index.toNat : Nat) : Int) = ap.save_index := Int.toNat_of_nonneg s0
  have hGpre : G ∉ pre := fun h => hGn (hpre G h)
  have hmy : ∀ y, y ≠ G → ape.mem y = ap2.mem y := by
    intro y hy
    rw [hme]
    simp [hy]
  refine ⟨ape, F1, hen, ?_, by rw [hie, hidx, hnat], hre, hae, hGn, ?_, hmy, ?_⟩
  · exact
      { chain := by
          obtain ⟨c1, c2, c3⟩ := hch1
          refine ⟨?_, c2, by rw [hbe, hb]; exact c3⟩
          rw [have_, hav]
          refine free_chain_congr F1 _ (fun x hx => ?_) c1
          have hxG : x ≠ G := fun e => hGF (e ▸ hx)
          rw [hmy x hxG, hm x hxG (fun hu => (huse x hu.1 hu.2).2 hx)]
        node_used := ⟨by rw [hbe, hb]; exact hGb, hGF⟩
        args_used := by
          intro r hr
          rw [List.append_nil] at hr
          rw [hbe, hb]
          exact huse r (hpre r hr).1 (hpre r hr).2
        nodup := by
          rw [List.append_nil]
          exact List.nodup_cons.mpr ⟨hGpre, hpnd⟩
        node_new := fun h => hGn h.1
        args_new := by
          intro r hr h
          rw [List.append_nil] at hr
          exact h.2 hr
        frame := by
          intro x hx
          rw [hbe, hb]
          exact ⟨(huse x hx.1.1 hx.1.2).1, (huse x hx.1.1 hx.1.2).2, rfl⟩
        count := by
          rw [List.append_nil, hme]
          simpa using hcnt
        args := by
          rw [List.append_nil]
          have e : (ape.mem G).arg_start = (ap2.mem G).arg_start := by rw [hme]; simp
          rw [e]
          exact open_chain_same _ _ hpnd
            (fun r hr => hmy r (fun e2 => hGpre (e2 ▸ hr))) hargs
        top := by
          rw [List.append_nil, hme]
          simpa using htop
        parents := by intro r hr; simp at hr
        kind_eq := by rw [hme]; simpa using hk
        up_eq := by rw [hme]; simp
        even := by
          show ap.save_index.toNat % 2 = 0
          omega
        size := by
          show ((ap.save_index.toNat : Nat) : Int) + 2 ≤ ape.save_size
          rw [hnat, ← hidx]; exact hze2
        size0 := by
          show ap.save_size ≤ ape.save_size
          rw [← hsz0, ← hsz]; exact hze
        pre_kept := fun r _ => ⟨rfl, rfl⟩
        node_res := rfl
        saved_node := by
          show ape.saved_trees (ap.save_index.toNat + 1) = some G
          rw [← hidx]; exact hs2
        saved_root := by
          show ape.saved_trees ap.save_index.toNat = ap2.root
          rw [← hidx]; exact hs1
        saved_low := by
          intro i hi
          show ape.saved_trees i = ap.saved_trees i
          rw [hs3 i (by rw [hidx]; exact hi), hsv, hsv0] }
  · intro x h1 h2
    rw [hbe, hb]
    exact huse x h1 h2
  · rw [← hsz0, ← hsz]; exact hze

/-- A grouping from lily_ast_enter_tree to lily_ast_leave_tree, the argument
sub-expressions being `segs`. -/
theorem grouping_run {ap ap0 ap2 : lily_ast_pool} {F : List Nat} {G : Nat}
    (tt : lily_tree_type) (var : Option Nat) (pre : List Nat)
    (hch : chain_ok ap F) (hst : stack_ok ap) (hacq : acquire_tree ap = (G, ap0))
    (hmv : merge_value (poke ap0 G (fun n =>
      { n with tree_type := tt, line_num := ap0.lex_linenum, result := var,
               args_collected := 0, arg_start := none, arg_top := none })) G = .ok ap2)
    (hpre : ∀ r ∈ pre, r < ap.brk ∧ r ∉ F) (hpnd : pre.Nodup)
    (hm : ∀ y, y ≠ G → ¬ (y < ap.brk ∧ y ∉ F) → ap2.mem y = ap0.mem y)
    (hb : ap2.brk = ap0.brk) (hav : ap2.available_current = ap0.available_current)
    (hsv : ap2.saved_trees = ap0.saved_trees) (hsi : ap2.save_index = ap0.save_index)
    (hsz : ap2.save_size = ap0.save_size)
    (hk : (ap2.mem G).tree_type = tt) (hcnt : (ap2.mem G).args_collected = (pre.length : Int))
    (hargs : open_chain ap2.mem pre (ap2.mem G).arg_start)
    (htop : (ap2.mem G).arg_top = last_opt pre)
    (segs : List (List Op)) (hsegs : ∀ seg ∈ segs, isolated seg) :
    ∃ ape ap1 F1 roots, lily_ast_enter_tree ap tt var = .ok ape
      ∧ arg_roots segs ape = roots.map some ∧ roots.length = segs.length
      ∧ run (Op.enter_tree tt var :: args_ops segs) ap = .ok ap1
      ∧ Closed ⟨G, pre, ap.save_index.toNat, ap2.root, ap2.active, tt,
          fun y => (y < ap.brk ∧ y ∉ F) ∧ y ∉ pre, ape.mem, ap.saved_trees, ap.save_size⟩
          roots ap1 F1
      ∧ ¬ (G < ap.brk ∧ G ∉ F)
      ∧ (∀ y, y ≠ G → ape.mem y = ap2.mem y) := by
  obtain ⟨ape, Fe, hen, hcol, hie, hre, hae, hGn, _, hmy, _⟩ :=
    enter_collecting tt var pre hch hst hacq hmv hpre hpnd hm hb hav hsv hsi hsz hk hcnt
      hargs htop
  obtain ⟨ap1, F1, roots, hrun, hroots, hlen, hcl⟩ :=
    args_loop _ segs hsegs [] ape Fe hcol hie hre hae
  refine ⟨ape, ap1, F1, roots, hen, hroots, hlen, ?_, by simpa using hcl, hGn, hmy⟩
  simp only [run, step, hen]
  exact hrun

/-- A leaf is a sub-expression on its own. -/
theorem leaf_isolated (l : Leaf) : isolated [l.push] := by
  intro ap F hch hst hr ha
  rcases hacq : acquire_tree ap with ⟨n, ap0⟩
  obtain ⟨F1, hch1, hnn, hnb, hnF, huse, hmem0, hact0, hroot0, hsv0, hsi0, hsz0, _⟩ :=
    acquire_inuse hacq hch
  have heq := push_leaf_eq ap l
  rw [hacq] at heq
  simp only at heq
  have hrun : run [l.push] ap = .ok
      { poke ap0 n (fun nd =>
          { nd with tree_type := l.kind, line_num := ap0.lex_linenum, result := l.handle }) with
        root := some n, active := some n } := by
    simp only [run, heq]
    simp [merge_value, hact0, ha, hroot0, hr]
  refine ⟨_, F1, n, hrun, ?_, ?_, rfl, hnn, hnb, hnF, ?_, hsi0, le_of_eq hsz0.symm, ?_⟩
  · obtain ⟨c1, c2, c3⟩ := hch1
    refine ⟨?_, c2, c3⟩
    refine free_chain_congr F1 _ (fun x hx => ?_) c1
    have : x ≠ n := fun e => hnF (e ▸ hx)
    simp [this]
  · obtain ⟨s0, s1, s2, s3⟩ := hst
    exact ⟨by show 0 ≤ ap0.save_index; rw [hsi0]; exact s0,
      by show ap0.save_index % 2 = 0; rw [hsi0]; exact s1,
      by show ap0.save_index ≤ ap0.save_size; rw [hsi0, hsz0]; exact s2,
      by show 1 ≤ ap0.save_size; rw [hsz0]; exact s3⟩
  · intro x h1 h2
    have hxn : x ≠ n := fun e => hnn (e ▸ ⟨h1, h2⟩)
    refine ⟨(huse x h1 h2).1, (huse x h1 h2).2, ?_⟩
    simp [hxn, hmem0 x hxn]
  · intro i _
    show ap0.saved_trees i = ap.saved_trees i
    rw [hsv0]

/-- A grouping whose arguments are sub-expressions is a sub-expression. -/
theorem grouping_isolated (tt : lily_tree_type) (var : Option Nat) (segs : List (List Op))
    (hsegs : ∀ seg ∈ segs, isolated seg) :
    isolated (Op.enter_tree tt var :: args_ops segs) := by
  intro ap F hch hst hr ha
  rcases hacq : acquire_tree ap with ⟨G, ap0⟩
  obtain ⟨_, _, _, _, _, _, hmem0, hact0, hroot0, _, _, _, _⟩ := acquire_inuse hacq hch
  have hmv : merge_value (poke ap0 G (fun n =>
      { n with tree_type := tt, line_num := ap0.lex_linenum, result := var,
               args_collected := 0, arg_start := none, arg_top := none })) G = .ok
      { poke ap0 G (fun n =>
          { n with tree_type := tt, line_num := ap0.lex_linenum, result := var,
                   args_collected := 0, arg_start := none, arg_top := none }) with
        root := some G, active := some G } := by
    simp [merge_value, hact0, ha, hroot0, hr]
  obtain ⟨ape, ap1, F1, roots, _, _, _, hrun, hcl, hGn, hmy⟩ :=
    grouping_run tt var [] hch hst hacq hmv (by simp) List.nodup_nil
      (fun y hy _ => by simp [hy]) rfl rfl rfl rfl rfl (by simp) (by simp) (by simp [open_chain])
      (by simp [last_opt]) segs hsegs
  obtain ⟨hp, hidx, hroot, _⟩ := hcl
  obtain ⟨s0, s1, s2, s3⟩ := hst
  have hnat : ((ap.save_index.toNat : Nat) : Int) = ap.save_index := Int.toNat_of_nonneg s0
  have hsize := hp.size
  have heven := hp.even
  simp only at hidx hroot hsize heven
  refine ⟨ap1, F1, G, hrun, hp.chain, ⟨by omega, by omega, by omega, by omega⟩, hroot, hGn,
    hp.node_used.1, hp.node_used.2, ?_, by rw [hidx, hnat], hp.size0, ?_⟩
  · intro x h1 h2
    obtain ⟨k1, k2, k3⟩ := hp.frame x ⟨⟨h1, h2⟩, by simp⟩
    have hxG : x ≠ G := fun e => hGn (e ▸ ⟨h1, h2⟩)
    refine ⟨k1, k2, ?_⟩
    rw [k3]
    show ape.mem x = ap.mem x
    rw [hmy x hxG]
    simp [hxG, hmem0 x hxG]
  · intro i hi
    exact hp.saved_low i (by show i < ap.save_index.toNat; omega)

/-- What a closed grouping that took no tree over holds. -/
theorem closed_args {g : GInfo} {roots : List Nat} {ap1 : lily_ast_pool} {F1 : List Nat}
    (h : Closed g roots ap1 F1) (hpre : g.pre = []) :
    (ap1.mem g.node).tree_type = g.kind
      ∧ (ap1.mem g.node).args_collected = (roots.length : Int)
      ∧ arg_chain ap1.mem roots (ap1.mem g.node).arg_start
      ∧ ∀ r ∈ roots, (ap1.mem r).parent = some g.node := by
  obtain ⟨hp, _, _, _⟩ := h
  have h1 := hp.count
  have h2 := hp.args
  rw [hpre, List.nil_append] at h1 h2
  exact ⟨hp.kind_eq, h1, h2, hp.parents⟩

theorem example_chain_ok : chain_ok (lily_ast_reset_pool example_pool) [1, 0] := by
  refine ⟨?_, by decide, ?_⟩
  · simp [free_chain, lily_ast_reset_pool, example_pool, lily_new_ast_pool, new_pool_trees]
  · intro a ha
    simp [lily_ast_reset_pool, example_pool, lily_new_ast_pool] at ha ⊢
    omega

theorem example_stack_ok : stack_ok (lily_ast_reset_pool example_pool) := by
  simp [stack_ok, lily_ast_reset_pool, example_pool, lily_new_ast_pool]

/-- A poke that leaves `parent` alone. -/
theorem poke_keeps_parent (ap : lily_ast_pool) (a : Nat) (f : lily_ast → lily_ast)
    (hf : ∀ m, (f m).parent = m.parent) (y : Nat) :
    ((poke ap a f).mem y).parent = (ap.mem y).parent := by
  simp only [poke_mem]
  split_ifs
  · exact hf _
  · rfl

/-- acquire_tree writes no `parent`. -/
theorem acquire_parent (ap : lily_ast_pool) (y : Nat) :
    ((acquire_tree ap).2.mem y).parent = (ap.mem y).parent := by
  unfold acquire_tree
  cases ap.available_current with
  | some a => rfl
  | none =>
    simp only [make_new_tree, poke_mem]
    split_ifs <;> rfl

/-- acquire_tree keeps `active`. -/
theorem acquire_active (ap : lily_ast_pool) : (acquire_tree ap).2.active = ap.active := by
  unfold acquire_tree
  cases ap.available_current <;> rfl

/-- acquire_tree writes the new tree only. -/
theorem acquire_mem (ap : lily_ast_pool) (y : Nat) (hy : y ≠ (acquire_tree ap).1) :
    (acquire_tree ap).2.mem y = ap.mem y := by
  unfold acquire_tree at hy ⊢
  cases h : ap.available_current with
  | some a => rfl
  | none =>
    rw [h] at hy
    simp only [make_new_tree] at hy ⊢
    simp only [poke_mem, if_neg hy]

/-- merge_absorb writes no `parent`. -/
theorem merge_absorb_parent (ap : lily_ast_pool) (act n y : Nat) :
    ((merge_absorb ap act n).mem y).parent = (ap.mem y).parent := by
  unfold merge_absorb
  simp only
  split_ifs <;> simp only [poke_mem] <;> split_ifs <;> rfl

/-- merge_unary writes the `parent` of the new tree only. -/
theorem merge_unary_parent {ap ap1 : lily_ast_pool} {act n : Nat}
    (h : merge_unary ap act n = .ok ap1) (y : Nat) (hy : y ≠ n) :
    (ap1.mem y).parent = (ap.mem y).parent := by
  unfold merge_unary at h
  by_cases h1 : tree_rank tree_typecast ≤ tree_rank (ap.mem act).tree_type
      ∧ (ap.mem act).right = none
  · rw [if_pos h1] at h
    simp only [Except.ok.injEq] at h
    subst h
    simp only [poke_mem, if_neg hy]
    split_ifs <;> rfl
  · rw [if_neg h1] at h
    simp only at h
    cases hst : (if tree_rank tree_typecast ≤ tree_rank (ap.mem act).tree_type then
        (ap.mem act).right else some act) with
    | none => rw [hst] at h; simp at h
    | some a0 =>
      rw [hst] at h
      simp only at h
      cases hd : unary_descend ap.mem ap.brk a0 with
      | none => rw [hd] at h; simp at h
      | some low =>
        rw [hd] at h
        simp only [Except.ok.injEq] at h
        subst h
        simp only [poke_mem, if_neg hy]
        cases hl : (ap.mem low).left with
        | none =>
          simp only [poke_mem]
          split_ifs <;> rfl
        | some l =>
          simp only
          split_ifs
          · simp only [poke_mem]
            split_ifs <;> exact merge_absorb_parent _ _ _ _
          · rfl

/-- merge_value writes the `parent` of the new tree only. -/
theorem merge_value_parent {ap ap1 : lily_ast_pool} {n : Nat}
    (h : merge_value ap n = .ok ap1) (y : Nat) (hy : y ≠ n) :
    (ap1.mem y).parent = (ap.mem y).parent := by
  unfold merge_value at h
  cases ha : ap.active with
  | none =>
    rw [ha] at h
    simp only [Except.ok.injEq] at h
    subst h
    show ((if ap.root = none then _ else ap).mem y).parent = _
    split_ifs <;> rfl
  | some act =>
    rw [ha] at h
    simp only at h
    split_ifs at h with c1 c2
    · cases hr : (ap.mem act).right with
      | none =>
        rw [hr] at h
        simp only [Except.ok.injEq] at h
        subst h
        simp only [poke_mem]
        split_ifs <;> rfl
      | some r =>
        rw [hr] at h
        simp only at h
        split_ifs at h
        · exact merge_unary_parent h y hy
        · simp only [Except.ok.injEq] at h
          subst h
          exact merge_absorb_parent _ _ _ _
    · exact merge_unary_parent h y hy
    · simp only [Except.ok.injEq] at h
      subst h
      exact merge_absorb_parent _ _ _ _

/-- Pushing a leaf writes the `parent` of the new tree only. -/
theorem push_leaf_parent {ap ap1 : lily_ast_pool} (l : Leaf) (h : step ap l.push = .ok ap1)
    (y : Nat) (hy : y ≠ (acquire_tree ap).1) : (ap1.mem y).parent = (ap.mem y).parent := by
  rw [push_leaf_eq] at h
  rw [merge_value_parent h y hy, ← acquire_parent ap y]
  simp only [poke_mem, if_neg hy]

/-- lily_ast_push_unary_op after a unary or binary operator writes the `parent`
of the new tree only. -/
theorem push_unary_parent {ap ap1 : lily_ast_pool} (o : lily_expr_op)
    (h : lily_ast_push_unary_op ap o = .ok ap1)
    (hact : ∀ act, ap.active = some act → act ≠ (acquire_tree ap).1
      ∧ ((ap.mem act).tree_type = tree_binary ∨ (ap.mem act).tree_type = tree_unary))
    (y : Nat) (hy : y ≠ (acquire_tree ap).1) : (ap1.mem y).parent = (ap.mem y).parent := by
  have hpar0 := acquire_parent ap
  have hact0 := acquire_active ap
  have hmem0 := acquire_mem ap
  unfold lily_ast_push_unary_op at h
  rcases hacq : acquire_tree ap with ⟨a, ap0⟩
  rw [hacq] at h hy hpar0 hact0 hmem0 hact
  simp only at h hy hpar0 hact0 hmem0 hact
  cases ha : ap0.active with
  | none =>
    rw [ha] at h
    simp only [Except.ok.injEq] at h
    subst h
    simp only [poke_mem, if_neg hy]
    exact hpar0 y
  | some act =>
    rw [ha] at h
    obtain ⟨hne, hty⟩ := hact act (by rw [← hact0, ha])
    have hc : ¬ ((ap0.mem act).tree_type = tree_var ∨ (ap0.mem act).tree_type = tree_local_var
        ∨ (ap0.mem act).tree_type = tree_call ∨ (ap0.mem act).tree_type = tree_literal) := by
      rw [hmem0 act hne]
      rcases hty with e | e <;> rw [e] <;> simp
    simp only [poke_mem, if_neg hne, hc, if_false] at h
    rw [merge_unary_parent h y hy]
    simp only [poke_mem, if_neg hy]
    exact hpar0 y

/-- What lily_ast_push_binary_op does to `parent`: apart from the new tree, it
writes the `parent` of the tree it climbed to when that tree becomes the `left`
of the new root; and when the new tree gets no parent though it went above a
binary, it is that root. -/
theorem push_binary_effect {ap ap1 : lily_ast_pool} (o : lily_expr_op)
    (h : lily_ast_push_binary_op ap o = .ok ap1) :
    (∀ y, y ≠ (acquire_tree ap).1 →
      (ap1.mem y).parent = (ap.mem y).parent
        ∨ ((ap1.mem (acquire_tree ap).1).left = some y
          ∧ (ap1.mem y).parent = some (acquire_tree ap).1))
    ∧ (∀ act, ap.active = some act → act ≠ (acquire_tree ap).1 →
        (ap.mem act).tree_type = tree_binary →
        ¬ (priority_for_op o > (ap.mem act).priority ∨ priority_for_op o = 0) →
        (ap1.mem (acquire_tree ap).1).parent = none →
        ∃ tree, (ap1.mem (acquire_tree ap).1).left = some tree
          ∧ (ap1.mem tree).parent = some (acquire_tree ap).1) := by
  have hpar0 := acquire_parent ap
  have hact0 := acquire_active ap
  have hmem0 := acquire_mem ap
  unfold lily_ast_push_binary_op at h
  rcases hacq : acquire_tree ap with ⟨n, ap0⟩
  rw [hacq] at h hpar0 hact0 hmem0
  simp only at h hpar0 hact0 hmem0 ⊢
  obtain ⟨apI, hapI⟩ : ∃ apI, apI = poke ap0 n (fun nd =>
      { nd with tree_type := tree_binary, line_num := ap0.lex_linenum,
                priority := priority_for_op o, op := o,
                left := none, right := none, parent := none }) := ⟨_, rfl⟩
  rw [← hapI] at h
  have hI : ∀ y, y ≠ n → apI.mem y = ap.mem y := by
    intro y hy; rw [hapI]; simp [hy, hmem0 y hy]
  have hIn : (apI.mem n).priority = priority_for_op o := by rw [hapI]; simp
  cases ha : ap0.active with
  | none => rw [ha] at h; simp at h
  | some a =>
    rw [ha] at h
    simp only at h
    have haa : ap.active = some a := by rw [← hact0, ha]
    by_cases hrank : tree_rank (apI.mem a).tree_type < tree_rank tree_binary
    · rw [if_pos hrank] at h
      simp only [Except.ok.injEq] at h
      subst h
      refine ⟨fun y hy => Or.inl ?_, ?_⟩
      · simp only [poke_mem, if_neg hy]
        have : ∀ X : lily_ast_pool, X.mem = apI.mem →
            (X.mem y).parent = (ap.mem y).parent := by
          intro X hX; rw [hX, hI y hy]
        split_ifs <;> exact this _ rfl
      · intro act hact hne hbin _ _
        rw [haa] at hact
        have e : a = act := Option.some.inj hact
        rw [e, hI act hne, hbin] at hrank
        simp [tree_rank] at hrank
    · rw [if_neg hrank] at h
      by_cases hbin : (apI.mem a).tree_type = tree_binary
      · rw [if_pos hbin] at h
        by_cases hprio : (apI.mem n).priority > (apI.mem a).priority ∨ (apI.mem n).priority = 0
        · rw [if_pos hprio] at h
          simp only [Except.ok.injEq] at h
          subst h
          refine ⟨fun y hy => Or.inl ?_, ?_⟩
          · simp only [poke_mem, if_neg hy]
            split_ifs <;> rw [← hI y hy]
          · intro act hact hne _ hnp _
            rw [haa] at hact
            have e : a = act := Option.some.inj hact
            rw [hIn, e, hI act hne] at hprio
            exact absurd hprio hnp
        · rw [if_neg hprio] at h
          cases hcl : climb apI.mem (apI.mem n).priority apI.brk a with
          | none => rw [hcl] at h; simp at h
          | some tree =>
            rw [hcl] at h
            simp only [Except.ok.injEq] at h
            cases hp : (apI.mem tree).parent with
            | none =>
              rw [hp] at h
              simp only at h
              subst h
              refine ⟨fun y hy => ?_, fun _ _ _ _ _ _ => ⟨tree, by simp, ?_⟩⟩
              · by_cases hyt : y = tree
                · refine Or.inr ⟨by simp [hyt], ?_⟩
                  simp only [poke_mem, if_neg hy]
                  simp [hyt]
                · refine Or.inl ?_
                  simp only [poke_mem, if_neg hy, if_neg hyt]
                  rw [hI y hy]
              · simp only [poke_mem]
                split_ifs <;> simp
            | some par =>
              rw [hp] at h
              simp only at h
              subst h
              refine ⟨fun y hy => Or.inl ?_, ?_⟩
              · simp only [poke_mem, if_neg hy]
                split_ifs <;> simp only [poke_mem] <;> split_ifs <;> rw [← hI y hy]
              · intro act hact hne _ _ hnone
                exfalso
                rw [haa] at hact
                have e : a = act := Option.some.inj hact
                subst e
                have hpa : (apI.mem a).parent ≠ none := by
                  intro hn
                  unfold climb at hcl
                  rw [hn] at hcl
                  simp only [Option.some.injEq] at hcl
                  rw [← hcl, hn] at hp
                  simp at hp
                apply hpa
                simp only [poke_mem, if_true] at hnone
                revert hnone
                split_ifs <;> simp only [poke_mem, if_neg hne] <;> split_ifs <;> exact id
      · rw [if_neg hbin] at h
        simp only [Except.ok.injEq] at h
        subst h
        refine ⟨fun y hy => Or.inl (by rw [hI y hy]), ?_⟩
        intro act hact hne hb _ _
        rw [haa] at hact
        have e : a = act := Option.some.inj hact
        rw [e, hI act hne] at hbin
        exact absurd hb hbin

theorem PT_congr {mem mem1 : Nat → lily_ast} :
    ∀ t : ATree, (∀ x ∈ t.cells, (mem1 x).parent = (mem x).parent) → PT mem t → PT mem1 t
  | ATree.leaf _ _ _, _, _ => trivial
  | ATree.unary a o t, hag, h => by
    have ht : ∀ x ∈ t.cells, (mem1 x).parent = (mem x).parent :=
      fun x hx => hag x (List.mem_cons_of_mem _ hx)
    exact ⟨by rw [ht _ (ATree.addr_mem_cells t)]; exact h.1, PT_congr t ht h.2⟩
  | ATree.binary a o l r, hag, h => by
    have hl : ∀ x ∈ l.cells, (mem1 x).parent = (mem x).parent :=
      fun x hx => hag x (List.mem_append_right _ (List.mem_cons_of_mem _ hx))
    have hr : ∀ x ∈ r.cells, (mem1 x).parent = (mem x).parent :=
      fun x hx => hag x (List.mem_append_left _ hx)
    exact ⟨fun hb => by rw [hl _ (ATree.addr_mem_cells l)]; exact h.1 hb,
      fun hb => by rw [hr _ (ATree.addr_mem_cells r)]; exact h.2.1 hb,
      PT_congr l hl h.2.2.1, PT_congr r hr h.2.2.2⟩

/-- The `parent` of the top tree is not looked at. -/
theorem PT_congr_root {mem mem1 : Nat → lily_ast} (t : ATree) (hnd : t.cells.Nodup)
    (hag : ∀ x ∈ t.cells, x ≠ t.addr → (mem1 x).parent = (mem x).parent) (h : PT mem t) :
    PT mem1 t := by
  cases t with
  | leaf a k r => trivial
  | unary a o t =>
    have hn : a ∉ t.cells := (List.nodup_cons.mp hnd).1
    have ht : ∀ x ∈ t.cells, (mem1 x).parent = (mem x).parent :=
      fun x hx => hag x (List.mem_cons_of_mem _ hx) (fun e => hn ((show x = a from e) ▸ hx))
    exact ⟨by rw [ht _ (ATree.addr_mem_cells t)]; exact h.1, PT_congr t ht h.2⟩
  | binary a o l r =>
    have hmid := List.nodup_middle.mp (show (r.cells ++ a :: l.cells).Nodup from hnd)
    have hn := (List.nodup_cons.mp hmid).1
    have hl : ∀ x ∈ l.cells, (mem1 x).parent = (mem x).parent :=
      fun x hx => hag x (List.mem_append_right _ (List.mem_cons_of_mem _ hx))
        (fun e => hn (List.mem_append_right _ ((show x = a from e) ▸ hx)))
    have hr : ∀ x ∈ r.cells, (mem1 x).parent = (mem x).parent :=
      fun x hx => hag x (List.mem_append_left _ hx)
        (fun e => hn (List.mem_append_left _ ((show x = a from e) ▸ hx)))
    exact ⟨fun hb => by rw [hl _ (ATree.addr_mem_cells l)]; exact h.1 hb,
      fun hb => by rw [hr _ (ATree.addr_mem_cells r)]; exact h.2.1 hb,
      PT_congr l hl h.2.2.1, PT_congr r hr h.2.2.2⟩

theorem SpinePar_congr {mem mem1 : Nat → lily_ast} :
    ∀ fs : List Frame, (∀ x ∈ spine_cells fs, (mem1 x).parent = (mem x).parent) →
      SpinePar mem fs → SpinePar mem1 fs
  | [], _, _ => trivial
  | f :: fs, hag, h => by
    have hl : ∀ x ∈ f.left.cells, (mem1 x).parent = (mem x).parent :=
      fun x hx => hag x (List.mem_cons_of_mem _ (List.mem_append_left _ hx))
    exact ⟨h.1, PT_congr f.left hl h.2.1,
      fun hb => by rw [hl _ (ATree.addr_mem_cells f.left)]; exact h.2.2.1 hb,
      SpinePar_congr fs (fun x hx => hag x (List.mem_cons_of_mem _
        (List.mem_append_right _ hx))) h.2.2.2⟩

theorem a_operand_addr (a : Nat) (k : lily_tree_type) (r : Option Nat) :
    ∀ us : List (Nat × lily_expr_op),
      some (a_operand us (ATree.leaf a k r)).addr = operand_root us (some (a, k, r))
  | [] => rfl
  | _ :: _ => rfl

theorem operand_not_binary (a : Nat) (k : lily_tree_type) (r : Option Nat) :
    ∀ us : List (Nat × lily_expr_op), (a_operand us (ATree.leaf a k r)).is_binary = false
  | [] => rfl
  | _ :: _ => rfl

/-- The `parent` pointers of the operand are those of its chain. -/
theorem operand_PT {mem : Nat → lily_ast} (a : Nat) (k : lily_tree_type) (r : Option Nat) :
    ∀ us : List (Nat × lily_expr_op), ChainPar mem (some (a, k, r)) us →
      PT mem (a_operand us (ATree.leaf a k r))
  | [], _ => trivial
  | _ :: us, h => ⟨h.1 _ (a_operand_addr a k r us).symm, operand_PT a k r us h.2⟩

/-- The chain after a leaf came under its last unary. -/
theorem ChainPar_fill {mem mem1 : Nat → lily_ast} {n : Nat} {k : lily_tree_type}
    {r : Option Nat} :
    ∀ chain : List (Nat × lily_expr_op), ChainPar mem none chain →
      (∀ c ∈ chain.tail.map (fun u => u.1), (mem1 c).parent = (mem c).parent) →
      (∀ u us, chain = u :: us → (mem1 n).parent = some (last_from u us).1) →
      ChainPar mem1 (some (n, k, r)) chain
  | [], _, _, _ => trivial
  | [u], _, _, hl => ⟨fun c hc => by
      simp only [operand_root, Option.map_some', Option.some.injEq] at hc
      rw [← hc]; exact hl u [] rfl, trivial⟩
  | u :: v :: vs, h, hag, hl => by
    refine ⟨fun c hc => ?_, ChainPar_fill (v :: vs) h.2
      (fun c hc => hag c (List.mem_cons_of_mem _ hc))
      (fun u1 us1 e => ?_)⟩
    · simp only [operand_root, Option.some.injEq] at hc
      rw [← hc, hag v.1 (List.mem_cons_self _ _)]
      exact h.1 v.1 rfl
    · have := hl u (v :: vs) rfl
      simp only [List.cons.injEq] at e
      rw [← e.1, ← e.2]
      exact this

/-- The chain after a unary came under its last unary. -/
theorem ChainPar_snoc {mem mem1 : Nat → lily_ast} {n : Nat} {o : lily_expr_op} :
    ∀ chain : List (Nat × lily_expr_op), ChainPar mem none chain →
      (∀ c ∈ chain.tail.map (fun u => u.1), (mem1 c).parent = (mem c).parent) →
      (∀ u us, chain = u :: us → (mem1 n).parent = some (last_from u us).1) →
      ChainPar mem1 none (chain ++ [(n, o)])
  | [], _, _, _ => ⟨fun c hc => by simp [operand_root] at hc, trivial⟩
  | [u], _, _, hl => ⟨fun c hc => by
      have hc1 : some n = some c := hc
      rw [← Option.some.inj hc1]; exact hl u [] rfl,
      ⟨fun c hc => by simp [operand_root] at hc, trivial⟩⟩
  | u :: v :: vs, h, hag, hl => by
    refine ⟨fun c hc => ?_, ChainPar_snoc (v :: vs) h.2
      (fun c hc => hag c (List.mem_cons_of_mem _ hc))
      (fun u1 us1 e => ?_)⟩
    · have hc1 : some v.1 = some c := hc
      rw [← Option.some.inj hc1, hag v.1 (List.mem_cons_self _ _)]
      exact h.1 v.1 rfl
    · have := hl u (v :: vs) rfl
      simp only [List.cons.injEq] at e
      rw [← e.1, ← e.2]
      exact this

/-- The `parent` pointers of the tree under the outermost binary. -/
theorem close_PT {mem : Nat → lily_ast} :
    ∀ (fs : List Frame) (inner : ATree), SpinePar mem fs → SpineUp mem fs → PT mem inner →
      (inner.is_binary = true → ∀ f ∈ fs.head?, (mem inner.addr).parent = some f.node) →
      PT mem (a_close fs inner)
  | [], _, _, _, h, _ => h
  | [f], inner, hp, _, h, hi =>
    close_PT [] (ATree.binary f.node f.op f.left inner) trivial trivial
      ⟨hp.2.2.1, fun hb => hi hb f rfl, hp.2.1, h⟩ (fun _ g hg => by simp at hg)
  | f :: g :: gs, inner, hp, hu, h, hi =>
    close_PT (g :: gs) (ATree.binary f.node f.op f.left inner) hp.2.2.2 hu.2.2.2
      ⟨hp.2.2.1, fun hb => hi hb f rfl, hp.2.1, h⟩ (fun _ g1 hg => by
        simp only [List.head?_cons, Option.mem_def, Option.some.injEq] at hg
        rw [← hg]
        have := hu.1
        rw [hp.1] at this
        exact this)

/-- A climb that passes every binary ends at the root. -/
theorem a_climb_all {q : Int} {n : Nat} {o : lily_expr_op} :
    ∀ (fs : List Frame) (acc : List Nat) (inner : ATree) (f : Frame),
      (∀ g ∈ fs, ¬ q > priority_for_op g.op) →
      a_climb q n o acc inner f fs = [⟨n, o, a_close (f :: fs) inner, []⟩]
  | [], _, _, _, _ => rfl
  | g :: gs, acc, inner, f, h => by
    rw [a_climb, if_neg (h g (List.mem_cons_self _ _))]
    exact a_climb_all gs _ _ g (fun x hx => h x (List.mem_cons_of_mem _ hx))

theorem cells_of_none {s : Abs} (hat : s.atom = none) :
    s.cells = s.chain.map (fun u => u.1) ++ spine_cells s.spine := by
  simp [Abs.cells, hat]

/-- Pushing a leaf keeps the `parent` pointers in order. -/
theorem par_leaf {s : Abs} {used F : List Nat} {ap : lily_ast_pool} (l : Leaf)
    (h : Refines s used F ap) (hat : s.atom = none)
    (hc : ChainPar ap.mem none s.chain) (hs : SpinePar ap.mem s.spine) :
    ∃ n ap1 F1, step ap l.push = .ok ap1
      ∧ Refines ⟨s.spine, s.chain, some (n, l.kind, l.handle)⟩ (n :: used) F1 ap1
      ∧ ChainPar ap1.mem (some (n, l.kind, l.handle)) s.chain ∧ SpinePar ap1.mem s.spine := by
  obtain ⟨n, ap1, F1, hn, hstep, hnu, hR, hpn, _⟩ := push_leaf_refines l h hat
  have hpar := push_leaf_parent l hstep
  rw [← hn] at hpar
  have hcells := cells_of_none hat
  have hcn : ∀ x ∈ s.cells, (ap1.mem x).parent = (ap.mem x).parent :=
    fun x hx => hpar x (fun e => hnu (e ▸ h.cells_used x hx))
  refine ⟨n, ap1, F1, hstep, hR, ?_, ?_⟩
  · refine ChainPar_fill s.chain hc (fun c hc1 => hcn c ?_) hpn
    rw [hcells]
    exact List.mem_append_left _ (List.mem_of_mem_tail (by simpa using hc1))
  · exact SpinePar_congr s.spine (fun x hx => hcn x (by
      rw [hcells]; exact List.mem_append_right _ hx)) hs

/-- lily_ast_push_unary_op keeps the `parent` pointers in order. -/
theorem par_unary {s : Abs} {used F : List Nat} {ap : lily_ast_pool} (o : lily_expr_op)
    (h : Refines s used F ap) (hat : s.atom = none)
    (hc : ChainPar ap.mem none s.chain) (hs : SpinePar ap.mem s.spine) :
    ∃ n ap1 F1, lily_ast_push_unary_op ap o = .ok ap1
      ∧ Refines ⟨s.spine, s.chain ++ [(n, o)], none⟩ (n :: used) F1 ap1
      ∧ ChainPar ap1.mem none (s.chain ++ [(n, o)]) ∧ SpinePar ap1.mem s.spine := by
  obtain ⟨n, ap1, F1, hn, hstep, hnu, hR, hpn, _⟩ := push_unary_refines o h hat
  have hcells := cells_of_none hat
  have hne : ∀ x ∈ s.cells, x ≠ n := fun x hx e => hnu (e ▸ h.cells_used x hx)
  have hact : ∀ act, ap.active = some act → act ≠ (acquire_tree ap).1
      ∧ ((ap.mem act).tree_type = tree_binary ∨ (ap.mem act).tree_type = tree_unary) := by
    intro act ha
    rw [← hn]
    have hae := h.active_eq
    rw [ha] at hae
    cases hsp : s.spine with
    | nil =>
      rw [hsp] at hae
      cases hch : s.chain with
      | nil => rw [hch, hat] at hae; simp [operand_root] at hae
      | cons u us =>
        rw [hch] at hae
        simp only [operand_root, Option.some.injEq] at hae
        have hcr := h.chain_rep
        rw [hch] at hcr
        rw [hae]
        exact ⟨hne _ (by rw [hcells, hch]; simp), Or.inr hcr.1⟩
    | cons f fs =>
      rw [hsp] at hae
      simp only [Option.some.injEq] at hae
      have hsr := h.spine_rep
      rw [hsp] at hsr
      rw [hae]
      exact ⟨hne _ (by rw [hcells, hsp]; simp [spine_cells]), Or.inl hsr.1⟩
  have hpar := push_unary_parent o hstep hact
  rw [← hn] at hpar
  have hcn : ∀ x ∈ s.cells, (ap1.mem x).parent = (ap.mem x).parent :=
    fun x hx => hpar x (hne x hx)
  refine ⟨n, ap1, F1, hstep, hR, ?_, ?_⟩
  · refine ChainPar_snoc s.chain hc (fun c hc1 => hcn c ?_) hpn
    rw [hcells]
    exact List.mem_append_left _ (List.mem_of_mem_tail (by simpa using hc1))
  · exact SpinePar_congr s.spine (fun x hx => hcn x (by
      rw [hcells]; exact List.mem_append_right _ hx)) hs

theorem a_close_cells :
    ∀ (fs : List Frame) (inner : ATree),
      (a_close fs inner).cells = inner.cells ++ spine_cells fs
  | [], inner => by simp [a_close, spine_cells]
  | f :: fs, inner => by
    rw [a_close, a_close_cells fs]
    simp [ATree.cells, spine_cells]

theorem a_close_binary :
    ∀ (fs : List Frame) (f : Frame) (inner : ATree), (a_close (f :: fs) inner).is_binary = true
  | [], _, _ => rfl
  | g :: gs, _, _ => a_close_binary gs g _

/-- lily_ast_push_binary_op keeps the `parent` pointers in order when the new
tree does not go between two binary trees. -/
theorem par_binary {s : Abs} {used F : List Nat} {ap : lily_ast_pool} (o : lily_expr_op)
    (h : Refines s used F ap) (hat : s.atom ≠ none)
    (hc : ChainPar ap.mem s.atom s.chain) (hs : SpinePar ap.mem s.spine)
    (hns : s_splices s.shape o = false) :
    ∃ n ap1 F1, lily_ast_push_binary_op ap o = .ok ap1
      ∧ Refines (a_push_binary n o s) (n :: used) F1 ap1
      ∧ ChainPar ap1.mem (a_push_binary n o s).atom (a_push_binary n o s).chain
      ∧ SpinePar ap1.mem (a_push_binary n o s).spine := by
  obtain ⟨n, ap1, F1, hn, hstep, hnu, hR, _⟩ := push_binary_refines o h hat
  obtain ⟨hA, hB⟩ := push_binary_effect o hstep
  rw [← hn] at hA hB
  obtain ⟨⟨a, k, r⟩, hatom⟩ := Option.ne_none_iff_exists'.mp hat
  have hatr := h.atom_rep (a, k, r) (by simp [hatom])
  have hchain : ChainRep ap.mem (some (a, k, r)) s.chain := hatom ▸ h.chain_rep
  obtain ⟨_, htaddr, htcells⟩ := operand_rep hatr.1 hatr.2.1 hatr.2.2 s.chain hchain
  have hcells := cells_of_atom hatom
  rw [← htcells] at hcells
  have hcnd := h.cells_nodup
  rw [hcells] at hcnd
  have hne : ∀ x ∈ s.cells, x ≠ n := fun x hx e => hnu (e ▸ h.cells_used x hx)
  rw [hatom] at hc
  have hPt : PT ap.mem (a_operand s.chain (ATree.leaf a k r)) := operand_PT a k r s.chain hc
  have hnb := operand_not_binary a k r s.chain
  refine ⟨n, ap1, F1, hstep, hR, ?_, ?_⟩
  · have : (a_push_binary n o s).chain = [] := by
      simp only [a_push_binary, hatom]
      cases s.spine with
      | nil => rfl
      | cons f fs => simp only; split_ifs <;> rfl
    rw [this]
    trivial
  · -- what `left` of the new tree holds decides whose `parent` may have changed
    have hkeep : ∀ (L : ATree), (ap1.mem n).left = some L.addr →
        ∀ x ∈ s.cells, x ≠ L.addr → (ap1.mem x).parent = (ap.mem x).parent := by
      intro L hL x hx hxL
      rcases hA x (hne x hx) with e | ⟨e, _⟩
      · exact e
      · rw [hL] at e
        exact absurd (Option.some.inj e).symm hxL
    cases hsp : s.spine with
    | nil =>
      have hs1 : a_push_binary n o s
          = ⟨[⟨n, o, a_operand s.chain (ATree.leaf a k r), []⟩], [], none⟩ := by
        simp [a_push_binary, hatom, hsp]
      rw [hs1] at hR ⊢
      have hleft : (ap1.mem n).left = some (a_operand s.chain (ATree.leaf a k r)).addr :=
        hR.spine_rep.2.2.2.1
      rw [hsp] at hcells hcnd
      simp only [spine_cells, List.append_nil] at hcells hcnd
      refine ⟨rfl, ?_, fun hb => by simp [hnb] at hb, trivial⟩
      exact PT_congr_root _ hcnd (fun x hx hxa => hkeep _ hleft x (by rw [hcells]; exact hx) hxa)
        hPt
    | cons f fs =>
      rw [hsp] at hcells hcnd hs
      have hdisj : ∀ x ∈ spine_cells (f :: fs),
          x ≠ (a_operand s.chain (ATree.leaf a k r)).addr := by
        intro x hx e
        exact (List.nodup_append.mp hcnd).2.2 (ATree.addr_mem_cells _) (e ▸ hx)
      by_cases hprio : priority_for_op o > priority_for_op f.op ∨ priority_for_op o = 0
      · have hs1 : a_push_binary n o s
            = ⟨⟨n, o, a_operand s.chain (ATree.leaf a k r), []⟩ :: f :: fs, [], none⟩ := by
          simp [a_push_binary, hatom, hsp, hprio]
        rw [hs1] at hR ⊢
        have hleft : (ap1.mem n).left = some (a_operand s.chain (ATree.leaf a k r)).addr :=
          hR.spine_rep.2.2.2.1
        refine ⟨rfl, ?_, fun hb => by simp [hnb] at hb, ?_⟩
        · exact PT_congr_root _ (List.nodup_append.mp hcnd).1
            (fun x hx hxa => hkeep _ hleft x (by
              rw [hcells]; exact List.mem_append_left _ hx) hxa) hPt
        · exact SpinePar_congr _ (fun x hx => hkeep _ hleft x (by
            rw [hcells]; exact List.mem_append_right _ hx) (hdisj x hx)) hs
      · have hall : ∀ g ∈ fs, ¬ priority_for_op o > priority_for_op g.op := by
          have := hns
          simp only [s_splices, Abs.shape, hsp, List.map_cons, Frame.shape, hprio,
            decide_False, Bool.not_false, Bool.true_and, List.any_eq_false, List.mem_map,
            decide_eq_true_eq, forall_exists_index, and_imp,
            forall_apply_eq_imp_iff₂] at this
          exact this
        have hs1 : a_push_binary n o s
            = ⟨[⟨n, o, a_close (f :: fs) (a_operand s.chain (ATree.leaf a k r)), []⟩],
                [], none⟩ := by
          simp only [a_push_binary, hatom, hsp, hprio, if_false]
          rw [a_climb_all fs _ _ f hall]
        rw [hs1] at hR ⊢
        have hleft : (ap1.mem n).left
            = some (a_close (f :: fs) (a_operand s.chain (ATree.leaf a k r))).addr :=
          hR.spine_rep.2.2.2.1
        have hnp : (ap1.mem n).parent = none := hR.spine_up.2
        have hsr := h.spine_rep
        rw [hsp] at hsr
        have hfn : f.node ≠ n := hne _ (by rw [hcells]; simp [spine_cells])
        obtain ⟨tree, ht1, ht2⟩ := hB f.node (by rw [h.active_eq, hsp]) hfn hsr.1
          (by rw [hsr.2.2.1]; exact hprio) hnp
        rw [hleft] at ht1
        have htree := Option.some.inj ht1
        have hLc := a_close_cells (f :: fs) (a_operand s.chain (ATree.leaf a k r))
        have hPL : PT ap.mem (a_close (f :: fs) (a_operand s.chain (ATree.leaf a k r))) := by
          have hsu := h.spine_up
          rw [hsp] at hsu
          exact close_PT (f :: fs) _ hs hsu hPt (fun hb => by simp [hnb] at hb)
        refine ⟨rfl, ?_, fun _ => by rw [htree]; exact ht2, trivial⟩
        exact PT_congr_root _ (by rw [hLc]; exact hcnd)
          (fun x hx hxa => hkeep _ hleft x (by rw [hcells, ← hLc]; exact hx) hxa) hPL

theorem ATree.shape_is_binary : ∀ t : ATree, t.shape.is_binary = t.is_binary
  | ATree.leaf _ _ _ => rfl
  | ATree.unary _ _ _ => rfl
  | ATree.binary _ _ _ _ => rfl

/-- The `parent` pointers of a tree with addresses, read off the memory. -/
theorem PT_parents_at {mem : Nat → lily_ast} :
    ∀ t : ATree, Rep mem t → t.cells.Nodup → PT mem t → parents_at mem t.shape (some t.addr)
  | ATree.leaf _ _ _, _, _, _ => trivial
  | ATree.unary a o t, hr, hnd, hp => by
    obtain ⟨_, _, _, h4, h5⟩ := hr
    refine ⟨⟨t.addr, h4, hp.1⟩, ?_⟩
    show parents_at mem t.shape (mem a).left
    rw [h4]
    exact PT_parents_at t h5 (List.nodup_cons.mp hnd).2 hp.2
  | ATree.binary a o l r, hr, hnd, hp => by
    obtain ⟨_, _, _, h4, h5, h6, h7⟩ := hr
    have hnd2 : (r.cells ++ a :: l.cells).Nodup := hnd
    have hmid := List.nodup_middle.mp hnd2
    have hrl := (List.nodup_cons.mp hmid).2
    have hdis : l.addr ≠ r.addr := fun e =>
      (List.nodup_append.mp hrl).2.2 (ATree.addr_mem_cells r) (e ▸ ATree.addr_mem_cells l)
    refine ⟨fun hb => ⟨l.addr, h4, hp.1 (by rw [← ATree.shape_is_binary]; exact hb), ?_⟩,
      fun hb => ⟨r.addr, h5, hp.2.1 (by rw [← ATree.shape_is_binary]; exact hb), ?_⟩, ?_, ?_⟩
    · show (mem a).right ≠ some l.addr
      rw [h5]; exact fun e => hdis (Option.some.inj e).symm
    · show (mem a).left ≠ some r.addr
      rw [h4]; exact fun e => hdis (Option.some.inj e)
    · show parents_at mem l.shape (mem a).left
      rw [h4]
      exact PT_parents_at l h6 (List.nodup_append.mp hrl).2.1 hp.2.2.1
    · show parents_at mem r.shape (mem a).right
      rw [h5]
      exact PT_parents_at r h7 (List.nodup_append.mp hrl).1 hp.2.2.2

/-- The run of a sequence of operator calls none of which goes between two
binary trees keeps the `parent` pointers in order. -/
theorem run_parents :
    ∀ (ops : List Op) (s : Abs) (used F : List Nat) (ap : lily_ast_pool) (ss : SState),
      Refines s used F ap → ChainPar ap.mem s.atom s.chain → SpinePar ap.mem s.spine →
      s_run ops s.shape = some ss → s_splice_free ops s.shape = true →
      ∃ ap1 s1 used1 F1, run ops ap = .ok ap1 ∧ Refines s1 used1 F1 ap1 ∧ s1.shape = ss
        ∧ ChainPar ap1.mem s1.atom s1.chain ∧ SpinePar ap1.mem s1.spine
  | [], s, used, F, ap, ss, h, hc, hs, hr, _ => by
    simp only [s_run, Option.some.injEq] at hr
    exact ⟨ap, s, used, F, rfl, h, hr, hc, hs⟩
  | op :: ops, s, used, F, ap, ss, h, hc, hs, hr, hf => by
    simp only [s_run] at hr
    cases hst : s_step s.shape op with
    | none => simp [hst] at hr
    | some s1 =>
      rw [hst] at hr
      simp only at hr
      have hf2 : s_splice_free ops s1 = true := by
        have := hf
        simp only [s_splice_free, hst, Bool.and_eq_true] at this
        exact this.2
      have hnone : ∀ {α : Type} (c : Prop) [Decidable c] (x : α) (y : SState),
          (if c then some y else none) = some s1 → c ∧ y = s1 := by
        intro α c _ x y hy
        by_cases hc : c
        · rw [if_pos hc] at hy; exact ⟨hc, Option.some.inj hy⟩
        · rw [if_neg hc] at hy; exact absurd hy (by simp)
      have hatom : s.shape.atom = none → s.atom = none := by
        intro e
        cases hat : s.atom with
        | none => rfl
        | some x => simp [Abs.shape, hat] at e
      have step_ok : ∀ (ap1 : lily_ast_pool) (s2 : Abs) (used1 F1 : List Nat),
          step ap op = .ok ap1 → Refines s2 used1 F1 ap1 → s2.shape = s1 →
          ChainPar ap1.mem s2.atom s2.chain → SpinePar ap1.mem s2.spine →
          ∃ ap2 s3 used2 F2, run (op :: ops) ap = .ok ap2 ∧ Refines s3 used2 F2 ap2
            ∧ s3.shape = ss ∧ ChainPar ap2.mem s3.atom s3.chain
            ∧ SpinePar ap2.mem s3.spine := by
        intro ap1 s2 used1 F1 e1 e2 e3 e4 e5
        obtain ⟨ap2, s3, used2, F2, r1, r2, r3, r4, r5⟩ :=
          run_parents ops s2 used1 F1 ap1 ss e2 e4 e5 (by rw [e3]; exact hr)
            (by rw [e3]; exact hf2)
        refine ⟨ap2, s3, used2, F2, ?_, r2, r3, r4, r5⟩
        simp only [run, e1]
        exact r1
      cases op with
      | push_sym r =>
        obtain ⟨hc1, hy⟩ := hnone _ () _ hst
        have hat := hatom hc1
        obtain ⟨n, ap1, F1, e1, e2, e3, e4⟩ := par_leaf (Leaf.sym r) h hat (hat ▸ hc) hs
        exact step_ok ap1 _ _ F1 e1 e2 (by rw [← hy]; rfl) e3 e4
      | push_literal r =>
        obtain ⟨hc1, hy⟩ := hnone _ () _ hst
        have hat := hatom hc1
        obtain ⟨n, ap1, F1, e1, e2, e3, e4⟩ := par_leaf (Leaf.literal r) h hat (hat ▸ hc) hs
        exact step_ok ap1 _ _ F1 e1 e2 (by rw [← hy]; rfl) e3 e4
      | push_local_var r =>
        obtain ⟨hc1, hy⟩ := hnone _ () _ hst
        have hat := hatom hc1
        obtain ⟨n, ap1, F1, e1, e2, e3, e4⟩ := par_leaf (Leaf.local_var r) h hat (hat ▸ hc) hs
        exact step_ok ap1 _ _ F1 e1 e2 (by rw [← hy]; rfl) e3 e4
      | push_unary_op o =>
        obtain ⟨hc1, hy⟩ := hnone _ () _ hst
        have hat := hatom hc1
        obtain ⟨n, ap1, F1, e1, e2, e3, e4⟩ := par_unary o h hat (hat ▸ hc) hs
        refine step_ok ap1 _ _ F1 e1 e2 ?_ e3 e4
        rw [← hy]
        simp [Abs.shape, hat]
      | push_binary_op o =>
        have hat : s.atom ≠ none := by
          intro e
          simp [s_step, Abs.shape, e] at hst
        have hns : s_splices s.shape o = false := by
          have := hf
          simp only [s_splice_free, Bool.and_eq_true, Bool.not_eq_true'] at this
          exact this.1
        obtain ⟨n, ap1, F1, e1, e2, e3, e4⟩ := par_binary o h hat hc hs hns
        exact step_ok ap1 _ _ F1 e1 e2 (a_push_binary_shape n o s s1 hst) e3 e4
      | push_sig _ => simp [s_step] at hst
      | push_empty_list _ => simp [s_step] at hst
      | enter_tree _ _ => simp [s_step] at hst
      | collect_arg => simp [s_step] at hst
      | leave_tree => simp [s_step] at hst
      | reset_pool => simp [s_step] at hst

/-- The `parent` pointers of a complete expression, read off under `root`. -/
theorem refines_parents {s : Abs} {used F : List Nat} {ap : lily_ast_pool} {t : Tree}
    (h : Refines s used F ap) (hc : ChainPar ap.mem s.atom s.chain)
    (hs : SpinePar ap.mem s.spine) (ht : s.shape.tree = some t) :
    parents_at ap.mem t ap.root := by
  cases hat : s.atom with
  | none => simp [SState.tree, Abs.shape, hat] at ht
  | some x =>
    obtain ⟨a, k, r⟩ := x
    have hatr := h.atom_rep (a, k, r) (by simp [hat])
    have hchain : ChainRep ap.mem (some (a, k, r)) s.chain := hat ▸ h.chain_rep
    obtain ⟨hRt, htaddr, htcells⟩ := operand_rep hatr.1 hatr.2.1 hatr.2.2 s.chain hchain
    have hsr := h.spine_rep
    rw [hat, ← htaddr] at hsr
    have hR := Rep_close s.spine _ hRt hsr
    have hroot : ap.root = some (a_close s.spine (a_operand s.chain (ATree.leaf a k r))).addr := by
      rw [h.root_eq]
      cases hs : s.spine with
      | nil => simp [a_close, hat, htaddr]
      | cons f fs => simp [a_close_addr]
    have hshape : t = (a_close s.spine (a_operand s.chain (ATree.leaf a k r))).shape := by
      simp only [SState.tree, Abs.shape, hat, Option.map_some', Option.some.injEq] at ht
      rw [← ht, a_close_shape, a_operand_shape]
      rfl
    have hcells := cells_of_atom hat
    rw [← htcells, ← a_close_cells] at hcells
    have hnd := h.cells_nodup
    rw [hcells] at hnd
    rw [hat] at hc
    have hP := close_PT s.spine _ hs h.spine_up (operand_PT a k r s.chain hc)
      (fun hb => by simp [operand_not_binary] at hb)
    rw [hroot, hshape]
    exact PT_parents_at _ hR hnd hP

/-- lily_ast_enter_tree with `root` and `active` empty: the new tree is saved as
the root and as its own parent, and collects. -/
theorem enter_fresh {ap : lily_ast_pool} {F : List Nat} (tt : lily_tree_type)
    (var : Option Nat) (hch : chain_ok ap F) (hst : stack_ok ap)
    (hr : ap.root = none) (ha : ap.active = none) :
    ∃ ape F1, lily_ast_enter_tree ap tt var = .ok ape
      ∧ Collecting ⟨(acquire_tree ap).1, [], ap.save_index.toNat, some (acquire_tree ap).1,
          some (acquire_tree ap).1, tt, fun y => (y < ap.brk ∧ y ∉ F) ∧ y ∉ [], ape.mem,
          ap.saved_trees, ap.save_size⟩ [] ape F1
      ∧ ape.save_index = (ap.save_index.toNat : Int) + 2 ∧ ape.root = none
      ∧ ape.active = none := by
  rcases hacq : acquire_tree ap with ⟨G, ap0⟩
  obtain ⟨_, _, _, _, _, _, hmem0, hact0, hroot0, _, _, _, _⟩ := acquire_inuse hacq hch
  have hmv : merge_value (poke ap0 G (fun n =>
      { n with tree_type := tt, line_num := ap0.lex_linenum, result := var,
               args_collected := 0, arg_start := none, arg_top := none })) G = .ok
      { poke ap0 G (fun n =>
          { n with tree_type := tt, line_num := ap0.lex_linenum, result := var,
                   args_collected := 0, arg_start := none, arg_top := none }) with
        root := some G, active := some G } := by
    simp [merge_value, hact0, ha, hroot0, hr]
  obtain ⟨ape, F1, hen, hcol, hie, hre, hae, _⟩ :=
    enter_collecting tt var [] hch hst hacq hmv (by simp) List.nodup_nil
      (fun y hy _ => by simp [hy]) rfl rfl rfl rfl rfl (by simp) (by simp) (by simp [open_chain])
      (by simp [last_opt])
  exact ⟨ape, F1, hen, hcol, hie, hre, hae⟩

/-- What lily_ast_caller_tree_type returns while a grouping collects. -/
theorem Collecting.caller {g : GInfo} {rs : List Nat} {ap : lily_ast_pool} {F : List Nat}
    (h : Collecting g rs ap F) (hi : ap.save_index = (g.si : Int) + 2) :
    lily_ast_caller_tree_type ap = .ok g.kind := by
  have hsz := h.size
  unfold lily_ast_caller_tree_type saved_at
  rw [hi, if_pos ⟨by omega, by omega⟩, toNat_si, h.saved_node]
  simp only [h.kind_eq]

theorem same_stack_refl (ap : lily_ast_pool) : same_stack ap ap := ⟨rfl, rfl, rfl⟩

theorem same_stack_trans {a b c : lily_ast_pool} (h1 : same_stack a b) (h2 : same_stack b c) :
    same_stack a c :=
  ⟨h1.1.trans h2.1, h1.2.1.trans h2.2.1, h1.2.2.trans h2.2.2⟩

theorem same_pool_refl (ap : lily_ast_pool) : same_pool ap ap := ⟨rfl, rfl, rfl, fun _ => rfl⟩

theorem same_pool_trans {a b c : lily_ast_pool} (h1 : same_pool a b) (h2 : same_pool b c) :
    same_pool a c :=
  ⟨h1.1.trans h2.1, h1.2.1.trans h2.2.1, h1.2.2.1.trans h2.2.2.1,
    fun y => (h1.2.2.2 y).trans (h2.2.2.2 y)⟩

/-- acquire_tree leaves the save stack alone. -/
theorem acquire_stack (ap : lily_ast_pool) : same_stack (acquire_tree ap).2 ap := by
  unfold acquire_tree
  cases ap.available_current <;> exact ⟨rfl, rfl, rfl⟩

/-- merge_absorb leaves pool and save stack alone. -/
theorem merge_absorb_frame (ap : lily_ast_pool) (act n : Nat) :
    same_pool (merge_absorb ap act n) ap ∧ same_stack (merge_absorb ap act n) ap := by
  unfold merge_absorb
  simp only
  split_ifs <;>
    (refine ⟨⟨rfl, rfl, rfl, fun y => ?_⟩, ⟨rfl, rfl, rfl⟩⟩
     simp only [poke_mem]; split_ifs <;> rfl)

/-- merge_unary leaves pool and save stack alone. -/
theorem merge_unary_frame {ap ap1 : lily_ast_pool} {act n : Nat}
    (h : merge_unary ap act n = .ok ap1) : same_pool ap1 ap ∧ same_stack ap1 ap := by
  unfold merge_unary at h
  by_cases h1 : tree_rank tree_typecast ≤ tree_rank (ap.mem act).tree_type
      ∧ (ap.mem act).right = none
  · rw [if_pos h1] at h
    simp only [Except.ok.injEq] at h
    subst h
    refine ⟨⟨rfl, rfl, rfl, fun y => ?_⟩, ⟨rfl, rfl, rfl⟩⟩
    simp only [poke_mem]; split_ifs <;> rfl
  · rw [if_neg h1] at h
    simp only at h
    cases hst : (if tree_rank tree_typecast ≤ tree_rank (ap.mem act).tree_type then
        (ap.mem act).right else some act) with
    | none => rw [hst] at h; simp at h
    | some a0 =>
      rw [hst] at h
      simp only at h
      cases hd : unary_descend ap.mem ap.brk a0 with
      | none => rw [hd] at h; simp at h
      | some low =>
        rw [hd] at h
        simp only [Except.ok.injEq] at h
        subst h
        cases hl : (ap.mem low).left with
        | none =>
          refine ⟨⟨rfl, rfl, rfl, fun y => ?_⟩, ⟨rfl, rfl, rfl⟩⟩
          simp only [poke_mem]; split_ifs <;> rfl
        | some l =>
          simp only
          split_ifs
          · obtain ⟨⟨a1, a2, a3, a4⟩, b1, b2, b3⟩ := merge_absorb_frame ap l n
            refine ⟨⟨a1, a2, a3, fun y => ?_⟩, ⟨b1, b2, b3⟩⟩
            rw [← a4 y]
            simp only [poke_mem]; split_ifs <;> rfl
          · refine ⟨⟨rfl, rfl, rfl, fun y => ?_⟩, ⟨rfl, rfl, rfl⟩⟩
            simp only [poke_mem]; split_ifs <;> rfl

/-- merge_value leaves pool and save stack alone. -/
theorem merge_value_frame {ap ap1 : lily_ast_pool} {n : Nat}
    (h : merge_value ap n = .ok ap1) : same_pool ap1 ap ∧ same_stack ap1 ap := by
  unfold merge_value at h
  cases ha : ap.active with
  | none =>
    rw [ha] at h
    simp only [Except.ok.injEq] at h
    subst h
    by_cases hr : ap.root = none
    · simp only [hr, if_true]
      exact ⟨⟨rfl, rfl, rfl, fun _ => rfl⟩, ⟨rfl, rfl, rfl⟩⟩
    · simp only [hr, if_false]
      exact ⟨⟨rfl, rfl, rfl, fun _ => rfl⟩, ⟨rfl, rfl, rfl⟩⟩
  | some act =>
    rw [ha] at h
    simp only at h
    split_ifs at h with c1 c2
    · cases hr : (ap.mem act).right with
      | none =>
        rw [hr] at h
        simp only [Except.ok.injEq] at h
        subst h
        refine ⟨⟨rfl, rfl, rfl, fun y => ?_⟩, ⟨rfl, rfl, rfl⟩⟩
        simp only [poke_mem]; split_ifs <;> rfl
      | some r =>
        rw [hr] at h
        simp only at h
        split_ifs at h
        · exact merge_unary_frame h
        · simp only [Except.ok.injEq] at h
          subst h
          exact merge_absorb_frame _ _ _
    · exact merge_unary_frame h
    · simp only [Except.ok.injEq] at h
      subst h
      exact merge_absorb_frame _ _ _

/-- push_tree_arg leaves pool and save stack alone. -/
theorem push_tree_arg_frame {ap ap1 : lily_ast_pool} {G : Nat} {t : Option Nat}
    (h : push_tree_arg ap G t = .ok ap1) : same_pool ap1 ap ∧ same_stack ap1 ap := by
  unfold push_tree_arg at h
  cases hs : (ap.mem G).arg_start <;> cases ht : (ap.mem G).arg_top <;> cases t <;>
    simp only [hs, ht, Except.ok.injEq, reduceCtorEq] at h <;>
    (subst h
     refine ⟨⟨rfl, rfl, rfl, fun y => ?_⟩, ⟨rfl, rfl, rfl⟩⟩
     simp only [poke_mem]; split_ifs <;> rfl)

/-- A push of a value: the tree is taken from the pool, filled in and merged. -/
theorem push_value_frame {ap ap1 : lily_ast_pool} (f : lily_ast_pool → lily_ast → lily_ast)
    (hf : ∀ p m, (f p m).next_tree = m.next_tree)
    (h : merge_value (poke (acquire_tree ap).2 (acquire_tree ap).1 (f (acquire_tree ap).2))
      (acquire_tree ap).1 = .ok ap1) :
    same_pool ap1 (acquire_tree ap).2 ∧ same_stack ap1 ap := by
  obtain ⟨⟨a1, a2, a3, a4⟩, b⟩ := merge_value_frame h
  refine ⟨⟨a1, a2, a3, fun y => ?_⟩, same_stack_trans b (acquire_stack ap)⟩
  rw [a4 y]
  simp only [poke_mem]
  split_ifs
  · exact hf _ _
  · rfl

theorem push_unary_frame {ap ap1 : lily_ast_pool} (o : lily_expr_op)
    (h : lily_ast_push_unary_op ap o = .ok ap1) :
    same_pool ap1 (acquire_tree ap).2 ∧ same_stack ap1 ap := by
  have hs := acquire_stack ap
  unfold lily_ast_push_unary_op at h
  rcases hacq : acquire_tree ap with ⟨a, ap0⟩
  rw [hacq] at h hs
  simp only at h hs ⊢
  cases ha : ap0.active with
  | none =>
    rw [ha] at h
    simp only [Except.ok.injEq] at h
    subst h
    refine ⟨⟨rfl, rfl, rfl, fun y => ?_⟩, hs⟩
    simp only [poke_mem]; split_ifs <;> rfl
  | some act =>
    rw [ha] at h
    simp only at h
    split_ifs at h
    · simp only [Except.ok.injEq] at h
      subst h
      refine ⟨⟨rfl, rfl, rfl, fun y => ?_⟩, hs⟩
      simp only [poke_mem]; split_ifs <;> rfl
    · obtain ⟨⟨a1, a2, a3, a4⟩, b⟩ := merge_unary_frame h
      refine ⟨⟨a1, a2, a3, fun y => ?_⟩, same_stack_trans b hs⟩
      rw [a4 y]
      simp only [poke_mem]; split_ifs <;> rfl

theorem push_binary_frame {ap ap1 : lily_ast_pool} (o : lily_expr_op)
    (h : lily_ast_push_binary_op ap o = .ok ap1) :
    same_pool ap1 (acquire_tree ap).2 ∧ same_stack ap1 ap := by
  have hs := acquire_stack ap
  unfold lily_ast_push_binary_op at h
  rcases hacq : acquire_tree ap with ⟨n, ap0⟩
  rw [hacq] at h hs
  simp only at h hs ⊢
  obtain ⟨apI, hapI⟩ : ∃ apI, apI = poke ap0 n (fun nd =>
      { nd with tree_type := tree_binary, line_num := ap0.lex_linenum,
                priority := priority_for_op o, op := o,
                left := none, right := none, parent := none }) := ⟨_, rfl⟩
  rw [← hapI] at h
  have hI : same_pool apI ap0 := by
    rw [hapI]
    refine ⟨rfl, rfl, rfl, fun y => ?_⟩
    simp only [poke_mem]; split_ifs <;> rfl
  have hIs : same_stack apI ap := by rw [hapI]; exact hs
  have key : ∀ X : lily_ast_pool, same_pool X apI ∧ same_stack X apI →
      same_pool X ap0 ∧ same_stack X ap :=
    fun X hX => ⟨same_pool_trans hX.1 hI, same_stack_trans hX.2 hIs⟩
  cases ha : ap0.active with
  | none => rw [ha] at h; simp at h
  | some a =>
    rw [ha] at h
    simp only at h
    by_cases hrank : tree_rank (apI.mem a).tree_type < tree_rank tree_binary
    · rw [if_pos hrank] at h
      simp only [Except.ok.injEq] at h
      subst h
      by_cases hr : apI.root = some a
      · rw [if_pos hr]
        refine key _ ⟨⟨rfl, rfl, rfl, fun y => ?_⟩, ⟨rfl, rfl, rfl⟩⟩
        simp only [poke_mem]; split_ifs <;> rfl
      · rw [if_neg hr]
        refine key _ ⟨⟨rfl, rfl, rfl, fun y => ?_⟩, ⟨rfl, rfl, rfl⟩⟩
        simp only [poke_mem]; split_ifs <;> rfl
    · rw [if_neg hrank] at h
      by_cases hbin : (apI.mem a).tree_type = tree_binary
      · rw [if_pos hbin] at h
        by_cases hprio : (apI.mem n).priority > (apI.mem a).priority ∨ (apI.mem n).priority = 0
        · rw [if_pos hprio] at h
          simp only [Except.ok.injEq] at h
          subst h
          refine key _ ⟨⟨rfl, rfl, rfl, fun y => ?_⟩, ⟨rfl, rfl, rfl⟩⟩
          simp only [poke_mem]; split_ifs <;> rfl
        · rw [if_neg hprio] at h
          cases hcl : climb apI.mem (apI.mem n).priority apI.brk a with
          | none => rw [hcl] at h; simp at h
          | some tree =>
            rw [hcl] at h
            simp only [Except.ok.injEq] at h
            cases hp : (apI.mem tree).parent with
            | none =>
              rw [hp] at h
              simp only at h
              subst h
              refine key _ ⟨⟨rfl, rfl, rfl, fun y => ?_⟩, ⟨rfl, rfl, rfl⟩⟩
              simp only [poke_mem]; split_ifs <;> rfl
            | some par =>
              rw [hp] at h
              simp only at h
              subst h
              by_cases hl : (apI.mem par).left = some tree
              · simp only [if_pos hl]
                refine key _ ⟨⟨rfl, rfl, rfl, fun y => ?_⟩, ⟨rfl, rfl, rfl⟩⟩
                simp only [poke_mem]; split_ifs <;> rfl
              · simp only [if_neg hl]
                refine key _ ⟨⟨rfl, rfl, rfl, fun y => ?_⟩, ⟨rfl, rfl, rfl⟩⟩
                simp only [poke_mem]; split_ifs <;> rfl
      · rw [if_neg hbin] at h
        simp only [Except.ok.injEq] at h
        subst h
        exact key _ ⟨same_pool_refl _, same_stack_refl _⟩

theorem poke_next (ap : lily_ast_pool) (a : Nat) (f : lily_ast → lily_ast)
    (hf : ∀ m, (f m).next_tree = m.next_tree) (y : Nat) :
    ((poke ap a f).mem y).next_tree = (ap.mem y).next_tree := by
  simp only [poke_mem]
  split_ifs
  · exact hf _
  · rfl

theorem saved_put_frame {ap ap1 : lily_ast_pool} {i : Int} {v : Option Nat}
    (h : saved_put ap i v = .ok ap1) :
    same_pool ap1 ap ∧ ap1.save_index = ap.save_index := by
  unfold saved_put at h
  split_ifs at h
  simp only [Except.ok.injEq] at h
  subst h
  exact ⟨⟨rfl, rfl, rfl, fun _ => rfl⟩, rfl⟩

/-- lily_ast_enter_tree takes one tree from the pool and adds two entries to
the save stack. -/
theorem enter_frame {ap ap1 : lily_ast_pool} {tt : lily_tree_type} {var : Option Nat}
    (h : lily_ast_enter_tree ap tt var = .ok ap1) :
    same_pool ap1 (acquire_tree ap).2 ∧ ap1.save_index = ap.save_index + 2 := by
  have hs := acquire_stack ap
  unfold lily_ast_enter_tree at h
  rcases hacq : acquire_tree ap with ⟨a, ap0⟩
  rw [hacq] at h hs
  simp only at h hs ⊢
  cases hm : merge_value (poke ap0 a (fun n =>
    { n with tree_type := tt, line_num := ap0.lex_linenum, result := var,
             args_collected := 0, arg_start := none, arg_top := none })) a with
  | error e => rw [hm] at h; simp at h
  | ok ap2 =>
    rw [hm] at h
    simp only at h
    obtain ⟨⟨m1, m2, m3, m4⟩, ⟨_, n2, _⟩⟩ := merge_value_frame hm
    obtain ⟨ap4, hg⟩ : ∃ ap4,
        grow_saved (poke ap2 a (fun n => { n with parent := ap2.active })) = .ok ap4 := by
      cases hg : grow_saved (poke ap2 a (fun n => { n with parent := ap2.active })) with
      | error e => rw [hg] at h; simp at h
      | ok x => exact ⟨x, rfl⟩
    rw [hg] at h
    simp only at h
    have hap4 := grow_saved_ok hg
    have h4 : same_pool ap4 ap0 ∧ ap4.save_index = ap.save_index := by
      have hp : same_pool (poke ap2 a (fun n => { n with parent := ap2.active })) ap0
          ∧ (poke ap2 a (fun n => { n with parent := ap2.active })).save_index
            = ap.save_index := by
        refine ⟨⟨m1, m2, m3, fun y => ?_⟩, ?_⟩
        · refine Eq.trans ?_ ((m4 y).trans ?_) <;>
            (simp only [poke_mem]; split_ifs <;> rfl)
        · show ap2.save_index = _
          rw [n2]; exact hs.2.1
      rw [hap4]
      split_ifs
      · exact ⟨⟨hp.1.1, hp.1.2.1, hp.1.2.2.1, hp.1.2.2.2⟩, hp.2⟩
      · exact hp
    cases h5 : saved_put ap4 ap4.save_index ap4.root with
    | error e => rw [h5] at h; simp at h
    | ok ap5 =>
      rw [h5] at h
      simp only at h
      obtain ⟨p5, i5⟩ := saved_put_frame h5
      cases h6 : saved_put ap5 (ap5.save_index + 1) (some a) with
      | error e => rw [h6] at h; simp at h
      | ok ap6 =>
        rw [h6] at h
        simp only [Except.ok.injEq] at h
        obtain ⟨p6, i6⟩ := saved_put_frame h6
        have hp := same_pool_trans (same_pool_trans p6 p5) h4.1
        subst h
        refine ⟨⟨hp.1, hp.2.1, hp.2.2.1, hp.2.2.2⟩, ?_⟩
        show ap6.save_index + 2 = _
        rw [i6, i5, h4.2]

/-- lily_ast_leave_tree takes nothing from the pool and removes two entries
from the save stack. -/
theorem leave_frame {ap ap1 : lily_ast_pool} (h : lily_ast_leave_tree ap = .ok ap1) :
    same_pool ap1 ap ∧ ap1.save_index = ap.save_index - 2 := by
  unfold lily_ast_leave_tree at h
  simp only at h
  cases h1 : saved_at { ap with save_index := ap.save_index - 1 } (ap.save_index - 1) with
  | error e => rw [h1] at h; simp at h
  | ok r =>
    rw [h1] at h
    cases r with
    | none => simp at h
    | some a =>
      simp only at h
      cases h2 : push_tree_arg { ap with save_index := ap.save_index - 1 } a ap.root with
      | error e => rw [h2] at h; simp at h
      | ok ap2 =>
        rw [h2] at h
        simp only at h
        obtain ⟨⟨m1, m2, m3, m4⟩, ⟨_, n2, _⟩⟩ := push_tree_arg_frame h2
        cases h3 : saved_at { ap2 with save_index := ap2.save_index - 1 } (ap2.save_index - 1) with
        | error e => rw [h3] at h; simp at h
        | ok r =>
          rw [h3] at h
          simp only [Except.ok.injEq] at h
          have hi : ap2.save_index - 1 = ap.save_index - 2 := by
            rw [n2]; show ap.save_index - 1 - 1 = _; omega
          subst h
          split_ifs
          · refine ⟨⟨m1, m2, m3, fun y => ?_⟩, hi⟩
            refine Eq.trans ?_ (m4 y)
            simp only [poke_mem]; split_ifs <;> rfl
          · exact ⟨⟨m1, m2, m3, m4⟩, hi⟩

/-- lily_ast_collect_arg takes nothing from the pool and leaves the save index
alone. -/
theorem collect_frame {ap ap1 : lily_ast_pool} (h : lily_ast_collect_arg ap = .ok ap1) :
    same_pool ap1 ap ∧ ap1.save_index = ap.save_index := by
  unfold lily_ast_collect_arg at h
  cases h1 : saved_at ap (ap.save_index - 1) with
  | error e => rw [h1] at h; simp at h
  | ok r =>
    rw [h1] at h
    cases r with
    | none => simp at h
    | some a =>
      simp only at h
      cases h2 : push_tree_arg ap a ap.root with
      | error e => rw [h2] at h; simp at h
      | ok ap2 =>
        rw [h2] at h
        simp only [Except.ok.injEq] at h
        obtain ⟨⟨m1, m2, m3, m4⟩, ⟨_, n2, _⟩⟩ := push_tree_arg_frame h2
        subst h
        exact ⟨⟨m1, m2, m3, m4⟩, n2⟩

/-- A call other than the reset takes at most one tree from the pool, and only
lily_ast_enter_tree and lily_ast_leave_tree move the save index. -/
theorem step_frame {ap ap1 : lily_ast_pool} {o : Op} (h : step ap o = .ok ap1)
    (hr : o ≠ Op.reset_pool) :
    same_pool ap1 (after_acquire ap o) ∧
      ((∀ tt var, o ≠ Op.enter_tree tt var) → o ≠ Op.leave_tree →
        ap1.save_index = ap.save_index) := by
  cases o with
  | push_local_var v =>
    have := push_value_frame (fun p m => { m with tree_type := tree_local_var, line_num := p.lex_linenum, result := v }) (fun _ _ => rfl) h
    exact ⟨this.1, fun _ _ => this.2.2.1⟩
  | push_sym v =>
    have := push_value_frame (fun p m => { m with tree_type := tree_var, line_num := p.lex_linenum, result := v }) (fun _ _ => rfl) h
    exact ⟨this.1, fun _ _ => this.2.2.1⟩
  | push_literal v =>
    have := push_value_frame (fun p m => { m with tree_type := tree_literal, line_num := p.lex_linenum, result := v }) (fun _ _ => rfl) h
    exact ⟨this.1, fun _ _ => this.2.2.1⟩
  | push_sig v =>
    have := push_value_frame (fun p m => { m with tree_type := tree_typecast, sig := v, right := none, line_num := p.lex_linenum, result := none }) (fun _ _ => rfl) h
    exact ⟨this.1, fun _ _ => this.2.2.1⟩
  | push_empty_list v =>
    have := push_value_frame (fun p m => { m with tree_type := tree_list, line_num := p.lex_linenum, result := none, args_collected := 0, arg_start := none, arg_top := none, sig := v }) (fun _ _ => rfl) h
    exact ⟨this.1, fun _ _ => this.2.2.1⟩
  | push_unary_op o =>
    have := push_unary_frame o h
    exact ⟨this.1, fun _ _ => this.2.2.1⟩
  | push_binary_op o =>
    have := push_binary_frame o h
    exact ⟨this.1, fun _ _ => this.2.2.1⟩
  | enter_tree tt v =>
    exact ⟨(enter_frame h).1, fun hne _ => absurd rfl (hne tt v)⟩
  | collect_arg => exact collect_frame h
        |> fun x => ⟨x.1, fun _ _ => x.2⟩
  | leave_tree => exact ⟨(leave_frame h).1, fun _ hne => absurd rfl hne⟩
  | reset_pool => exact absurd rfl hr

theorem run_cons_ok {o : Op} {os : List Op} {ap ap1 : lily_ast_pool}
    (h : run (o :: os) ap = .ok ap1) : ∃ apm, step ap o = .ok apm ∧ run os apm = .ok ap1 := by
  simp only [run] at h
  cases hs : step ap o with
  | error e => rw [hs] at h; simp at h
  | ok apm => rw [hs] at h; exact ⟨apm, rfl, h⟩

theorem run_append_split {xs ys : List Op} {ap ap1 : lily_ast_pool}
    (h : run (xs ++ ys) ap = .ok ap1) : ∃ apm, run xs ap = .ok apm ∧ run ys apm = .ok ap1 := by
  rw [run_append] at h
  cases hs : run xs ap with
  | error e => rw [hs] at h; simp at h
  | ok apm => rw [hs] at h; exact ⟨apm, rfl, h⟩

/-- Calls in which every lily_ast_enter_tree has its lily_ast_leave_tree leave
the save index where it was. -/
theorem balanced_index {ops : List Op} (hb : balanced ops) :
    ∀ (ap ap1 : lily_ast_pool), run ops ap = .ok ap1 → ap1.save_index = ap.save_index := by
  induction hb with
  | nil =>
    intro ap ap1 h
    simp only [run, Except.ok.injEq] at h
    rw [h]
  | plain o os h1 h2 _ ih =>
    intro ap ap1 h
    obtain ⟨apm, hs, hr⟩ := run_cons_ok h
    rw [ih apm ap1 hr]
    by_cases hre : o = Op.reset_pool
    · subst hre
      simp only [step, Except.ok.injEq] at hs
      rw [← hs]; rfl
    · exact (step_frame hs hre).2 h1 h2
  | group tt var inner rest _ _ ih1 ih2 =>
    intro ap ap1 h
    obtain ⟨ape, hs, hr⟩ := run_cons_ok h
    obtain ⟨api, hi, hr2⟩ := run_append_split hr
    obtain ⟨apl, hl, hr3⟩ := run_cons_ok hr2
    rw [ih2 apl ap1 hr3, (leave_frame hl).2, ih1 ape api hi, (enter_frame hs).2]
    omega

theorem free_chain_next {mem mem1 : Nat → lily_ast}
    (h : ∀ y, (mem1 y).next_tree = (mem y).next_tree) :
    ∀ (F : List Nat) (p : Option Nat), free_chain mem F p → free_chain mem1 F p
  | [], _, hc => hc
  | a :: F, _, hc => ⟨hc.1, by rw [h a]; exact free_chain_next h F _ hc.2⟩

theorem pool_split_same {ap ap1 : lily_ast_pool} {U Fc : List Nat}
    (h : pool_split ap U Fc) (hs : same_pool ap1 ap) : pool_split ap1 U Fc := by
  obtain ⟨h1, h2, h3, h4, h5⟩ := h
  obtain ⟨s1, s2, s3, s4⟩ := hs
  refine ⟨?_, ?_, h3, ?_, ?_⟩
  · rw [s2]; exact free_chain_next s4 _ _ h1
  · rw [s3]; exact free_chain_next s4 _ _ h2
  · rw [s1]; exact h4
  · rw [s1]; exact h5

/-- Taking a tree from the pool makes a new tree only when none is left. -/
theorem pool_split_acquire {ap : lily_ast_pool} {U Fc : List Nat} (h : pool_split ap U Fc) :
    ∃ U1 Fc1, pool_split (acquire_tree ap).2 U1 Fc1 ∧ U1.length = U.length + 1
      ∧ (U1 ++ Fc1).length = max (U ++ Fc).length (U.length + 1) := by
  obtain ⟨h1, h2, h3, h4, h5⟩ := h
  cases Fc with
  | nil =>
    have hc : ap.available_current = none := h2
    rw [List.append_nil] at h1 h3 h4 h5
    have hU : ap.brk ∉ U := fun hm => lt_irrefl _ (h4 _ hm)
    refine ⟨ap.brk :: U, [], ?_, rfl, by simp⟩
    have e : (acquire_tree ap).2 = (make_new_tree ap).2 := by
      unfold acquire_tree
      rw [hc]
    rw [e]
    unfold pool_split
    rw [List.append_nil]
    refine ⟨⟨rfl, ?_⟩, hc, List.nodup_cons.mpr ⟨hU, h3⟩, ?_, ?_⟩
    · show free_chain (make_new_tree ap).2.mem U ((make_new_tree ap).2.mem ap.brk).next_tree
      have e2 : ((make_new_tree ap).2.mem ap.brk).next_tree = ap.available_start := by
        simp [make_new_tree]
      rw [e2]
      refine free_chain_congr U _ (fun x hx => ?_) h1
      have : x ≠ ap.brk := fun e => hU (e ▸ hx)
      simp [make_new_tree, this]
    · intro a ha
      show a < ap.brk + 1
      rcases List.mem_cons.mp ha with e | e
      · rw [e]; exact Nat.lt_succ_self _
      · exact Nat.lt_succ_of_lt (h4 a e)
    · show ap.brk + 1 = (ap.brk :: U).length
      rw [List.length_cons, ← h5]
  | cons a Fc1 =>
    obtain ⟨hc, hn⟩ := h2
    refine ⟨U ++ [a], Fc1, ?_, by simp, ?_⟩
    · unfold acquire_tree
      rw [hc]
      simp only
      refine ⟨by simpa using h1, hn, by simpa using h3, ?_, ?_⟩
      · intro x hx
        exact h4 x (by simpa using hx)
      · show ap.brk = _
        rw [h5]; simp
    · simp only [List.length_append, List.length_cons, List.length_nil]
      omega

theorem pool_split_reset {ap : lily_ast_pool} {U Fc : List Nat} (h : pool_split ap U Fc) :
    pool_split (lily_ast_reset_pool ap) [] (U ++ Fc) := by
  obtain ⟨h1, _, h3, h4, h5⟩ := h
  exact ⟨h1, h1, h3, h4, h5⟩

theorem largest_expr_ge : ∀ (ops : List Op) (cur : Nat), cur ≤ largest_expr ops cur
  | [], _ => le_refl _
  | o :: os, cur => by
    cases o <;> simp only [largest_expr] <;>
      first
        | exact le_max_left _ _
        | exact le_trans (Nat.le_add_right _ _) (largest_expr_ge os _)

theorem largest_expr_cons (o : Op) (os : List Op) (cur : Nat) (h : o ≠ Op.reset_pool) :
    largest_expr (o :: os) cur = largest_expr os (cur + if o.acquires then 1 else 0) := by
  cases o <;> first | rfl | exact absurd rfl h

/-- The number of trees in the pool after the calls `ops`. -/
theorem pool_run : ∀ (ops : List Op) (ap ap1 : lily_ast_pool) (U Fc : List Nat),
    pool_split ap U Fc → run ops ap = .ok ap1 →
    ∃ U1 Fc1, pool_split ap1 U1 Fc1
      ∧ (U1 ++ Fc1).length = max (U ++ Fc).length (largest_expr ops U.length)
  | [], ap, ap1, U, Fc, h, hr => by
    simp only [run, Except.ok.injEq] at hr
    subst hr
    refine ⟨U, Fc, h, ?_⟩
    simp only [largest_expr, List.length_append]
    omega
  | o :: os, ap, ap1, U, Fc, h, hr => by
    obtain ⟨apm, hs, hr1⟩ := run_cons_ok hr
    by_cases hre : o = Op.reset_pool
    · subst hre
      simp only [step, Except.ok.injEq] at hs
      subst hs
      obtain ⟨U1, Fc1, k1, k2⟩ := pool_run os _ ap1 [] (U ++ Fc) (pool_split_reset h) hr1
      refine ⟨U1, Fc1, k1, ?_⟩
      rw [k2]
      simp only [largest_expr, List.nil_append, List.length_nil, List.length_append]
      omega
    · have hf := (step_frame hs hre).1
      rw [largest_expr_cons o os _ hre]
      unfold after_acquire at hf
      cases ha : o.acquires with
      | true =>
        rw [ha] at hf
        simp only [if_true] at hf ⊢
        obtain ⟨U0, Fc0, a1, a2, a3⟩ := pool_split_acquire h
        obtain ⟨U1, Fc1, k1, k2⟩ := pool_run os apm ap1 U0 Fc0 (pool_split_same a1 hf) hr1
        refine ⟨U1, Fc1, k1, ?_⟩
        rw [k2, a3, a2]
        have := largest_expr_ge os (U.length + 1)
        omega
      | false =>
        rw [ha] at hf
        simp only [Bool.false_eq_true, if_false, Nat.add_zero] at hf ⊢
        exact pool_run os apm ap1 U Fc (pool_split_same h hf) hr1

theorem new_pool_split (mem : Nat → lily_ast) :
    ∀ n : Nat, ∃ F : List Nat, free_chain (new_pool_trees mem n).1 F (new_pool_trees mem n).2
      ∧ F.Nodup ∧ (∀ a ∈ F, a < n) ∧ F.length = n
  | 0 => ⟨[], rfl, List.nodup_nil, by simp, rfl⟩
  | i + 1 => by
    obtain ⟨F, h1, h2, h3, h4⟩ := new_pool_split mem i
    refine ⟨i :: F, ⟨rfl, ?_⟩, List.nodup_cons.mpr ⟨fun h => lt_irrefl _ (h3 i h), h2⟩, ?_,
      by rw [List.length_cons, h4]⟩
    · simp only [new_pool_trees, if_true]
      refine free_chain_congr F _ (fun x hx => ?_) h1
      have : x ≠ i := fun e => lt_irrefl _ (e ▸ h3 x hx)
      simp [this]
    · intro a ha
      rcases List.mem_cons.mp ha with e | e
      · rw [e]; exact Nat.lt_succ_self _
      · exact Nat.lt_succ_of_lt (h3 a e)

/-- lily_new_ast_pool makes a pool of `n` trees, none taken. -/
theorem new_pool_pool_split (mem : Nat → lily_ast) (buf : Nat → Option Nat) (line n : Nat) :
    ∃ P, pool_split (lily_new_ast_pool mem buf line n) [] P ∧ P.length = n := by
  obtain ⟨F, h1, h2, h3, h4⟩ := new_pool_split mem n
  exact ⟨F, ⟨h1, h1, h2, h3, h4.symm⟩, h4⟩

theorem free_chain_unique {mem : Nat → lily_ast} :
    ∀ (P Q : List Nat) (p : Option Nat), free_chain mem P p → free_chain mem Q p → P = Q
  | [], [], _, _, _ => rfl
  | [], b :: Q, p, h1, h2 => by
    have e1 : p = none := h1
    have e2 : p = some b := h2.1
    rw [e1] at e2; cases e2
  | a :: P, [], p, h1, h2 => by
    have e1 : p = none := h2
    have e2 : p = some a := h1.1
    rw [e1] at e2; cases e2
  | a :: P, b :: Q, p, h1, h2 => by
    have e : a = b := Option.some.inj (h1.1.symm.trans h2.1)
    subst e
    rw [free_chain_unique P Q _ h1.2 h2.2]

/-- merge_absorb writes no `tree_type`. -/
theorem merge_absorb_kind (ap : lily_ast_pool) (act n y : Nat) :
    ((merge_absorb ap act n).mem y).tree_type = (ap.mem y).tree_type := by
  unfold merge_absorb
  simp only
  split_ifs <;> (simp only [poke_mem]; split_ifs <;> rfl)

/-- merge_unary writes no `tree_type`. -/
theorem merge_unary_kind {ap ap1 : lily_ast_pool} {act n : Nat}
    (h : merge_unary ap act n = .ok ap1) (y : Nat) :
    (ap1.mem y).tree_type = (ap.mem y).tree_type := by
  unfold merge_unary at h
  by_cases h1 : tree_rank tree_typecast ≤ tree_rank (ap.mem act).tree_type
      ∧ (ap.mem act).right = none
  · rw [if_pos h1] at h
    simp only [Except.ok.injEq] at h
    subst h
    simp only [poke_mem]; split_ifs <;> rfl
  · rw [if_neg h1] at h
    simp only at h
    cases hst : (if tree_rank tree_typecast ≤ tree_rank (ap.mem act).tree_type then
        (ap.mem act).right else some act) with
    | none => rw [hst] at h; simp at h
    | some a0 =>
      rw [hst] at h
      simp only at h
      cases hd : unary_descend ap.mem ap.brk a0 with
      | none => rw [hd] at h; simp at h
      | some low =>
        rw [hd] at h
        simp only [Except.ok.injEq] at h
        subst h
        cases hl : (ap.mem low).left with
        | none =>
          simp only [poke_mem]; split_ifs <;> rfl
        | some l =>
          simp only
          split_ifs
          · rw [← merge_absorb_kind ap l n y]
            simp only [poke_mem]; split_ifs <;> rfl
          · simp only [poke_mem]; split_ifs <;> rfl

/-- merge_value writes no `tree_type`. -/
theorem merge_value_kind {ap ap1 : lily_ast_pool} {n : Nat}
    (h : merge_value ap n = .ok ap1) (y : Nat) :
    (ap1.mem y).tree_type = (ap.mem y).tree_type := by
  unfold merge_value at h
  cases ha : ap.active with
  | none =>
    rw [ha] at h
    simp only [Except.ok.injEq] at h
    subst h
    by_cases hr : ap.root = none
    · simp only [hr, if_true]
    · simp only [hr, if_false]
  | some act =>
    rw [ha] at h
    simp only at h
    split_ifs at h with c1 c2
    · cases hr : (ap.mem act).right with
      | none =>
        rw [hr] at h
        simp only [Except.ok.injEq] at h
        subst h
        simp only [poke_mem]; split_ifs <;> rfl
      | some r =>
        rw [hr] at h
        simp only at h
        split_ifs at h
        · exact merge_unary_kind h y
        · simp only [Except.ok.injEq] at h
          subst h
          exact merge_absorb_kind _ _ _ y
    · exact merge_unary_kind h y
    · simp only [Except.ok.injEq] at h
      subst h
      exact merge_absorb_kind _ _ _ y

/-- push_tree_arg writes no `tree_type`. -/
theorem push_tree_arg_kind {ap ap1 : lily_ast_pool} {G : Nat} {t : Option Nat}
    (h : push_tree_arg ap G t = .ok ap1) (y : Nat) :
    (ap1.mem y).tree_type = (ap.mem y).tree_type := by
  unfold push_tree_arg at h
  cases hs : (ap.mem G).arg_start <;> cases ht : (ap.mem G).arg_top <;> cases t <;>
    simp only [hs, ht, Except.ok.injEq, reduceCtorEq] at h <;>
    (subst h
     simp only [poke_mem]; split_ifs <;> rfl)

/-- A push of a value writes the `tree_type` of the tree it takes only. -/
theorem push_value_kind {ap ap1 : lily_ast_pool} (f : lily_ast_pool → lily_ast → lily_ast)
    (h : merge_value (poke (acquire_tree ap).2 (acquire_tree ap).1 (f (acquire_tree ap).2))
      (acquire_tree ap).1 = .ok ap1) (y : Nat) (hy : y ≠ (acquire_tree ap).1) :
    (ap1.mem y).tree_type = ((acquire_tree ap).2.mem y).tree_type := by
  rw [merge_value_kind h y]
  simp only [poke_mem, if_neg hy]

theorem push_unary_kind {ap ap1 : lily_ast_pool} (o : lily_expr_op)
    (h : lily_ast_push_unary_op ap o = .ok ap1) (y : Nat) (hy : y ≠ (acquire_tree ap).1) :
    (ap1.mem y).tree_type = ((acquire_tree ap).2.mem y).tree_type := by
  unfold lily_ast_push_unary_op at h
  rcases hacq : acquire_tree ap with ⟨a, ap0⟩
  rw [hacq] at h hy
  simp only at h hy ⊢
  cases ha : ap0.active with
  | none =>
    rw [ha] at h
    simp only [Except.ok.injEq] at h
    subst h
    simp only [poke_mem, if_neg hy]
  | some act =>
    rw [ha] at h
    simp only at h
    split_ifs at h
    · simp only [Except.ok.injEq] at h
      subst h
      simp only [poke_mem, if_neg hy]
      split_ifs <;> rfl
    · rw [merge_unary_kind h y]
      simp only [poke_mem, if_neg hy]

theorem push_binary_kind {ap ap1 : lily_ast_pool} (o : lily_expr_op)
    (h : lily_ast_push_binary_op ap o = .ok ap1) (y : Nat) (hy : y ≠ (acquire_tree ap).1) :
    (ap1.mem y).tree_type = ((acquire_tree ap).2.mem y).tree_type := by
  unfold lily_ast_push_binary_op at h
  rcases hacq : acquire_tree ap with ⟨n, ap0⟩
  rw [hacq] at h hy
  simp only at h hy ⊢
  obtain ⟨apI, hapI⟩ : ∃ apI, apI = poke ap0 n (fun nd =>
      { nd with tree_type := tree_binary, line_num := ap0.lex_linenum,
                priority := priority_for_op o, op := o,
                left := none, right := none, parent := none }) := ⟨_, rfl⟩
  rw [← hapI] at h
  have hI : (apI.mem y).tree_type = (ap0.mem y).tree_type := by
    rw [hapI]
    simp only [poke_mem, if_neg hy]
  rw [← hI]
  cases ha : ap0.active with
  | none => rw [ha] at h; simp at h
  | some a =>
    rw [ha] at h
    simp only at h
    by_cases hrank : tree_rank (apI.mem a).tree_type < tree_rank tree_binary
    · rw [if_pos hrank] at h
      simp only [Except.ok.injEq] at h
      subst h
      by_cases hr : apI.root = some a
      · rw [if_pos hr]
        simp only [poke_mem]; split_ifs <;> rfl
      · rw [if_neg hr]
        simp only [poke_mem]; split_ifs <;> rfl
    · rw [if_neg hrank] at h
      by_cases hbin : (apI.mem a).tree_type = tree_binary
      · rw [if_pos hbin] at h
        by_cases hprio : (apI.mem n).priority > (apI.mem a).priority ∨ (apI.mem n).priority = 0
        · rw [if_pos hprio] at h
          simp only [Except.ok.injEq] at h
          subst h
          simp only [poke_mem]; split_ifs <;> rfl
        · rw [if_neg hprio] at h
          cases hcl : climb apI.mem (apI.mem n).priority apI.brk a with
          | none => rw [hcl] at h; simp at h
          | some tree =>
            rw [hcl] at h
            simp only [Except.ok.injEq] at h
            cases hp : (apI.mem tree).parent with
            | none =>
              rw [hp] at h
              simp only at h
              subst h
              simp only [poke_mem]; split_ifs <;> rfl
            | some par =>
              rw [hp] at h
              simp only at h
              subst h
              by_cases hl : (apI.mem par).left = some tree
              · simp only [if_pos hl]
                simp only [poke_mem]; split_ifs <;> rfl
              · simp only [if_neg hl]
                simp only [poke_mem]; split_ifs <;> rfl
      · rw [if_neg hbin] at h
        simp only [Except.ok.injEq] at h
        subst h
        rfl

theorem saved_put_spec {ap ap1 : lily_ast_pool} {i : Int} {v : Option Nat}
    (h : saved_put ap i v = .ok ap1) :
    0 ≤ i ∧ i < ap.save_size
      ∧ ap1 = { ap with saved_trees := fun x => if x = i.toNat then v else ap.saved_trees x } := by
  unfold saved_put at h
  split_ifs at h with c
  simp only [Except.ok.injEq] at h
  exact ⟨c.1, c.2, h.symm⟩

/-- What lily_ast_enter_tree does to the save stack and to `tree_type`. -/
theorem enter_stack {ap ap1 : lily_ast_pool} {tt : lily_tree_type} {var : Option Nat}
    (h : lily_ast_enter_tree ap tt var = .ok ap1) (h0 : 0 ≤ ap.save_index) :
    ap1.saved_trees (ap.save_index.toNat + 1) = some (acquire_tree ap).1
      ∧ (∀ i : Nat, (i : Int) < ap.save_index → ap1.saved_trees i = ap.saved_trees i)
      ∧ ap.save_size ≤ ap1.save_size ∧ ap1.save_index ≤ ap1.save_size
      ∧ (ap1.mem (acquire_tree ap).1).tree_type = tt
      ∧ ∀ y, y ≠ (acquire_tree ap).1 →
          (ap1.mem y).tree_type = ((acquire_tree ap).2.mem y).tree_type := by
  have hs := acquire_stack ap
  unfold lily_ast_enter_tree at h
  rcases hacq : acquire_tree ap with ⟨a, ap0⟩
  rw [hacq] at h hs
  simp only at h hs ⊢
  cases hm : merge_value (poke ap0 a (fun n =>
    { n with tree_type := tt, line_num := ap0.lex_linenum, result := var,
             args_collected := 0, arg_start := none, arg_top := none })) a with
  | error e => rw [hm] at h; simp at h
  | ok ap2 =>
    rw [hm] at h
    simp only at h
    obtain ⟨_, ⟨n1, n2, n3⟩⟩ := merge_value_frame hm
    have hk := merge_value_kind hm
    obtain ⟨ap4, hg⟩ : ∃ ap4,
        grow_saved (poke ap2 a (fun n => { n with parent := ap2.active })) = .ok ap4 := by
      cases hg : grow_saved (poke ap2 a (fun n => { n with parent := ap2.active })) with
      | error e => rw [hg] at h; simp at h
      | ok x => exact ⟨x, rfl⟩
    rw [hg] at h
    simp only at h
    have hap4 := grow_saved_ok hg
    have e2i : ap2.save_index = ap.save_index := n2.trans hs.2.1
    have e2z : ap2.save_size = ap.save_size := n3.trans hs.2.2
    have e2t : ap2.saved_trees = ap.saved_trees := n1.trans hs.1
    have h4 : ap4.save_index = ap.save_index ∧ ap4.saved_trees = ap.saved_trees
        ∧ (ap4.save_size = ap.save_size ∨ ap4.save_size = ap.save_size * 2)
        ∧ ap4.mem = (poke ap2 a (fun n => { n with parent := ap2.active })).mem := by
      rw [hap4]
      split_ifs
      · exact ⟨e2i, e2t, Or.inr (by show ap2.save_size * 2 = _; rw [e2z]), rfl⟩
      · exact ⟨e2i, e2t, Or.inl e2z, rfl⟩
    obtain ⟨i4, t4, z4, m4⟩ := h4
    cases h5 : saved_put ap4 ap4.save_index ap4.root with
    | error e => rw [h5] at h; simp at h
    | ok ap5 =>
      rw [h5] at h
      simp only at h
      obtain ⟨_, b5, e5⟩ := saved_put_spec h5
      cases h6 : saved_put ap5 (ap5.save_index + 1) (some a) with
      | error e => rw [h6] at h; simp at h
      | ok ap6 =>
        rw [h6] at h
        simp only [Except.ok.injEq] at h
        obtain ⟨_, b6, e6⟩ := saved_put_spec h6
        subst h
        subst e6
        subst e5
        simp only at b6 ⊢
        rw [i4] at b5 b6 ⊢
        refine ⟨?_, ?_, ?_, ?_, ?_, ?_⟩
        · rw [if_pos (by omega)]
        · intro i hi
          rw [if_neg (by omega), if_neg (by omega), t4]
        · rcases z4 with z | z <;> omega
        · omega
        · rw [m4]
          simp only [poke_mem, if_true]
          rw [hk a]
          simp only [poke_mem, if_true]
        · intro y hy
          rw [m4]
          simp only [poke_mem, if_neg hy]
          rw [hk y]
          simp only [poke_mem, if_neg hy]

/-- lily_ast_enter_tree returns only if `save_index` is not negative. -/
theorem enter_nonneg {ap ap1 : lily_ast_pool} {tt : lily_tree_type} {v : Option Nat}
    (h : lily_ast_enter_tree ap tt v = .ok ap1) : 0 ≤ ap.save_index := by
  by_contra hneg
  have hs := acquire_stack ap
  unfold lily_ast_enter_tree at h
  rcases hacq : acquire_tree ap with ⟨a, ap0⟩
  rw [hacq] at h hs
  simp only at h
  cases hm : merge_value (poke ap0 a (fun n =>
    { n with tree_type := tt, line_num := ap0.lex_linenum, result := v,
             args_collected := 0, arg_start := none, arg_top := none })) a with
  | error e => rw [hm] at h; simp at h
  | ok ap2 =>
    rw [hm] at h
    simp only at h
    obtain ⟨_, ⟨_, n2, _⟩⟩ := merge_value_frame hm
    have e2i : ap2.save_index = ap.save_index := n2.trans hs.2.1
    have e : (poke ap2 a (fun n => { n with parent := ap2.active })).save_index
        = ap2.save_index := rfl
    obtain ⟨ap4, hg⟩ : ∃ ap4,
        grow_saved (poke ap2 a (fun n => { n with parent := ap2.active })) = .ok ap4 := by
      cases hg : grow_saved (poke ap2 a (fun n => { n with parent := ap2.active })) with
      | error e => rw [hg] at h; simp at h
      | ok x => exact ⟨x, rfl⟩
    rw [hg] at h
    simp only at h
    have hap4 := grow_saved_ok hg
    subst hap4
    split_ifs at h
    · simp only [saved_put] at h
      rw [if_neg (by
        intro c
        have := c.1
        simp only [e] at this
        omega)] at h
      simp at h
    · simp only [saved_put] at h
      rw [if_neg (by
        intro c
        have := c.1
        simp only [e] at this
        omega)] at h
      simp at h

/-- What lily_ast_leave_tree does to the save stack and to `tree_type`. -/
theorem leave_stack {ap ap1 : lily_ast_pool} (h : lily_ast_leave_tree ap = .ok ap1) :
    ap1.saved_trees = ap.saved_trees ∧ ap1.save_size = ap.save_size
      ∧ 0 ≤ ap1.save_index
      ∧ ∀ y, (ap1.mem y).tree_type = (ap.mem y).tree_type := by
  have hidx := (leave_frame h).2
  unfold lily_ast_leave_tree at h
  simp only at h
  cases h1 : saved_at { ap with save_index := ap.save_index - 1 } (ap.save_index - 1) with
  | error e => rw [h1] at h; simp at h
  | ok r =>
    rw [h1] at h
    cases r with
    | none => simp at h
    | some a =>
      simp only at h
      cases h2 : push_tree_arg { ap with save_index := ap.save_index - 1 } a ap.root with
      | error e => rw [h2] at h; simp at h
      | ok ap2 =>
        rw [h2] at h
        simp only at h
        obtain ⟨_, ⟨n1, n2, n3⟩⟩ := push_tree_arg_frame h2
        have hk := push_tree_arg_kind h2
        cases h3 : saved_at { ap2 with save_index := ap2.save_index - 1 } (ap2.save_index - 1) with
        | error e => rw [h3] at h; simp at h
        | ok r =>
          rw [h3] at h
          simp only [Except.ok.injEq] at h
          have hnn : 0 ≤ ap.save_index - 2 := by
            unfold saved_at at h3
            split_ifs at h3 with c
            have := c.1
            rw [n2] at this
            have e : ({ ap with save_index := ap.save_index - 1 } : lily_ast_pool).save_index
                = ap.save_index - 1 := rfl
            rw [e] at this
            omega
          rw [hidx]
          subst h
          split_ifs
          · refine ⟨n1, n3, hnn, fun y => ?_⟩
            refine Eq.trans ?_ (hk y)
            simp only [poke_mem]; split_ifs <;> rfl
          · exact ⟨n1, n3, hnn, hk⟩

/-- What lily_ast_collect_arg does to the save stack and to `tree_type`. -/
theorem collect_stack {ap ap1 : lily_ast_pool} (h : lily_ast_collect_arg ap = .ok ap1) :
    same_stack ap1 ap ∧ ∀ y, (ap1.mem y).tree_type = (ap.mem y).tree_type := by
  unfold lily_ast_collect_arg at h
  cases h1 : saved_at ap (ap.save_index - 1) with
  | error e => rw [h1] at h; simp at h
  | ok r =>
    rw [h1] at h
    cases r with
    | none => simp at h
    | some a =>
      simp only at h
      cases h2 : push_tree_arg ap a ap.root with
      | error e => rw [h2] at h; simp at h
      | ok ap2 =>
        rw [h2] at h
        simp only [Except.ok.injEq] at h
        obtain ⟨_, hs⟩ := push_tree_arg_frame h2
        have hk := push_tree_arg_kind h2
        subst h
        exact ⟨hs, hk⟩

/-- A call other than lily_ast_enter_tree, lily_ast_leave_tree and the reset
leaves the save stack alone. -/
theorem step_same_stack {ap ap1 : lily_ast_pool} {o : Op} (h : step ap o = .ok ap1)
    (h1 : ∀ tt var, o ≠ Op.enter_tree tt var) (h2 : o ≠ Op.leave_tree) :
    same_stack ap1 ap := by
  cases o with
  | push_local_var v =>
    exact (push_value_frame (fun p m => { m with tree_type := tree_local_var, line_num := p.lex_linenum, result := v }) (fun _ _ => rfl) h).2
  | push_sym v =>
    exact (push_value_frame (fun p m => { m with tree_type := tree_var, line_num := p.lex_linenum, result := v }) (fun _ _ => rfl) h).2
  | push_literal v =>
    exact (push_value_frame (fun p m => { m with tree_type := tree_literal, line_num := p.lex_linenum, result := v }) (fun _ _ => rfl) h).2
  | push_sig v =>
    exact (push_value_frame (fun p m => { m with tree_type := tree_typecast, sig := v, right := none, line_num := p.lex_linenum, result := none }) (fun _ _ => rfl) h).2
  | push_empty_list v =>
    exact (push_value_frame (fun p m => { m with tree_type := tree_list, line_num := p.lex_linenum, result := none, args_collected := 0, arg_start := none, arg_top := none, sig := v }) (fun _ _ => rfl) h).2
  | push_unary_op o => exact (push_unary_frame o h).2
  | push_binary_op o => exact (push_binary_frame o h).2
  | enter_tree tt v => exact absurd rfl (h1 tt v)
  | collect_arg => exact (collect_stack h).1
  | leave_tree => exact absurd rfl h2
  | reset_pool =>
    simp only [step, Except.ok.injEq] at h
    subst h
    exact ⟨rfl, rfl, rfl⟩

/-- A call writes the `tree_type` of the tree it takes from the pool only. -/
theorem step_kind {ap ap1 : lily_ast_pool} {o : Op} (h : step ap o = .ok ap1) (y : Nat)
    (hy : o.acquires = true → y ≠ (acquire_tree ap).1) :
    (ap1.mem y).tree_type = ((after_acquire ap o).mem y).tree_type := by
  cases o with
  | push_local_var v =>
    exact push_value_kind (fun p m => { m with tree_type := tree_local_var, line_num := p.lex_linenum, result := v }) h y (hy rfl)
  | push_sym v =>
    exact push_value_kind (fun p m => { m with tree_type := tree_var, line_num := p.lex_linenum, result := v }) h y (hy rfl)
  | push_literal v =>
    exact push_value_kind (fun p m => { m with tree_type := tree_literal, line_num := p.lex_linenum, result := v }) h y (hy rfl)
  | push_sig v =>
    exact push_value_kind (fun p m => { m with tree_type := tree_typecast, sig := v, right := none, line_num := p.lex_linenum, result := none }) h y (hy rfl)
  | push_empty_list v =>
    exact push_value_kind (fun p m => { m with tree_type := tree_list, line_num := p.lex_linenum, result := none, args_collected := 0, arg_start := none, arg_top := none, sig := v }) h y (hy rfl)
  | push_unary_op o => exact push_unary_kind o h y (hy rfl)
  | push_binary_op o => exact push_binary_kind o h y (hy rfl)
  | enter_tree tt v => exact (enter_stack h (enter_nonneg h)).2.2.2.2.2 y (hy rfl)
  | collect_arg => exact (collect_stack h).2 y
  | leave_tree => exact (leave_stack h).2.2.2 y
  | reset_pool =>
    simp only [step, Except.ok.injEq] at h
    subst h
    rfl

theorem chain_ok.of_same_pool {ap ap1 : lily_ast_pool} {F : List Nat} (h : chain_ok ap F)
    (hs : same_pool ap1 ap) : chain_ok ap1 F := by
  obtain ⟨s1, _, s3, s4⟩ := hs
  obtain ⟨c1, c2, c3⟩ := h
  exact ⟨by rw [s3]; exact free_chain_next s4 _ _ c1, c2, by rw [s1]; exact c3⟩

/-- A call other than the reset keeps a tree in use in use, and leaves its
`tree_type` alone. -/
theorem step_inuse {ap ap1 : lily_ast_pool} {o : Op} {F : List Nat} {G : Nat}
    (h : step ap o = .ok ap1) (hre : o ≠ Op.reset_pool) (hch : chain_ok ap F)
    (hb : G < ap.brk) (hF : G ∉ F) :
    ∃ F1, chain_ok ap1 F1 ∧ G < ap1.brk ∧ G ∉ F1
      ∧ (ap1.mem G).tree_type = (ap.mem G).tree_type := by
  have hf := (step_frame h hre).1
  cases ha : o.acquires with
  | true =>
    rcases hacq : acquire_tree ap with ⟨a, ap0⟩
    obtain ⟨F1, hch1, hnn, _, _, huse, hmem0, _⟩ := acquire_inuse hacq hch
    have hGa : G ≠ a := fun e => hnn (e ▸ ⟨hb, hF⟩)
    have hk := step_kind h G (fun _ => by rw [hacq]; exact hGa)
    unfold after_acquire at hf hk
    rw [ha, hacq] at hf hk
    simp only [if_true] at hf hk
    refine ⟨F1, hch1.of_same_pool hf, by rw [hf.1]; exact (huse G hb hF).1, (huse G hb hF).2, ?_⟩
    rw [hk, hmem0 G hGa]
  | false =>
    have hk := step_kind h G (fun e => by rw [ha] at e; cases e)
    unfold after_acquire at hf hk
    rw [ha] at hf hk
    simp only [Bool.false_eq_true, if_false] at hf hk
    exact ⟨F, hch.of_same_pool hf, by rw [hf.1]; exact hb, hF, hk⟩

/-- Calls without a reset keep a tree in use in use, and leave its `tree_type`
alone. -/
theorem run_inuse : ∀ (ops : List Op) (ap ap1 : lily_ast_pool) (F : List Nat) (G : Nat),
    Op.reset_pool ∉ ops → run ops ap = .ok ap1 → chain_ok ap F → G < ap.brk → G ∉ F →
    ∃ F1, chain_ok ap1 F1 ∧ G < ap1.brk ∧ G ∉ F1
      ∧ (ap1.mem G).tree_type = (ap.mem G).tree_type
  | [], ap, ap1, F, G, _, h, hch, hb, hF => by
    simp only [run, Except.ok.injEq] at h
    subst h
    exact ⟨F, hch, hb, hF, rfl⟩
  | o :: os, ap, ap1, F, G, hre, h, hch, hb, hF => by
    obtain ⟨apm, hs, hr⟩ := run_cons_ok h
    obtain ⟨F1, c1, b1, f1, k1⟩ := step_inuse hs
      (fun e => hre (e ▸ List.mem_cons_self _ _)) hch hb hF
    obtain ⟨F2, c2, b2, f2, k2⟩ := run_inuse os apm ap1 F1 G
      (fun e => hre (List.mem_cons_of_mem _ e)) hr c1 b1 f1
    exact ⟨F2, c2, b2, f2, k2.trans k1⟩

/-- Calls in which every lily_ast_enter_tree has its lily_ast_leave_tree leave
the entries of the save stack below `save_index` alone. -/
theorem balanced_stack {ops : List Op} (hb : balanced ops) :
    ∀ (ap ap1 : lily_ast_pool), run ops ap = .ok ap1 → 0 ≤ ap.save_index →
      ap1.save_index = ap.save_index ∧ ap.save_size ≤ ap1.save_size
        ∧ ∀ i : Nat, (i : Int) < ap.save_index → ap1.saved_trees i = ap.saved_trees i := by
  induction hb with
  | nil =>
    intro ap ap1 h _
    simp only [run, Except.ok.injEq] at h
    subst h
    exact ⟨rfl, le_refl _, fun _ _ => rfl⟩
  | plain o os h1 h2 _ ih =>
    intro ap ap1 h h0
    obtain ⟨apm, hs, hr⟩ := run_cons_ok h
    obtain ⟨s1, s2, s3⟩ := step_same_stack hs h1 h2
    obtain ⟨k1, k2, k3⟩ := ih apm ap1 hr (by rw [s2]; exact h0)
    rw [s2] at k1 k3
    rw [s3] at k2
    exact ⟨k1, k2, fun i hi => (k3 i hi).trans (by rw [s1])⟩
  | group tt var inner rest _ _ ih1 ih2 =>
    intro ap ap1 h h0
    obtain ⟨ape, hs, hr⟩ := run_cons_ok h
    obtain ⟨api, hi, hr2⟩ := run_append_split hr
    obtain ⟨apl, hl, hr3⟩ := run_cons_ok hr2
    have hs : lily_ast_enter_tree ap tt var = .ok ape := hs
    have hl : lily_ast_leave_tree api = .ok apl := hl
    have e1 := (enter_frame hs).2
    obtain ⟨_, e3, e4, _⟩ := enter_stack hs h0
    obtain ⟨i1, i2, i3⟩ := ih1 ape api hi (by omega)
    have l1 := (leave_frame hl).2
    obtain ⟨l2, l3, _⟩ := leave_stack hl
    obtain ⟨r1, r2, r3⟩ := ih2 apl ap1 hr3 (by omega)
    refine ⟨by omega, by omega, fun i hlt => ?_⟩
    rw [r3 i (by omega), l2, i3 i (by omega), e3 i hlt]

/-- Calls that return leave `save_index` at 0 or above. -/
theorem run_nonneg : ∀ (ops : List Op) (ap ap1 : lily_ast_pool),
    run ops ap = .ok ap1 → 0 ≤ ap.save_index → 0 ≤ ap1.save_index
  | [], ap, ap1, h, h0 => by
    simp only [run, Except.ok.injEq] at h
    subst h
    exact h0
  | o :: os, ap, ap1, h, h0 => by
    obtain ⟨apm, hs, hr⟩ := run_cons_ok h
    refine run_nonneg os apm ap1 hr ?_
    by_cases he : ∃ tt var, o = Op.enter_tree tt var
    · obtain ⟨tt, var, e⟩ := he
      subst e
      have hs : lily_ast_enter_tree ap tt var = .ok apm := hs
      rw [(enter_frame hs).2]
      omega
    · by_cases hl : o = Op.leave_tree
      · subst hl
        have hs : lily_ast_leave_tree ap = .ok apm := hs
        exact (leave_stack hs).2.2.1
      · rw [(step_same_stack hs (fun tt var e => he ⟨tt, var, e⟩) hl).2.1]
        exact h0

/-- After any calls on a pool made by lily_new_ast_pool, the trees not yet
handed out are a chain of distinct trees, and `save_index` is not negative. -/
theorem run_new_pool {mem : Nat → lily_ast} {buf : Nat → Option Nat} {line c : Nat}
    {ops : List Op} {ap1 : lily_ast_pool}
    (h : run ops (lily_new_ast_pool mem buf line c) = .ok ap1) :
    (∃ F, chain_ok ap1 F) ∧ 0 ≤ ap1.save_index := by
  obtain ⟨P0, hs0, _⟩ := new_pool_pool_split mem buf line c
  obtain ⟨U1, Fc1, ⟨_, k2, k3, k4, _⟩, _⟩ := pool_run ops _ ap1 [] P0 hs0 h
  refine ⟨⟨Fc1, k2, (List.nodup_append.mp k3).2.1,
    fun a ha => k4 a (List.mem_append_right _ ha)⟩, ?_⟩
  exact run_nonneg ops _ ap1 h (le_refl _)

/-- The most recent lily_ast_enter_tree that is not closed gives
lily_ast_caller_tree_type its result. -/
theorem caller_after {ap ap1 : lily_ast_pool} {F : List Nat} (hch : chain_ok ap F)
    (h0 : 0 ≤ ap.save_index) {tt : lily_tree_type} {var : Option Nat} {inner : List Op}
    (hb : balanced inner) (hre : Op.reset_pool ∉ inner)
    (h : run (Op.enter_tree tt var :: inner) ap = .ok ap1) :
    lily_ast_caller_tree_type ap1 = .ok tt := by
  obtain ⟨ape, hs, hr⟩ := run_cons_ok h
  have hs : lily_ast_enter_tree ap tt var = .ok ape := hs
  obtain ⟨hf, e1⟩ := enter_frame hs
  obtain ⟨e2, _, _, e5, e6, _⟩ := enter_stack hs h0
  rcases hacq : acquire_tree ap with ⟨G, ap0⟩
  rw [hacq] at hf e2 e6
  simp only at hf e2 e6
  obtain ⟨F1, hch1, _, hGb, hGF, _⟩ := acquire_inuse hacq hch
  obtain ⟨F2, _, _, _, hk⟩ := run_inuse inner ape ap1 F1 G hre hr (hch1.of_same_pool hf)
    (by rw [hf.1]; exact hGb) hGF
  obtain ⟨b1, b2, b3⟩ := balanced_stack hb ape ap1 hr (by omega)
  unfold lily_ast_caller_tree_type saved_at
  rw [if_pos ⟨by omega, by omega⟩]
  have et : (ap1.save_index - 1).toNat = ap.save_index.toNat + 1 := by omega
  rw [et, b3 (ap.save_index.toNat + 1) (by omega), e2]
  simp only [hk, e6]

/-- Argument sub-expressions, each followed by lily_ast_collect_arg, leave the
grouping collecting. -/
theorem collected_loop (g : GInfo) :
    ∀ (segs : List (List Op)), (∀ seg ∈ segs, isolated seg) →
      ∀ (rs : List Nat) (ap : lily_ast_pool) (F : List Nat), Collecting g rs ap F →
        ap.save_index = (g.si : Int) + 2 → ap.root = none → ap.active = none →
        ∃ ap1 F1 rs1, run (collected segs) ap = .ok ap1 ∧ Collecting g rs1 ap1 F1
          ∧ ap1.save_index = (g.si : Int) + 2 ∧ ap1.root = none ∧ ap1.active = none
  | [], _, rs, ap, F, h, hi, hr, ha => ⟨ap, F, rs, rfl, h, hi, hr, ha⟩
  | seg :: segs, hs, rs, ap, F, h, hi, hr, ha => by
    obtain ⟨ap1, ap2, F2, r, h1, h2, h3, h4, h5, h6, h7⟩ :=
      h.collect hi hr ha (hs seg (List.mem_cons_self _ _))
    obtain ⟨ap3, F3, rs3, k1, k2, k3, k4, k5⟩ := collected_loop g segs
      (fun x hx => hs x (List.mem_cons_of_mem _ hx)) (rs ++ [r]) ap2 F2 h4 h5 h6 h7
    refine ⟨ap3, F3, rs3, ?_, k2, k3, k4, k5⟩
    simp only [collected]
    rw [run_append_ok h1]
    simp only [run, step, h3]
    exact k1

theorem acquire_root (ap : lily_ast_pool) : (acquire_tree ap).2.root = ap.root := by
  unfold acquire_tree
  cases ap.available_current <;> rfl

/-- A push takes a tree that was not in use. -/
theorem took_of_step {ap ap1 : lily_ast_pool} {o : Op} {F : List Nat}
    (h : step ap o = .ok ap1) (ha : o.acquires = true)
    (h1 : ∀ tt var, o ≠ Op.enter_tree tt var) (hch : chain_ok ap F) :
    ∃ F1, took ap ap1 F F1 (acquire_tree ap).1 := by
  have hre : o ≠ Op.reset_pool := fun e => by rw [e] at ha; cases ha
  have hl : o ≠ Op.leave_tree := fun e => by rw [e] at ha; cases ha
  have hf := (step_frame h hre).1
  have hs := step_same_stack h h1 hl
  unfold after_acquire at hf
  rw [ha] at hf
  simp only [if_true] at hf
  rcases hacq : acquire_tree ap with ⟨a, ap0⟩
  rw [hacq] at hf
  obtain ⟨F1, hch1, hnn, hnb, hnF, huse, _⟩ := acquire_inuse hacq hch
  exact ⟨F1, hch1.of_same_pool hf, hnn, by rw [hf.1]; exact hnb, hnF,
    fun x hx1 hx2 => ⟨by rw [hf.1]; exact (huse x hx1 hx2).1, (huse x hx1 hx2).2⟩, hs⟩

/-- A leaf pushed when `root` and `active` are empty becomes both. -/
theorem leaf_fresh_step {ap : lily_ast_pool} {F : List Nat} (l : Leaf) (hch : chain_ok ap F)
    (hr : ap.root = none) (ha : ap.active = none) :
    ∃ n ap1 F1, n = (acquire_tree ap).1 ∧ step ap l.push = .ok ap1 ∧ took ap ap1 F F1 n
      ∧ (∀ x, x ≠ n → ap1.mem x = ap.mem x)
      ∧ ap1.root = some n ∧ ap1.active = some n
      ∧ (ap1.mem n).tree_type = l.kind ∧ (ap1.mem n).result = l.handle := by
  have hact0 := acquire_active ap
  have hroot0 := acquire_root ap
  have hmem0 := acquire_mem ap
  have heq := push_leaf_eq ap l
  rcases hacq : acquire_tree ap with ⟨n, ap0⟩
  rw [hacq] at heq hact0 hroot0 hmem0
  simp only at heq hact0 hroot0 hmem0
  have hstep : step ap l.push = .ok
      { poke ap0 n (fun nd =>
          { nd with tree_type := l.kind, line_num := ap0.lex_linenum, result := l.handle }) with
        root := some n, active := some n } := by
    rw [heq]
    simp [merge_value, hact0, ha, hroot0, hr]
  have hacqs : l.push.acquires = true := by cases l <;> rfl
  obtain ⟨F1, ht⟩ := took_of_step hstep hacqs (fun _ _ e => by cases l <;> cases e) hch
  rw [hacq] at ht
  refine ⟨n, _, F1, rfl, hstep, ht, fun x hx => ?_, rfl, rfl, ?_, ?_⟩
  · simp [hx, hmem0 x hx]
  · simp
  · simp

/-- A leaf pushed when `active` is a binary tree with an empty `right` goes
there. -/
theorem leaf_right_step {ap : lily_ast_pool} {F : List Nat} (l : Leaf) {B : Nat}
    (hch : chain_ok ap F) (ha : ap.active = some B) (hB : B < ap.brk ∧ B ∉ F)
    (hb : (ap.mem B).tree_type = tree_binary) (hr : (ap.mem B).right = none) :
    ∃ m ap1 F1, m = (acquire_tree ap).1 ∧ step ap l.push = .ok ap1 ∧ took ap ap1 F F1 m
      ∧ (∀ x, x ≠ m → x ≠ B → ap1.mem x = ap.mem x)
      ∧ ap1.mem B = { ap.mem B with right := some m }
      ∧ ap1.root = ap.root ∧ ap1.active = some B
      ∧ (ap1.mem m).tree_type = l.kind ∧ (ap1.mem m).result = l.handle := by
  have hact0 := acquire_active ap
  have hroot0 := acquire_root ap
  have hmem0 := acquire_mem ap
  have heq := push_leaf_eq ap l
  rcases hacq : acquire_tree ap with ⟨m, ap0⟩
  obtain ⟨_, _, hnn, _⟩ := acquire_inuse hacq hch
  have hne : B ≠ m := fun e => hnn (e ▸ hB)
  rw [hacq] at heq hact0 hroot0 hmem0
  simp only at heq hact0 hroot0 hmem0
  have hstep : step ap l.push = .ok
      (poke (poke ap0 m (fun nd =>
          { nd with tree_type := l.kind, line_num := ap0.lex_linenum, result := l.handle }))
        B (fun nd => { nd with right := some m })) := by
    rw [heq]
    unfold merge_value
    simp only [poke_active, hact0, ha, poke_mem, if_neg hne, hmem0 B hne, hb, hr]
    simp only [tree_rank, Nat.reduceLeDiff, if_true]
  have hacqs : l.push.acquires = true := by cases l <;> rfl
  obtain ⟨F1, ht⟩ := took_of_step hstep hacqs (fun _ _ e => by cases l <;> cases e) hch
  rw [hacq] at ht
  refine ⟨m, _, F1, rfl, hstep, ht, fun x hx hxB => ?_, ?_, hroot0, by rw [← ha]; exact hact0,
    ?_, ?_⟩
  · simp [hx, hxB, hmem0 x hx]
  · simp [hne, hmem0 B hne]
  · simp [Ne.symm hne]
  · simp [Ne.symm hne]

/-- lily_ast_push_binary_op when `active` is a value: the value becomes the
`left` of the new tree, which becomes `active`, and `root` if the value was. -/
theorem binary_value_step {ap : lily_ast_pool} {F : List Nat} (o : lily_expr_op) {A : Nat}
    (hch : chain_ok ap F) (ha : ap.active = some A) (hA : A < ap.brk ∧ A ∉ F)
    (hrank : tree_rank (ap.mem A).tree_type < tree_rank tree_binary) :
    ∃ n ap1 F1, n = (acquire_tree ap).1 ∧ step ap (Op.push_binary_op o) = .ok ap1
      ∧ took ap ap1 F F1 n
      ∧ (∀ x, x ≠ n → ap1.mem x = ap.mem x)
      ∧ (ap1.mem n).tree_type = tree_binary ∧ (ap1.mem n).op = o
      ∧ (ap1.mem n).priority = priority_for_op o
      ∧ (ap1.mem n).left = some A ∧ (ap1.mem n).right = none ∧ (ap1.mem n).parent = none
      ∧ ap1.active = some n ∧ ap1.root = (if ap.root = some A then some n else ap.root) := by
  have hact0 := acquire_active ap
  have hroot0 := acquire_root ap
  have hmem0 := acquire_mem ap
  rcases hacq : acquire_tree ap with ⟨n, ap0⟩
  obtain ⟨_, _, hnn, _⟩ := acquire_inuse hacq hch
  have hne : A ≠ n := fun e => hnn (e ▸ hA)
  rw [hacq] at hact0 hroot0 hmem0
  simp only at hact0 hroot0 hmem0
  have hstep : step ap (Op.push_binary_op o) = _ :=
    push_binary_value o hacq (by rw [hact0, ha]) hne (by rw [hmem0 A hne]; exact hrank)
  obtain ⟨F1, ht⟩ := took_of_step hstep rfl (fun _ _ e => by cases e) hch
  rw [hacq] at ht
  refine ⟨n, _, F1, rfl, hstep, ht, fun x hx => ?_, ?_, ?_, ?_, ?_, ?_, ?_, rfl, ?_⟩
  · simp [hx, hmem0 x hx]
  · simp
  · simp
  · simp
  · simp
  · simp
  · simp
  · show (if ap0.root = some A then some n else ap0.root) = _
    rw [hroot0]

/-- lily_ast_push_binary_op when `active` is a binary tree of lower priority,
or the new operator has priority 0: the new tree takes the `right` of `active`
as its `left` and becomes that `right`. -/
theorem binary_steal_step {ap : lily_ast_pool} {F : List Nat} (o : lily_expr_op) {B : Nat}
    (hch : chain_ok ap F) (ha : ap.active = some B) (hB : B < ap.brk ∧ B ∉ F)
    (hb : (ap.mem B).tree_type = tree_binary)
    (hprio : priority_for_op o > (ap.mem B).priority ∨ priority_for_op o = 0) :
    ∃ n ap1 F1, n = (acquire_tree ap).1 ∧ step ap (Op.push_binary_op o) = .ok ap1
      ∧ took ap ap1 F F1 n
      ∧ (∀ x, x ≠ n → x ≠ B → ap1.mem x = ap.mem x)
      ∧ ap1.mem B = { ap.mem B with right := some n }
      ∧ (ap1.mem n).tree_type = tree_binary ∧ (ap1.mem n).op = o
      ∧ (ap1.mem n).priority = priority_for_op o
      ∧ (ap1.mem n).left = (ap.mem B).right ∧ (ap1.mem n).right = none
      ∧ (ap1.mem n).parent = some B
      ∧ ap1.active = some n ∧ ap1.root = ap.root := by
  have hact0 := acquire_active ap
  have hroot0 := acquire_root ap
  have hmem0 := acquire_mem ap
  rcases hacq : acquire_tree ap with ⟨n, ap0⟩
  obtain ⟨_, _, hnn, _⟩ := acquire_inuse hacq hch
  have hne : B ≠ n := fun e => hnn (e ▸ hB)
  rw [hacq] at hact0 hroot0 hmem0
  simp only at hact0 hroot0 hmem0
  have hstep : step ap (Op.push_binary_op o) = _ :=
    push_binary_steal o hacq (by rw [hact0, ha]) hne rfl (by rw [hmem0 B hne]; exact hb)
      (by rw [hmem0 B hne]; exact hprio)
  obtain ⟨F1, ht⟩ := took_of_step hstep rfl (fun _ _ e => by cases e) hch
  rw [hacq] at ht
  refine ⟨n, _, F1, rfl, hstep, ht, fun x hx hxB => ?_, ?_, ?_, ?_, ?_, ?_, ?_, ?_, rfl, hroot0⟩
  · simp [hx, hxB, hmem0 x hx]
  · simp [hne, hmem0 B hne]
  · simp [Ne.symm hne]
  · simp [Ne.symm hne]
  · simp [Ne.symm hne]
  · simp [Ne.symm hne, hmem0 B hne]
  · simp [Ne.symm hne]
  · simp [Ne.symm hne]

/-- lily_ast_push_binary_op when `active` is a binary tree without a `parent`
whose priority is not lower: `active` becomes the `left` of the new tree, which
becomes `root` and `active`. -/
theorem binary_over_step {ap : lily_ast_pool} {F : List Nat} (o : lily_expr_op) {B : Nat}
    (hch : chain_ok ap F) (ha : ap.active = some B) (hB : B < ap.brk ∧ B ∉ F)
    (hb : (ap.mem B).tree_type = tree_binary)
    (hprio : ¬ (priority_for_op o > (ap.mem B).priority ∨ priority_for_op o = 0))
    (hpar : (ap.mem B).parent = none) :
    ∃ n ap1 F1, n = (acquire_tree ap).1 ∧ step ap (Op.push_binary_op o) = .ok ap1
      ∧ took ap ap1 F F1 n
      ∧ (∀ x, x ≠ n → x ≠ B → ap1.mem x = ap.mem x)
      ∧ ap1.mem B = { ap.mem B with parent := some n }
      ∧ (ap1.mem n).tree_type = tree_binary ∧ (ap1.mem n).op = o
      ∧ (ap1.mem n).priority = priority_for_op o
      ∧ (ap1.mem n).left = some B ∧ (ap1.mem n).right = none
      ∧ ap1.active = some n ∧ ap1.root = some n := by
  have hact0 := acquire_active ap
  have hmem0 := acquire_mem ap
  rcases hacq : acquire_tree ap with ⟨n, ap0⟩
  obtain ⟨_, _, hnn, _⟩ := acquire_inuse hacq hch
  have hne : B ≠ n := fun e => hnn (e ▸ hB)
  rw [hacq] at hact0 hmem0
  simp only at hact0 hmem0
  have hpar1 : ((poke ap0 n (fun nd =>
      { nd with tree_type := tree_binary, line_num := ap0.lex_linenum,
                priority := priority_for_op o, op := o,
                left := none, right := none, parent := none })).mem B).parent = none := by
    simp [hne, hmem0 B hne, hpar]
  have hstep : step ap (Op.push_binary_op o) = _ :=
    push_binary_climb_root o hacq (by rw [hact0, ha]) hne rfl (by rw [hmem0 B hne]; exact hb)
      (by rw [hmem0 B hne]; exact hprio)
      (by
        unfold climb
        rw [hpar1])
      hpar1
  obtain ⟨F1, ht⟩ := took_of_step hstep rfl (fun _ _ e => by cases e) hch
  rw [hacq] at ht
  refine ⟨n, _, F1, rfl, hstep, ht, fun x hx hxB => ?_, ?_, ?_, ?_, ?_, ?_, ?_, rfl, rfl⟩
  · simp [hx, hxB, hmem0 x hx]
  · simp [hne, hmem0 B hne]
  · simp [Ne.symm hne]
  · simp [Ne.symm hne]
  · simp [Ne.symm hne]
  · simp [Ne.symm hne]
  · simp [Ne.symm hne]

/-- lily_ast_leave_tree writes no `tree_type` and no `result`. -/
theorem leave_keeps {ap ap1 : lily_ast_pool} (h : lily_ast_leave_tree ap = .ok ap1) (y : Nat) :
    (ap1.mem y).tree_type = (ap.mem y).tree_type ∧ (ap1.mem y).result = (ap.mem y).result := by
  unfold lily_ast_leave_tree at h
  simp only at h
  cases h1 : saved_at { ap with save_index := ap.save_index - 1 } (ap.save_index - 1) with
  | error e => rw [h1] at h; simp at h
  | ok r =>
    rw [h1] at h
    cases r with
    | none => simp at h
    | some a =>
      simp only at h
      cases h2 : push_tree_arg { ap with save_index := ap.save_index - 1 } a ap.root with
      | error e => rw [h2] at h; simp at h
      | ok ap2 =>
        rw [h2] at h
        simp only at h
        have hk := push_tree_arg_keeps h2 y
        cases h3 : saved_at { ap2 with save_index := ap2.save_index - 1 } (ap2.save_index - 1) with
        | error e => rw [h3] at h; simp at h
        | ok r =>
          rw [h3] at h
          simp only [Except.ok.injEq] at h
          subst h
          split_ifs
          · refine ⟨Eq.trans ?_ hk.1, Eq.trans ?_ hk.2⟩ <;>
              (simp only [poke_mem]; split_ifs <;> rfl)
          · exact hk

/-- A grouping from lily_ast_enter_tree to lily_ast_leave_tree, seen from
outside: what it leaves in the memory, in `root` and `active` and on the save
stack, in terms of the pool `ap2` that merge_value made of the pool with the
new tree. -/
theorem grouping_bundle {ap ap0 ap2 : lily_ast_pool} {F : List Nat} {G : Nat}
    (tt : lily_tree_type) (var : Option Nat) (pre : List Nat)
    (hch : chain_ok ap F) (hst : stack_ok ap) (hacq : acquire_tree ap = (G, ap0))
    (hmv : merge_value (poke ap0 G (fun n =>
      { n with tree_type := tt, line_num := ap0.lex_linenum, result := var,
               args_collected := 0, arg_start := none, arg_top := none })) G = .ok ap2)
    (hpre : ∀ r ∈ pre, r < ap.brk ∧ r ∉ F) (hpnd : pre.Nodup)
    (hm : ∀ y, y ≠ G → ¬ (y < ap.brk ∧ y ∉ F) → ap2.mem y = ap0.mem y)
    (hb : ap2.brk = ap0.brk) (hav : ap2.available_current = ap0.available_current)
    (hsv : ap2.saved_trees = ap0.saved_trees) (hsi : ap2.save_index = ap0.save_index)
    (hsz : ap2.save_size = ap0.save_size)
    (hk : (ap2.mem G).tree_type = tt) (hcnt : (ap2.mem G).args_collected = (pre.length : Int))
    (hargs : open_chain ap2.mem pre (ap2.mem G).arg_start)
    (htop : (ap2.mem G).arg_top = last_opt pre)
    (segs : List (List Op)) (hsegs : ∀ seg ∈ segs, isolated seg) :
    ∃ ape ap1 F1 roots, lily_ast_enter_tree ap tt var = .ok ape
      ∧ arg_roots segs ape = roots.map some ∧ roots.length = segs.length
      ∧ run (Op.enter_tree tt var :: args_ops segs) ap = .ok ap1
      ∧ chain_ok ap1 F1 ∧ ¬ (G < ap.brk ∧ G ∉ F) ∧ (G < ap1.brk ∧ G ∉ F1)
      ∧ (∀ x, x < ap.brk → x ∉ F → x < ap1.brk ∧ x ∉ F1)
      ∧ (∀ r ∈ roots, (r < ap1.brk ∧ r ∉ F1) ∧ ¬ (r < ap.brk ∧ r ∉ F) ∧ r ≠ G
          ∧ (ap1.mem r).parent = some G)
      ∧ roots.Nodup
      ∧ (∀ x, x < ap.brk → x ∉ F → x ∉ pre → ap1.mem x = ap2.mem x)
      ∧ (∀ r ∈ pre, (ap1.mem r).tree_type = (ap2.mem r).tree_type
          ∧ (ap1.mem r).result = (ap2.mem r).result)
      ∧ ap1.root = ap2.root ∧ ap1.active = ap2.active
      ∧ (ap1.mem G).tree_type = tt ∧ (ap1.mem G).result = (ap2.mem G).result
      ∧ (ap1.mem G).parent = (if ap2.active = some G then none else ap2.active)
      ∧ (ap1.mem G).args_collected = ((pre ++ roots).length : Int)
      ∧ arg_chain ap1.mem (pre ++ roots) (ap1.mem G).arg_start
      ∧ ap1.save_index = ap.save_index ∧ ap.save_size ≤ ap1.save_size
      ∧ (∀ i : Nat, (i : Int) < ap.save_index → ap1.saved_trees i = ap.saved_trees i) := by
  obtain ⟨ape, ap1, F1, roots, hen, hroots, hlen, hrun, hcl, hGn, hmy⟩ :=
    grouping_run tt var pre hch hst hacq hmv hpre hpnd hm hb hav hsv hsi hsz hk hcnt hargs htop
      segs hsegs
  obtain ⟨_, _, _, _, _, _, _, _, _, hsv0, hsi0, hsz0, _⟩ := acquire_inuse hacq hch
  obtain ⟨s0, s1, s2, s3⟩ := hst
  have hst2 : stack_ok ap2 := by
    refine ⟨?_, ?_, ?_, ?_⟩
    · rw [hsi, hsi0]; exact s0
    · rw [hsi, hsi0]; exact s1
    · rw [hsi, hsi0, hsz, hsz0]; exact s2
    · rw [hsz, hsz0]; exact s3
  obtain ⟨ape1, hen1, hme, _⟩ := enter_spec tt var hacq hmv hst2
  have e : ape1 = ape := by
    rw [hen1] at hen
    exact Except.ok.inj hen
  subst e
  obtain ⟨hp, hidx, hroot, hactive⟩ := hcl
  have hnat : ((ap.save_index.toNat : Nat) : Int) = ap.save_index := Int.toNat_of_nonneg s0
  have hGpre : G ∉ pre := fun h => hGn (hpre G h)
  have hnd := hp.nodup
  simp only at hnd
  obtain ⟨hnd1, hnd2⟩ := List.nodup_cons.mp hnd
  obtain ⟨_, hnd3, hnd4⟩ := List.nodup_append.mp hnd2
  refine ⟨ape1, ap1, F1, roots, hen1, hroots, hlen, hrun, hp.chain, hGn, hp.node_used,
    fun x h1 h2 => ?_, fun r hr => ⟨hp.args_used r (List.mem_append_right _ hr), ?_, ?_,
      hp.parents r hr⟩, hnd3, fun x h1 h2 h3 => ?_, fun r hr => ?_, hroot, hactive, hp.kind_eq,
    ?_, hp.up_eq, hp.count, hp.args, by rw [hidx]; exact hnat, hp.size0, fun i hi => ?_⟩
  · by_cases hx : x ∈ pre
    · exact hp.args_used x (List.mem_append_left _ hx)
    · obtain ⟨k1, k2, _⟩ := hp.frame x ⟨⟨h1, h2⟩, hx⟩
      exact ⟨k1, k2⟩
  · intro hu
    have hnew := hp.args_new r (List.mem_append_right _ hr)
    exact hnew ⟨hu, fun hx => hnd4 hx hr⟩
  · intro e
    exact hnd1 (e ▸ List.mem_append_right _ hr)
  · obtain ⟨_, _, k3⟩ := hp.frame x ⟨⟨h1, h2⟩, h3⟩
    have hxG : x ≠ G := fun e => hGn (e ▸ ⟨h1, h2⟩)
    rw [k3]
    exact hmy x hxG
  · have hrG : r ≠ G := fun e => hGpre (e ▸ hr)
    have hk := hp.pre_kept r hr
    simp only at hk
    rw [hmy r hrG] at hk
    exact hk
  · have := hp.node_res
    simp only at this
    rw [this, hme]
    simp
  · exact hp.saved_low i (by show i < ap.save_index.toNat; omega)

/-- A grouping entered when `root` and `active` are a value `xa`: the grouping
takes the value over as its first argument and becomes `root` and `active`. -/
theorem receiver_root_grouping {ap : lily_ast_pool} {F : List Nat} {xa : Nat}
    (hch : chain_ok ap F) (hst : stack_ok ap) (hr : ap.root = some xa)
    (ha : ap.active = some xa) (hxa : xa < ap.brk ∧ xa ∉ F)
    (hk : tree_rank (ap.mem xa).tree_type < tree_rank tree_unary)
    (tt : lily_tree_type) (var : Option Nat)
    (segs : List (List Op)) (hsegs : ∀ seg ∈ segs, isolated seg) :
    ∃ G ape ap1 F1 roots, G = (acquire_tree ap).1 ∧ lily_ast_enter_tree ap tt var = .ok ape
      ∧ arg_roots segs ape = roots.map some ∧ roots.length = segs.length
      ∧ run (Op.enter_tree tt var :: args_ops segs) ap = .ok ap1
      ∧ chain_ok ap1 F1 ∧ ¬ (G < ap.brk ∧ G ∉ F) ∧ (G < ap1.brk ∧ G ∉ F1)
      ∧ (∀ x, x < ap.brk → x ∉ F → x < ap1.brk ∧ x ∉ F1)
      ∧ (∀ r ∈ roots, (r < ap1.brk ∧ r ∉ F1) ∧ ¬ (r < ap.brk ∧ r ∉ F) ∧ r ≠ G
          ∧ (ap1.mem r).parent = some G)
      ∧ roots.Nodup
      ∧ (∀ x, x < ap.brk → x ∉ F → x ≠ xa → ap1.mem x = ap.mem x)
      ∧ ((ap1.mem xa).tree_type = (ap.mem xa).tree_type
          ∧ (ap1.mem xa).result = (ap.mem xa).result)
      ∧ ap1.root = some G ∧ ap1.active = some G
      ∧ (ap1.mem G).tree_type = tt ∧ (ap1.mem G).result = var
      ∧ (ap1.mem G).parent = none
      ∧ (ap1.mem G).args_collected = 1 + (segs.length : Int)
      ∧ arg_chain ap1.mem (xa :: roots) (ap1.mem G).arg_start
      ∧ ap1.save_index = ap.save_index ∧ ap.save_size ≤ ap1.save_size
      ∧ (∀ i : Nat, (i : Int) < ap.save_index → ap1.saved_trees i = ap.saved_trees i) := by
  rcases hacq : acquire_tree ap with ⟨G, ap0⟩
  obtain ⟨_, _, hGn, _, _, _, hmem0, hact0, hroot0, _, _, _, _⟩ := acquire_inuse hacq hch
  have hxG : xa ≠ G := fun e => hGn (e ▸ hxa)
  have hrk : ¬ tree_rank tree_typecast ≤ tree_rank (ap.mem xa).tree_type := by
    simp only [tree_rank] at hk ⊢
    omega
  have hnu : (ap.mem xa).tree_type ≠ tree_unary := by
    intro e
    rw [e] at hk
    exact lt_irrefl _ hk
  have hax : ap0.active = some xa := by rw [hact0, ha]
  have hrx : ap0.root = some xa := by rw [hroot0, hr]
  have hm0x : ap0.mem xa = ap.mem xa := hmem0 xa hxG
  obtain ⟨ap2, hap2⟩ : ∃ ap2 : lily_ast_pool, ap2 =
      poke { poke ap0 G (fun n =>
          { n with tree_type := tt, line_num := ap0.lex_linenum, result := var,
                   args_collected := 0, arg_start := none, arg_top := none }) with
        root := some G, active := some G } G (fun n =>
      { n with arg_start := some xa, arg_top := some xa, args_collected := 1,
               next_arg := none }) := ⟨_, rfl⟩
  have hmv : merge_value (poke ap0 G (fun n =>
      { n with tree_type := tt, line_num := ap0.lex_linenum, result := var,
               args_collected := 0, arg_start := none, arg_top := none })) G = .ok ap2 := by
    rw [hap2]
    simp [merge_value, merge_absorb, hax, hrx, hxG, hm0x, hrk, hnu]
  obtain ⟨ape, ap1, F1, roots, hen, hroots, hlen, hrun, b1, b2, b3, b4, b5, b6, b7, b8, b9,
      b10, b11, b12, b13, b14, b15, b16, b17, b18⟩ :=
    grouping_bundle tt var [xa] hch hst hacq hmv (by simpa using hxa) (List.nodup_singleton _)
      (fun y hy _ => by rw [hap2]; simp [hy]) (by rw [hap2]; rfl) (by rw [hap2]; rfl)
      (by rw [hap2]; rfl) (by rw [hap2]; rfl) (by rw [hap2]; rfl)
      (by rw [hap2]; simp) (by rw [hap2]; simp) (by rw [hap2]; simp [open_chain])
      (by rw [hap2]; simp [last_opt, last_from]) segs hsegs
  have h2r : ap2.root = some G := by rw [hap2]; rfl
  have h2a : ap2.active = some G := by rw [hap2]; rfl
  have h2m : ∀ x, x ≠ G → ap2.mem x = ap.mem x := by
    intro x hx
    rw [hap2]
    simp [hx, hmem0 x hx]
  have h2G : (ap2.mem G).result = var := by rw [hap2]; simp
  simp only [h2a, if_true] at b13
  simp only [List.singleton_append, List.length_cons, Nat.cast_add, Nat.cast_one] at b14 b15
  have hk8 := b8 xa (List.mem_singleton_self _)
  rw [h2m xa hxG] at hk8
  refine ⟨G, ape, ap1, F1, roots, rfl, hen, hroots, hlen, hrun, b1, b2, b3, b4, b5, b6,
    fun x h1 h2 h3 => ?_, hk8, by rw [b9, h2r], by rw [b10, h2a], b11, by rw [b12, h2G], b13,
    by rw [b14, hlen]; exact add_comm _ _, b15, b16, b17, b18⟩
  have hxG2 : x ≠ G := fun e => hGn (e ▸ ⟨h1, h2⟩)
  rw [b7 x h1 h2 (by simpa using h3), h2m x hxG2]

/-- A grouping entered when `active` is a binary tree `B` whose `right` is a
value `xb`: the grouping takes the value over as its first argument and becomes
the `right` of `B`, which stays `active`. -/
theorem receiver_right_grouping {ap : lily_ast_pool} {F : List Nat} {B xb : Nat}
    (hch : chain_ok ap F) (hst : stack_ok ap) (ha : ap.active = some B)
    (hB : B < ap.brk ∧ B ∉ F) (hBt : (ap.mem B).tree_type = tree_binary)
    (hBr : (ap.mem B).right = some xb) (hxb : xb < ap.brk ∧ xb ∉ F) (hxbB : xb ≠ B)
    (hnu : (ap.mem xb).tree_type ≠ tree_unary)
    (tt : lily_tree_type) (var : Option Nat)
    (segs : List (List Op)) (hsegs : ∀ seg ∈ segs, isolated seg) :
    ∃ G ape ap1 F1 roots, G = (acquire_tree ap).1 ∧ lily_ast_enter_tree ap tt var = .ok ape
      ∧ arg_roots segs ape = roots.map some ∧ roots.length = segs.length
      ∧ run (Op.enter_tree tt var :: args_ops segs) ap = .ok ap1
      ∧ chain_ok ap1 F1 ∧ ¬ (G < ap.brk ∧ G ∉ F) ∧ (G < ap1.brk ∧ G ∉ F1)
      ∧ (∀ x, x < ap.brk → x ∉ F → x < ap1.brk ∧ x ∉ F1)
      ∧ (∀ r ∈ roots, (r < ap1.brk ∧ r ∉ F1) ∧ ¬ (r < ap.brk ∧ r ∉ F) ∧ r ≠ G
          ∧ (ap1.mem r).parent = some G)
      ∧ roots.Nodup
      ∧ (∀ x, x < ap.brk → x ∉ F → x ≠ xb → x ≠ B → ap1.mem x = ap.mem x)
      ∧ ap1.mem B = { ap.mem B with right := some G }
      ∧ ((ap1.mem xb).tree_type = (ap.mem xb).tree_type
          ∧ (ap1.mem xb).result = (ap.mem xb).result)
      ∧ ap1.root = ap.root ∧ ap1.active = some B
      ∧ (ap1.mem G).tree_type = tt ∧ (ap1.mem G).result = var
      ∧ (ap1.mem G).parent = some B
      ∧ (ap1.mem G).args_collected = 1 + (segs.length : Int)
      ∧ arg_chain ap1.mem (xb :: roots) (ap1.mem G).arg_start
      ∧ ap1.save_index = ap.save_index ∧ ap.save_size ≤ ap1.save_size
      ∧ (∀ i : Nat, (i : Int) < ap.save_index → ap1.saved_trees i = ap.saved_trees i) := by
  rcases hacq : acquire_tree ap with ⟨G, ap0⟩
  obtain ⟨_, _, hGn, _, _, _, hmem0, hact0, hroot0, _, _, _, _⟩ := acquire_inuse hacq hch
  have hxG : xb ≠ G := fun e => hGn (e ▸ hxb)
  have hBG : B ≠ G := fun e => hGn (e ▸ hB)
  have hax : ap0.active = some B := by rw [hact0, ha]
  have hm0B : ap0.mem B = ap.mem B := hmem0 B hBG
  have hm0x : ap0.mem xb = ap.mem xb := hmem0 xb hxG
  obtain ⟨ap2, hap2⟩ : ∃ ap2 : lily_ast_pool, ap2 =
      poke (poke (poke ap0 G (fun n =>
          { n with tree_type := tt, line_num := ap0.lex_linenum, result := var,
                   args_collected := 0, arg_start := none, arg_top := none }))
        B (fun n => { n with right := some G })) G (fun n =>
      { n with arg_start := some xb, arg_top := some xb, args_collected := 1,
               next_arg := none }) := ⟨_, rfl⟩
  have hmv : merge_value (poke ap0 G (fun n =>
      { n with tree_type := tt, line_num := ap0.lex_linenum, result := var,
               args_collected := 0, arg_start := none, arg_top := none })) G = .ok ap2 := by
    rw [hap2]
    simp [merge_value, merge_absorb, hax, hBG, hxG, hm0B, hm0x, hBt, hBr, hnu, tree_rank]
  obtain ⟨ape, ap1, F1, roots, hen, hroots, hlen, hrun, b1, b2, b3, b4, b5, b6, b7, b8, b9,
      b10, b11, b12, b13, b14, b15, b16, b17, b18⟩ :=
    grouping_bundle tt var [xb] hch hst hacq hmv (by simpa using hxb) (List.nodup_singleton _)
      (fun y hy hyu => by
        have hyB : y ≠ B := fun e => hyu (e ▸ hB)
        rw [hap2]; simp [hy, hyB])
      (by rw [hap2]; rfl) (by rw [hap2]; rfl)
      (by rw [hap2]; rfl) (by rw [hap2]; rfl) (by rw [hap2]; rfl)
      (by rw [hap2]; simp [Ne.symm hBG]) (by rw [hap2]; simp) (by rw [hap2]; simp [open_chain])
      (by rw [hap2]; simp [last_opt, last_from]) segs hsegs
  have h2r : ap2.root = ap.root := by rw [hap2]; exact hroot0
  have h2a : ap2.active = some B := by rw [hap2]; exact hax
  have h2m : ∀ x, x ≠ G → x ≠ B → ap2.mem x = ap.mem x := by
    intro x hx hxB
    rw [hap2]
    simp [hx, hxB, hmem0 x hx]
  have h2B : ap2.mem B = { ap.mem B with right := some G } := by
    rw [hap2]
    simp [hBG, hm0B]
  have h2G : (ap2.mem G).result = var := by rw [hap2]; simp [Ne.symm hBG]
  rw [h2a, if_neg (by simp [hBG])] at b13
  simp only [List.singleton_append, List.length_cons, Nat.cast_add, Nat.cast_one] at b14 b15
  have hk8 := b8 xb (List.mem_singleton_self _)
  rw [h2m xb hxG hxbB] at hk8
  refine ⟨G, ape, ap1, F1, roots, rfl, hen, hroots, hlen, hrun, b1, b2, b3, b4, b5, b6,
    fun x h1 h2 h3 h4 => ?_, ?_, hk8, by rw [b9, h2r], by rw [b10, h2a], b11,
    by rw [b12, h2G], b13, by rw [b14, hlen]; exact add_comm _ _, b15, b16, b17, b18⟩
  · have hxG2 : x ≠ G := fun e => hGn (e ▸ ⟨h1, h2⟩)
    rw [b7 x h1 h2 (by simpa using h3), h2m x hxG2 h4]
  · rw [b7 B hB.1 hB.2 (by simpa using Ne.symm hxbB), h2B]

/-- lily_ast_enter_tree leaves `root` and `active` empty. -/
theorem enter_clears {ap ape : lily_ast_pool} {tt : lily_tree_type} {var : Option Nat}
    (h : lily_ast_enter_tree ap tt var = .ok ape) : ape.root = none ∧ ape.active = none := by
  unfold lily_ast_enter_tree at h
  rcases hacq : acquire_tree ap with ⟨a, ap0⟩
  rw [hacq] at h
  simp only at h
  cases hm : merge_value (poke ap0 a (fun n =>
    { n with tree_type := tt, line_num := ap0.lex_linenum, result := var,
             args_collected := 0, arg_start := none, arg_top := none })) a with
  | error e => rw [hm] at h; simp at h
  | ok ap2 =>
    rw [hm] at h
    simp only at h
    obtain ⟨ap4, hg⟩ : ∃ ap4,
        grow_saved (poke ap2 a (fun n => { n with parent := ap2.active })) = .ok ap4 := by
      cases hg : grow_saved (poke ap2 a (fun n => { n with parent := ap2.active })) with
      | error e => rw [hg] at h; simp at h
      | ok x => exact ⟨x, rfl⟩
    rw [hg] at h
    simp only at h
    have hap4 := grow_saved_ok hg
    cases h5 : saved_put ap4 ap4.save_index ap4.root with
    | error e => rw [h5] at h; simp at h
    | ok ap5 =>
      rw [h5] at h
      simp only at h
      cases h6 : saved_put ap5 (ap5.save_index + 1) (some a) with
      | error e => rw [h6] at h; simp at h
      | ok ap6 =>
        rw [h6] at h
        simp only [Except.ok.injEq] at h
        subst h
        exact ⟨rfl, rfl⟩

/-- A leaf pushed when `root` and `active` are empty: the result. -/
theorem leaf_none_eq (ap : lily_ast_pool) (l : Leaf) (hr : ap.root = none)
    (ha : ap.active = none) :
    step ap l.push = .ok
      { poke (acquire_tree ap).2 (acquire_tree ap).1 (fun nd =>
          { nd with tree_type := l.kind, line_num := (acquire_tree ap).2.lex_linenum,
                    result := l.handle }) with
        root := some (acquire_tree ap).1, active := some (acquire_tree ap).1 } := by
  rw [push_leaf_eq]
  simp [merge_value, acquire_active, acquire_root, ha, hr]

/-- The root of the only argument of a grouping, when the argument is a leaf:
the tree that the push took, which holds the leaf when the grouping is closed. -/
theorem leaf_argument {ape ap2 : lily_ast_pool} {roots : List Nat} (i : Leaf)
    (hr : ape.root = none) (ha : ape.active = none)
    (hroots : arg_roots [[i.push]] ape = roots.map some)
    (hrun : run (args_ops [[i.push]]) ape = .ok ap2) :
    roots = [(acquire_tree ape).1]
      ∧ (ap2.mem (acquire_tree ape).1).tree_type = i.kind
      ∧ (ap2.mem (acquire_tree ape).1).result = i.handle := by
  have hstep := leaf_none_eq ape i hr ha
  have hrun1 : run [i.push] ape = .ok
      { poke (acquire_tree ape).2 (acquire_tree ape).1 (fun nd =>
          { nd with tree_type := i.kind, line_num := (acquire_tree ape).2.lex_linenum,
                    result := i.handle }) with
        root := some (acquire_tree ape).1, active := some (acquire_tree ape).1 } := by
    simp only [run, hstep]
  refine ⟨?_, ?_⟩
  · have e : arg_roots [[i.push]] ape = [some (acquire_tree ape).1] := by
      simp only [arg_roots, hrun1]
      cases lily_ast_collect_arg _ <;> rfl
    rw [e] at hroots
    cases roots with
    | nil => simp at hroots
    | cons r rs =>
      cases rs with
      | nil =>
        simp only [List.map_cons, List.map_nil, List.cons.injEq, Option.some.injEq,
          and_true] at hroots
        rw [hroots]
      | cons r2 rs => simp at hroots
  · have hl : run (args_ops [[i.push]]) ape = run [Op.leave_tree]
        { poke (acquire_tree ape).2 (acquire_tree ape).1 (fun nd =>
            { nd with tree_type := i.kind, line_num := (acquire_tree ape).2.lex_linenum,
                      result := i.handle }) with
          root := some (acquire_tree ape).1, active := some (acquire_tree ape).1 } := by
      simp only [args_ops]
      exact run_append_ok hrun1
    rw [hl] at hrun
    obtain ⟨apm, hs, hr2⟩ := run_cons_ok hrun
    simp only [run, Except.ok.injEq] at hr2
    subst hr2
    have hk := leave_keeps (by exact hs) (acquire_tree ape).1
    rw [hk.1, hk.2]
    simp

theorem stack_ok_of_same {ap ap1 : lily_ast_pool} (h : stack_ok ap) (hs : same_stack ap1 ap) :
    stack_ok ap1 := by
  obtain ⟨_, s2, s3⟩ := hs
  unfold stack_ok
  rw [s2, s3]
  exact h

/-- For values, unary and binary operators in any order the builder on shapes
accepts, on a freshly reset pool: the calls end without a fault, and `active`
is reached from `root` by going through `right` once for each binary tree of
the spine but the first (both are NULL before the first call). -/
theorem active_on_spine {ap : lily_ast_pool} (hp : pool_ok ap) (ops : List Op) (ss : SState)
    (hr : s_run ops SState.empty = some ss) :
    ends_with ops (lily_ast_reset_pool ap)
      (fun ap1 => walk_right ap1.mem (ss.spine.length - 1) ap1.root = ap1.active) := by
  obtain ⟨F, h0⟩ := reset_refines hp
  obtain ⟨ap1, s1, used1, F1, e1, e2, e3, _⟩ :=
    run_refines ops ⟨[], [], none⟩ [] F _ ss h0 hr
  unfold ends_with
  rw [e1]
  have := refines_active e2
  rw [← e3]
  simpa [Abs.shape] using this

theorem inorder_close : ∀ (fs : List SFrame) (inner : Tree),
    (s_close fs inner).inorder = spine_tokens fs ++ inner.inorder
  | [], _ => rfl
  | f :: fs, inner => by
    rw [s_close, inorder_close fs]
    simp [spine_tokens, Tree.inorder]

/-- A climb that passes every binary tree of the spine ends above them all. -/
theorem s_climb_over (q : Int) (o : lily_expr_op) :
    ∀ (fs : List SFrame) (inner : Tree) (f : SFrame) (w : Bool),
      fs.any (fun g => decide (q > priority_for_op g.op)) = false →
      s_climb q o inner f fs w = [⟨o, s_close fs (Tree.binary f.op f.left inner), false⟩]
  | [], _, _, _, _ => rfl
  | g :: gs, inner, f, w, h => by
    simp only [List.any_cons, Bool.or_eq_false_iff, decide_eq_false_iff_not] at h
    rw [s_climb, if_neg h.1, s_climb_over q o gs _ g true h.2]
    rfl

/-- Values and binary operators in turn, none of which has to go between two
binary trees: the in-order traversal of the tree is the sequence of the
calls. -/
theorem alternating_inorder :
    ∀ (rest : List (lily_expr_op × Leaf)) (spine : List SFrame) (k : lily_tree_type)
      (r : Option Nat),
      s_splice_free (rest.flatMap (fun q => [Op.push_binary_op q.1, q.2.push]))
          ⟨spine, [], some (k, r)⟩ = true →
      ∃ ss t, s_run (rest.flatMap (fun q => [Op.push_binary_op q.1, q.2.push]))
          ⟨spine, [], some (k, r)⟩ = some ss ∧ ss.tree = some t
        ∧ t.inorder = spine_tokens spine ++ Token.val k r
            :: rest.flatMap (fun p => [Token.op p.1, Token.val p.2.kind p.2.handle])
  | [], spine, k, r, _ => by
    refine ⟨_, _, rfl, rfl, ?_⟩
    simp [inorder_close, s_operand, Tree.inorder]
  | x :: rest, spine, k, r, hf => by
    simp only [List.flatMap_cons, List.cons_append, List.nil_append, s_splice_free,
      Bool.and_eq_true, Bool.not_eq_true'] at hf
    obtain ⟨hns, hf2⟩ := hf
    have hstep : ∃ sp, s_step ⟨spine, [], some (k, r)⟩ (Op.push_binary_op x.1)
        = some ⟨sp, [], none⟩
        ∧ spine_tokens sp = spine_tokens spine ++ [Token.val k r, Token.op x.1] := by
      cases spine with
      | nil => exact ⟨_, rfl, by simp [spine_tokens, s_operand, Tree.inorder]⟩
      | cons f fs =>
        rw [s_step_binary_cons]
        by_cases hp : priority_for_op x.1 > priority_for_op f.op ∨ priority_for_op x.1 = 0
        · rw [if_pos hp]
          exact ⟨_, rfl, by simp [spine_tokens, s_operand, Tree.inorder]⟩
        · rw [if_neg hp]
          have hany : fs.any (fun g => decide (priority_for_op x.1 > priority_for_op g.op))
              = false := by
            simp only [s_splices] at hns
            rw [decide_eq_false hp] at hns
            simpa using hns
          rw [s_climb_over _ _ fs _ f false hany]
          refine ⟨_, rfl, ?_⟩
          simp [spine_tokens, inorder_close, s_operand, Tree.inorder]
    obtain ⟨sp, hsp, htok⟩ := hstep
    rw [hsp] at hf2
    simp only [s_splice_free, s_step_leaf_lit, Bool.and_eq_true] at hf2
    have hf3 : s_splice_free
        (rest.flatMap (fun q => [Op.push_binary_op q.1, q.2.push]))
        ⟨sp, [], some (x.2.kind, x.2.handle)⟩ = true := by
      cases hx : x.2 <;> rw [hx] at hf2 <;> exact hf2.2
    obtain ⟨ss, t, h1, h2, h3⟩ := alternating_inorder rest sp x.2.kind x.2.handle hf3
    refine ⟨ss, t, ?_, h2, ?_⟩
    · simp only [List.flatMap_cons, List.cons_append, List.nil_append, s_run, hsp,
        s_step_leaf_lit]
      exact h1
    · rw [h3, htok]
      simp

/-- Values and binary operators in turn on a freshly reset pool, when no
operator has to go between two binary trees: the calls end without a fault and
the in-order traversal of the tree under `root` is the sequence of the
calls. -/
theorem inorder_kept (ap : lily_ast_pool) (hp : pool_ok ap) (v0 : Leaf)
    (rest : List (lily_expr_op × Leaf))
    (hf : s_splice_free (alternating v0 rest) SState.empty = true) :
    ends_with (alternating v0 rest) (lily_ast_reset_pool ap)
      (fun ap1 => ∃ t, tree_at ap1.mem t ap1.root ∧ t.inorder = tokens v0 rest) := by
  have hf2 : s_splice_free (rest.flatMap (fun q => [Op.push_binary_op q.1, q.2.push]))
      ⟨[], [], some (v0.kind, v0.handle)⟩ = true := by
    simp only [alternating, s_splice_free, SState.empty, s_step_leaf_lit, Bool.and_eq_true] at hf
    cases v0 <;> exact hf.2
  obtain ⟨ss, t, h1, h2, h3⟩ := alternating_inorder rest [] v0.kind v0.handle hf2
  have hrun : s_run (alternating v0 rest) SState.empty = some ss := by
    simp only [alternating, s_run, SState.empty, s_step_leaf_lit]
    exact h1
  refine ends_with_mono (fun x hx => ⟨t, hx, ?_⟩) (ends_with_tree hp ss hrun h2)
  rw [h3]
  simp [spine_tokens, tokens]

theorem next_chain_snoc (nxt nxt1 : Nat → Option Nat) (s : Nat) (hs : nxt1 s = none) :
    ∀ (a : Nat) (L : List Nat) (p : Option Nat), next_chain nxt (a :: L) p →
      (a :: L).Nodup → nxt1 (last_from a L) = some s →
      (∀ x ∈ a :: L, x ≠ last_from a L → nxt1 x = nxt x) →
      next_chain nxt1 (a :: L ++ [s]) p
  | a, [], p, h, _, hl, _ => by
    refine ⟨h.1, ?_⟩
    have e : nxt1 a = some s := hl
    rw [e]
    exact ⟨rfl, hs⟩
  | a, b :: L, p, h, hnd, hl, hk => by
    obtain ⟨hnd1, hnd2⟩ := List.nodup_cons.mp hnd
    have hne : a ≠ last_from b L := fun e => hnd1 (e ▸ last_from_mem L b)
    refine ⟨h.1, ?_⟩
    have e : nxt1 a = nxt a := hk a (List.mem_cons_self _ _) hne
    rw [e]
    exact next_chain_snoc nxt nxt1 s hs b L _ h.2 hnd2 hl
      (fun x hx hxl => hk x (List.mem_cons_of_mem _ hx) hxl)

theorem range_map_succ (b n : Nat) :
    (List.range (n + 1)).map (fun j => b + j) = (List.range n).map (fun j => b + j) ++ [b + n] := by
  rw [List.range_succ, List.map_append]
  rfl

theorem range_map_nodup (b n : Nat) : ((List.range n).map (fun j => b + j)).Nodup := by
  refine List.Nodup.map (fun x y h => ?_) (List.nodup_range n)
  simpa using h

theorem range_map_lt (b n x : Nat) (h : x ∈ (List.range n).map (fun j => b + j)) :
    x < b + n := by
  simp only [List.mem_map, List.mem_range] at h
  obtain ⟨j, hj, e⟩ := h
  omega

theorem last_opt_range (b n : Nat) :
    last_opt ((List.range (n + 1)).map (fun j => b + j)) = some (b + n) := by
  rw [range_map_succ]
  cases h : (List.range n).map (fun j => b + j) with
  | nil => rfl
  | cons a L =>
    simp only [List.cons_append, last_opt, Option.some.injEq]
    exact last_from_append L a (b + n) []

/-- A chain that grows by one object at its end. -/
theorem chain_grows (nxt nxt1 : Nat → Option Nat) (b n : Nat) (start top : Option Nat)
    (hc : next_chain nxt ((List.range n).map (fun j => b + j)) start)
    (ht : top = last_opt ((List.range n).map (fun j => b + j)))
    (hs : nxt1 (b + n) = none)
    (hl : ∀ t, top = some t → nxt1 t = some (b + n))
    (hk : ∀ x, x < b + n → top ≠ some x → nxt1 x = nxt x) :
    next_chain nxt1 ((List.range (n + 1)).map (fun j => b + j))
      (if start = none then some (b + n) else start) := by
  rw [range_map_succ]
  cases h : (List.range n).map (fun j => b + j) with
  | nil =>
    rw [h] at hc
    have e : start = none := hc
    rw [e, if_pos rfl]
    exact ⟨rfl, hs⟩
  | cons a L =>
    rw [h] at hc ht
    have e : start = some a := hc.1
    rw [e, if_neg (by simp)]
    have hnd := range_map_nodup b n
    rw [h] at hnd
    refine next_chain_snoc nxt nxt1 (b + n) hs a L _ (e ▸ hc) hnd (hl _ ht) (fun x hx hxl => ?_)
    refine hk x (range_map_lt b n x (h ▸ hx)) ?_
    rw [ht]
    exact fun e2 => hxl (Option.some.inj e2).symm

/-- add_var on an object just obtained from lily_malloc. -/
theorem add_var_grows {b n : Nat} {st st1 : lily_symtab} (h : vars_ok b n st)
    (hlt : (n : Int) < INT_MAX)
    (hb : st1.var_brk = st.var_brk + 1) (hid : st1.next_var_id = st.next_var_id)
    (hs : st1.var_start = st.var_start) (ht : st1.var_top = st.var_top)
    (hm : ∀ x, x ≠ b + n → st1.var_mem x = st.var_mem x) :
    ∃ st2, add_var st1 (b + n) = .ok st2 ∧ vars_ok b (n + 1) st2
      ∧ st2.lit_mem = st1.lit_mem ∧ st2.lit_brk = st1.lit_brk
      ∧ st2.next_lit_id = st1.next_lit_id ∧ st2.lit_start = st1.lit_start
      ∧ st2.lit_top = st1.lit_top ∧ st2.lex_linenum = st1.lex_linenum := by
  obtain ⟨h1, h2, h3, h4, h5⟩ := h
  have hno : ¬ st1.next_var_id ≥ INT_MAX := by rw [hid, h2]; omega
  unfold add_var
  rw [if_neg hno]
  cases hst : st1.var_start with
  | none =>
    simp only [hst]
    refine ⟨_, rfl, ⟨?_, ?_, ?_, ?_, ?_⟩, rfl, rfl, rfl, rfl, rfl, rfl⟩
    · show st1.var_brk = _
      rw [hb, h1]; omega
    · show st1.next_var_id + 1 = _
      rw [hid, h2]; push_cast; rfl
    · have := chain_grows (fun x => (st.var_mem x).next)
        (fun x => ((if x = b + n then
            { st1.var_mem x with id := st1.next_var_id, next := none }
          else st1.var_mem x) : lily_var).next) b n st.var_start st.var_top h3 h4
        (by simp)
        (fun t htop => by
          exfalso
          rw [← hs, hst] at h3
          cases n with
          | zero => rw [h4] at htop; simp [last_opt] at htop
          | succ k =>
            rw [range_map_succ] at h3
            cases hh : (List.range k).map (fun j => b + j) with
            | nil => rw [hh] at h3; exact absurd h3.1 (by simp)
            | cons a L => rw [hh] at h3; exact absurd h3.1 (by simp))
        (fun x hx _ => by
          have : x ≠ b + n := by omega
          simp [this, hm x this])
      rw [← hs, hst, if_pos rfl] at this
      exact this
    · show some (b + n) = _
      rw [last_opt_range]
    · intro j hj
      show ((if b + j = b + n then
            { st1.var_mem (b + j) with id := st1.next_var_id, next := none }
          else st1.var_mem (b + j)) : lily_var).id = _
      by_cases e : j = n
      · subst e
        simp [hid, h2]
      · have : b + j ≠ b + n := by omega
        rw [if_neg this, hm _ this]
        exact h5 j (by omega)
  | some a0 =>
    have hstart : st.var_start = some a0 := by rw [← hs, hst]
    have hn : n ≠ 0 := by
      intro e
      subst e
      have : st.var_start = none := h3
      rw [this] at hstart
      cases hstart
    obtain ⟨k, hk⟩ : ∃ k, n = k + 1 := ⟨n - 1, by omega⟩
    have htop : st1.var_top = some (b + k) := by
      rw [ht, h4, hk, last_opt_range]
    simp only [hst, htop]
    refine ⟨_, rfl, ⟨?_, ?_, ?_, ?_, ?_⟩, rfl, rfl, rfl, rfl, rfl, rfl⟩
    · show st1.var_brk = _
      rw [hb, h1]; omega
    · show st1.next_var_id + 1 = _
      rw [hid, h2]; push_cast; rfl
    · have hkn : b + k ≠ b + n := by omega
      have := chain_grows (fun x => (st.var_mem x).next)
        (fun x => ((if x = b + k then
                { (if x = b + n then
                    { st1.var_mem x with id := st1.next_var_id, next := none }
                  else st1.var_mem x) with next := some (b + n) }
              else (if x = b + n then
                    { st1.var_mem x with id := st1.next_var_id, next := none }
                  else st1.var_mem x)) : lily_var).next) b n st.var_start st.var_top h3 h4
        (by simp [Ne.symm hkn])
        (fun t htop2 => by
          rw [← ht, htop] at htop2
          have e : t = b + k := (Option.some.inj htop2).symm
          rw [e]
          simp)
        (fun x hx hxt => by
          have h1x : x ≠ b + n := by omega
          have h2x : x ≠ b + k := by
            intro e
            apply hxt
            rw [← ht, htop, e]
          simp [h1x, h2x, hm x h1x])
      rw [hstart, if_neg (by simp)] at this
      exact this
    · show some (b + n) = _
      rw [last_opt_range]
    · intro j hj
      show ((if b + j = b + k then
                { (if b + j = b + n then
                    { st1.var_mem (b + j) with id := st1.next_var_id, next := none }
                  else st1.var_mem (b + j)) with next := some (b + n) }
              else (if b + j = b + n then
                    { st1.var_mem (b + j) with id := st1.next_var_id, next := none }
                  else st1.var_mem (b + j))) : lily_var).id = _
      by_cases e : j = n
      · subst e
        have : b + j ≠ b + k := by omega
        simp [this, hid, h2]
      · have hjn : b + j ≠ b + n := by omega
        by_cases e2 : j = k
        · subst e2
          simp only [if_true, if_neg hjn]
          rw [hm _ hjn]
          exact h5 j (by omega)
        · have hjk : b + j ≠ b + k := by omega
          rw [if_neg hjk, if_neg hjn, hm _ hjn]
          exact h5 j (by omega)

theorem lits_ok_congr {b n : Nat} {st st2 : lily_symtab} (h : lits_ok b n st)
    (h1 : st2.lit_mem = st.lit_mem) (h2 : st2.lit_brk = st.lit_brk)
    (h3 : st2.next_lit_id = st.next_lit_id) (h4 : st2.lit_start = st.lit_start)
    (h5 : st2.lit_top = st.lit_top) : lits_ok b n st2 := by
  unfold lits_ok at *
  rw [h1, h2, h3, h4, h5]
  exact h

theorem vars_ok_congr {b n : Nat} {st st2 : lily_symtab} (h : vars_ok b n st)
    (h1 : st2.var_mem = st.var_mem) (h2 : st2.var_brk = st.var_brk)
    (h3 : st2.next_var_id = st.next_var_id) (h4 : st2.var_start = st.var_start)
    (h5 : st2.var_top = st.var_top) : vars_ok b n st2 := by
  unfold vars_ok at *
  rw [h1, h2, h3, h4, h5]
  exact h

/-- lily_new_literal extends the literals by the object it obtains. -/
theorem new_literal_grows {b n : Nat} {st : lily_symtab} (h : lits_ok b n st)
    (hlt : (n : Int) < INT_MAX) (c : Option Nat) :
    ∃ st2, lily_new_literal st c = .ok (b + n, st2) ∧ lits_ok b (n + 1) st2
      ∧ st2.var_mem = st.var_mem ∧ st2.var_brk = st.var_brk
      ∧ st2.next_var_id = st.next_var_id ∧ st2.var_start = st.var_start
      ∧ st2.var_top = st.var_top ∧ st2.lex_linenum = st.lex_linenum := by
  obtain ⟨h1, h2, h3, h4, h5⟩ := h
  have hno : ¬ st.next_lit_id ≥ INT_MAX := by rw [h2]; omega
  unfold lily_new_literal
  cases hst : st.lit_start with
  | none =>
    simp only [hst, if_neg hno, h1]
    refine ⟨_, rfl, ⟨?_, ?_, ?_, ?_, ?_⟩, rfl, rfl, rfl, rfl, rfl, rfl⟩
    · show b + n + 1 = _
      omega
    · show st.next_lit_id + 1 = _
      rw [h2]; push_cast; rfl
    · have := chain_grows (fun x => (st.lit_mem x).next)
        (fun x => ((if x = b + n then
            { (if x = b + n then { st.lit_mem x with sig := c, next := none }
                else st.lit_mem x) with id := st.next_lit_id }
          else (if x = b + n then { st.lit_mem x with sig := c, next := none }
                else st.lit_mem x)) : lily_literal).next) b n st.lit_start st.lit_top h3 h4
        (by simp)
        (fun t htop => by
          exfalso
          rw [hst] at h3
          cases n with
          | zero => rw [h4] at htop; simp [last_opt] at htop
          | succ k =>
            rw [range_map_succ] at h3
            cases hh : (List.range k).map (fun j => b + j) with
            | nil => rw [hh] at h3; exact absurd h3.1 (by simp)
            | cons a L => rw [hh] at h3; exact absurd h3.1 (by simp))
        (fun x hx _ => by
          have : x ≠ b + n := by omega
          simp [this])
      rw [hst, if_pos rfl] at this
      exact this
    · show some (b + n) = _
      rw [last_opt_range]
    · intro j hj
      show ((if b + j = b + n then
            { (if b + j = b + n then { st.lit_mem (b + j) with sig := c, next := none }
                else st.lit_mem (b + j)) with id := st.next_lit_id }
          else (if b + j = b + n then { st.lit_mem (b + j) with sig := c, next := none }
                else st.lit_mem (b + j))) : lily_literal).id = _
      by_cases e : j = n
      · subst e
        simp [h2]
      · have : b + j ≠ b + n := by omega
        rw [if_neg this, if_neg this]
        exact h5 j (by omega)
  | some a0 =>
    have hn : n ≠ 0 := by
      intro e
      subst e
      have : st.lit_start = none := h3
      rw [this] at hst
      cases hst
    obtain ⟨k, hk⟩ : ∃ k, n = k + 1 := ⟨n - 1, by omega⟩
    have htop : st.lit_top = some (b + k) := by
      rw [h4, hk, last_opt_range]
    simp only [hst, htop, if_neg hno, h1]
    refine ⟨_, rfl, ⟨?_, ?_, ?_, ?_, ?_⟩, rfl, rfl, rfl, rfl, rfl, rfl⟩
    · show b + n + 1 = _
      omega
    · show st.next_lit_id + 1 = _
      rw [h2]; push_cast; rfl
    · have hkn : b + k ≠ b + n := by omega
      have := chain_grows (fun x => (st.lit_mem x).next)
        (fun x => ((if x = b + n then
            { (if x = b + k then
                { (if x = b + n then { st.lit_mem x with sig := c, next := none }
                    else st.lit_mem x) with next := some (b + n) }
               else (if x = b + n then { st.lit_mem x with sig := c, next := none }
                    else st.lit_mem x)) with id := st.next_lit_id }
          else (if x = b + k then
                { (if x = b + n then { st.lit_mem x with sig := c, next := none }
                    else st.lit_mem x) with next := some (b + n) }
               else (if x = b + n then { st.lit_mem x with sig := c, next := none }
                    else st.lit_mem x))) : lily_literal).next) b n st.lit_start st.lit_top h3 h4
        (by simp [Ne.symm hkn])
        (fun t htop2 => by
          rw [htop] at htop2
          have e : t = b + k := (Option.some.inj htop2).symm
          rw [e]
          simp [hkn])
        (fun x hx hxt => by
          have h1x : x ≠ b + n := by omega
          have h2x : x ≠ b + k := by
            intro e
            apply hxt
            rw [htop, e]
          simp [h1x, h2x])
      rw [hst, if_neg (by simp)] at this
      exact this
    · show some (b + n) = _
      rw [last_opt_range]
    · intro j hj
      show ((if b + j = b + n then
            { (if b + j = b + k then
                { (if b + j = b + n then { st.lit_mem (b + j) with sig := c, next := none }
                    else st.lit_mem (b + j)) with next := some (b + n) }
               else (if b + j = b + n then { st.lit_mem (b + j) with sig := c, next := none }
                    else st.lit_mem (b + j))) with id := st.next_lit_id }
          else (if b + j = b + k then
                { (if b + j = b + n then { st.lit_mem (b + j) with sig := c, next := none }
                    else st.lit_mem (b + j)) with next := some (b + n) }
               else (if b + j = b + n then { st.lit_mem (b + j) with sig := c, next := none }
                    else st.lit_mem (b + j)))) : lily_literal).id = _
      by_cases e : j = n
      · subst e
        simp [h2]
      · have hjn : b + j ≠ b + n := by omega
        by_cases e2 : j = k
        · subst e2
          simp only [if_true, if_neg hjn]
          exact h5 j (by omega)
        · have hjk : b + j ≠ b + k := by omega
          rw [if_neg hjn, if_neg hjk, if_neg hjn]
          exact h5 j (by omega)

/-- lily_new_var extends the vars by the object it obtains. -/
theorem new_var_grows {b n : Nat} {st : lily_symtab} (h : vars_ok b n st)
    (hlt : (n : Int) < INT_MAX) (c nm : Option Nat) :
    ∃ st2, lily_new_var st c nm = .ok (b + n, st2) ∧ vars_ok b (n + 1) st2
      ∧ st2.lit_mem = st.lit_mem ∧ st2.lit_brk = st.lit_brk
      ∧ st2.next_lit_id = st.next_lit_id ∧ st2.lit_start = st.lit_start
      ∧ st2.lit_top = st.lit_top ∧ st2.lex_linenum = st.lex_linenum := by
  have hb : st.var_brk = b + n := h.1
  obtain ⟨st2, e, hv, r1, r2, r3, r4, r5, r6⟩ :=
    @add_var_grows b n st { st with
        var_brk := st.var_brk + 1
        var_mem := fun x =>
          if x = st.var_brk then
            { st.var_mem x with name := nm, sig := c, properties := none,
                                    line_num := st.lex_linenum }
          else st.var_mem x } h hlt rfl rfl rfl rfl
      (fun x hx => by
        show (if x = st.var_brk then _ else st.var_mem x) = _
        rw [hb, if_neg hx])
  refine ⟨st2, ?_, hv, r1, r2, r3, r4, r5, r6⟩
  unfold lily_new_var
  simp only [hb] at e ⊢
  rw [e]

/-- One seed of init_symbols extends the vars by the object it obtains. -/
theorem init_symbol_grows {b n : Nat} {st : lily_symtab} (h : vars_ok b n st)
    (hlt : (n : Int) < INT_MAX) (seed : Option Nat × Option Nat × Option Nat) :
    ∃ st2, init_symbol st seed = .ok st2 ∧ vars_ok b (n + 1) st2
      ∧ st2.lit_mem = st.lit_mem ∧ st2.lit_brk = st.lit_brk
      ∧ st2.next_lit_id = st.next_lit_id ∧ st2.lit_start = st.lit_start
      ∧ st2.lit_top = st.lit_top ∧ st2.lex_linenum = st.lex_linenum := by
  have hb : st.var_brk = b + n := h.1
  obtain ⟨st2, e, hv, r1, r2, r3, r4, r5, r6⟩ :=
    @add_var_grows b n st { st with
        var_brk := st.var_brk + 1
        var_mem := fun x =>
          if x = st.var_brk then
            { st.var_mem x with name := seed.1, sig := seed.2.1, line_num := 0,
                                    properties := seed.2.2 }
          else st.var_mem x } h hlt rfl rfl rfl rfl
      (fun x hx => by
        show (if x = st.var_brk then _ else st.var_mem x) = _
        rw [hb, if_neg hx])
  refine ⟨st2, ?_, hv, r1, r2, r3, r4, r5, r6⟩
  unfold init_symbol
  simp only [hb] at e ⊢
  rw [e]

/-- The seeds of init_symbols, one after the other. -/
theorem init_symbols_grows (seeds : List (Option Nat × Option Nat × Option Nat)) :
    ∀ {b n m : Nat} {st : lily_symtab}, vars_ok b n st → lits_ok m 0 st →
      ((n + seeds.length : Nat) : Int) ≤ INT_MAX →
      ∃ st2, init_symbols st seeds = .ok st2 ∧ vars_ok b (n + seeds.length) st2
        ∧ lits_ok m 0 st2 ∧ st2.lex_linenum = st.lex_linenum := by
  induction seeds with
  | nil =>
    intro b n m st hv hl _
    exact ⟨st, rfl, hv, hl, rfl⟩
  | cons s seeds ih =>
    intro b n m st hv hl hle
    rw [List.length_cons] at hle
    obtain ⟨st1, e, hv1, r1, r2, r3, r4, r5, r6⟩ :=
      init_symbol_grows hv (by push_cast at hle; omega) s
    obtain ⟨st2, e2, hv2, hl2, r7⟩ :=
      ih hv1 (lits_ok_congr hl r1 r2 r3 r4 r5) (by push_cast at hle ⊢; omega)
    refine ⟨st2, ?_, ?_, hl2, r7.trans r6⟩
    · rw [init_symbols, e]
      exact e2
    · rw [List.length_cons]
      have : n + (seeds.length + 1) = n + 1 + seeds.length := by omega
      rw [this]
      exact hv2

theorem range_map_cons (b n : Nat) :
    (List.range (n + 1)).map (fun j => b + j)
      = b :: (List.range n).map (fun j => b + 1 + j) := by
  rw [List.range_succ_eq_map, List.map_cons, List.map_map]
  refine congrArg (List.cons (b + 0)) ?_
  apply List.map_congr_left
  intro j _
  show b + (j + 1) = b + 1 + j
  omega

/-- A sequence of lily_new_var and lily_new_literal calls. -/
theorem sym_trace_grows (ops : List SymOp) :
    ∀ {b n m k : Nat} {st : lily_symtab}, vars_ok b n st → lits_ok m k st →
      ((n + count_vars ops : Nat) : Int) ≤ INT_MAX →
      ((k + count_lits ops : Nat) : Int) ≤ INT_MAX →
      ∃ st2, sym_trace ops st
          = .ok ((List.range (count_vars ops)).map (fun j => b + n + j),
                 (List.range (count_lits ops)).map (fun j => m + k + j), st2)
        ∧ vars_ok b (n + count_vars ops) st2
        ∧ lits_ok m (k + count_lits ops) st2 := by
  induction ops with
  | nil =>
    intro b n m k st hv hl _ _
    exact ⟨st, rfl, hv, hl⟩
  | cons o ops ih =>
    intro b n m k st hv hl hle1 hle2
    cases o with
    | new_var c nm =>
      simp only [count_vars, count_lits] at hle1 hle2 ⊢
      obtain ⟨st1, e, hv1, r1, r2, r3, r4, r5, _⟩ :=
        new_var_grows hv (by push_cast at hle1; omega) c nm
      obtain ⟨st2, e2, hv2, hl2⟩ :=
        ih hv1 (lits_ok_congr hl r1 r2 r3 r4 r5) (by push_cast at hle1 ⊢; omega) hle2
      refine ⟨st2, ?_, ?_, hl2⟩
      · rw [sym_trace, e]
        simp only
        rw [e2, range_map_cons]
        have : b + (n + 1) = b + n + 1 := by omega
        rw [this]
      · have : n + (count_vars ops + 1) = n + 1 + count_vars ops := by omega
        rw [this]
        exact hv2
    | new_literal c =>
      simp only [count_vars, count_lits] at hle1 hle2 ⊢
      obtain ⟨st1, e, hl1, r1, r2, r3, r4, r5, _⟩ :=
        new_literal_grows hl (by push_cast at hle2; omega) c
      obtain ⟨st2, e2, hv2, hl2⟩ :=
        ih (vars_ok_congr hv r1 r2 r3 r4 r5) hl1 hle1 (by push_cast at hle2 ⊢; omega)
      refine ⟨st2, ?_, hv2, ?_⟩
      · rw [sym_trace, e]
        simp only
        rw [e2, range_map_cons]
        have : m + (k + 1) = m + k + 1 := by omega
        rw [this]
      · have : k + (count_lits ops + 1) = k + 1 + count_lits ops := by omega
        rw [this]
        exact hl2

/-- Taking a tree from the pool: the tree taken is the head of the chain from
`available_current`, or a new tree when that chain is empty. -/
theorem pool_split_take {ap : lily_ast_pool} {U Fc : List Nat} (h : pool_split ap U Fc) :
    ∃ U1 Fc1, pool_split (acquire_tree ap).2 U1 Fc1 ∧ (acquire_tree ap).1 ∉ U
      ∧ (∀ x, x ∈ U1 ↔ x = (acquire_tree ap).1 ∨ x ∈ U)
      ∧ (Fc = (acquire_tree ap).1 :: Fc1 ∨ (Fc = [] ∧ Fc1 = [])) := by
  obtain ⟨h1, h2, h3, h4, h5⟩ := h
  cases Fc with
  | nil =>
    have hc : ap.available_current = none := h2
    rw [List.append_nil] at h1 h3 h4 h5
    have hU : ap.brk ∉ U := fun hm => lt_irrefl _ (h4 _ hm)
    have e : acquire_tree ap = make_new_tree ap := by
      unfold acquire_tree
      rw [hc]
    have e1 : (acquire_tree ap).1 = ap.brk := by rw [e]; rfl
    refine ⟨ap.brk :: U, [], ?_, by rw [e1]; exact hU,
      fun x => by rw [e1]; exact List.mem_cons, Or.inr ⟨rfl, rfl⟩⟩
    rw [e]
    unfold pool_split
    rw [List.append_nil]
    refine ⟨⟨rfl, ?_⟩, hc, List.nodup_cons.mpr ⟨hU, h3⟩, ?_, ?_⟩
    · show free_chain (make_new_tree ap).2.mem U ((make_new_tree ap).2.mem ap.brk).next_tree
      have e2 : ((make_new_tree ap).2.mem ap.brk).next_tree = ap.available_start := by
        simp [make_new_tree]
      rw [e2]
      refine free_chain_congr U _ (fun x hx => ?_) h1
      have : x ≠ ap.brk := fun e => hU (e ▸ hx)
      simp [make_new_tree, this]
    · intro a ha
      show a < ap.brk + 1
      rcases List.mem_cons.mp ha with e | e
      · rw [e]; exact Nat.lt_succ_self _
      · exact Nat.lt_succ_of_lt (h4 a e)
    · show ap.brk + 1 = (ap.brk :: U).length
      rw [List.length_cons, ← h5]
  | cons a Fc1 =>
    obtain ⟨hc, hn⟩ := h2
    have e1 : (acquire_tree ap).1 = a := by
      unfold acquire_tree
      rw [hc]
    have haU : a ∉ U := by
      intro hm
      have := List.disjoint_of_nodup_append h3 hm
      exact this (List.mem_cons_self _ _)
    refine ⟨U ++ [a], Fc1, ?_, by rw [e1]; exact haU,
      fun x => by rw [e1]; simp [or_comm], Or.inl (by rw [e1])⟩
    unfold acquire_tree
    rw [hc]
    simp only
    refine ⟨by simpa using h1, hn, by simpa using h3, ?_, ?_⟩
    · intro x hx
      exact h4 x (by simpa using hx)
    · show ap.brk = _
      rw [h5]; simp

/-- Once `available_current` is NULL a call other than the reset leaves it
NULL. -/
theorem step_current_none {ap ap1 : lily_ast_pool} {o : Op} (h : step ap o = .ok ap1)
    (hr : o ≠ Op.reset_pool) (hc : ap.available_current = none) :
    ap1.available_current = none := by
  have hf := (step_frame h hr).1
  rw [hf.2.2.1]
  unfold after_acquire
  split
  · unfold acquire_tree
    rw [hc]
    exact hc
  · exact hc

theorem run_current_none : ∀ (ops : List Op) (ap ap1 : lily_ast_pool),
    Op.reset_pool ∉ ops → run ops ap = .ok ap1 → ap.available_current = none →
    ap1.available_current = none
  | [], ap, ap1, _, hr, hc => by
    simp only [run, Except.ok.injEq] at hr
    rw [← hr]; exact hc
  | o :: os, ap, ap1, hn, hr, hc => by
    obtain ⟨apm, hs, hr1⟩ := run_cons_ok hr
    have hre : o ≠ Op.reset_pool := fun e => hn (e ▸ List.mem_cons_self _ _)
    exact run_current_none os apm ap1 (fun hm => hn (List.mem_cons_of_mem _ hm)) hr1
      (step_current_none hs hre hc)

/-- The trees handed out since the reset, in order: they are distinct, they
are the trees taken from the chain `P` of the reset in the order of `P`, then
new trees. -/
theorem handed_run (P : List Nat) : ∀ (ops : List Op) (ap ap1 : lily_ast_pool) (H : List Nat),
    (∃ U Fc, pool_split ap U Fc ∧ H.Nodup ∧ (∀ x, x ∈ H ↔ x ∈ U)
      ∧ (H ++ Fc = P ∨ (Fc = [] ∧ P <+: H))) →
    Op.reset_pool ∉ ops → run ops ap = .ok ap1 →
    ∃ U Fc, pool_split ap1 U Fc ∧ (H ++ handed_out ops ap).Nodup
      ∧ (∀ x, x ∈ H ++ handed_out ops ap ↔ x ∈ U)
      ∧ ((H ++ handed_out ops ap) ++ Fc = P ∨ (Fc = [] ∧ P <+: (H ++ handed_out ops ap)))
  | [], ap, ap1, H, hi, _, hr => by
    simp only [run, Except.ok.injEq] at hr
    subst hr
    simp only [handed_out, List.append_nil]
    exact hi
  | o :: os, ap, ap1, H, hi, hn, hr => by
    obtain ⟨apm, hs, hr1⟩ := run_cons_ok hr
    have hre : o ≠ Op.reset_pool := fun e => hn (e ▸ List.mem_cons_self _ _)
    have hn1 : Op.reset_pool ∉ os := fun hm => hn (List.mem_cons_of_mem _ hm)
    have hf := (step_frame hs hre).1
    obtain ⟨U, Fc, hp, hd, hm, hP⟩ := hi
    have eh : handed_out (o :: os) ap
        = (if o.acquires then [(acquire_tree ap).1] else []) ++ handed_out os apm := by
      simp only [handed_out, hs]
    rw [eh, ← List.append_assoc]
    unfold after_acquire at hf
    cases ha : o.acquires with
    | true =>
      rw [ha] at hf
      simp only [if_true] at hf ⊢
      obtain ⟨U1, Fc1, k1, k2, k3, k4⟩ := pool_split_take hp
      refine handed_run P os apm ap1 (H ++ [(acquire_tree ap).1])
        ⟨U1, Fc1, pool_split_same k1 hf, ?_, ?_, ?_⟩ hn1 hr1
      · rw [List.nodup_append]
        refine ⟨hd, List.nodup_singleton _, ?_⟩
        intro x hx hx1
        rw [List.mem_singleton] at hx1
        rw [hx1] at hx
        exact k2 ((hm _).mp hx)
      · intro x
        rw [k3, List.mem_append, List.mem_singleton, hm, or_comm]
      · rcases k4 with e | ⟨e1, e2⟩
        · rcases hP with hP | ⟨e3, _⟩
          · left
            rw [List.append_assoc, List.singleton_append, ← e]
            exact hP
          · rw [e3] at e; cases e
        · right
          refine ⟨e2, ?_⟩
          rcases hP with hP | ⟨_, hP⟩
          · rw [e1, List.append_nil] at hP
            rw [hP]
            exact List.prefix_append _ _
          · exact hP.trans (List.prefix_append _ _)
    | false =>
      rw [ha] at hf
      simp only [Bool.false_eq_true, if_false, List.append_nil] at hf ⊢
      exact handed_run P os apm ap1 H ⟨U, Fc, pool_split_same hp hf, hd, hm, hP⟩ hn1 hr1

theorem handed_out_length : ∀ (ops : List Op) (ap ap1 : lily_ast_pool),
    run ops ap = .ok ap1 → (handed_out ops ap).length = (ops.filter Op.acquires).length
  | [], _, _, _ => rfl
  | o :: os, ap, ap1, hr => by
    obtain ⟨apm, hs, hr1⟩ := run_cons_ok hr
    simp only [handed_out, hs, List.length_append, handed_out_length os apm ap1 hr1]
    cases ha : o.acquires <;> simp [List.filter, ha]
    omega

/-- The trees reachable from a unary tree over a subscript of a var and a
literal. -/
theorem reach_unary_subscript {mem : Nat → lily_ast} {U S a b : Nat}
    (k1 : (mem U).tree_type = tree_unary ∧ (mem U).left = some S)
    (k2 : (mem S).tree_type = tree_subscript ∧ (mem S).arg_start = some a)
    (k0 : (mem a).tree_type = tree_var ∧ (mem a).next_arg = some b)
    (k3 : (mem b).tree_type = tree_literal ∧ (mem b).next_arg = none) :
    ∀ p y, reach mem p y → (p = U ∨ p = S ∨ p = a ∨ p = b) → (y = S ∨ y = a ∨ y = b) := by
  intro p y hr
  induction hr with
  | left p x hl =>
    intro hp
    obtain ⟨ht, hx⟩ := hl
    rcases hp with e1 | e1 | e1 | e1 <;> subst e1
    · rw [k1.2] at hx
      exact Or.inl (Option.some.inj hx).symm
    · rw [k2.1] at ht; simp at ht
    · rw [k0.1] at ht; simp at ht
    · rw [k3.1] at ht; simp at ht
  | right p x hl =>
    intro hp
    obtain ⟨ht, _⟩ := hl
    rcases hp with e1 | e1 | e1 | e1 <;> subst e1
    · rw [k1.1] at ht; simp at ht
    · rw [k2.1] at ht; simp at ht
    · rw [k0.1] at ht; simp at ht
    · rw [k3.1] at ht; simp at ht
  | args p x hl =>
    intro hp
    obtain ⟨ht, hx⟩ := hl
    rcases hp with e1 | e1 | e1 | e1 <;> subst e1
    · rw [k1.1] at ht; simp [tree_rank] at ht
    · rw [k2.2] at hx
      cases hx with
      | head => exact Or.inr (Or.inl rfl)
      | next _ _ hx2 =>
        rw [k0.2] at hx2
        cases hx2 with
        | head => exact Or.inr (Or.inr rfl)
        | next _ _ hx3 =>
          rw [k3.2] at hx3
          cases hx3
    · rw [k0.1] at ht; simp [tree_rank] at ht
    · rw [k3.1] at ht; simp [tree_rank] at ht
  | trans p z x _ _ ih1 ih2 =>
    intro hp
    exact ih2 (Or.inr (ih1 hp))

theorem state_of_returned {e : Except Fault lily_ast_pool} (h : returned e = true) :
    e = .ok (state_of e) := by
  cases e with
  | ok x => rfl
  | error x => cases h

theorem merge_unary_no_oob (ap : lily_ast_pool) (a n : Nat) :
    merge_unary ap a n ≠ .error Fault.out_of_bounds := by
  intro h
  unfold merge_unary at h
  simp only at h
  repeat' (split at h)
  all_goals simp at h

theorem merge_value_no_oob (ap : lily_ast_pool) (n : Nat) :
    merge_value ap n ≠ .error Fault.out_of_bounds := by
  intro h
  unfold merge_value at h
  repeat' (split at h)
  all_goals first
    | exact merge_unary_no_oob _ _ _ h
    | simp at h

/-- With a well-formed save stack lily_ast_enter_tree writes within the array after
at most one doubling. -/
theorem enter_in_bounds {ap : lily_ast_pool} (hst : stack_ok ap) (tt : lily_tree_type)
    (var : Option Nat) :
    lily_ast_enter_tree ap tt var ≠ .error Fault.out_of_bounds
      ∧ ∀ ap1, lily_ast_enter_tree ap tt var = .ok ap1 →
          (ap1.save_size = ap.save_size ∨ ap1.save_size = ap.save_size * 2)
          ∧ ap.save_index + 1 < ap1.save_size ∧ ap1.save_index = ap.save_index + 2
          ∧ stack_ok ap1 := by
  have hs := acquire_stack ap
  obtain ⟨h0, h1, h2, h3⟩ := hst
  unfold lily_ast_enter_tree
  rcases hacq : acquire_tree ap with ⟨a, ap0⟩
  rw [hacq] at hs
  obtain ⟨s1, s2, s3⟩ := hs
  simp only at s1 s2 s3 ⊢
  cases hm : merge_value (poke ap0 a (fun n =>
    { n with tree_type := tt, line_num := ap0.lex_linenum, result := var,
             args_collected := 0, arg_start := none, arg_top := none })) a with
  | error e =>
    simp only
    refine ⟨fun he => ?_, fun ap1 he => by simp at he⟩
    have := merge_value_no_oob (poke ap0 a (fun n =>
      { n with tree_type := tt, line_num := ap0.lex_linenum, result := var,
               args_collected := 0, arg_start := none, arg_top := none })) a
    rw [hm] at this
    simp only [Except.error.injEq] at he
    rw [he] at this
    exact this rfl
  | ok ap2 =>
    obtain ⟨_, m1, m2, m3⟩ := merge_value_frame hm
    simp only [poke] at m1 m2 m3
    have e2 : ap2.save_index = ap.save_index := by rw [m2, s2]
    have e3 : ap2.save_size = ap.save_size := by rw [m3, s3]
    rw [← e2] at h0 h1 h2
    rw [← e3] at h2 h3
    rw [← e2, ← e3]
    simp only [grow_saved_some (poke ap2 a (fun n => { n with parent := ap2.active })) h3]
    simp only [saved_put, poke]
    by_cases hb : ap2.save_index + 2 ≥ ap2.save_size
    · rw [if_pos hb]
      dsimp only
      have c1 : 0 ≤ ap2.save_index ∧ ap2.save_index < ap2.save_size * 2 := by omega
      have c2 : 0 ≤ ap2.save_index + 1 ∧ ap2.save_index + 1 < ap2.save_size * 2 := by omega
      rw [if_pos c1]
      dsimp only
      rw [if_pos c2]
      refine ⟨by simp, fun ap1 he => ?_⟩
      simp only [Except.ok.injEq] at he
      subst he
      dsimp only [stack_ok]
      exact ⟨Or.inr rfl, by omega, rfl, by omega, by omega, by omega, by omega⟩
    · rw [if_neg hb]
      dsimp only
      have c1 : 0 ≤ ap2.save_index ∧ ap2.save_index < ap2.save_size := by omega
      have c2 : 0 ≤ ap2.save_index + 1 ∧ ap2.save_index + 1 < ap2.save_size := by omega
      rw [if_pos c1]
      dsimp only
      rw [if_pos c2]
      refine ⟨by simp, fun ap1 he => ?_⟩
      simp only [Except.ok.injEq] at he
      subst he
      dsimp only [stack_ok]
      exact ⟨Or.inl rfl, by omega, rfl, by omega, by omega, by omega, by omega⟩

/-- A call that returns keeps the save stack well formed. -/
theorem step_stack_ok {ap ap1 : lily_ast_pool} {o : Op} (h : step ap o = .ok ap1)
    (hst : stack_ok ap) : stack_ok ap1 := by
  by_cases h1 : ∃ tt var, o = Op.enter_tree tt var
  · obtain ⟨tt, var, e⟩ := h1
    subst e
    exact ((enter_in_bounds hst tt var).2 ap1 h).2.2.2
  · by_cases h2 : o = Op.leave_tree
    · subst h2
      obtain ⟨h0, h1, h2, h3⟩ := hst
      obtain ⟨_, e1⟩ := leave_frame h
      obtain ⟨_, e2, e3, _⟩ := leave_stack h
      exact ⟨e3, by omega, by omega, by omega⟩
    · exact stack_ok_of_same hst
        (step_same_stack h (fun tt var e => h1 ⟨tt, var, e⟩) h2)

theorem open_count_cons (o : Op) (os : List Op) :
    open_count (o :: os) = open_count [o] + open_count os := by
  cases o <;> simp [open_count] <;> omega

theorem new_pool_stack_ok (mem : Nat → lily_ast) (buf : Nat → Option Nat) (line s : Nat)
    (hs : 1 ≤ s) : stack_ok (lily_new_ast_pool mem buf line s) := by
  refine ⟨le_refl _, rfl, ?_, ?_⟩
  · show (0 : Int) ≤ (s : Int)
    omega
  · show (1 : Int) ≤ (s : Int)
    omega

/-- The closure of a sub-expression after a call has added the tree `n`. -/
theorem lv_closed_grow {m m1 : Nat → lily_ast} {Lv : List Nat} {h h1 : Nat → Int} {n : Nat}
    (hcl : lv_closed m Lv h)
    (hty : ∀ x ∈ Lv, (m1 x).tree_type = (m x).tree_type)
    (hl : ∀ x ∈ Lv, (m1 x).left = (m x).left ∨ (m1 x).left = some n)
    (hr : ∀ x ∈ Lv, (m1 x).right = (m x).right ∨ (m1 x).right = some n)
    (hp : ∀ x ∈ Lv, (m x).tree_type = tree_binary →
      (m1 x).parent = (m x).parent
        ∨ ((m1 x).parent = some n ∧ (m1 n).tree_type = tree_binary ∧ h1 n < h x))
    (hh : ∀ x ∈ Lv, h1 x = h x)
    (nl : (m1 n).tree_type = tree_unary → ∀ l, (m1 n).left = some l → l ∈ n :: Lv)
    (nr : tree_rank tree_typecast ≤ tree_rank (m1 n).tree_type →
      ∀ r, (m1 n).right = some r → r ∈ n :: Lv)
    (np : (m1 n).tree_type = tree_binary → ∀ p, (m1 n).parent = some p →
      p ∈ Lv ∧ (m p).tree_type = tree_binary ∧ h p < h1 n) :
    lv_closed m1 (n :: Lv) h1 := by
  obtain ⟨c1, c2, c3⟩ := hcl
  refine ⟨fun x hx ht l hxl => ?_, fun x hx ht r hxr => ?_, fun x hx ht p hxp => ?_⟩
  · rcases List.mem_cons.mp hx with e | hx
    · subst e
      exact nl ht l hxl
    · rw [hty x hx] at ht
      rcases hl x hx with e | e
      · rw [e] at hxl
        exact List.mem_cons_of_mem _ (c1 x hx ht l hxl)
      · rw [e] at hxl
        rw [← Option.some.inj hxl]
        exact List.mem_cons_self _ _
  · rcases List.mem_cons.mp hx with e | hx
    · subst e
      exact nr ht r hxr
    · rw [hty x hx] at ht
      rcases hr x hx with e | e
      · rw [e] at hxr
        exact List.mem_cons_of_mem _ (c2 x hx ht r hxr)
      · rw [e] at hxr
        rw [← Option.some.inj hxr]
        exact List.mem_cons_self _ _
  · rcases List.mem_cons.mp hx with e | hx
    · subst e
      obtain ⟨a, b, c⟩ := np ht p hxp
      exact ⟨List.mem_cons_of_mem _ a, by rw [hty p a]; exact b, by rw [hh p a]; exact c⟩
    · rw [hty x hx] at ht
      rcases hp x hx ht with e | ⟨e, e2, e3⟩
      · rw [e] at hxp
        obtain ⟨a, b, c⟩ := c3 x hx ht p hxp
        exact ⟨List.mem_cons_of_mem _ a, by rw [hty p a]; exact b,
          by rw [hh p a, hh x hx]; exact c⟩
      · rw [e] at hxp
        have := Option.some.inj hxp
        subst this
        exact ⟨List.mem_cons_self _ _, e2, by rw [hh x hx]; exact e3⟩

/-- The closure of a sub-expression whose trees keep their links. -/
theorem lv_closed_congr {m m1 : Nat → lily_ast} {Lv : List Nat} {h h1 : Nat → Int}
    (hcl : lv_closed m Lv h)
    (hty : ∀ x ∈ Lv, (m1 x).tree_type = (m x).tree_type)
    (hl : ∀ x ∈ Lv, (m x).tree_type = tree_unary → (m1 x).left = (m x).left)
    (hr : ∀ x ∈ Lv, tree_rank tree_typecast ≤ tree_rank (m x).tree_type →
      (m1 x).right = (m x).right)
    (hp : ∀ x ∈ Lv, (m x).tree_type = tree_binary → (m1 x).parent = (m x).parent)
    (hh : ∀ x ∈ Lv, h1 x = h x) :
    lv_closed m1 Lv h1 := by
  obtain ⟨c1, c2, c3⟩ := hcl
  refine ⟨fun x hx ht l hxl => ?_, fun x hx ht r hxr => ?_, fun x hx ht p hxp => ?_⟩
  · rw [hty x hx] at ht
    rw [hl x hx ht] at hxl
    exact c1 x hx ht l hxl
  · rw [hty x hx] at ht
    rw [hr x hx ht] at hxr
    exact c2 x hx ht r hxr
  · rw [hty x hx] at ht
    rw [hp x hx ht] at hxp
    obtain ⟨a, b, c⟩ := c3 x hx ht p hxp
    exact ⟨a, by rw [hty p a]; exact b, by rw [hh p a, hh x hx]; exact c⟩

theorem lv_closed_nil (m : Nat → lily_ast) (h : Nat → Int) : lv_closed m [] h :=
  ⟨fun x hx => absurd hx (List.not_mem_nil x), fun x hx => absurd hx (List.not_mem_nil x),
    fun x hx => absurd hx (List.not_mem_nil x)⟩

/-- The walk of merge_unary stays among the trees of the sub-expression. -/
theorem unary_descend_mem {mem : Nat → lily_ast} {Lv : List Nat} {h : Nat → Int}
    (hcl : lv_closed mem Lv h) :
    ∀ (fuel a0 act : Nat), a0 ∈ Lv → unary_descend mem fuel a0 = some act →
      act ∈ Lv ∧ ((mem a0).tree_type = tree_unary → (mem act).tree_type = tree_unary)
  | fuel, a0, act, ha, hd => by
    unfold unary_descend at hd
    by_cases hu : (mem a0).tree_type = tree_unary
    · rw [if_pos hu] at hd
      cases hl : (mem a0).left with
      | none =>
        rw [hl] at hd
        simp only [Option.some.injEq] at hd
        subst hd
        exact ⟨ha, fun _ => hu⟩
      | some l =>
        rw [hl] at hd
        simp only at hd
        by_cases hlu : (mem l).tree_type = tree_unary
        · rw [if_pos hlu] at hd
          cases fuel with
          | zero => simp at hd
          | succ f =>
            simp only at hd
            obtain ⟨r1, r2⟩ := unary_descend_mem hcl f l act (hcl.1 a0 ha hu l hl) hd
            exact ⟨r1, fun _ => r2 hlu⟩
        · rw [if_neg hlu] at hd
          simp only [Option.some.injEq] at hd
          subst hd
          exact ⟨ha, fun _ => hu⟩
    · rw [if_neg hu] at hd
      simp only [Option.some.injEq] at hd
      subst hd
      exact ⟨ha, fun e => absurd e hu⟩

/-- The climb of lily_ast_push_binary_op stays among the binary trees of the
sub-expression. -/
theorem climb_mem {mem : Nat → lily_ast} {Lv : List Nat} {h : Nat → Int}
    (hcl : lv_closed mem Lv h) (q : Int) :
    ∀ (fuel t T : Nat), t ∈ Lv → (mem t).tree_type = tree_binary →
      climb mem q fuel t = some T → T ∈ Lv ∧ (mem T).tree_type = tree_binary
  | fuel, t, T, ht, hb, hc => by
    unfold climb at hc
    cases hp : (mem t).parent with
    | none =>
      rw [hp] at hc
      simp only [Option.some.injEq] at hc
      subst hc
      exact ⟨ht, hb⟩
    | some p =>
      rw [hp] at hc
      simp only at hc
      by_cases hq : q > (mem p).priority
      · rw [if_pos hq] at hc
        simp only [Option.some.injEq] at hc
        subst hc
        exact ⟨ht, hb⟩
      · rw [if_neg hq] at hc
        cases fuel with
        | zero => simp at hc
        | succ f =>
          simp only at hc
          obtain ⟨a, b, _⟩ := hcl.2.2 t ht hb p hp
          exact climb_mem hcl q f p T a b hc

theorem touch_refl (m : Nat → lily_ast) (Lv : List Nat) (n : Nat) : touch m m Lv n :=
  ⟨fun _ _ _ => rfl, fun _ => rfl, fun _ _ => ⟨Or.inl rfl, Or.inl rfl⟩, fun _ _ _ => rfl,
    rfl, rfl⟩

theorem touch_trans {m m1 m2 : Nat → lily_ast} {Lv : List Nat} {n : Nat}
    (h2 : touch m2 m1 Lv n) (h1 : touch m1 m Lv n) : touch m2 m Lv n := by
  obtain ⟨a1, a2, a3, a4, a5, a6⟩ := h1
  obtain ⟨b1, b2, b3, b4, b5, b6⟩ := h2
  refine ⟨fun x hx hn => by rw [b1 x hx hn, a1 x hx hn], fun x => by rw [b2 x, a2 x],
    fun x hx => ⟨?_, ?_⟩, fun x hx hb => ?_, by rw [b5, a5], by rw [b6, a6]⟩
  · rcases (b3 x hx).1 with e | e
    · rw [e]; exact (a3 x hx).1
    · exact Or.inr e
  · rcases (b3 x hx).2 with e | e
    · rw [e]; exact (a3 x hx).2
    · exact Or.inr e
  · rw [b4 x hx (by rw [a2 x]; exact hb), a4 x hx hb]

/-- What merge_absorb writes. -/
theorem merge_absorb_touch (ap : lily_ast_pool) {act n : Nat} {Lv : List Nat}
    (ha : act ∈ Lv) (hn : n ∉ Lv) :
    touch (merge_absorb ap act n).mem ap.mem Lv n
      ∧ ((merge_absorb ap act n).active = ap.active
          ∨ (merge_absorb ap act n).active = some n)
      ∧ ((merge_absorb ap act n).root = ap.root ∨ (merge_absorb ap act n).root = some n)
      ∧ ((merge_absorb ap act n).mem n).arg_start = ((merge_absorb ap act n).mem n).arg_top
      ∧ (∀ t, ((merge_absorb ap act n).mem n).arg_top = some t →
          t = act ∨ (tree_rank tree_typecast ≤ tree_rank (ap.mem act).tree_type
            ∧ (ap.mem act).right = some t))
      ∧ (tree_rank (ap.mem act).tree_type < tree_rank tree_typecast →
          (merge_absorb ap act n).active = some n) := by
  have hne : act ≠ n := fun e => hn (e ▸ ha)
  unfold merge_absorb
  simp only
  by_cases hr : tree_rank (ap.mem act).tree_type < tree_rank tree_typecast
  · rw [if_pos hr]
    refine ⟨⟨fun x _ hx => ?_, fun x => ?_, fun x hx => ?_, fun x hx _ => ?_, ?_, ?_⟩,
      Or.inr rfl, ?_, ?_, fun t ht => ?_, fun _ => rfl⟩
    · simp only [poke_mem, if_neg hx]
      split_ifs <;> rfl
    · simp only [poke_mem]
      split_ifs <;> rfl
    · have hx : x ≠ n := fun e => hn (e ▸ hx)
      simp only [poke_mem, if_neg hx]
      split_ifs <;> exact ⟨Or.inl rfl, Or.inl rfl⟩
    · have hx : x ≠ n := fun e => hn (e ▸ hx)
      simp only [poke_mem, if_neg hx]
      split_ifs <;> rfl
    · simp only [poke_mem, if_true]
      split_ifs <;> rfl
    · simp only [poke_mem, if_true]
      split_ifs <;> rfl
    · simp only [poke_root]
      split_ifs
      · exact Or.inr rfl
      · exact Or.inl rfl
    · simp only [poke_mem, if_true]
    · simp only [poke_mem, if_true, Option.some.injEq] at ht
      exact Or.inl ht.symm
  · rw [if_neg hr]
    refine ⟨⟨fun x hxL hx => ?_, fun x => ?_, fun x hx => ?_, fun x hx _ => ?_, ?_, ?_⟩,
      Or.inl rfl, Or.inl rfl, ?_, fun t ht => ?_, fun h => absurd h hr⟩
    · have hxa : x ≠ act := fun e => hxL (e ▸ ha)
      simp only [poke_mem, if_neg hx, if_neg hxa]
    · simp only [poke_mem]
      split_ifs <;> rfl
    · have hx : x ≠ n := fun e => hn (e ▸ hx)
      simp only [poke_mem, if_neg hx]
      split_ifs
      · exact ⟨Or.inl rfl, Or.inr rfl⟩
      · exact ⟨Or.inl rfl, Or.inl rfl⟩
    · have hx : x ≠ n := fun e => hn (e ▸ hx)
      simp only [poke_mem, if_neg hx]
      split_ifs <;> rfl
    · simp only [poke_mem, if_true, if_neg (Ne.symm hne)]
    · simp only [poke_mem, if_true, if_neg (Ne.symm hne)]
    · simp only [poke_mem, if_true]
    · simp only [poke_mem, if_true] at ht
      exact Or.inr ⟨not_lt.mp hr, ht⟩

theorem touch_poke_left (ap : lily_ast_pool) {a n : Nat} {Lv : List Nat}
    (ha : a ∈ Lv) (hn : n ∉ Lv) :
    touch (poke ap a (fun m => { m with left := some n })).mem ap.mem Lv n := by
  have hne : n ≠ a := fun e => hn (e ▸ ha)
  refine ⟨fun x hx _ => ?_, fun x => ?_, fun x _ => ?_, fun x _ _ => ?_, ?_, ?_⟩
  · have : x ≠ a := fun e => hx (e ▸ ha)
    simp only [poke_mem, if_neg this]
  · simp only [poke_mem]; split_ifs <;> rfl
  · by_cases e : x = a <;> simp [poke_mem, e]
  · simp only [poke_mem]; split_ifs <;> rfl
  · simp only [poke_mem, if_neg hne]
  · simp only [poke_mem, if_neg hne]

theorem touch_poke_right (ap : lily_ast_pool) {a n : Nat} {Lv : List Nat}
    (ha : a ∈ Lv) (hn : n ∉ Lv) :
    touch (poke ap a (fun m => { m with right := some n })).mem ap.mem Lv n := by
  have hne : n ≠ a := fun e => hn (e ▸ ha)
  refine ⟨fun x hx _ => ?_, fun x => ?_, fun x _ => ?_, fun x _ _ => ?_, ?_, ?_⟩
  · have : x ≠ a := fun e => hx (e ▸ ha)
    simp only [poke_mem, if_neg this]
  · simp only [poke_mem]; split_ifs <;> rfl
  · by_cases e : x = a <;> simp [poke_mem, e]
  · simp only [poke_mem]; split_ifs <;> rfl
  · simp only [poke_mem, if_neg hne]
  · simp only [poke_mem, if_neg hne]

/-- A write to the new tree that keeps its kind, `left` and `right`. -/
theorem touch_poke_new (ap : lily_ast_pool) {n : Nat} {Lv : List Nat} (hn : n ∉ Lv)
    (f : lily_ast → lily_ast) (hf : ∀ m, (f m).tree_type = m.tree_type
      ∧ (f m).left = m.left ∧ (f m).right = m.right) :
    touch (poke ap n f).mem ap.mem Lv n := by
  refine ⟨fun x _ hx => ?_, fun x => ?_, fun x hx => ?_, fun x hx _ => ?_, ?_, ?_⟩
  · simp only [poke_mem, if_neg hx]
  · simp only [poke_mem]
    split_ifs
    · exact (hf _).1
    · rfl
  · have : x ≠ n := fun e => hn (e ▸ hx)
    simp [poke_mem, this]
  · have : x ≠ n := fun e => hn (e ▸ hx)
    simp only [poke_mem, if_neg this]
  · simp only [poke_mem, if_true]
    exact (hf _).2.1
  · simp only [poke_mem, if_true]
    exact (hf _).2.2

/-- What merge_unary writes. -/
theorem merge_unary_touch {ap ap1 : lily_ast_pool} {a n : Nat} {Lv : List Nat} {h : Nat → Int}
    (hcl : lv_closed ap.mem Lv h) (ha : a ∈ Lv) (hn : n ∉ Lv)
    (hsub : (ap.mem n).tree_type = tree_subscript →
      (ap.mem a).tree_type = tree_unary
        ∨ (tree_rank tree_typecast ≤ tree_rank (ap.mem a).tree_type
            ∧ ∃ r, (ap.mem a).right = some r ∧ (ap.mem r).tree_type = tree_unary))
    (hm : merge_unary ap a n = .ok ap1) :
    touch ap1.mem ap.mem Lv n
      ∧ (ap1.active = ap.active ∨ ap1.active = some n)
      ∧ (ap1.root = ap.root ∨ ap1.root = some n)
      ∧ (((ap1.mem n).arg_start = (ap.mem n).arg_start
            ∧ (ap1.mem n).arg_top = (ap.mem n).arg_top)
          ∨ ((ap1.mem n).arg_start = (ap1.mem n).arg_top
            ∧ ∀ t, (ap1.mem n).arg_top = some t → t ∈ Lv)) := by
  have hna : n ≠ a := fun e => hn (e ▸ ha)
  have hpn : ∀ (p : lily_ast_pool) (q : Option Nat),
      touch (poke p n (fun m => { m with parent := q })).mem p.mem Lv n :=
    fun p q => touch_poke_new p hn _ (fun _ => ⟨rfl, rfl, rfl⟩)
  unfold merge_unary at hm
  by_cases h1 : tree_rank tree_typecast ≤ tree_rank (ap.mem a).tree_type
      ∧ (ap.mem a).right = none
  · rw [if_pos h1] at hm
    simp only [Except.ok.injEq] at hm
    subst hm
    refine ⟨touch_trans (hpn _ _) (touch_poke_right ap ha hn), Or.inl rfl, Or.inl rfl,
      Or.inl ⟨?_, ?_⟩⟩
    · simp only [poke_mem, if_true, if_neg hna]
    · simp only [poke_mem, if_true, if_neg hna]
  · rw [if_neg h1] at hm
    simp only at hm
    cases hst : (if tree_rank tree_typecast ≤ tree_rank (ap.mem a).tree_type then
        (ap.mem a).right else some a) with
    | none => rw [hst] at hm; simp at hm
    | some a0 =>
      rw [hst] at hm
      simp only at hm
      have ha0 : a0 ∈ Lv := by
        by_cases hr : tree_rank tree_typecast ≤ tree_rank (ap.mem a).tree_type
        · rw [if_pos hr] at hst
          exact hcl.2.1 a ha hr a0 hst
        · rw [if_neg hr] at hst
          rw [← Option.some.inj hst]
          exact ha
      have ha0u : (ap.mem n).tree_type = tree_subscript → (ap.mem a0).tree_type = tree_unary := by
        intro hs
        by_cases hr : tree_rank tree_typecast ≤ tree_rank (ap.mem a).tree_type
        · rw [if_pos hr] at hst
          rcases hsub hs with e | ⟨_, r, e1, e2⟩
          · rw [e] at hr
            simp [tree_rank] at hr
          · rw [e1] at hst
            rw [← Option.some.inj hst]
            exact e2
        · rw [if_neg hr] at hst
          rw [← Option.some.inj hst]
          rcases hsub hs with e | ⟨e, _⟩
          · exact e
          · exact absurd e hr
      cases hd : unary_descend ap.mem ap.brk a0 with
      | none => rw [hd] at hm; simp at hm
      | some act =>
        rw [hd] at hm
        simp only [Except.ok.injEq] at hm
        obtain ⟨hact, hactu⟩ := unary_descend_mem hcl ap.brk a0 act ha0 hd
        have hnact : n ≠ act := fun e => hn (e ▸ hact)
        cases hl : (ap.mem act).left with
        | none =>
          rw [hl] at hm
          simp only at hm
          subst hm
          refine ⟨touch_trans (hpn _ _) (touch_poke_left ap hact hn), Or.inl rfl, Or.inl rfl,
            Or.inl ⟨?_, ?_⟩⟩
          · simp only [poke_mem, if_true, if_neg hnact]
          · simp only [poke_mem, if_true, if_neg hnact]
        | some l =>
          rw [hl] at hm
          simp only at hm
          by_cases hs : (ap.mem n).tree_type = tree_subscript
          · rw [if_pos hs] at hm
            subst hm
            have hlL : l ∈ Lv := hcl.1 act hact (hactu (ha0u hs)) l hl
            obtain ⟨t1, t2, t3, t4, t5, _⟩ := merge_absorb_touch ap hlL hn
            refine ⟨touch_trans (hpn _ _) (touch_trans (touch_poke_left _ hact hn) t1),
              t2, t3, Or.inr ⟨?_, fun t ht => ?_⟩⟩
            · simp only [poke_mem, if_true, if_neg hnact]
              exact t4
            · simp only [poke_mem, if_true, if_neg hnact] at ht
              rcases t5 t ht with e | ⟨e1, e2⟩
              · rw [e]; exact hlL
              · exact hcl.2.1 l hlL e1 t e2
          · rw [if_neg hs] at hm
            subst hm
            refine ⟨hpn _ _, Or.inl rfl, Or.inl rfl, Or.inl ⟨?_, ?_⟩⟩
            · simp only [poke_mem, if_true]
            · simp only [poke_mem, if_true]

/-- What merge_value writes. -/
theorem merge_value_touch {ap ap1 : lily_ast_pool} {n : Nat} {Lv : List Nat} {h : Nat → Int}
    (hcl : lv_closed ap.mem Lv h) (hact : ∀ a, ap.active = some a → a ∈ Lv) (hn : n ∉ Lv)
    (hm : merge_value ap n = .ok ap1) :
    touch ap1.mem ap.mem Lv n
      ∧ (∃ p, ap1.active = some p ∧ p ∈ n :: Lv)
      ∧ (ap1.root = ap.root ∨ ap1.root = some n)
      ∧ (((ap1.mem n).arg_start = (ap.mem n).arg_start
            ∧ (ap1.mem n).arg_top = (ap.mem n).arg_top)
          ∨ ((ap1.mem n).arg_start = (ap1.mem n).arg_top
            ∧ ∀ t, (ap1.mem n).arg_top = some t → t ∈ Lv)) := by
  unfold merge_value at hm
  cases ha : ap.active with
  | none =>
    rw [ha] at hm
    by_cases hroot : ap.root = none
    · simp only [hroot, if_true, Except.ok.injEq] at hm
      subst hm
      exact ⟨touch_refl _ _ _, ⟨n, rfl, List.mem_cons_self _ _⟩, Or.inr rfl, Or.inl ⟨rfl, rfl⟩⟩
    · simp only [hroot, if_false, Except.ok.injEq] at hm
      subst hm
      exact ⟨touch_refl _ _ _, ⟨n, rfl, List.mem_cons_self _ _⟩, Or.inl rfl, Or.inl ⟨rfl, rfl⟩⟩
  | some a =>
    rw [ha] at hm
    simp only at hm
    have haL : a ∈ Lv := hact a ha
    have hna : n ≠ a := fun e => hn (e ▸ haL)
    have hmem : ∀ p, p = ap.active ∨ p = some n → ∃ q, p = some q ∧ q ∈ n :: Lv := by
      intro p hp
      rcases hp with e | e
      · exact ⟨a, by rw [e, ha], List.mem_cons_of_mem _ haL⟩
      · exact ⟨n, e, List.mem_cons_self _ _⟩
    have habs : touch (merge_absorb ap a n).mem ap.mem Lv n
        ∧ (∃ p, (merge_absorb ap a n).active = some p ∧ p ∈ n :: Lv)
        ∧ ((merge_absorb ap a n).root = ap.root ∨ (merge_absorb ap a n).root = some n)
        ∧ ((((merge_absorb ap a n).mem n).arg_start = (ap.mem n).arg_start
              ∧ ((merge_absorb ap a n).mem n).arg_top = (ap.mem n).arg_top)
            ∨ (((merge_absorb ap a n).mem n).arg_start = ((merge_absorb ap a n).mem n).arg_top
              ∧ ∀ t, ((merge_absorb ap a n).mem n).arg_top = some t → t ∈ Lv)) := by
      obtain ⟨t1, t2, t3, t4, t5, _⟩ := merge_absorb_touch ap haL hn
      refine ⟨t1, hmem _ t2, t3, Or.inr ⟨t4, fun t ht => ?_⟩⟩
      rcases t5 t ht with e | ⟨e1, e2⟩
      · rw [e]; exact haL
      · exact hcl.2.1 a haL e1 t e2
    by_cases hr : tree_rank tree_typecast ≤ tree_rank (ap.mem a).tree_type
    · rw [if_pos hr] at hm
      cases hrt : (ap.mem a).right with
      | none =>
        rw [hrt] at hm
        simp only [Except.ok.injEq] at hm
        subst hm
        refine ⟨touch_poke_right ap haL hn, ⟨a, ha, List.mem_cons_of_mem _ haL⟩, Or.inl rfl,
          Or.inl ⟨?_, ?_⟩⟩
        · simp only [poke_mem, if_neg hna]
        · simp only [poke_mem, if_neg hna]
      | some r =>
        rw [hrt] at hm
        simp only at hm
        by_cases hu : (ap.mem r).tree_type = tree_unary
        · rw [if_pos hu] at hm
          obtain ⟨t1, t2, t3, t4⟩ := merge_unary_touch hcl haL hn
            (fun _ => Or.inr ⟨hr, r, hrt, hu⟩) hm
          exact ⟨t1, hmem _ t2, t3, t4⟩
        · rw [if_neg hu] at hm
          simp only [Except.ok.injEq] at hm
          subst hm
          exact habs
    · rw [if_neg hr] at hm
      by_cases hu : (ap.mem a).tree_type = tree_unary
      · rw [if_pos hu] at hm
        obtain ⟨t1, t2, t3, t4⟩ := merge_unary_touch hcl haL hn (fun _ => Or.inl hu) hm
        exact ⟨t1, hmem _ t2, t3, t4⟩
      · rw [if_neg hu] at hm
        simp only [Except.ok.injEq] at hm
        subst hm
        exact habs

/-- The tree that a call takes is not among the trees of the sub-expression, and
filling it in leaves the sub-expression closed. -/
theorem acquire_level {ap : lily_ast_pool} {F Lv : List Nat} {h : Nat → Int}
    (hch : chain_ok ap F) (hin : ∀ x ∈ Lv, x < ap.brk ∧ x ∉ F)
    (hcl : lv_closed ap.mem Lv h) (f : lily_ast → lily_ast) :
    (acquire_tree ap).1 ∉ Lv
      ∧ lv_closed (poke (acquire_tree ap).2 (acquire_tree ap).1 f).mem Lv h
      ∧ (∀ x, x ≠ (acquire_tree ap).1 →
          (poke (acquire_tree ap).2 (acquire_tree ap).1 f).mem x = ap.mem x) := by
  rcases hacq : acquire_tree ap with ⟨n, ap0⟩
  obtain ⟨F1, _, hnn, _, _, _, hmem0, _⟩ := acquire_inuse hacq hch
  have hn : n ∉ Lv := fun hx => hnn (hin n hx)
  have hm : ∀ x, x ≠ n → (poke ap0 n f).mem x = ap.mem x := by
    intro x hx
    simp only [poke_mem, if_neg hx]
    exact hmem0 x hx
  have hL : ∀ x ∈ Lv, (poke ap0 n f).mem x = ap.mem x :=
    fun x hx => hm x (fun e => hn (e ▸ hx))
  refine ⟨hn, lv_closed_congr hcl (fun x hx => by rw [hL x hx])
    (fun x hx _ => by rw [hL x hx]) (fun x hx _ => by rw [hL x hx])
    (fun x hx _ => by rw [hL x hx]) (fun _ _ => rfl), hm⟩

/-- A push of a value, and the merge of lily_ast_enter_tree: the sub-expression
grows by the tree taken, and the trees outside it are left alone. -/
theorem push_value_level {ap ap1 : lily_ast_pool} {F Lv : List Nat} {h : Nat → Int}
    (f : lily_ast → lily_ast)
    (hf : ∀ m, (f m).tree_type ≠ tree_unary ∧ (f m).tree_type ≠ tree_binary
      ∧ (tree_rank tree_typecast ≤ tree_rank (f m).tree_type → (f m).right = none))
    (hch : chain_ok ap F) (hin : ∀ x ∈ Lv, x < ap.brk ∧ x ∉ F)
    (hcl : lv_closed ap.mem Lv h) (hact : ∀ a, ap.active = some a → a ∈ Lv)
    (hm : merge_value (poke (acquire_tree ap).2 (acquire_tree ap).1 f)
      (acquire_tree ap).1 = .ok ap1) :
    (acquire_tree ap).1 ∉ Lv
      ∧ lv_closed ap1.mem ((acquire_tree ap).1 :: Lv) h
      ∧ (∀ x, x ∉ Lv → x ≠ (acquire_tree ap).1 → ap1.mem x = ap.mem x)
      ∧ (∃ p, ap1.active = some p ∧ p ∈ (acquire_tree ap).1 :: Lv)
      ∧ (ap1.root = ap.root ∨ ap1.root = some (acquire_tree ap).1)
      ∧ (ap1.mem (acquire_tree ap).1).tree_type
          = (f ((acquire_tree ap).2.mem (acquire_tree ap).1)).tree_type
      ∧ (∀ x, (ap1.mem x).tree_type
          = ((poke (acquire_tree ap).2 (acquire_tree ap).1 f).mem x).tree_type)
      ∧ (((ap1.mem (acquire_tree ap).1).arg_start
              = (f ((acquire_tree ap).2.mem (acquire_tree ap).1)).arg_start
            ∧ (ap1.mem (acquire_tree ap).1).arg_top
              = (f ((acquire_tree ap).2.mem (acquire_tree ap).1)).arg_top)
          ∨ ((ap1.mem (acquire_tree ap).1).arg_start = (ap1.mem (acquire_tree ap).1).arg_top
            ∧ ∀ t, (ap1.mem (acquire_tree ap).1).arg_top = some t → t ∈ Lv)) := by
  obtain ⟨hn, hclI, hmI⟩ := acquire_level hch hin hcl f
  have hactI : ∀ a, (poke (acquire_tree ap).2 (acquire_tree ap).1 f).active = some a →
      a ∈ Lv := by
    intro a ha
    rw [poke_active, acquire_active] at ha
    exact hact a ha
  obtain ⟨t1, t2, t3, t4⟩ := merge_value_touch hclI hactI hn hm
  have hnI : (poke (acquire_tree ap).2 (acquire_tree ap).1 f).mem (acquire_tree ap).1
      = f ((acquire_tree ap).2.mem (acquire_tree ap).1) := by
    simp only [poke_mem, if_true]
  obtain ⟨u1, u2, u3, u4, u5, u6⟩ := t1
  have hty : (ap1.mem (acquire_tree ap).1).tree_type
      = (f ((acquire_tree ap).2.mem (acquire_tree ap).1)).tree_type := by
    rw [u2, hnI]
  refine ⟨hn, ?_, fun x hx hxn => by rw [u1 x hx hxn, hmI x hxn], t2, ?_, hty, u2, ?_⟩
  · refine lv_closed_grow hclI (fun x _ => u2 x) (fun x hx => (u3 x hx).1)
      (fun x hx => (u3 x hx).2) (fun x hx hb => Or.inl (u4 x hx hb)) (fun _ _ => rfl)
      (fun ht => ?_) (fun ht r hr => ?_) (fun ht => ?_)
    · rw [hty] at ht
      exact absurd ht (hf _).1
    · rw [hty] at ht
      rw [u6, hnI, (hf _).2.2 ht] at hr
      cases hr
    · rw [hty] at ht
      exact absurd ht (hf _).2.1
  · rw [poke_root, acquire_root] at t3
    exact t3
  · rw [hnI] at t4
    exact t4

/-- lily_ast_push_unary_op: the sub-expression grows by the tree taken, and the
trees outside it are left alone. -/
theorem push_unary_level {ap ap1 : lily_ast_pool} {F Lv : List Nat} {h : Nat → Int}
    (o : lily_expr_op)
    (hch : chain_ok ap F) (hin : ∀ x ∈ Lv, x < ap.brk ∧ x ∉ F)
    (hcl : lv_closed ap.mem Lv h) (hact : ∀ a, ap.active = some a → a ∈ Lv)
    (hm : lily_ast_push_unary_op ap o = .ok ap1) :
    (acquire_tree ap).1 ∉ Lv
      ∧ lv_closed ap1.mem ((acquire_tree ap).1 :: Lv) h
      ∧ (∀ x, x ∉ Lv → x ≠ (acquire_tree ap).1 → ap1.mem x = ap.mem x)
      ∧ (∃ p, ap1.active = some p ∧ p ∈ (acquire_tree ap).1 :: Lv)
      ∧ (ap1.root = ap.root ∨ ap1.root = some (acquire_tree ap).1) := by
  obtain ⟨hn, hclI, hmI⟩ := acquire_level hch hin hcl (fun n =>
    { n with left := none, line_num := (acquire_tree ap).2.lex_linenum,
             tree_type := tree_unary, priority := priority_for_op o, op := o })
  have hact0 := acquire_active ap
  have hroot0 := acquire_root ap
  unfold lily_ast_push_unary_op at hm
  rcases hacq : acquire_tree ap with ⟨n, ap0⟩
  rw [hacq] at hm hn hclI hmI hact0 hroot0
  simp only at hm hn hclI hmI hact0 hroot0 ⊢
  have hnI : ((poke ap0 n (fun n =>
      { n with left := none, line_num := ap0.lex_linenum,
               tree_type := tree_unary, priority := priority_for_op o, op := o })).mem n).left
        = none := by
    simp only [poke_mem, if_true]
  have hnT : ((poke ap0 n (fun n =>
      { n with left := none, line_num := ap0.lex_linenum,
               tree_type := tree_unary, priority := priority_for_op o, op := o })).mem n).tree_type
        = tree_unary := by
    simp only [poke_mem, if_true]
  cases ha : ap0.active with
  | none =>
    rw [ha] at hm
    simp only [Except.ok.injEq] at hm
    subst hm
    refine ⟨hn, ?_, fun x _ hxn => hmI x hxn, ⟨n, rfl, List.mem_cons_self _ _⟩, Or.inr rfl⟩
    refine lv_closed_grow hclI (fun _ _ => rfl) (fun _ _ => Or.inl rfl) (fun _ _ => Or.inl rfl)
      (fun _ _ _ => Or.inl rfl) (fun _ _ => rfl) (fun _ l hl => ?_) (fun ht => ?_)
      (fun ht => ?_)
    · rw [hnI] at hl; cases hl
    · rw [hnT] at ht; simp [tree_rank] at ht
    · rw [hnT] at ht; cases ht
  | some a =>
    rw [ha] at hm
    simp only at hm
    have haL : a ∈ Lv := hact a (by rw [← hact0, ha])
    have hna : n ≠ a := fun e => hn (e ▸ haL)
    by_cases hv : ((poke ap0 n (fun n =>
        { n with left := none, line_num := ap0.lex_linenum,
                 tree_type := tree_unary, priority := priority_for_op o, op := o })).mem a).tree_type
          = tree_var
        ∨ ((poke ap0 n (fun n =>
        { n with left := none, line_num := ap0.lex_linenum,
                 tree_type := tree_unary, priority := priority_for_op o, op := o })).mem a).tree_type
          = tree_local_var
        ∨ ((poke ap0 n (fun n =>
        { n with left := none, line_num := ap0.lex_linenum,
                 tree_type := tree_unary, priority := priority_for_op o, op := o })).mem a).tree_type
          = tree_call
        ∨ ((poke ap0 n (fun n =>
        { n with left := none, line_num := ap0.lex_linenum,
                 tree_type := tree_unary, priority := priority_for_op o, op := o })).mem a).tree_type
          = tree_literal
    · rw [if_pos hv] at hm
      simp only [Except.ok.injEq] at hm
      subst hm
      have hnb : ((poke ap0 n (fun n =>
          { n with left := none, line_num := ap0.lex_linenum,
                   tree_type := tree_unary, priority := priority_for_op o,
                   op := o })).mem a).tree_type ≠ tree_binary := by
        rcases hv with e | e | e | e <;> rw [e] <;> decide
      refine ⟨hn, ?_, fun x hx hxn => ?_, ⟨n, rfl, List.mem_cons_self _ _⟩, Or.inr rfl⟩
      · refine lv_closed_grow hclI (fun x _ => ?_) (fun x _ => Or.inl ?_)
          (fun x _ => Or.inl ?_) (fun x _ hb => Or.inl ?_) (fun _ _ => rfl)
          (fun _ l hl => ?_) (fun ht => ?_) (fun ht => ?_)
        · dsimp only
          simp only [poke_mem]; split_ifs <;> rfl
        · dsimp only
          simp only [poke_mem]; split_ifs <;> rfl
        · dsimp only
          simp only [poke_mem]; split_ifs <;> rfl
        · have hxa : x ≠ a := fun e => hnb (e ▸ hb)
          dsimp only
          simp only [poke_mem, if_neg hxa]
        · have e : ((poke (poke ap0 n (fun n =>
              { n with left := none, line_num := ap0.lex_linenum,
                       tree_type := tree_unary, priority := priority_for_op o, op := o }))
              a (fun m => { m with parent := some n })).mem n).left = none := by
            simp only [poke_mem, if_neg hna, if_true]
          rw [e] at hl; cases hl
        · have e : ((poke (poke ap0 n (fun n =>
              { n with left := none, line_num := ap0.lex_linenum,
                       tree_type := tree_unary, priority := priority_for_op o, op := o }))
              a (fun m => { m with parent := some n })).mem n).tree_type = tree_unary := by
            simp only [poke_mem, if_neg hna, if_true]
          rw [e] at ht; simp [tree_rank] at ht
        · have e : ((poke (poke ap0 n (fun n =>
              { n with left := none, line_num := ap0.lex_linenum,
                       tree_type := tree_unary, priority := priority_for_op o, op := o }))
              a (fun m => { m with parent := some n })).mem n).tree_type = tree_unary := by
            simp only [poke_mem, if_neg hna, if_true]
          rw [e] at ht; cases ht
      · have hxa : x ≠ a := fun e => hx (e ▸ haL)
        dsimp only
        rw [poke_mem, if_neg hxa]
        exact hmI x hxn
    · rw [if_neg hv] at hm
      obtain ⟨t1, t2, t3, _⟩ := merge_unary_touch hclI haL hn
        (fun hs => by rw [hnT] at hs; cases hs) hm
      obtain ⟨u1, u2, u3, u4, u5, u6⟩ := t1
      refine ⟨hn, ?_, fun x hx hxn => by rw [u1 x hx hxn, hmI x hxn], ?_, ?_⟩
      · refine lv_closed_grow hclI (fun x _ => u2 x) (fun x hx => (u3 x hx).1)
          (fun x hx => (u3 x hx).2) (fun x hx hb => Or.inl (u4 x hx hb)) (fun _ _ => rfl)
          (fun _ l hl => ?_) (fun ht => ?_) (fun ht => ?_)
        · rw [u5, hnI] at hl; cases hl
        · rw [u2, hnT] at ht; simp [tree_rank] at ht
        · rw [u2, hnT] at ht; cases ht
      · rcases t2 with e | e
        · exact ⟨a, by rw [e]; exact ha, List.mem_cons_of_mem _ haL⟩
        · exact ⟨n, e, List.mem_cons_self _ _⟩
      · rw [poke_root, hroot0] at t3
        exact t3

/-- lily_ast_push_binary_op: the sub-expression grows by the tree taken, the
trees outside it are left alone, and the new `parent` links go down in `h`. -/
theorem push_binary_level {ap ap1 : lily_ast_pool} {F Lv : List Nat} {h : Nat → Int}
    (o : lily_expr_op)
    (hch : chain_ok ap F) (hin : ∀ x ∈ Lv, x < ap.brk ∧ x ∉ F)
    (hcl : lv_closed ap.mem Lv h) (hact : ∀ a, ap.active = some a → a ∈ Lv)
    (hm : lily_ast_push_binary_op ap o = .ok ap1) :
    ∃ h1 : Nat → Int, (acquire_tree ap).1 ∉ Lv
      ∧ lv_closed ap1.mem ((acquire_tree ap).1 :: Lv) h1
      ∧ (∀ x, x ≠ (acquire_tree ap).1 → h1 x = h x)
      ∧ (∀ x, x ∉ Lv → x ≠ (acquire_tree ap).1 → ap1.mem x = ap.mem x)
      ∧ (∃ p, ap1.active = some p ∧ p ∈ (acquire_tree ap).1 :: Lv)
      ∧ (ap1.root = ap.root ∨ ap1.root = some (acquire_tree ap).1) := by
  obtain ⟨hn, hclI, hmI⟩ := acquire_level hch hin hcl (fun n =>
    { n with tree_type := tree_binary, line_num := (acquire_tree ap).2.lex_linenum,
             priority := priority_for_op o, op := o,
             left := none, right := none, parent := none })
  have hact0 := acquire_active ap
  have hroot0 := acquire_root ap
  unfold lily_ast_push_binary_op at hm
  rcases hacq : acquire_tree ap with ⟨n, ap0⟩
  rw [hacq] at hm hn hclI hmI hact0 hroot0
  simp only at hm hn hclI hmI hact0 hroot0 ⊢
  obtain ⟨apI, hapI⟩ : ∃ apI, apI = poke ap0 n (fun nd =>
      { nd with tree_type := tree_binary, line_num := ap0.lex_linenum,
                priority := priority_for_op o, op := o,
                left := none, right := none, parent := none }) := ⟨_, rfl⟩
  rw [← hapI] at hm hclI hmI
  have hIn : (apI.mem n).tree_type = tree_binary ∧ (apI.mem n).left = none
      ∧ (apI.mem n).right = none ∧ (apI.mem n).parent = none := by
    rw [hapI]
    simp only [poke_mem, if_true, and_self]
  have hIa : apI.active = ap.active := by rw [hapI, poke_active, hact0]
  have hIr : apI.root = ap.root := by rw [hapI, poke_root, hroot0]
  have hnr : ¬ tree_rank tree_typecast ≤ tree_rank tree_binary → False := fun hh => hh (by decide)
  cases ha : ap0.active with
  | none => rw [ha] at hm; simp at hm
  | some A =>
    rw [ha] at hm
    simp only at hm
    have hAL : A ∈ Lv := hact A (by rw [← hact0, ha])
    have hnA : n ≠ A := fun e => hn (e ▸ hAL)
    by_cases hv : tree_rank (apI.mem A).tree_type < tree_rank tree_binary
    · rw [if_pos hv] at hm
      simp only [Except.ok.injEq] at hm
      have hmem : ap1.mem = (poke apI n (fun m => { m with left := some A })).mem := by
        rw [← hm]
        by_cases hr : apI.root = some A
        · rw [if_pos hr]; rfl
        · rw [if_neg hr]
      have hroot : ap1.root = ap.root ∨ ap1.root = some n := by
        rw [← hm]
        by_cases hr : apI.root = some A
        · rw [if_pos hr]; exact Or.inr rfl
        · rw [if_neg hr]; exact Or.inl hIr
      have hac : ap1.active = some n := by rw [← hm]
      have hx : ∀ x, x ≠ n → ap1.mem x = apI.mem x := by
        intro x hx
        rw [hmem, poke_mem, if_neg hx]
      have hnn : (ap1.mem n).tree_type = tree_binary ∧ (ap1.mem n).right = none
          ∧ (ap1.mem n).parent = none := by
        rw [hmem]
        simp only [poke_mem, if_true]
        exact ⟨hIn.1, hIn.2.2.1, hIn.2.2.2⟩
      have hxL : ∀ x ∈ Lv, ap1.mem x = apI.mem x := fun x hxl => hx x (fun e => hn (e ▸ hxl))
      refine ⟨h, hn, ?_, fun _ _ => rfl, fun x _ hxn => by rw [hx x hxn, hmI x hxn],
        ⟨n, hac, List.mem_cons_self _ _⟩, hroot⟩
      refine lv_closed_grow hclI (fun x hxl => by rw [hxL x hxl])
        (fun x hxl => Or.inl (by rw [hxL x hxl])) (fun x hxl => Or.inl (by rw [hxL x hxl]))
        (fun x hxl _ => Or.inl (by rw [hxL x hxl])) (fun _ _ => rfl)
        (fun ht => ?_) (fun _ r hr => ?_) (fun _ p hp => ?_)
      · rw [hnn.1] at ht; cases ht
      · rw [hnn.2.1] at hr; cases hr
      · rw [hnn.2.2] at hp; cases hp
    · rw [if_neg hv] at hm
      by_cases hb : (apI.mem A).tree_type = tree_binary
      · rw [if_pos hb] at hm
        by_cases hs : (apI.mem n).priority > (apI.mem A).priority ∨ (apI.mem n).priority = 0
        · rw [if_pos hs] at hm
          simp only [Except.ok.injEq] at hm
          have hmem : ap1.mem = (poke (poke (poke apI n
              (fun m => { m with left := (apI.mem A).right })) A
              (fun m => { m with right := some n })) n
              (fun m => { m with parent := some A })).mem := by
            rw [← hm]
          have hac : ap1.active = some n := by rw [← hm]
          have hroot : ap1.root = ap.root := by rw [← hm]; exact hIr
          have hx : ∀ x, x ≠ n → x ≠ A → ap1.mem x = apI.mem x := by
            intro x hx hxA
            rw [hmem]
            simp only [poke_mem, if_neg hx, if_neg hxA]
          have hA : (ap1.mem A).tree_type = (apI.mem A).tree_type
              ∧ (ap1.mem A).left = (apI.mem A).left ∧ (ap1.mem A).right = some n
              ∧ (ap1.mem A).parent = (apI.mem A).parent := by
            rw [hmem]
            simp only [poke_mem, if_neg (Ne.symm hnA), if_true, and_self]
          have hnn : (ap1.mem n).tree_type = tree_binary ∧ (ap1.mem n).right = none
              ∧ (ap1.mem n).parent = some A := by
            rw [hmem]
            simp only [poke_mem, if_true, if_neg hnA]
            exact ⟨hIn.1, hIn.2.2.1, trivial⟩
          refine ⟨fun x => if x = n then h A + 1 else h x, hn, ?_,
            fun x hxn => by simp only [if_neg hxn],
            fun x hxl hxn => by rw [hx x hxn (fun e => hxl (e ▸ hAL)), hmI x hxn],
            ⟨n, hac, List.mem_cons_self _ _⟩, Or.inl hroot⟩
          refine lv_closed_grow hclI (fun x hxl => ?_) (fun x hxl => ?_) (fun x hxl => ?_)
            (fun x hxl _ => ?_) (fun x hxl => ?_) (fun ht => ?_) (fun _ r hr => ?_)
            (fun _ p hp => ?_)
          · by_cases e : x = A
            · rw [e]; exact hA.1
            · rw [hx x (fun e2 => hn (e2 ▸ hxl)) e]
          · by_cases e : x = A
            · rw [e]; exact Or.inl hA.2.1
            · rw [hx x (fun e2 => hn (e2 ▸ hxl)) e]; exact Or.inl rfl
          · by_cases e : x = A
            · rw [e]; exact Or.inr hA.2.2.1
            · rw [hx x (fun e2 => hn (e2 ▸ hxl)) e]; exact Or.inl rfl
          · by_cases e : x = A
            · rw [e]; exact Or.inl hA.2.2.2
            · rw [hx x (fun e2 => hn (e2 ▸ hxl)) e]; exact Or.inl rfl
          · have : x ≠ n := fun e2 => hn (e2 ▸ hxl)
            simp only [if_neg this]
          · rw [hnn.1] at ht; cases ht
          · rw [hnn.2.1] at hr; cases hr
          · rw [hnn.2.2] at hp
            rw [← Option.some.inj hp]
            refine ⟨hAL, hb, ?_⟩
            simp only [if_true]
            omega
        · rw [if_neg hs] at hm
          cases hc : climb apI.mem (apI.mem n).priority apI.brk A with
          | none => rw [hc] at hm; simp at hm
          | some T =>
            rw [hc] at hm
            simp only [Except.ok.injEq] at hm
            obtain ⟨hTL, hTb⟩ := climb_mem hclI _ _ A T hAL hb hc
            have hnT : n ≠ T := fun e => hn (e ▸ hTL)
            cases hpar : (apI.mem T).parent with
            | some P =>
              rw [hpar] at hm
              simp only at hm
              obtain ⟨hPL, hPb, _⟩ := hclI.2.2 T hTL hTb P hpar
              have hnP : n ≠ P := fun e => hn (e ▸ hPL)
              have hac : ap1.active = some n := by rw [← hm]
              have hroot : ap1.root = ap.root := by
                rw [← hm]
                by_cases hl : (apI.mem P).left = some T
                · simp only [if_pos hl, poke_root]; exact hIr
                · simp only [if_neg hl, poke_root]; exact hIr
              have hx : ∀ x, x ≠ n → x ≠ P → ap1.mem x = apI.mem x := by
                intro x hx hxP
                rw [← hm]
                by_cases hl : (apI.mem P).left = some T
                · simp only [if_pos hl, poke_mem, if_neg hx, if_neg hxP]
                · simp only [if_neg hl, poke_mem, if_neg hx, if_neg hxP]
              have hP : (ap1.mem P).tree_type = (apI.mem P).tree_type
                  ∧ ((ap1.mem P).left = (apI.mem P).left ∨ (ap1.mem P).left = some n)
                  ∧ ((ap1.mem P).right = (apI.mem P).right ∨ (ap1.mem P).right = some n)
                  ∧ (ap1.mem P).parent = (apI.mem P).parent := by
                rw [← hm]
                by_cases hl : (apI.mem P).left = some T
                · simp [hl, poke_mem, Ne.symm hnP]
                · simp [hl, poke_mem, Ne.symm hnP]
              have hnn : (ap1.mem n).tree_type = tree_binary ∧ (ap1.mem n).right = none
                  ∧ (ap1.mem n).parent = (apI.mem A).parent := by
                rw [← hm]
                by_cases hl : (apI.mem P).left = some T
                · simp only [if_pos hl, poke_mem, if_true, if_neg hnP, if_neg (Ne.symm hnA)]
                  refine ⟨hIn.1, hIn.2.2.1, ?_⟩
                  split_ifs <;> rfl
                · simp only [if_neg hl, poke_mem, if_true, if_neg hnP, if_neg (Ne.symm hnA)]
                  refine ⟨hIn.1, hIn.2.2.1, ?_⟩
                  split_ifs <;> rfl
              refine ⟨fun x => if x = n then
                  (match (apI.mem A).parent with
                    | some Q => h Q + 1
                    | none => 0) else h x, hn, ?_,
                fun x hxn => by simp only [if_neg hxn],
                fun x hxl hxn => by rw [hx x hxn (fun e => hxl (e ▸ hPL)), hmI x hxn],
                ⟨n, hac, List.mem_cons_self _ _⟩, Or.inl hroot⟩
              refine lv_closed_grow hclI (fun x hxl => ?_) (fun x hxl => ?_) (fun x hxl => ?_)
                (fun x hxl _ => ?_) (fun x hxl => ?_) (fun ht => ?_) (fun _ r hr => ?_)
                (fun _ p hp => ?_)
              · by_cases e : x = P
                · rw [e]; exact hP.1
                · rw [hx x (fun e2 => hn (e2 ▸ hxl)) e]
              · by_cases e : x = P
                · rw [e]; exact hP.2.1
                · rw [hx x (fun e2 => hn (e2 ▸ hxl)) e]; exact Or.inl rfl
              · by_cases e : x = P
                · rw [e]; exact hP.2.2.1
                · rw [hx x (fun e2 => hn (e2 ▸ hxl)) e]; exact Or.inl rfl
              · by_cases e : x = P
                · rw [e]; exact Or.inl hP.2.2.2
                · rw [hx x (fun e2 => hn (e2 ▸ hxl)) e]; exact Or.inl rfl
              · have : x ≠ n := fun e2 => hn (e2 ▸ hxl)
                simp only [if_neg this]
              · rw [hnn.1] at ht; cases ht
              · rw [hnn.2.1] at hr; cases hr
              · rw [hnn.2.2] at hp
                obtain ⟨q1, q2, _⟩ := hclI.2.2 A hAL hb p hp
                refine ⟨q1, q2, ?_⟩
                simp only [if_true, hp]
                omega
            | none =>
              rw [hpar] at hm
              simp only at hm
              have hac : ap1.active = some n := by rw [← hm]
              have hroot : ap1.root = some n := by rw [← hm]; rfl
              have hx : ∀ x, x ≠ n → x ≠ T → ap1.mem x = apI.mem x := by
                intro x hx hxT
                rw [← hm]
                simp only [poke_mem, if_neg hx, if_neg hxT]
              have hT : (ap1.mem T).tree_type = (apI.mem T).tree_type
                  ∧ (ap1.mem T).left = (apI.mem T).left ∧ (ap1.mem T).right = (apI.mem T).right
                  ∧ (ap1.mem T).parent = some n := by
                rw [← hm]
                simp only [poke_mem, if_neg (Ne.symm hnT), if_true, and_self]
              have hnn : (ap1.mem n).tree_type = tree_binary ∧ (ap1.mem n).right = none
                  ∧ (ap1.mem n).parent = none := by
                rw [← hm]
                simp only [poke_mem, if_true, if_neg hnT]
                exact ⟨hIn.1, hIn.2.2.1, hIn.2.2.2⟩
              refine ⟨fun x => if x = n then h T - 1 else h x, hn, ?_,
                fun x hxn => by simp only [if_neg hxn],
                fun x hxl hxn => by rw [hx x hxn (fun e => hxl (e ▸ hTL)), hmI x hxn],
                ⟨n, hac, List.mem_cons_self _ _⟩, Or.inr hroot⟩
              refine lv_closed_grow hclI (fun x hxl => ?_) (fun x hxl => ?_) (fun x hxl => ?_)
                (fun x hxl _ => ?_) (fun x hxl => ?_) (fun ht => ?_) (fun _ r hr => ?_)
                (fun _ p hp => ?_)
              · by_cases e : x = T
                · rw [e]; exact hT.1
                · rw [hx x (fun e2 => hn (e2 ▸ hxl)) e]
              · by_cases e : x = T
                · rw [e]; exact Or.inl hT.2.1
                · rw [hx x (fun e2 => hn (e2 ▸ hxl)) e]; exact Or.inl rfl
              · by_cases e : x = T
                · rw [e]; exact Or.inl hT.2.2.1
                · rw [hx x (fun e2 => hn (e2 ▸ hxl)) e]; exact Or.inl rfl
              · by_cases e : x = T
                · rw [e]
                  refine Or.inr ⟨hT.2.2.2, hnn.1, ?_⟩
                  simp only [if_true]
                  omega
                · rw [hx x (fun e2 => hn (e2 ▸ hxl)) e]; exact Or.inl rfl
              · have : x ≠ n := fun e2 => hn (e2 ▸ hxl)
                simp only [if_neg this]
              · rw [hnn.1] at ht; cases ht
              · rw [hnn.2.1] at hr; cases hr
              · rw [hnn.2.2] at hp; cases hp
      · rw [if_neg hb] at hm
        simp only [Except.ok.injEq] at hm
        subst hm
        refine ⟨h, hn, ?_, fun _ _ => rfl, fun x _ hxn => hmI x hxn,
          ⟨A, by rw [hIa, ← hact0, ha], List.mem_cons_of_mem _ hAL⟩, Or.inl hIr⟩
        refine lv_closed_grow hclI (fun _ _ => rfl) (fun _ _ => Or.inl rfl)
          (fun _ _ => Or.inl rfl) (fun _ _ _ => Or.inl rfl) (fun _ _ => rfl)
          (fun ht => ?_) (fun _ r hr => ?_) (fun _ p hp => ?_)
        · rw [hIn.1] at ht; cases ht
        · rw [hIn.2.2.1] at hr; cases hr
        · rw [hIn.2.2.2] at hp; cases hp

/-- The trees set aside by a grouping were in use when it was entered, and
these are in use. -/
theorem levels_mem {ap : lily_ast_pool} {F : List Nat} {h : Nat → Int} {b : Nat} :
    ∀ (stack : List Level), levels_ok ap F h b stack → ∀ fr ∈ stack,
      (∀ x ∈ fr.trees, fr.old x) ∧ (∀ x, fr.old x → x < ap.brk ∧ x ∉ F)
  | [], _, fr, hfr => absurd hfr (List.not_mem_nil fr)
  | f :: rest, hl, fr, hfr => by
    obtain ⟨_, _, _, _, _, a, b, _, _, _, _, _, hrest⟩ := hl
    rcases List.mem_cons.mp hfr with e | e
    · rw [e]; exact ⟨a, b⟩
    · exact levels_mem rest hrest fr e

/-- The groupings that are collecting stay as they are when the trees that were
in use at their lily_ast_enter_tree and their entries of `saved_trees` are left
alone. -/
theorem levels_keep {ap ap1 : lily_ast_pool} {F F1 : List Nat} {h h1 : Nat → Int}
    {b : Nat} :
    ∀ (stack : List Level), levels_ok ap F h b stack →
      (∀ fr ∈ stack, ∀ x, fr.old x → ap1.mem x = ap.mem x ∧ h1 x = h x) →
      (∀ i, i < b + 2 * stack.length → ap1.saved_trees i = ap.saved_trees i) →
      (∀ x, x < ap.brk → x ∉ F → x < ap1.brk ∧ x ∉ F1) →
      levels_ok ap1 F1 h1 b stack
  | [], _, _, _, _ => trivial
  | fr :: rest, hl, hm, hs, hu => by
    obtain ⟨a1, a2, a3, a4, a5, a6, a7, a8, a9, a10, a11, a12, a13⟩ := hl
    have hfr : ∀ x, fr.old x → ap1.mem x = ap.mem x ∧ h1 x = h x :=
      hm fr (List.mem_cons_self _ _)
    have hG := hfr fr.node (a6 _ a3)
    refine ⟨?_, ?_, a3, ?_, ?_, a6, fun x hx => ?_, ?_, ?_, a10, a11, a12, ?_⟩
    · rw [hs _ (by simp only [List.length_cons]; omega)]
      exact a1
    · intro r hr
      rw [hs _ (by simp only [List.length_cons]; omega)] at hr
      exact a2 r hr
    · rw [hG.1]; exact a4
    · rw [hG.1]; exact a5
    · obtain ⟨b1, b2⟩ := a7 x hx
      exact hu x b1 b2
    · exact lv_closed_congr a8 (fun x hx => by rw [(hfr x (a6 x hx)).1])
        (fun x hx _ => by rw [(hfr x (a6 x hx)).1])
        (fun x hx _ => by rw [(hfr x (a6 x hx)).1])
        (fun x hx _ => by rw [(hfr x (a6 x hx)).1])
        (fun x hx => (hfr x (a6 x hx)).2)
    · rw [hG.1]; exact a9
    · exact levels_keep rest a13 (fun f hf => hm f (List.mem_cons_of_mem _ hf))
        (fun i hi => hs i (by simp only [List.length_cons]; omega)) hu

/-- A push: the effect of the call on the sub-expression in progress. -/
theorem step_level {ap ap1 : lily_ast_pool} {F Lv : List Nat} {h : Nat → Int} {o : Op}
    (hch : chain_ok ap F) (hin : ∀ x ∈ Lv, x < ap.brk ∧ x ∉ F)
    (hcl : lv_closed ap.mem Lv h) (hact : ∀ a, ap.active = some a → a ∈ Lv)
    (hs : step ap o = .ok ap1) (ha : o.acquires = true)
    (h1 : ∀ tt var, o ≠ Op.enter_tree tt var) :
    ∃ h1 : Nat → Int, (acquire_tree ap).1 ∉ Lv
      ∧ lv_closed ap1.mem ((acquire_tree ap).1 :: Lv) h1
      ∧ (∀ x, x ≠ (acquire_tree ap).1 → h1 x = h x)
      ∧ (∀ x, x ∉ Lv → x ≠ (acquire_tree ap).1 → ap1.mem x = ap.mem x)
      ∧ (∃ p, ap1.active = some p ∧ p ∈ (acquire_tree ap).1 :: Lv)
      ∧ (ap1.root = ap.root ∨ ap1.root = some (acquire_tree ap).1) := by
  have val : ∀ (f : lily_ast → lily_ast),
      (∀ m, (f m).tree_type ≠ tree_unary ∧ (f m).tree_type ≠ tree_binary
        ∧ (tree_rank tree_typecast ≤ tree_rank (f m).tree_type → (f m).right = none)) →
      merge_value (poke (acquire_tree ap).2 (acquire_tree ap).1 f) (acquire_tree ap).1
        = .ok ap1 →
      ∃ h1 : Nat → Int, (acquire_tree ap).1 ∉ Lv
        ∧ lv_closed ap1.mem ((acquire_tree ap).1 :: Lv) h1
        ∧ (∀ x, x ≠ (acquire_tree ap).1 → h1 x = h x)
        ∧ (∀ x, x ∉ Lv → x ≠ (acquire_tree ap).1 → ap1.mem x = ap.mem x)
        ∧ (∃ p, ap1.active = some p ∧ p ∈ (acquire_tree ap).1 :: Lv)
        ∧ (ap1.root = ap.root ∨ ap1.root = some (acquire_tree ap).1) := by
    intro f hf hm
    obtain ⟨k1, k2, k3, k4, k5, _⟩ := push_value_level f hf hch hin hcl hact hm
    exact ⟨h, k1, k2, fun _ _ => rfl, k3, k4, k5⟩
  cases o with
  | push_local_var v =>
    exact val _ (fun m => ⟨by simp, by simp, by simp [tree_rank]⟩) hs
  | push_sym v =>
    exact val _ (fun m => ⟨by simp, by simp, by simp [tree_rank]⟩) hs
  | push_literal v =>
    exact val _ (fun m => ⟨by simp, by simp, by simp [tree_rank]⟩) hs
  | push_sig v =>
    exact val _ (fun m => ⟨by simp, by simp, by simp⟩) hs
  | push_empty_list v =>
    exact val _ (fun m => ⟨by simp, by simp, by simp [tree_rank]⟩) hs
  | push_unary_op v =>
    obtain ⟨k1, k2, k3, k4, k5⟩ := push_unary_level v hch hin hcl hact hs
    exact ⟨h, k1, k2, fun _ _ => rfl, k3, k4, k5⟩
  | push_binary_op v => exact push_binary_level v hch hin hcl hact hs
  | enter_tree tt v => exact absurd rfl (h1 tt v)
  | collect_arg => cases ha
  | leave_tree => cases ha
  | reset_pool => cases ha

/-- A push keeps the state between two calls: the sub-expression in progress
grows by the tree taken, the groupings that are collecting stay as they are. -/
theorem level_push {ap ap1 : lily_ast_pool} {F Lv : List Nat} {stack : List Level}
    {h : Nat → Int} {b : Nat} {o : Op} (hinv : level_inv ap F Lv stack h b)
    (hs : step ap o = .ok ap1) (ha : o.acquires = true)
    (h1 : ∀ tt var, o ≠ Op.enter_tree tt var) :
    ∃ F1 h1, level_inv ap1 F1 ((acquire_tree ap).1 :: Lv) stack h1 b
      ∧ (∀ x, x ∉ Lv → x ≠ (acquire_tree ap).1 → ap1.mem x = ap.mem x)
      ∧ ¬ ((acquire_tree ap).1 < ap.brk ∧ (acquire_tree ap).1 ∉ F)
      ∧ (∀ x, x < ap.brk → x ∉ F → x < ap1.brk ∧ x ∉ F1)
      ∧ ap1.saved_trees = ap.saved_trees := by
  obtain ⟨i1, i2, i3, i4, i5, i6, i7, i8, i9, i10⟩ := hinv
  obtain ⟨F1, t1, t2, t3, t4, t5, t6⟩ := took_of_step hs ha h1 i1
  obtain ⟨hh, k1, k2, k3, k4, k5, k6⟩ := step_level i1 i5 i6 i7 hs ha h1
  have hold : ∀ fr ∈ stack, ∀ x, fr.old x → x ∉ Lv ∧ x ≠ (acquire_tree ap).1 := by
    intro fr hfr x hx
    refine ⟨fun hxl => i9 fr hfr x hxl hx, fun e => ?_⟩
    rw [e] at hx
    exact t2 ((levels_mem stack i10 fr hfr).2 _ hx)
  refine ⟨F1, hh, ⟨t1, stack_ok_of_same i2 t6, by rw [t6.2.1]; exact i3,
    List.nodup_cons.mpr ⟨k1, i4⟩, ?_, k2, ?_, ?_, ?_, ?_⟩, k4, t2, t5, t6.1⟩
  · intro x hx
    rcases List.mem_cons.mp hx with e | e
    · rw [e]; exact ⟨t3, t4⟩
    · exact t5 x (i5 x e).1 (i5 x e).2
  · intro a hax
    obtain ⟨p, hp, hpl⟩ := k5
    rw [hp] at hax
    rw [← Option.some.inj hax]
    exact hpl
  · intro r hr
    rcases k6 with e | e
    · rw [e] at hr
      exact List.mem_cons_of_mem _ (i8 r hr)
    · rw [e] at hr
      rw [← Option.some.inj hr]
      exact List.mem_cons_self _ _
  · intro fr hfr x hx hox
    obtain ⟨q1, q2⟩ := hold fr hfr x hox
    rcases List.mem_cons.mp hx with e | e
    · exact q2 e
    · exact q1 e
  · exact levels_keep stack i10
      (fun fr hfr x hx => ⟨k4 x (hold fr hfr x hx).1 (hold fr hfr x hx).2,
        k3 x (hold fr hfr x hx).2⟩)
      (fun i _ => by rw [t6.1]) t5

/-- What push_tree_arg writes: the argument fields of the grouping, the
`next_arg` of its last argument, and the `parent` and `next_arg` of the new
argument. -/
theorem push_tree_arg_effect {ap ap1 : lily_ast_pool} {G : Nat} {t : Option Nat}
    (h : push_tree_arg ap G t = .ok ap1) :
    (∀ x, x ≠ G → t ≠ some x → (ap.mem G).arg_top ≠ some x → ap1.mem x = ap.mem x)
      ∧ (∀ x, x ≠ G → t ≠ some x →
          { ap1.mem x with next_arg := (ap.mem x).next_arg } = ap.mem x)
      ∧ (t ≠ some G → (ap.mem G).arg_top ≠ some G →
          { ap1.mem G with arg_start := (ap.mem G).arg_start, arg_top := (ap.mem G).arg_top,
                           args_collected := (ap.mem G).args_collected } = ap.mem G
            ∧ (ap1.mem G).arg_top = t) := by
  unfold push_tree_arg at h
  by_cases hs : (ap.mem G).arg_start = none
  · simp only [hs] at h
    cases t with
    | none =>
      simp only [Except.ok.injEq] at h
      rw [← h]
      refine ⟨fun x hx _ _ => ?_, fun x hx _ => ?_, fun _ _ => ⟨?_, ?_⟩⟩
      · simp only [poke_mem, if_neg hx]
      · simp only [poke_mem, if_neg hx]
      · simp only [poke_mem, if_true]
      · simp only [poke_mem, if_true]
    | some r =>
      simp only [Except.ok.injEq] at h
      rw [← h]
      refine ⟨fun x hx hxr _ => ?_, fun x hx hxr => ?_, fun hG _ => ⟨?_, ?_⟩⟩
      · have : x ≠ r := fun e => hxr (by rw [e])
        simp only [poke_mem, if_neg hx, if_neg this]
      · have : x ≠ r := fun e => hxr (by rw [e])
        simp only [poke_mem, if_neg hx, if_neg this]
      · have : G ≠ r := fun e => hG (by rw [e])
        simp only [poke_mem, if_true, if_neg this]
      · have : G ≠ r := fun e => hG (by rw [e])
        simp only [poke_mem, if_true, if_neg this]
  · obtain ⟨s, hs1⟩ := Option.ne_none_iff_exists'.mp hs
    simp only [hs1] at h
    by_cases ht : (ap.mem G).arg_top = none
    · simp only [ht] at h
      cases h
    · obtain ⟨top, ht1⟩ := Option.ne_none_iff_exists'.mp ht
      simp only [ht1] at h
      cases t with
      | none =>
        simp only [Except.ok.injEq] at h
        rw [← h]
        refine ⟨fun x hx _ hxa => ?_, fun x hx _ => ?_, fun _ hGa => ⟨?_, ?_⟩⟩
        · have : x ≠ top := fun e => hxa (by rw [ht1, e])
          simp only [poke_mem, if_neg hx, if_neg this]
        · simp only [poke_mem, if_neg hx]
          split_ifs <;> rfl
        · have : G ≠ top := fun e => hGa (by rw [ht1, e])
          simp only [poke_mem, if_true, if_neg this]
        · simp only [poke_mem, if_true]
      | some r =>
        simp only [Except.ok.injEq] at h
        rw [← h]
        refine ⟨fun x hx hxr hxa => ?_, fun x hx hxr => ?_, fun hG hGa => ⟨?_, ?_⟩⟩
        · have h1 : x ≠ top := fun e => hxa (by rw [ht1, e])
          have h2 : x ≠ r := fun e => hxr (by rw [e])
          simp only [poke_mem, if_neg hx, if_neg h1, if_neg h2]
        · have h2 : x ≠ r := fun e => hxr (by rw [e])
          simp only [poke_mem, if_neg hx, if_neg h2]
          split_ifs <;> rfl
        · have h1 : G ≠ top := fun e => hGa (by rw [ht1, e])
          have h2 : G ≠ r := fun e => hG (by rw [e])
          simp only [poke_mem, if_true, if_neg h1, if_neg h2]
        · have h2 : G ≠ r := fun e => hG (by rw [e])
          simp only [poke_mem, if_true, if_neg h2]

/-- lily_ast_enter_tree keeps the state between two calls: the sub-expression in
progress, with the tree of the grouping, is set aside, and an empty one starts. -/
theorem level_enter {ap ap1 : lily_ast_pool} {F Lv : List Nat} {stack : List Level}
    {h : Nat → Int} {b : Nat} {tt : lily_tree_type} {var : Option Nat}
    (hinv : level_inv ap F Lv stack h b)
    (hs : lily_ast_enter_tree ap tt var = .ok ap1)
    (hk : tree_rank tt ≤ tree_rank tree_parenth) :
    ∃ F1, level_inv ap1 F1 []
        (⟨(acquire_tree ap).1, (acquire_tree ap).1 :: Lv,
          (ap1.mem (acquire_tree ap).1).arg_start, fun x => x < ap1.brk ∧ x ∉ F1⟩ :: stack) h b
      ∧ (∀ x, x ∉ Lv → x ≠ (acquire_tree ap).1 → ap1.mem x = ap.mem x)
      ∧ ¬ ((acquire_tree ap).1 < ap.brk ∧ (acquire_tree ap).1 ∉ F)
      ∧ (∀ x, x < ap.brk → x ∉ F → x < ap1.brk ∧ x ∉ F1)
      ∧ (∀ i : Nat, i < b + 2 * stack.length → ap1.saved_trees i = ap.saved_trees i)
      ∧ (∀ r, (ap1.mem (acquire_tree ap).1).arg_start = some r → r ∈ Lv) := by
  obtain ⟨i1, i2, i3, i4, i5, i6, i7, i8, i9, i10⟩ := hinv
  have hstk := acquire_stack ap
  have hfr := enter_frame hs
  have hbnd := (enter_in_bounds i2 tt var).2 ap1 hs
  have hpv := @push_value_level ap
  have hs0 := hs
  unfold lily_ast_enter_tree at hs
  rcases hacq : acquire_tree ap with ⟨G, ap0⟩
  rw [hacq] at hs hstk hfr hpv
  simp only at hs hstk hfr hpv ⊢
  obtain ⟨F1, c1, c2, c3, c4, c5, c6, _⟩ := acquire_inuse hacq i1
  cases hm : merge_value (poke ap0 G (fun n =>
    { n with tree_type := tt, line_num := ap0.lex_linenum, result := var,
             args_collected := 0, arg_start := none, arg_top := none })) G with
  | error e => rw [hm] at hs; simp at hs
  | ok ap2 =>
    obtain ⟨_, ms⟩ := merge_value_frame hm
    have hst2 : stack_ok ap2 := stack_ok_of_same i2
      (same_stack_trans ms (by
        refine same_stack_trans ?_ hstk
        exact ⟨rfl, rfl, rfl⟩))
    obtain ⟨ape, e1, e2, e3, e4, e5, e6, e7, e8, e9, e10, e11, e12⟩ :=
      enter_spec tt var hacq hm hst2
    rw [hs0] at e1
    simp only [Except.ok.injEq] at e1
    subst e1
    obtain ⟨k1, k2, k3, k4, k5, k6, k7, k8⟩ := hpv (fun n =>
      { n with tree_type := tt, line_num := ap0.lex_linenum, result := var,
               args_collected := 0, arg_start := none, arg_top := none })
      (fun m => ⟨fun e => by
          simp only at e
          rw [e] at hk
          simp [tree_rank] at hk,
        fun e => by
          simp only at e
          rw [e] at hk
          simp [tree_rank] at hk,
        fun e => by
          simp only at e
          have := le_trans e hk
          simp [tree_rank] at this⟩) i1 i5 i6 i7 hm
    have hidx : ap2.save_index = ap.save_index := by
      rw [ms.2.1]
      show ap0.save_index = _
      rw [hstk.2.1]
    have hsv2 : ap2.saved_trees = ap.saved_trees := by
      rw [ms.1]
      show ap0.saved_trees = _
      rw [hstk.1]
    have htn : ap2.save_index.toNat = b + 2 * stack.length := by
      rw [hidx, i3]
      omega
    have hch1 : chain_ok ap1 F1 := chain_ok.of_same_pool c1 hfr.1
    have hbrk : ap1.brk = ap0.brk := hfr.1.1
    have huse : ∀ x, x < ap.brk → x ∉ F → x < ap1.brk ∧ x ∉ F1 := by
      intro x a b
      rw [hbrk]
      exact c5 x a b
    have hmemx : ∀ x, x ≠ G → ap1.mem x = ap2.mem x := by
      intro x hx
      rw [e2, poke_mem, if_neg hx]
    have hmemG : (ap1.mem G).tree_type = (ap2.mem G).tree_type
        ∧ (ap1.mem G).left = (ap2.mem G).left ∧ (ap1.mem G).right = (ap2.mem G).right
        ∧ (ap1.mem G).parent = ap2.active
        ∧ (ap1.mem G).arg_start = (ap2.mem G).arg_start
        ∧ (ap1.mem G).arg_top = (ap2.mem G).arg_top := by
      rw [e2]
      simp only [poke_mem, if_true, and_self]
    have hGty : (ap2.mem G).tree_type = tt := k6
    have hGnb : (ap2.mem G).tree_type ≠ tree_binary := by
      rw [hGty]
      intro e
      rw [e] at hk
      simp [tree_rank] at hk
    have hcl1 : lv_closed ap1.mem (G :: Lv) h := by
      refine lv_closed_congr k2 (fun x _ => ?_) (fun x _ _ => ?_) (fun x _ _ => ?_)
        (fun x _ hb => ?_) (fun _ _ => rfl)
      · by_cases e : x = G
        · rw [e]; exact hmemG.1
        · rw [hmemx x e]
      · by_cases e : x = G
        · rw [e]; exact hmemG.2.1
        · rw [hmemx x e]
      · by_cases e : x = G
        · rw [e]; exact hmemG.2.2.1
        · rw [hmemx x e]
      · have e : x ≠ G := fun e => hGnb (e ▸ hb)
        rw [hmemx x e]
    have hGuse : G < ap1.brk ∧ G ∉ F1 := by
      rw [hbrk]
      exact ⟨c3, c4⟩
    have hargs : (ap1.mem G).arg_start = (ap1.mem G).arg_top
        ∧ ∀ t, (ap1.mem G).arg_top = some t → t ∈ Lv := by
      rw [hmemG.2.2.2.2.1, hmemG.2.2.2.2.2]
      rcases k8 with ⟨a, b⟩ | ⟨a, b⟩
      · simp only at a b
        rw [a, b]
        exact ⟨rfl, fun t ht => by cases ht⟩
      · exact ⟨a, b⟩
    have hframe : ∀ x, x ∉ Lv → x ≠ G → ap1.mem x = ap.mem x := by
      intro x hx hxG
      rw [hmemx x hxG]
      exact k3 x hx hxG
    have hold : ∀ fr ∈ stack, ∀ x, fr.old x → x ∉ Lv ∧ x ≠ G := by
      intro fr hfr x hx
      refine ⟨fun hxl => i9 fr hfr x hxl hx, fun e => ?_⟩
      rw [e] at hx
      exact c2 ((levels_mem stack i10 fr hfr).2 _ hx)
    have hsaved : ∀ i : Nat, i < b + 2 * stack.length →
        ap1.saved_trees i = ap.saved_trees i := by
      intro i hi
      rw [e12 i (by rw [htn]; exact hi), hsv2]
    refine ⟨F1, ⟨hch1, hbnd.2.2.2, ?_, List.nodup_nil, fun x hx => absurd hx (List.not_mem_nil x),
      lv_closed_nil _ _, fun a ha => (by rw [e6] at ha; cases ha),
      fun r hr => (by rw [e5] at hr; cases hr),
      fun _ _ x hx => absurd hx (List.not_mem_nil x), ?_⟩, hframe, c2, huse, hsaved,
      fun r hr => hargs.2 r (by rw [← hargs.1]; exact hr)⟩
    · rw [hbnd.2.2.1, i3]
      simp only [List.length_cons]
      push_cast
      omega
    · refine ⟨?_, ?_, List.mem_cons_self _ _, ?_, ?_, ?_, fun x hx => hx, hcl1, ?_, ?_,
        List.nodup_cons.mpr ⟨k1, i4⟩, ?_, ?_⟩
      · show ap1.saved_trees (b + 2 * stack.length + 1) = some G
        rw [← htn]
        exact e11
      · intro r hr
        rw [← htn, e10] at hr
        rcases k5 with e | e
        · rw [e] at hr
          exact List.mem_cons_of_mem _ (i8 r hr)
        · rw [e] at hr
          rw [← Option.some.inj hr]
          exact List.mem_cons_self _ _
      · obtain ⟨p, hp, hpl⟩ := k4
        exact ⟨p, hpl, by rw [hmemG.2.2.2.1]; exact hp⟩
      · show tree_rank (ap1.mem G).tree_type ≤ _
        rw [hmemG.1, hGty]
        exact hk
      · intro x hx
        rcases List.mem_cons.mp hx with e | e
        · rw [e]; exact hGuse
        · exact huse x (i5 x e).1 (i5 x e).2
      · intro t ht _
        show (ap1.mem G).arg_start = some t
        rw [hargs.1]
        exact ht
      · intro r hr
        have hrL : r ∈ Lv := hargs.2 r (by rw [← hargs.1]; exact hr)
        refine ⟨List.mem_cons_of_mem _ hrL, fun e => k1 ?_⟩
        have e2 : r = G := e
        rw [← e2]
        exact hrL
      · intro below hb
        refine ⟨fun x hx hox => ?_, fun x hox => ?_⟩
        · obtain ⟨q1, q2⟩ := hold below hb x hox
          rcases List.mem_cons.mp hx with e | e
          · exact q2 e
          · exact q1 e
        · obtain ⟨b1, b2⟩ := (levels_mem stack i10 below hb).2 x hox
          exact huse x b1 b2
      · exact levels_keep stack i10
          (fun fr hfr x hx => ⟨hframe x (hold fr hfr x hx).1 (hold fr hfr x hx).2, rfl⟩)
          hsaved huse

/-- The facts about the innermost grouping that lily_ast_collect_arg and
lily_ast_leave_tree use. -/
theorem level_top {ap : lily_ast_pool} {F Lv : List Nat} {fr : Level} {rest : List Level}
    {h : Nat → Int} {b : Nat} (hinv : level_inv ap F Lv (fr :: rest) h b) :
    (ap.save_index - 1).toNat = b + 2 * rest.length + 1
      ∧ (ap.save_index - 2).toNat = b + 2 * rest.length
      ∧ (0 ≤ ap.save_index - 1 ∧ ap.save_index - 1 < ap.save_size)
      ∧ (0 ≤ ap.save_index - 2 ∧ ap.save_index - 2 < ap.save_size)
      ∧ ap.root ≠ some fr.node ∧ (ap.mem fr.node).arg_top ≠ some fr.node
      ∧ (∀ x, x ∉ Lv → ap.root ≠ some x)
      ∧ (∀ below ∈ rest, ∀ x, below.old x →
          x ∉ Lv ∧ x ≠ fr.node ∧ (ap.mem fr.node).arg_top ≠ some x) := by
  obtain ⟨i1, i2, i3, i4, i5, i6, i7, i8, i9, i10⟩ := hinv
  obtain ⟨a1, a2, a3, a4, a5, a6, a7, a8, a9, a10, a11, a12, a13⟩ := i10
  obtain ⟨s0, s1, s2, s3⟩ := i2
  simp only [List.length_cons] at i3
  push_cast at i3
  have hroot : ∀ x, x ∉ Lv → ap.root ≠ some x := fun x hx e => hx (i8 x e)
  refine ⟨by omega, by omega, by omega, by omega, ?_, ?_, hroot, ?_⟩
  · exact hroot _ (fun hl => i9 fr (List.mem_cons_self _ _) _ hl (a6 _ a3))
  · intro e
    exact (a10 _ (a9 _ e (a6 _ a3))).2 rfl
  · intro below hb x hx
    refine ⟨fun hl => i9 below (List.mem_cons_of_mem _ hb) x hl hx, fun e => ?_, fun e => ?_⟩
    · rw [e] at hx
      exact (a12 below hb).1 _ a3 hx
    · have := (a10 _ (a9 _ e ((a12 below hb).2 x hx))).1
      exact (a12 below hb).1 _ this hx

/-- The innermost grouping after push_tree_arg has added the root of the
sub-expression in progress to its arguments. -/
theorem levels_after_arg {ap ap1 : lily_ast_pool} {F Lv : List Nat} {fr : Level}
    {rest : List Level} {h : Nat → Int} {b : Nat}
    (hinv : level_inv ap F Lv (fr :: rest) h b)
    (hb : ap1.brk = ap.brk) (hsv : ap1.saved_trees = ap.saved_trees)
    (e1 : ∀ x, x ∉ Lv → x ≠ fr.node → (ap.mem fr.node).arg_top ≠ some x →
      ap1.mem x = ap.mem x)
    (e2 : ∀ x, x ∉ Lv → x ≠ fr.node →
      { ap1.mem x with next_arg := (ap.mem x).next_arg } = ap.mem x)
    (e3 : (ap1.mem fr.node).tree_type = (ap.mem fr.node).tree_type
      ∧ (ap1.mem fr.node).left = (ap.mem fr.node).left
      ∧ (ap1.mem fr.node).right = (ap.mem fr.node).right)
    (e4 : (ap1.mem fr.node).parent = (ap.mem fr.node).parent
      ∨ (tree_rank (ap.mem fr.node).tree_type ≤ tree_rank tree_parenth →
          ∃ p ∈ fr.trees, (ap1.mem fr.node).parent = some p))
    (e5 : ∀ t, (ap1.mem fr.node).arg_top = some t → t ∈ Lv) :
    levels_ok ap1 F h b (fr :: rest) := by
  have htop := level_top hinv
  obtain ⟨i1, i2, i3, i4, i5, i6, i7, i8, i9, i10⟩ := hinv
  obtain ⟨a1, a2, a3, a4, a5, a6, a7, a8, a9, a10, a11, a12, a13⟩ := i10
  have hx : ∀ x ∈ fr.trees, x ≠ fr.node →
      (ap1.mem x).tree_type = (ap.mem x).tree_type ∧ (ap1.mem x).left = (ap.mem x).left
        ∧ (ap1.mem x).right = (ap.mem x).right ∧ (ap1.mem x).parent = (ap.mem x).parent := by
    intro x hxt hxn
    have e := e2 x (fun hl => i9 fr (List.mem_cons_self _ _) x hl (a6 x hxt)) hxn
    have q1 := congrArg lily_ast.tree_type e
    have q2 := congrArg lily_ast.left e
    have q3 := congrArg lily_ast.right e
    have q4 := congrArg lily_ast.parent e
    exact ⟨q1, q2, q3, q4⟩
  have hnb : (ap.mem fr.node).tree_type ≠ tree_binary := by
    intro e
    rw [e] at a5
    simp [tree_rank] at a5
  refine ⟨by rw [hsv]; exact a1, by rw [hsv]; exact a2, a3, ?_, by rw [e3.1]; exact a5, a6,
    by rw [hb]; exact a7, ?_, ?_, a10, a11, a12, ?_⟩
  · rcases e4 with e | e
    · rw [e]; exact a4
    · exact e a5
  · refine lv_closed_congr a8 (fun x hxt => ?_) (fun x hxt _ => ?_) (fun x hxt _ => ?_)
      (fun x hxt hbin => ?_) (fun _ _ => rfl)
    · by_cases e : x = fr.node
      · rw [e]; exact e3.1
      · exact (hx x hxt e).1
    · by_cases e : x = fr.node
      · rw [e]; exact e3.2.1
      · exact (hx x hxt e).2.1
    · by_cases e : x = fr.node
      · rw [e]; exact e3.2.2
      · exact (hx x hxt e).2.2.1
    · have e : x ≠ fr.node := fun e => hnb (e ▸ hbin)
      exact (hx x hxt e).2.2.2
  · intro t ht hot
    exact absurd hot (i9 fr (List.mem_cons_self _ _) t (e5 t ht))
  · refine levels_keep rest a13 (fun below hbl x hxo => ⟨?_, rfl⟩) (fun i _ => by rw [hsv])
      (fun x b1 b2 => by rw [hb]; exact ⟨b1, b2⟩)
    obtain ⟨q1, q2, q3⟩ := htop.2.2.2.2.2.2.2 below hbl x hxo
    exact e1 x q1 q2 q3

/-- lily_ast_collect_arg inside a grouping: the sub-expression in progress
becomes an argument of the grouping and a new one starts; trees outside the
sub-expression keep every field, except the arguments fields of the grouping
and the next_arg of its last argument. -/
theorem level_collect {ap ap1 : lily_ast_pool} {F Lv : List Nat} {fr : Level}
    {rest : List Level} {h : Nat → Int} {b : Nat}
    (hinv : level_inv ap F Lv (fr :: rest) h b)
    (hs : lily_ast_collect_arg ap = .ok ap1) :
    level_inv ap1 F [] (fr :: rest) h b
      ∧ (∀ x, x ∉ Lv → x ≠ fr.node → (ap.mem fr.node).arg_top ≠ some x → ap1.mem x = ap.mem x)
      ∧ (∀ x, x ∉ Lv → x ≠ fr.node →
          { ap1.mem x with next_arg := (ap.mem x).next_arg } = ap.mem x)
      ∧ { ap1.mem fr.node with arg_start := (ap.mem fr.node).arg_start,
                               arg_top := (ap.mem fr.node).arg_top,
                               args_collected := (ap.mem fr.node).args_collected }
          = ap.mem fr.node
      ∧ ap1.saved_trees = ap.saved_trees ∧ ap1.brk = ap.brk := by
  have htop := level_top hinv
  obtain ⟨t1, t2, t3, t4, t5, t6, t7, t8⟩ := htop
  have hinv0 := hinv
  obtain ⟨i1, i2, i3, i4, i5, i6, i7, i8, i9, i10⟩ := hinv
  have a1 := i10.1
  unfold lily_ast_collect_arg at hs
  have h1 : saved_at ap (ap.save_index - 1) = .ok (some fr.node) := by
    unfold saved_at
    rw [if_pos t3, t1, a1]
  rw [h1] at hs
  simp only at hs
  cases h2 : push_tree_arg ap fr.node ap.root with
  | error e => rw [h2] at hs; simp at hs
  | ok ap2 =>
    rw [h2] at hs
    simp only [Except.ok.injEq] at hs
    obtain ⟨p1, p2, p3⟩ := push_tree_arg_effect h2
    obtain ⟨q1, q2⟩ := p3 t5 t6
    obtain ⟨fp, fs⟩ := push_tree_arg_frame h2
    have hm : ap1.mem = ap2.mem := by rw [← hs]
    have hb : ap1.brk = ap.brk := by rw [← hs]; exact fp.1
    have hsv : ap1.saved_trees = ap.saved_trees := by rw [← hs]; exact fs.1
    have e1 : ∀ x, x ∉ Lv → x ≠ fr.node → (ap.mem fr.node).arg_top ≠ some x →
        ap1.mem x = ap.mem x := by
      intro x hx hn ht
      rw [hm]
      exact p1 x hn (t7 x hx) ht
    have e2 : ∀ x, x ∉ Lv → x ≠ fr.node →
        { ap1.mem x with next_arg := (ap.mem x).next_arg } = ap.mem x := by
      intro x hx hn
      rw [hm]
      exact p2 x hn (t7 x hx)
    have e3 :
        { ap1.mem fr.node with arg_start := (ap.mem fr.node).arg_start,
                               arg_top := (ap.mem fr.node).arg_top,
                               args_collected := (ap.mem fr.node).args_collected }
          = ap.mem fr.node := by
      rw [hm]; exact q1
    have g1 := congrArg lily_ast.tree_type e3
    have g2 := congrArg lily_ast.left e3
    have g3 := congrArg lily_ast.right e3
    have g4 := congrArg lily_ast.parent e3
    have hlev := levels_after_arg hinv0 hb hsv e1 e2 ⟨g1, g2, g3⟩ (Or.inl g4)
      (fun t ht => i8 t (by rw [hm, q2] at ht; exact ht))
    refine ⟨⟨?_, ?_, ?_, List.nodup_nil, ?_, lv_closed_nil _ _, ?_, ?_, ?_, hlev⟩,
      e1, e2, e3, hsv, hb⟩
    · refine chain_ok.of_same_pool i1 ?_
      rw [← hs]
      exact fp
    · refine stack_ok_of_same i2 ?_
      rw [← hs]
      exact fs
    · rw [← hs]
      show ap2.save_index = _
      rw [fs.2.1]; exact i3
    · intro x hx; simp at hx
    · intro a ha; rw [← hs] at ha; simp at ha
    · intro a ha; rw [← hs] at ha; simp at ha
    · intro _ _ x hx; simp at hx

/-- lily_ast_leave_tree inside a grouping: the sub-expression in progress
becomes the last argument of the grouping, and the sub-expression that the
grouping belongs to is in progress again, with the root that was saved and
with `active` at the parent the grouping was given; trees outside the
sub-expression keep every field, except the arguments fields and the parent
of the grouping and the next_arg of its last argument. -/
theorem level_leave {ap ap1 : lily_ast_pool} {F Lv : List Nat} {fr : Level}
    {rest : List Level} {h : Nat → Int} {b : Nat}
    (hinv : level_inv ap F Lv (fr :: rest) h b)
    (hs : lily_ast_leave_tree ap = .ok ap1) :
    level_inv ap1 F fr.trees rest h b
      ∧ (∀ x, x ∉ Lv → x ≠ fr.node → (ap.mem fr.node).arg_top ≠ some x → ap1.mem x = ap.mem x)
      ∧ (∀ x, x ∉ Lv → x ≠ fr.node →
          { ap1.mem x with next_arg := (ap.mem x).next_arg } = ap.mem x)
      ∧ { ap1.mem fr.node with arg_start := (ap.mem fr.node).arg_start,
                               arg_top := (ap.mem fr.node).arg_top,
                               args_collected := (ap.mem fr.node).args_collected,
                               parent := (ap.mem fr.node).parent }
          = ap.mem fr.node
      ∧ ap1.saved_trees = ap.saved_trees ∧ ap1.brk = ap.brk
      ∧ ap1.root = ap.saved_trees (b + 2 * rest.length)
      ∧ ap1.active = (ap.mem fr.node).parent := by
  have htop := level_top hinv
  obtain ⟨t1, t2, t3, t4, t5, t6, t7, t8⟩ := htop
  have hinv0 := hinv
  have hfr := leave_frame hs
  obtain ⟨i1, i2, i3, i4, i5, i6, i7, i8, i9, i10⟩ := hinv
  have a1 := i10.1
  unfold lily_ast_leave_tree at hs
  simp only at hs
  have h1 : saved_at { ap with save_index := ap.save_index - 1 } (ap.save_index - 1)
      = .ok (some fr.node) := by
    unfold saved_at
    rw [if_pos t3, t1]
    show Except.ok (ap.saved_trees _) = _
    rw [a1]
  rw [h1] at hs
  simp only at hs
  cases h2 : push_tree_arg { ap with save_index := ap.save_index - 1 } fr.node ap.root with
  | error e => rw [h2] at hs; simp at hs
  | ok ap2 =>
    rw [h2] at hs
    simp only at hs
    obtain ⟨p1, p2, p3⟩ := push_tree_arg_effect h2
    obtain ⟨q1, q2⟩ := p3 t5 t6
    obtain ⟨fp, fs1, fs2, fs3⟩ := push_tree_arg_frame h2
    have fs2 : ap2.save_index = ap.save_index - 1 := fs2
    have fs3 : ap2.save_size = ap.save_size := fs3
    have fs1 : ap2.saved_trees = ap.saved_trees := fs1
    have fb : ap2.brk = ap.brk := fp.1
    have h3 : saved_at { ap2 with save_index := ap2.save_index - 1 } (ap2.save_index - 1)
        = .ok (ap.saved_trees (b + 2 * rest.length)) := by
      unfold saved_at
      have e : ap2.save_index - 1 = ap.save_index - 2 := by rw [fs2]; omega
      rw [e]
      have : (0 : Int) ≤ ap.save_index - 2 ∧ ap.save_index - 2
          < ({ ap2 with save_index := ap.save_index - 2 } : lily_ast_pool).save_size := by
        show _ ∧ _ < ap2.save_size
        rw [fs3]; exact t4
      rw [if_pos this, t2]
      show Except.ok (ap2.saved_trees _) = _
      rw [fs1]
    rw [h3] at hs
    simp only [Except.ok.injEq] at hs
    have g1 := congrArg lily_ast.tree_type q1
    have g2 := congrArg lily_ast.left q1
    have g3 := congrArg lily_ast.right q1
    have g4 := congrArg lily_ast.parent q1
    have g1 : (ap2.mem fr.node).tree_type = (ap.mem fr.node).tree_type := g1
    have g2 : (ap2.mem fr.node).left = (ap.mem fr.node).left := g2
    have g3 : (ap2.mem fr.node).right = (ap.mem fr.node).right := g3
    have g4 : (ap2.mem fr.node).parent = (ap.mem fr.node).parent := g4
    have hlev := @levels_after_arg ap ap2 F Lv fr rest h b hinv0 fb fs1
      (fun x hx hn ht => p1 x hn (t7 x hx) ht) (fun x hx hn => p2 x hn (t7 x hx))
      ⟨g1, g2, g3⟩ (Or.inl g4) (fun t ht => i8 t (by rw [q2] at ht; exact ht))
    obtain ⟨a1, a2, a3, a4, a5, a6, a7, a8, a9, a10, a11, a12, a13⟩ := hlev
    have hnb : (ap2.mem fr.node).tree_type ≠ tree_binary := by
      intro e
      rw [e] at a5
      simp [tree_rank] at a5
    -- the memory after the call: that of `ap2`, the parent of the grouping apart
    have hmem : ∀ x, x ≠ fr.node → ap1.mem x = ap2.mem x := by
      intro x hx
      rw [← hs]
      split_ifs
      · simp only [poke_mem, if_neg hx]
      · rfl
    have hG : { ap1.mem fr.node with parent := (ap2.mem fr.node).parent } = ap2.mem fr.node := by
      rw [← hs]
      split_ifs
      · simp only [poke_mem, if_true]
      · rfl
    have hsv : ap1.saved_trees = ap.saved_trees := by
      rw [← hs]
      split_ifs <;> exact fs1
    have hb : ap1.brk = ap.brk := hfr.1.1
    have hroot : ap1.root = ap.saved_trees (b + 2 * rest.length) := by
      rw [← hs]
      split_ifs <;> rfl
    have hact : ap1.active = (ap.mem fr.node).parent := by
      rw [← hs, ← g4]
      split_ifs <;> rfl
    have hsz : ap1.save_size = ap.save_size := by
      rw [← hs]
      split_ifs <;> exact fs3
    have k1 := congrArg lily_ast.tree_type hG
    have k2 := congrArg lily_ast.left hG
    have k3 := congrArg lily_ast.right hG
    have k1 : (ap1.mem fr.node).tree_type = (ap2.mem fr.node).tree_type := k1
    have k2 : (ap1.mem fr.node).left = (ap2.mem fr.node).left := k2
    have k3 : (ap1.mem fr.node).right = (ap2.mem fr.node).right := k3
    have hfld : ∀ x, (ap1.mem x).tree_type = (ap2.mem x).tree_type
        ∧ (ap1.mem x).left = (ap2.mem x).left ∧ (ap1.mem x).right = (ap2.mem x).right := by
      intro x
      by_cases e : x = fr.node
      · rw [e]; exact ⟨k1, k2, k3⟩
      · rw [hmem x e]; exact ⟨rfl, rfl, rfl⟩
    have hlen : ap.save_index = (b : Int) + 2 * (rest.length : Int) + 2 := by
      rw [i3]; simp only [List.length_cons]; push_cast; omega
    obtain ⟨s0, s1, s2, s3⟩ := i2
    refine ⟨⟨chain_ok.of_same_pool i1 hfr.1, ⟨?_, ?_, ?_, ?_⟩, ?_, a11, ?_, ?_, ?_, ?_, ?_, ?_⟩,
      ?_, ?_, ?_, hsv, hb, hroot, hact⟩
    · rw [hfr.2]; omega
    · rw [hfr.2]; omega
    · rw [hfr.2, hsz]; omega
    · rw [hsz]; exact s3
    · rw [hfr.2]; omega
    · intro x hx
      rw [hb]
      have := a7 x (a6 x hx)
      rw [fb] at this
      exact this
    · refine lv_closed_congr a8 (fun x _ => (hfld x).1) (fun x _ _ => (hfld x).2.1)
        (fun x _ _ => (hfld x).2.2) (fun x _ hbin => ?_) (fun _ _ => rfl)
      have e : x ≠ fr.node := fun e => hnb (e ▸ hbin)
      rw [hmem x e]
    · intro a ha
      rw [hact, ← g4] at ha
      obtain ⟨p, hp, e⟩ := a4
      rw [e] at ha
      cases ha
      exact hp
    · intro r hr
      rw [hroot, ← fs1] at hr
      exact a2 r hr
    · intro below hbl x hx
      exact (a12 below hbl).1 x hx
    · refine levels_keep rest a13 (fun below hbl x hxo => ⟨?_, rfl⟩)
        (fun i _ => by rw [hsv, fs1]) (fun x b1 b2 => by rw [hb, ← fb]; exact ⟨b1, b2⟩)
      exact hmem x (t8 below hbl x hxo).2.1
    · intro x hx hn ht
      rw [hmem x hn]
      exact p1 x hn (t7 x hx) ht
    · intro x hx hn
      rw [hmem x hn]
      exact p2 x hn (t7 x hx)
    · have e1 := congrArg lily_ast.arg_start q1
      have e2 := congrArg lily_ast.arg_top q1
      have e3 := congrArg lily_ast.args_collected q1
      rw [← q1, ← hG]

/-- One call that returns keeps the state between two calls; the record of the
sub-expressions in progress moves as nest_step says, and the trees that were in
use and are not of the sub-expression in progress keep every field, except the
arguments fields of the innermost grouping (and its parent at
lily_ast_leave_tree) and the next_arg of its last argument. -/
theorem level_step {ap apm : lily_ast_pool} {F Lv : List Nat} {stack : List Level}
    {h : Nat → Int} {b : Nat} {o : Op} (hinv : level_inv ap F Lv stack h b)
    (hs : step ap o = .ok apm) (hr : o ≠ Op.reset_pool)
    (hk : ∀ tt var, o = Op.enter_tree tt var → tree_rank tt ≤ tree_rank tree_parenth)
    (hc : o = Op.collect_arg → stack ≠ []) (hl : o = Op.leave_tree → stack ≠ []) :
    ∃ F1 Lv1 stack1 h1, level_inv apm F1 Lv1 stack1 h1 b
      ∧ (Lv1, stack1.map Level.trees) = nest_step ap o (Lv, stack.map Level.trees)
      ∧ (stack1.length : Int) = stack.length + open_count [o]
      ∧ (stack1 = stack ∨ (∃ fr, stack1 = fr :: stack)
          ∨ (o = Op.leave_tree ∧ ∃ fr, stack = fr :: stack1))
      ∧ (∀ x, x < ap.brk → x ∉ F → x < apm.brk ∧ x ∉ F1)
      ∧ (o.acquires = true → ¬ ((acquire_tree ap).1 < ap.brk ∧ (acquire_tree ap).1 ∉ F)
          ∧ (acquire_tree ap).1 < apm.brk ∧ (acquire_tree ap).1 ∉ F1)
      ∧ (∀ i, i < b + 2 * stack.length → apm.saved_trees i = ap.saved_trees i)
      ∧ (∀ x, x < ap.brk → x ∉ F → x ∉ Lv →
          (∀ fr rest, stack = fr :: rest →
            x ≠ fr.node ∧ (ap.mem fr.node).arg_top ≠ some x) → apm.mem x = ap.mem x)
      ∧ (∀ fr rest, stack = fr :: rest →
          (∀ x, x < ap.brk → x ∉ F → x ∉ Lv → x ≠ fr.node →
            { apm.mem x with next_arg := (ap.mem x).next_arg } = ap.mem x)
          ∧ (o ≠ Op.leave_tree →
              { apm.mem fr.node with arg_start := (ap.mem fr.node).arg_start,
                                     arg_top := (ap.mem fr.node).arg_top,
                                     args_collected := (ap.mem fr.node).args_collected }
                = ap.mem fr.node)) := by
  have hGuse : ∀ fr rest, stack = fr :: rest →
      fr.node < ap.brk ∧ fr.node ∉ F ∧ fr.node ∉ Lv := by
    intro fr rest e
    subst e
    obtain ⟨_, _, _, _, _, _, _, _, i9, i10⟩ := hinv
    obtain ⟨_, _, a3, _, _, a6, a7, _⟩ := i10
    exact ⟨(a7 _ (a6 _ a3)).1, (a7 _ (a6 _ a3)).2,
      fun hm => i9 fr (List.mem_cons_self _ _) _ hm (a6 _ a3)⟩
  cases o
  case reset_pool => exact absurd rfl hr
  case enter_tree tt var =>
    obtain ⟨F1, k1, k2, k3, k4, k5, k6⟩ := level_enter hinv hs (hk tt var rfl)
    have hG := k1.2.2.2.2.2.2.2.2.2
    obtain ⟨_, _, a3, _, _, a6, a7, _⟩ := hG
    have hnew := a7 _ (a6 _ a3)
    have same : ∀ x, x < ap.brk → x ∉ F → x ∉ Lv → apm.mem x = ap.mem x :=
      fun x a1 a2 a3 => k2 x a3 (fun e => k3 (e ▸ ⟨a1, a2⟩))
    refine ⟨F1, [], _, h, k1, rfl, ?_, Or.inr (Or.inl ⟨_, rfl⟩), k4,
      fun _ => ⟨k3, hnew⟩, k5, fun x a1 a2 a3 _ => same x a1 a2 a3,
      fun fr rest e => ⟨fun x a1 a2 a3 _ => (by rw [same x a1 a2 a3]),
        fun _ => by
          obtain ⟨g1, g2, g3⟩ := hGuse fr rest e
          rw [same _ g1 g2 g3]⟩⟩
    simp only [List.length_cons, open_count]
    push_cast
    omega
  case collect_arg =>
    obtain ⟨fr, rest, e⟩ := List.exists_cons_of_ne_nil (hc rfl)
    subst e
    obtain ⟨k1, k2, k3, k4, k5, k6⟩ := level_collect hinv hs
    refine ⟨F, [], _, h, k1, rfl, (by simp [open_count]), Or.inl rfl,
      fun x a1 a2 => ⟨(by rw [k6]; exact a1), a2⟩, fun ha => (by cases ha),
      fun i _ => (by rw [k5]), fun x _ _ a3 a4 => ?_, fun fr1 rest1 e => ?_⟩
    · obtain ⟨q1, q2⟩ := a4 fr rest rfl
      exact k2 x a3 q1 q2
    · cases e
      exact ⟨fun x _ _ a3 a4 => k3 x a3 a4, fun _ => k4⟩
  case leave_tree =>
    obtain ⟨fr, rest, e⟩ := List.exists_cons_of_ne_nil (hl rfl)
    subst e
    obtain ⟨k1, k2, k3, k4, k5, k6, _⟩ := level_leave hinv hs
    refine ⟨F, fr.trees, rest, h, k1, rfl, ?_, Or.inr (Or.inr ⟨rfl, fr, rfl⟩),
      fun x a1 a2 => ⟨(by rw [k6]; exact a1), a2⟩, fun ha => (by cases ha),
      fun i _ => (by rw [k5]), fun x _ _ a3 a4 => ?_, fun fr1 rest1 e => ?_⟩
    · simp only [List.length_cons, open_count]
      push_cast
      omega
    · obtain ⟨q1, q2⟩ := a4 fr rest rfl
      exact k2 x a3 q1 q2
    · cases e
      exact ⟨fun x _ _ a3 a4 => k3 x a3 a4, fun hne => absurd rfl hne⟩
  all_goals
    obtain ⟨F1, hh, k1, k2, k3, k4, k5⟩ := level_push hinv hs rfl (fun _ _ e => by cases e)
    have hnew := k1.2.2.2.2.1 _ (List.mem_cons_self _ _)
    have same : ∀ x, x < ap.brk → x ∉ F → x ∉ Lv → apm.mem x = ap.mem x :=
      fun x a1 a2 a3 => k2 x a3 (fun e => k3 (e ▸ ⟨a1, a2⟩))
    exact ⟨F1, _, stack, hh, k1, rfl, (by simp [open_count]), Or.inl rfl, k4,
      fun _ => ⟨k3, hnew⟩, fun i _ => (by rw [k5]), fun x a1 a2 a3 _ => same x a1 a2 a3,
      fun fr rest e => ⟨fun x a1 a2 a3 _ => (by rw [same x a1 a2 a3]),
        fun _ => by
          obtain ⟨g1, g2, g3⟩ := hGuse fr rest e
          rw [same _ g1 g2 g3]⟩⟩

/-- The state between two calls holds along every run of calls other than
lily_ast_reset_pool in which no lily_ast_leave_tree and no lily_ast_collect_arg
comes without a grouping that is collecting. -/
theorem level_run : ∀ (ops : List Op) (ap ap1 : lily_ast_pool) (F Lv : List Nat)
    (stack : List Level) (h : Nat → Int) (b : Nat),
    level_inv ap F Lv stack h b → Op.reset_pool ∉ ops →
    (∀ tt var, Op.enter_tree tt var ∈ ops → tree_rank tt ≤ tree_rank tree_parenth) →
    (∀ pre, pre <+: ops → 0 ≤ (stack.length : Int) + open_count pre) →
    (∀ pre post, ops = pre ++ Op.collect_arg :: post →
      1 ≤ (stack.length : Int) + open_count pre) →
    run ops ap = .ok ap1 →
    ∃ F1 Lv1 stack1 h1, level_inv ap1 F1 Lv1 stack1 h1 b
      ∧ (Lv1, stack1.map Level.trees) = nesting ops ap (Lv, stack.map Level.trees)
      ∧ (stack1.length : Int) = stack.length + open_count ops
      ∧ (∀ x, x < ap.brk → x ∉ F → x < ap1.brk ∧ x ∉ F1)
      ∧ (∀ x ∈ handed_out ops ap, ¬ (x < ap.brk ∧ x ∉ F) ∧ x < ap1.brk ∧ x ∉ F1)
  | [], ap, ap1, F, Lv, stack, h, b, hinv, _, _, _, _, hr => by
    simp only [run, Except.ok.injEq] at hr
    subst hr
    exact ⟨F, Lv, stack, h, hinv, rfl, by simp [open_count], fun x a1 a2 => ⟨a1, a2⟩,
      fun x hx => by simp [handed_out] at hx⟩
  | o :: os, ap, ap1, F, Lv, stack, h, b, hinv, hn, hk, hpre, hcol, hr => by
    obtain ⟨apm, hs, hr2⟩ := run_cons_ok hr
    have hc : o = Op.collect_arg → stack ≠ [] := by
      intro e hnil
      have := hcol [] os (by rw [e]; rfl)
      rw [hnil] at this
      simp [open_count] at this
    have hl : o = Op.leave_tree → stack ≠ [] := by
      intro e hnil
      have := hpre [o] ⟨os, rfl⟩
      rw [hnil, e] at this
      simp [open_count] at this
    obtain ⟨Fm, Lvm, stackm, hm, k1, k2, k3, _, k5, k6, _⟩ :=
      level_step hinv hs (fun e => hn (e ▸ List.mem_cons_self _ _))
        (fun tt var e => hk tt var (e ▸ List.mem_cons_self _ _)) hc hl
    obtain ⟨F1, Lv1, stack1, h1, r1, r2, r3, r4, r5⟩ :=
      level_run os apm ap1 Fm Lvm stackm hm b k1
        (fun hm => hn (List.mem_cons_of_mem _ hm))
        (fun tt var hm => hk tt var (List.mem_cons_of_mem _ hm))
        (fun pre hp => by
          have := hpre (o :: pre) (by
            obtain ⟨t, ht⟩ := hp
            exact ⟨t, by rw [← ht]; rfl⟩)
          rw [open_count_cons] at this
          omega)
        (fun pre post e => by
          have := hcol (o :: pre) post (by rw [e]; rfl)
          rw [open_count_cons] at this
          omega) hr2
    refine ⟨F1, Lv1, stack1, h1, r1, ?_, ?_, fun x a1 a2 => ?_, fun x hx => ?_⟩
    · rw [r2, k2]
      simp only [nesting, hs]
    · rw [r3, k3, open_count_cons o os]
      omega
    · obtain ⟨b1, b2⟩ := k5 x a1 a2
      exact r4 x b1 b2
    · simp only [handed_out, hs, List.mem_append] at hx
      rcases hx with hx | hx
      · by_cases ha : o.acquires = true
        · rw [if_pos ha] at hx
          simp only [List.mem_singleton] at hx
          obtain ⟨q1, q2, q3⟩ := k6 ha
          rw [hx]
          exact ⟨q1, r4 _ q2 q3⟩
        · rw [if_neg ha] at hx
          simp at hx
      · obtain ⟨q1, q2⟩ := r5 x hx
        exact ⟨fun hu => q1 (k5 x hu.1 hu.2), q2⟩

/-- The chain of `parent` links that starts at a binary tree of the
sub-expression in progress ends, and stays among the binary trees of the
sub-expression. -/
theorem parent_chain_exists {mem : Nat → lily_ast} {Lv : List Nat} {h : Nat → Int}
    (hcl : lv_closed mem Lv h) :
    ∀ (n x : Nat), x ∈ Lv → (mem x).tree_type = tree_binary →
      (Lv.filter (fun y => decide (h y < h x))).length < n →
      ∃ chain, parent_chain mem (some x) chain
        ∧ (∀ y ∈ chain, y ∈ Lv ∧ (mem y).tree_type = tree_binary ∧ h y ≤ h x)
        ∧ chain.Pairwise (fun a b => h b < h a)
  | 0, _, _, _, hn => absurd hn (Nat.not_lt_zero _)
  | n + 1, x, hx, hb, hn => by
    cases hp : (mem x).parent with
    | none =>
      refine ⟨[x], ⟨rfl, hp⟩, fun y hy => ?_, List.pairwise_singleton _ _⟩
      simp only [List.mem_singleton] at hy
      rw [hy]
      exact ⟨hx, hb, le_refl _⟩
    | some p =>
      obtain ⟨p1, p2, p3⟩ := hcl.2.2 x hx hb p hp
      have hsub : List.Sublist (Lv.filter (fun y => decide (h y < h p)))
          (Lv.filter (fun y => decide (h y < h x))) := by
        refine List.monotone_filter_right Lv (fun y hy => ?_)
        simp only [decide_eq_true_eq] at hy ⊢
        omega
      have hlt : (Lv.filter (fun y => decide (h y < h p))).length
          < (Lv.filter (fun y => decide (h y < h x))).length := by
        rcases Nat.lt_or_ge (Lv.filter (fun y => decide (h y < h p))).length
          (Lv.filter (fun y => decide (h y < h x))).length with hl | hl
        · exact hl
        · exfalso
          have e := hsub.eq_of_length_le hl
          have hm : p ∈ Lv.filter (fun y => decide (h y < h x)) := by
            simp only [List.mem_filter, decide_eq_true_eq]
            exact ⟨p1, p3⟩
          rw [← e] at hm
          simp only [List.mem_filter, decide_eq_true_eq] at hm
          omega
      obtain ⟨chain, c1, c2, c3⟩ := parent_chain_exists hcl n p p1 p2 (by omega)
      refine ⟨x :: chain, ⟨rfl, by rw [hp]; exact c1⟩, fun y hy => ?_,
        List.pairwise_cons.mpr ⟨fun y hy => ?_, c3⟩⟩
      · rcases List.mem_cons.mp hy with e | e
        · rw [e]
          exact ⟨hx, hb, le_refl _⟩
        · obtain ⟨q1, q2, q3⟩ := c2 y e
          exact ⟨q1, q2, by omega⟩
      · have := (c2 y hy).2.2
        omega

/-- The chain of `parent` links depends on the `parent` of its trees only. -/
theorem parent_chain_congr {mem mem1 : Nat → lily_ast} :
    ∀ (chain : List Nat) (t : Option Nat),
      (∀ y ∈ chain, (mem1 y).parent = (mem y).parent) →
      parent_chain mem t chain → parent_chain mem1 t chain
  | [], _, _, hc => hc
  | x :: rest, t, hm, hc => by
    refine ⟨hc.1, ?_⟩
    rw [hm x (List.mem_cons_self _ _)]
    exact parent_chain_congr rest _ (fun y hy => hm y (List.mem_cons_of_mem _ hy)) hc.2

/-- The chain of `parent` links from a tree is unique. -/
theorem parent_chain_unique {mem : Nat → lily_ast} :
    ∀ (c1 c2 : List Nat) (t : Option Nat),
      parent_chain mem t c1 → parent_chain mem t c2 → c1 = c2
  | [], [], _, _, _ => rfl
  | [], y :: c2, t, h1, h2 => by
    have e1 : t = none := h1
    rw [e1] at h2
    cases h2.1
  | x :: c1, [], t, h1, h2 => by
    have e2 : t = none := h2
    rw [e2] at h1
    cases h1.1
  | x :: c1, y :: c2, t, h1, h2 => by
    have e : x = y := by
      have := h1.1.symm.trans h2.1
      exact Option.some.inj this
    subst e
    rw [parent_chain_unique c1 c2 _ h1.2 h2.2]

/-- The climb along a chain of `parent` links that ends: with as many
iterations allowed as the chain has links, the loop returns a tree of the
chain, after fewer iterations than the chain has trees. -/
theorem climb_along {mem : Nat → lily_ast} (q : Int) :
    ∀ (chain : List Nat) (fuel x : Nat), parent_chain mem (some x) chain →
      chain.length ≤ fuel + 1 →
      ∃ k T, climb mem q fuel x = some T ∧ climb_count mem q fuel x = some k
        ∧ k + 1 ≤ chain.length ∧ T ∈ chain
  | [], _, _, hc, _ => by cases hc
  | y :: rest, fuel, x, hc, hf => by
    obtain ⟨e, hrest⟩ := hc
    have e : x = y := Option.some.inj e
    subst e
    unfold climb climb_count
    cases hp : (mem x).parent with
    | none =>
      exact ⟨0, x, rfl, rfl, by simp, List.mem_cons_self _ _⟩
    | some p =>
      simp only
      by_cases hq : q > (mem p).priority
      · rw [if_pos hq, if_pos hq]
        exact ⟨0, x, rfl, rfl, by simp, List.mem_cons_self _ _⟩
      · rw [if_neg hq, if_neg hq]
        rw [hp] at hrest
        cases rest with
        | nil => cases hrest
        | cons z rest2 =>
          cases fuel with
          | zero => simp at hf
          | succ f =>
            simp only
            obtain ⟨k, T, k1, k2, k3, k4⟩ := climb_along q (z :: rest2) f p hrest
              (by simp only [List.length_cons] at hf ⊢; omega)
            refine ⟨k + 1, T, k1, by rw [k2]; rfl, ?_, List.mem_cons_of_mem _ k4⟩
            simp only [List.length_cons] at k3 ⊢
            omega

/-- acquire_tree does not lower `brk`. -/
theorem acquire_brk_le (ap : lily_ast_pool) : ap.brk ≤ (acquire_tree ap).2.brk := by
  unfold acquire_tree
  cases ap.available_current with
  | some a => exact le_refl _
  | none => exact Nat.le_succ _

/-- In a state between two calls the climb from an active binary tree follows a
chain of `parent` links that ends, through binary trees of the sub-expression in
progress that are pairwise distinct. -/
theorem level_chain {ap : lily_ast_pool} {F Lv : List Nat} {stack : List Level}
    {h : Nat → Int} {b : Nat} (hinv : level_inv ap F Lv stack h b)
    {a : Nat} (ha : ap.active = some a) (hb : (ap.mem a).tree_type = tree_binary) :
    ∃ chain, parent_chain ap.mem (some a) chain ∧ chain.Nodup
      ∧ (∀ x ∈ chain, (ap.mem x).tree_type = tree_binary ∧ x ∈ Lv)
      ∧ chain.length ≤ (Lv.filter
          (fun x => decide ((ap.mem x).tree_type = tree_binary))).length
      ∧ chain.length ≤ ap.brk := by
  obtain ⟨i1, i2, i3, i4, i5, i6, i7, i8, i9, i10⟩ := hinv
  obtain ⟨chain, c1, c2, c3⟩ := parent_chain_exists i6 _ a (i7 a ha) hb (Nat.lt_succ_self _)
  have hnd : chain.Nodup := by
    refine List.Pairwise.imp ?_ c3
    intro x y hxy e
    rw [e] at hxy
    exact lt_irrefl _ hxy
  refine ⟨chain, c1, hnd, fun x hx => ⟨(c2 x hx).2.1, (c2 x hx).1⟩, ?_, ?_⟩
  · refine (List.subperm_of_subset hnd (fun x hx => ?_)).length_le
    simp only [List.mem_filter, decide_eq_true_eq]
    exact ⟨(c2 x hx).1, (c2 x hx).2.1⟩
  · exact nodup_length_le hnd (fun x hx => (i5 x (c2 x hx).1).1)

/-- In a state between two calls, the trees of the sub-expression in progress
are as they were when lily_ast_push_binary_op has initialised its new tree. -/
theorem binary_init_mem {ap : lily_ast_pool} {F Lv : List Nat} {stack : List Level}
    {h : Nat → Int} {b : Nat} (hinv : level_inv ap F Lv stack h b) (o : lily_expr_op) :
    (∀ y ∈ Lv, (binary_init ap o).mem y = ap.mem y)
      ∧ ap.brk ≤ (binary_init ap o).brk
      ∧ (binary_init ap o).active = ap.active := by
  obtain ⟨i1, i2, i3, i4, i5, i6, i7, i8, i9, i10⟩ := hinv
  obtain ⟨F1, c1, c2, _⟩ := @acquire_inuse ap (acquire_tree ap).2 (acquire_tree ap).1 F rfl i1
  refine ⟨fun y hy => ?_, acquire_brk_le ap, acquire_active ap⟩
  have hne : y ≠ (acquire_tree ap).1 := fun e => c2 (e ▸ i5 y hy)
  unfold binary_init
  rw [poke_mem, if_neg hne]
  exact acquire_mem ap y hne

/-- In a state between two calls the climb of lily_ast_push_binary_op returns:
from an active binary tree it makes fewer iterations than its chain of `parent`
links has trees. -/
theorem level_climb {ap : lily_ast_pool} {F Lv : List Nat} {stack : List Level}
    {h : Nat → Int} {b : Nat} (hinv : level_inv ap F Lv stack h b) (o : lily_expr_op)
    {a : Nat} (ha : ap.active = some a) (hb : (ap.mem a).tree_type = tree_binary)
    {chain : List Nat} (hc : parent_chain ap.mem (some a) chain) :
    ∃ k T, climb (binary_init ap o).mem (priority_for_op o) (binary_init ap o).brk a = some T
      ∧ climb_count (binary_init ap o).mem (priority_for_op o) (binary_init ap o).brk a
          = some k
      ∧ k + 1 ≤ chain.length ∧ T ∈ chain := by
  obtain ⟨chain1, c1, c2, c3, c4, c5⟩ := level_chain hinv ha hb
  have e := parent_chain_unique _ _ _ hc c1
  subst e
  obtain ⟨m1, m2, m3⟩ := binary_init_mem hinv o
  have hc1 : parent_chain (binary_init ap o).mem (some a) chain :=
    parent_chain_congr chain _ (fun y hy => by rw [m1 y (c3 y hy).2]) hc
  exact climb_along (priority_for_op o) chain _ a hc1 (by omega)

/-- In a state between two calls lily_ast_push_binary_op does not run out of
the iterations given to its climb. -/
theorem push_binary_returns {ap : lily_ast_pool} {F Lv : List Nat} {stack : List Level}
    {h : Nat → Int} {b : Nat} (hinv : level_inv ap F Lv stack h b) (o : lily_expr_op) :
    lily_ast_push_binary_op ap o ≠ .error Fault.no_return := by
  intro herr
  obtain ⟨m1, m2, m3⟩ := binary_init_mem hinv o
  have hact := hinv.2.2.2.2.2.2.1
  unfold lily_ast_push_binary_op at herr
  have hpair : acquire_tree ap = ((acquire_tree ap).1, (acquire_tree ap).2) := rfl
  rw [hpair] at herr
  simp only at herr
  cases ha : (acquire_tree ap).2.active with
  | none => rw [ha] at herr; simp at herr
  | some a =>
    rw [ha] at herr
    simp only at herr
    have ha1 : ap.active = some a := by rw [← acquire_active ap]; exact ha
    have hma := m1 a (hact a ha1)
    unfold binary_init at hma
    split_ifs at herr with h1 h2 h3
    have hb : (ap.mem a).tree_type = tree_binary := by rw [← hma]; exact h2
    obtain ⟨chain, c1, _⟩ := level_chain hinv ha1 hb
    obtain ⟨k, T, k1, _⟩ := level_climb hinv o ha1 hb c1
    unfold binary_init at k1
    simp only [poke_mem, if_true] at herr
    rw [k1] at herr
    simp at herr

/-- Calls that return keep the save stack well formed. -/
theorem run_stack_ok : ∀ (ops : List Op) (ap ap1 : lily_ast_pool),
    stack_ok ap → run ops ap = .ok ap1 → stack_ok ap1
  | [], ap, ap1, hst, hr => by
    simp only [run, Except.ok.injEq] at hr
    subst hr
    exact hst
  | o :: os, ap, ap1, hst, hr => by
    obtain ⟨apm, hs, hr2⟩ := run_cons_ok hr
    exact run_stack_ok os apm ap1 (step_stack_ok hs hst) hr2

/-- After lily_ast_reset_pool, in a state reached from lily_new_ast_pool, no
sub-expression is in progress and no tree is in use; `save_index` is what the
calls before have left. -/
theorem reset_level (mem : Nat → lily_ast) (buf : Nat → Option Nat) (line c : Nat)
    (hc : 1 ≤ c) {ops0 : List Op} {ap0 : lily_ast_pool}
    (h0 : run ops0 (lily_new_ast_pool mem buf line c) = .ok ap0) :
    ∃ F, level_inv (lily_ast_reset_pool ap0) F [] [] (fun _ => 0) ap0.save_index.toNat
      ∧ ∀ x, x < ap0.brk → x ∈ F := by
  obtain ⟨P0, hs0, _⟩ := new_pool_pool_split mem buf line c
  obtain ⟨U1, Fc1, k1, _⟩ := pool_run ops0 _ ap0 [] P0 hs0 h0
  obtain ⟨p1, p2, p3, p4, p5⟩ := k1
  have hst := run_stack_ok ops0 _ ap0 (new_pool_stack_ok mem buf line c hc) h0
  have hall : ∀ x, x < ap0.brk → x ∈ U1 ++ Fc1 := by
    intro x hx
    by_contra hne
    have hnd : (x :: (U1 ++ Fc1)).Nodup := List.nodup_cons.mpr ⟨hne, p3⟩
    have := nodup_length_le hnd (fun y hy => by
      rcases List.mem_cons.mp hy with e | e
      · rw [e]; exact hx
      · exact p4 y e)
    simp only [List.length_cons] at this
    omega
  refine ⟨U1 ++ Fc1, ⟨⟨p1, p3, p4⟩, hst, ?_, List.nodup_nil,
    fun x hx => absurd hx (List.not_mem_nil x), lv_closed_nil _ _,
    fun a ha => (by cases ha), fun r hr => (by cases hr),
    fun fr hfr => absurd hfr (List.not_mem_nil fr), trivial⟩, hall⟩
  show ap0.save_index = _
  have := hst.1
  simp only [List.length_nil]
  push_cast
  omega

/-- The groupings below those entered last are well formed by themselves. -/
theorem levels_ok_suffix {ap : lily_ast_pool} {F : List Nat} {h : Nat → Int} {b : Nat} :
    ∀ (top rest : List Level), levels_ok ap F h b (top ++ rest) → levels_ok ap F h b rest
  | [], _, hl => hl
  | _ :: top, rest, hl => levels_ok_suffix top rest hl.2.2.2.2.2.2.2.2.2.2.2.2

theorem kept_refl (fr : Level) (n : Nat) (ap : lily_ast_pool) : kept fr n ap ap :=
  ⟨fun _ _ _ => rfl, fun _ _ _ _ => rfl, rfl, fun _ _ => rfl⟩

theorem kept_trans {fr : Level} {n : Nat} {ap apm ap1 : lily_ast_pool}
    (h1 : kept fr n ap apm) (h2 : kept fr n apm ap1) : kept fr n ap ap1 := by
  obtain ⟨a1, a2, a3, a4⟩ := h1
  obtain ⟨b1, b2, b3, b4⟩ := h2
  refine ⟨fun x hx hn => ?_, fun x hx hn hr => ?_, ?_, fun i hi => ?_⟩
  · have e1 := b1 x hx hn
    have e2 := a1 x hx hn
    calc { ap1.mem x with next_arg := (ap.mem x).next_arg }
        = { ({ ap1.mem x with next_arg := (apm.mem x).next_arg } : lily_ast) with
            next_arg := (ap.mem x).next_arg } := rfl
      _ = { apm.mem x with next_arg := (ap.mem x).next_arg } := by rw [e1]
      _ = ap.mem x := e2
  · rw [b2 x hx hn hr, a2 x hx hn hr]
  · calc { ap1.mem fr.node with arg_start := (ap.mem fr.node).arg_start,
                                arg_top := (ap.mem fr.node).arg_top,
                                args_collected := (ap.mem fr.node).args_collected }
        = { ({ ap1.mem fr.node with arg_start := (apm.mem fr.node).arg_start,
                                    arg_top := (apm.mem fr.node).arg_top,
                                    args_collected := (apm.mem fr.node).args_collected }
              : lily_ast) with
            arg_start := (ap.mem fr.node).arg_start,
            arg_top := (ap.mem fr.node).arg_top,
            args_collected := (ap.mem fr.node).args_collected } := rfl
      _ = { apm.mem fr.node with arg_start := (ap.mem fr.node).arg_start,
                                 arg_top := (ap.mem fr.node).arg_top,
                                 args_collected := (ap.mem fr.node).args_collected } := by
          rw [b3]
      _ = ap.mem fr.node := a3
  · rw [b4 i hi, a4 i hi]

/-- One call inside the grouping `frE`, other than the lily_ast_leave_tree that
closes it, leaves alone the trees that were in use when it was entered. -/
theorem inner_step {frE : Level} {stack0 istack : List Level} {ap apm : lily_ast_pool}
    {F Lv : List Nat} {h : Nat → Int} {b : Nat} {o : Op}
    (hinv : level_inv ap F Lv (istack ++ frE :: stack0) h b)
    (hs : step ap o = .ok apm) (hr : o ≠ Op.reset_pool)
    (hk : ∀ tt var, o = Op.enter_tree tt var → tree_rank tt ≤ tree_rank tree_parenth)
    (hl : o = Op.leave_tree → istack ≠ []) :
    ∃ F1 Lv1 istack1 h1, level_inv apm F1 Lv1 (istack1 ++ frE :: stack0) h1 b
      ∧ (istack1.length : Int) = istack.length + open_count [o]
      ∧ kept frE (b + 2 * (stack0.length + 1)) ap apm := by
  have hne : istack ++ frE :: stack0 ≠ [] := by simp
  obtain ⟨F1, Lv1, stack1, h1, k1, _, k3, k4, _, _, k7, k8, k9⟩ :=
    level_step hinv hs hr hk (fun _ => hne) (fun _ => hne)
  have hinv0 := hinv
  obtain ⟨i1, i2, i3, i4, i5, i6, i7, i8, i9, i10⟩ := hinv
  have hmemE : frE ∈ istack ++ frE :: stack0 :=
    List.mem_append_right _ (List.mem_cons_self _ _)
  have huse := (levels_mem _ i10 frE hmemE).2
  have hLv : ∀ x, frE.old x → x ∉ Lv := fun x hx hm => i9 frE hmemE x hm hx
  have hkept : kept frE (b + 2 * (stack0.length + 1)) ap apm := by
    have hsv : ∀ i, i < b + 2 * (stack0.length + 1) → apm.saved_trees i = ap.saved_trees i := by
      intro i hi
      refine k7 i ?_
      simp only [List.length_append, List.length_cons]
      omega
    cases istack with
    | nil =>
      simp only [List.nil_append] at i10 k8 k9 hl
      obtain ⟨e1, e2⟩ := k9 frE stack0 rfl
      obtain ⟨_, _, a3, _, _, a6, _, _, a9, _⟩ := i10
      refine ⟨fun x hx hn => e1 x (huse x hx).1 (huse x hx).2 (hLv x hx) hn,
        fun x hx hn hrc => ?_, e2 (fun e => hl e rfl), hsv⟩
      refine k8 x (huse x hx).1 (huse x hx).2 (hLv x hx) (fun fr rest e => ?_)
      simp only [List.cons.injEq] at e
      rw [← e.1]
      exact ⟨hn, fun e2 => hrc (a9 x e2 hx)⟩
    | cons fr it =>
      have hsame : ∀ x, frE.old x → apm.mem x = ap.mem x := by
        intro x hx
        have t8 := (level_top hinv0).2.2.2.2.2.2.2 frE
            (List.mem_append_right _ (List.mem_cons_self _ _)) x hx
        refine k8 x (huse x hx).1 (huse x hx).2 (hLv x hx) (fun fr1 rest1 e => ?_)
        simp only [List.cons_append, List.cons.injEq] at e
        rw [← e.1]
        exact ⟨t8.2.1, t8.2.2⟩
      obtain ⟨_, _, a3, _, _, a6, _⟩ := (levels_ok_suffix _ _ i10 : levels_ok ap F h b (frE :: stack0))
      refine ⟨fun x hx _ => by rw [hsame x hx], fun x hx _ _ => hsame x hx, ?_, hsv⟩
      rw [hsame _ (a6 _ a3)]
  rcases k4 with e | ⟨fr, e⟩ | ⟨e0, fr, e⟩
  · subst e
    refine ⟨F1, Lv1, istack, h1, k1, ?_, hkept⟩
    have := k3
    omega
  · subst e
    refine ⟨F1, Lv1, fr :: istack, h1, k1, ?_, hkept⟩
    simp only [List.length_cons, List.length_append] at k3 ⊢
    push_cast at k3 ⊢
    omega
  · cases istack with
    | nil => exact absurd rfl (hl e0)
    | cons fr1 it =>
      simp only [List.cons_append, List.cons.injEq] at e
      obtain ⟨_, e⟩ := e
      subst e
      refine ⟨F1, Lv1, it, h1, k1, ?_, hkept⟩
      simp only [List.length_cons, List.length_append] at k3 ⊢
      push_cast at k3 ⊢
      omega

/-- The calls between lily_ast_enter_tree and the lily_ast_leave_tree that
closes the grouping leave alone the trees that were in use when the grouping was
entered. -/
theorem inner_run (frE : Level) (stack0 : List Level) :
    ∀ (ops : List Op) (ap ap1 : lily_ast_pool) (F Lv : List Nat) (istack : List Level)
      (h : Nat → Int) (b : Nat),
    level_inv ap F Lv (istack ++ frE :: stack0) h b → Op.reset_pool ∉ ops →
    (∀ tt var, Op.enter_tree tt var ∈ ops → tree_rank tt ≤ tree_rank tree_parenth) →
    (∀ pre, pre <+: ops → 0 ≤ (istack.length : Int) + open_count pre) →
    run ops ap = .ok ap1 →
    kept frE (b + 2 * (stack0.length + 1)) ap ap1
  | [], ap, ap1, F, Lv, istack, h, b, _, _, _, _, hr => by
    simp only [run, Except.ok.injEq] at hr
    subst hr
    exact kept_refl _ _ _
  | o :: os, ap, ap1, F, Lv, istack, h, b, hinv, hn, hk, hpre, hr => by
    obtain ⟨apm, hs, hr2⟩ := run_cons_ok hr
    have hl : o = Op.leave_tree → istack ≠ [] := by
      intro e hnil
      have := hpre [o] ⟨os, rfl⟩
      rw [hnil, e] at this
      simp [open_count] at this
    obtain ⟨Fm, Lvm, istackm, hm, k1, k2, k3⟩ :=
      inner_step hinv hs (fun e => hn (e ▸ List.mem_cons_self _ _))
        (fun tt var e => hk tt var (e ▸ List.mem_cons_self _ _)) hl
    refine kept_trans k3 (inner_run frE stack0 os apm ap1 Fm Lvm istackm hm b k1
      (fun hm => hn (List.mem_cons_of_mem _ hm))
      (fun tt var hm => hk tt var (List.mem_cons_of_mem _ hm))
      (fun pre hp => ?_) hr2)
    have := hpre (o :: pre) (by
      obtain ⟨t, ht⟩ := hp
      exact ⟨t, by rw [← ht]; rfl⟩)
    rw [open_count_cons] at this
    omega

/-! ## The references between the trees in use: what every call keeps -/

/-- A unary tree that becomes the `left` of a binary tree keeps the `parent`
it had: after `-a + b` the binary tree (tree 2) is the root and has the unary
tree (tree 1) as `left`, and the `parent` of the unary tree is still NULL. -/
theorem unary_left_parent_unwritten :
    ∃ ap1, run [Op.push_unary_op expr_unary_minus, Op.push_sym (some 1),
        Op.push_binary_op expr_plus, Op.push_sym (some 2)]
        (lily_ast_reset_pool example_pool) = .ok ap1
      ∧ ap1.root = some 2 ∧ (ap1.mem 2).tree_type = tree_binary
      ∧ (ap1.mem 2).left = some 1 ∧ (ap1.mem 1).tree_type = tree_unary
      ∧ (ap1.mem 1).parent = none :=
  ⟨_, state_of_returned (by decide!), by decide!, by decide!, by decide!, by decide!,
    by decide!⟩

/-- A grouping that becomes the `left` of a binary tree has no `parent`: after
`f() + b` the binary tree (tree 0) is the root and has the call (tree 1) as
`left`, and the `parent` of the call is NULL. -/
theorem grouping_left_parent_unwritten :
    ∃ ap1, run [Op.enter_tree tree_call (some 9), Op.leave_tree,
        Op.push_binary_op expr_plus, Op.push_sym (some 2)]
        (lily_ast_reset_pool example_pool) = .ok ap1
      ∧ ap1.root = some 0 ∧ (ap1.mem 0).tree_type = tree_binary
      ∧ (ap1.mem 0).left = some 1 ∧ (ap1.mem 1).tree_type = tree_call
      ∧ (ap1.mem 1).parent = none :=
  ⟨_, state_of_returned (by decide!), by decide!, by decide!, by decide!, by decide!,
    by decide!⟩

/-- A grouping under two unary trees records the first one as `parent`, which
is the active tree that lily_ast_leave_tree goes back to: after `!-f(x)` the
call (tree 2) is the `left` of the second unary tree (tree 0), and its `parent`
is the first unary tree (tree 1), the root. -/
theorem grouping_under_unary_parent :
    ∃ ap1, run [Op.push_unary_op expr_unary_not, Op.push_unary_op expr_unary_minus,
        Op.enter_tree tree_call (some 9), Op.push_sym (some 1), Op.leave_tree]
        (lily_ast_reset_pool example_pool) = .ok ap1
      ∧ ap1.root = some 1 ∧ (ap1.mem 1).left = some 0
      ∧ (ap1.mem 0).tree_type = tree_unary ∧ (ap1.mem 0).left = some 2
      ∧ (ap1.mem 2).tree_type = tree_call ∧ (ap1.mem 2).parent = some 1 :=
  ⟨_, state_of_returned (by decide!), by decide!, by decide!, by decide!, by decide!,
    by decide!, by decide!⟩

/-- The tree that a grouping takes over keeps the `parent` it had: after
`x[i]` the subscript (tree 0) is the root and has `x` (tree 1) as its first
argument and `i` (tree 2) as the next one; the `parent` of `i` is the subscript,
the `parent` of `x` is still NULL. -/
theorem receiver_parent_unwritten :
    ∃ ap1, run [Op.push_sym (some 1), Op.enter_tree tree_subscript none,
        Op.push_sym (some 2), Op.leave_tree]
        (lily_ast_reset_pool example_pool) = .ok ap1
      ∧ ap1.root = some 0 ∧ (ap1.mem 0).tree_type = tree_subscript
      ∧ (ap1.mem 0).arg_start = some 1 ∧ (ap1.mem 1).next_arg = some 2
      ∧ (ap1.mem 2).parent = some 0 ∧ (ap1.mem 1).parent = none
      ∧ absorbed [Op.push_sym (some 1), Op.enter_tree tree_subscript none,
          Op.push_sym (some 2), Op.leave_tree] (lily_ast_reset_pool example_pool) = [1] :=
  ⟨_, state_of_returned (by decide!), by decide!, by decide!, by decide!, by decide!,
    by decide!, by decide!, by decide!⟩

/-! ## Claims -/

/-- C1: priority_for_op returns the value of the priority table for every
operator; every operator is unary or has a priority strictly below that of both
unary operators; an operator has priority 0 exactly when it is one of the seven
assignment operators. -/
theorem priority_for_op_table :
    (priority_for_op expr_assign = 0 ∧ priority_for_op expr_div_assign = 0
      ∧ priority_for_op expr_mul_assign = 0 ∧ priority_for_op expr_plus_assign = 0
      ∧ priority_for_op expr_minus_assign = 0 ∧ priority_for_op expr_left_shift_assign = 0
      ∧ priority_for_op expr_right_shift_assign = 0)
    ∧ priority_for_op expr_logical_or = 1
    ∧ priority_for_op expr_logical_and = 2
    ∧ (priority_for_op expr_eq_eq = 3 ∧ priority_for_op expr_not_eq = 3)
    ∧ (priority_for_op expr_lt = 4 ∧ priority_for_op expr_gr = 4
      ∧ priority_for_op expr_lt_eq = 4 ∧ priority_for_op expr_gr_eq = 4)
    ∧ priority_for_op expr_bitwise_or = 5
    ∧ priority_for_op expr_bitwise_xor = 6
    ∧ priority_for_op expr_bitwise_and = 7
    ∧ (priority_for_op expr_left_shift = 8 ∧ priority_for_op expr_right_shift = 8)
    ∧ (priority_for_op expr_plus = 9 ∧ priority_for_op expr_minus = 9)
    ∧ (priority_for_op expr_multiply = 10 ∧ priority_for_op expr_divide = 10
      ∧ priority_for_op expr_modulo = 10)
    ∧ (priority_for_op expr_unary_not = 11 ∧ priority_for_op expr_unary_minus = 11)
    ∧ (∀ b : lily_expr_op, b = expr_unary_not ∨ b = expr_unary_minus
        ∨ (priority_for_op b < priority_for_op expr_unary_not
          ∧ priority_for_op b < priority_for_op expr_unary_minus))
    ∧ (∀ o : lily_expr_op, priority_for_op o = 0 ↔
        (o = expr_assign ∨ o = expr_div_assign ∨ o = expr_mul_assign
          ∨ o = expr_plus_assign ∨ o = expr_minus_assign
          ∨ o = expr_left_shift_assign ∨ o = expr_right_shift_assign)) := by
  refine ⟨by simp [priority_for_op], rfl, rfl, ⟨rfl, rfl⟩, ⟨rfl, rfl, rfl, rfl⟩, rfl, rfl, rfl,
    ⟨rfl, rfl⟩, ⟨rfl, rfl⟩, ⟨rfl, rfl, rfl⟩, ⟨rfl, rfl⟩, ?_, ?_⟩
  · intro b; cases b <;> simp [priority_for_op]
  · intro o; cases o <;> simp [priority_for_op]

/-- C2: three-operand precedence law.  On a freshly reset pool, after
push(a); push_binary_op(op1); push(b); push_binary_op(op2); push(c) the tree
under root is Binary(op1, a, Binary(op2, b, c)) when op2 has a higher priority
than op1 or priority 0, and Binary(op2, Binary(op1, a, b), c) otherwise. -/
theorem three_operand_law (ap : lily_ast_pool) (hp : pool_ok ap) (a b c : Leaf)
    (op1 op2 : lily_expr_op) :
    ends_with [a.push, Op.push_binary_op op1, b.push, Op.push_binary_op op2, c.push]
      (lily_ast_reset_pool ap)
      (fun ap1 => tree_at ap1.mem
        (if priority_for_op op2 > priority_for_op op1 ∨ priority_for_op op2 = 0 then
          Tree.binary op1 a.tree (Tree.binary op2 b.tree c.tree)
        else Tree.binary op2 (Tree.binary op1 a.tree b.tree) c.tree) ap1.root) := by
  obtain ⟨ss, h1, h2⟩ := three_operand_shape a b c op1 op2
  exact ends_with_tree hp ss h1 h2

/-- C2, witness: `5 + 6 * 7` gives `(+ 5 (* 6 7))`. -/
theorem three_operand_law_witness :
    pool_ok example_pool
      ∧ ends_with [Op.push_literal (some 5), Op.push_binary_op expr_plus,
          Op.push_literal (some 6), Op.push_binary_op expr_multiply, Op.push_literal (some 7)]
        (lily_ast_reset_pool example_pool)
        (fun ap1 => tree_at ap1.mem
          (Tree.binary expr_plus (Tree.leaf tree_literal (some 5))
            (Tree.binary expr_multiply (Tree.leaf tree_literal (some 6))
              (Tree.leaf tree_literal (some 7)))) ap1.root) :=
  by
  have h := three_operand_law example_pool example_pool_ok (Leaf.literal (some 5))
    (Leaf.literal (some 6)) (Leaf.literal (some 7)) expr_plus expr_multiply
  rw [if_pos (by decide)] at h
  exact ⟨example_pool_ok, h⟩

/-- C4: left-to-right associativity.  On a freshly reset pool, pushing
v0, o1, v1, ..., on, vn where all operators have the same non-zero priority
leaves the fully left-nested tree Binary(on, ... Binary(o1, v0, v1) ..., vn)
under root. -/
theorem left_associativity (ap : lily_ast_pool) (hp : pool_ok ap) (p : Int) (hp0 : p ≠ 0)
    (v0 : Leaf) (rest : List (lily_expr_op × Leaf))
    (hsame : ∀ x ∈ rest, priority_for_op x.1 = p) :
    ends_with (alternating v0 rest) (lily_ast_reset_pool ap)
      (fun ap1 => tree_at ap1.mem (left_nested v0.tree rest) ap1.root) := by
  obtain ⟨ss, h1, h2⟩ := left_shape p hp0 rest [] v0.kind v0.handle (Or.inl rfl) hsame
  refine ends_with_tree hp ss ?_ h2
  simp only [alternating, s_run, SState.empty, s_step_leaf_lit]
  exact h1

/-- C4, witness: `a - b - c` gives Binary(-, Binary(-, a, b), c). -/
theorem left_associativity_witness :
    pool_ok example_pool ∧ (9 : Int) ≠ 0
      ∧ (∀ x ∈ [(expr_minus, Leaf.sym (some 2)), (expr_minus, Leaf.sym (some 3))],
          priority_for_op x.1 = 9)
      ∧ ends_with (alternating (Leaf.sym (some 1))
          [(expr_minus, Leaf.sym (some 2)), (expr_minus, Leaf.sym (some 3))])
        (lily_ast_reset_pool example_pool)
        (fun ap1 => tree_at ap1.mem
          (left_nested (Leaf.sym (some 1)).tree
            [(expr_minus, Leaf.sym (some 2)), (expr_minus, Leaf.sym (some 3))]) ap1.root) :=
  by
  have h := left_associativity example_pool example_pool_ok 9 (by decide)
    (Leaf.sym (some 1)) [(expr_minus, Leaf.sym (some 2)), (expr_minus, Leaf.sym (some 3))]
    (by simp [priority_for_op])
  exact ⟨example_pool_ok, by decide, by simp [priority_for_op], h⟩

/-- C5: right associativity at priority 0.  On a freshly reset pool, pushing
v0, o1, v1, ..., on, vn where all operators have priority 0 leaves the fully
right-nested tree Binary(o1, v0, Binary(o2, v1, ... Binary(on, v(n-1), vn)))
under root, and active is the innermost binary: it is reached from root by
going right n - 1 times. -/
theorem right_associativity (ap : lily_ast_pool) (hp : pool_ok ap) (v0 : Leaf)
    (rest : List (lily_expr_op × Leaf)) (hzero : ∀ x ∈ rest, priority_for_op x.1 = 0) :
    ends_with (alternating v0 rest) (lily_ast_reset_pool ap)
      (fun ap1 => tree_at ap1.mem (right_nested v0 rest) ap1.root
        ∧ walk_right ap1.mem (rest.length - 1) ap1.root = ap1.active) := by
  obtain ⟨ss, h1, h2, h3⟩ := right_shape rest [] v0 hzero
  have := ends_with_shape hp (alternating v0 rest) ss _
    (by simp only [alternating, s_run, SState.empty, s_step_leaf_lit]; exact h1) h2
  rw [h3] at this
  simpa [s_close] using this

/-- C5, witness: `a = b = 3` gives `(= a (= b 3))`. -/
theorem right_associativity_witness :
    pool_ok example_pool
      ∧ (∀ x ∈ [(expr_assign, Leaf.sym (some 2)), (expr_assign, Leaf.literal (some 3))],
          priority_for_op x.1 = 0)
      ∧ ends_with (alternating (Leaf.sym (some 1))
          [(expr_assign, Leaf.sym (some 2)), (expr_assign, Leaf.literal (some 3))])
        (lily_ast_reset_pool example_pool)
        (fun ap1 => tree_at ap1.mem
            (right_nested (Leaf.sym (some 1))
              [(expr_assign, Leaf.sym (some 2)), (expr_assign, Leaf.literal (some 3))]) ap1.root
          ∧ walk_right ap1.mem
            ([(expr_assign, Leaf.sym (some 2)), (expr_assign, Leaf.literal (some 3))].length - 1)
            ap1.root = ap1.active) :=
  by
  have h := right_associativity example_pool example_pool_ok (Leaf.sym (some 1))
    [(expr_assign, Leaf.sym (some 2)), (expr_assign, Leaf.literal (some 3))]
    (by simp [priority_for_op])
  exact ⟨example_pool_ok, by simp [priority_for_op], h⟩

/-- C9: unary chaining.  On a freshly reset pool, after push_unary_op(u1); ...;
push_unary_op(un); push(a) root and active are the same tree, and that tree is
Unary(u1, Unary(u2, ... Unary(un, a))), each operand in the `left` of its
unary. -/
theorem unary_chaining (ap : lily_ast_pool) (hp : pool_ok ap) (us : List lily_expr_op)
    (a : Leaf) :
    ends_with (us.map Op.push_unary_op ++ [a.push]) (lily_ast_reset_pool ap)
      (fun ap1 => ap1.root = ap1.active ∧ tree_at ap1.mem (s_operand us a.tree) ap1.root) := by
  have h1 := unary_shape a us []
  have := ends_with_shape hp _ _ (s_operand us a.tree) h1
    (by simp [SState.tree, s_close, Leaf.tree])
  exact ends_with_mono (fun x hx => ⟨by simpa [walk_right] using hx.2, hx.1⟩) this

/-- C9, witness: `---a`. -/
theorem unary_chaining_witness :
    pool_ok example_pool
      ∧ ends_with ([expr_unary_minus, expr_unary_minus, expr_unary_minus].map Op.push_unary_op
          ++ [(Leaf.sym (some 1)).push]) (lily_ast_reset_pool example_pool)
        (fun ap1 => ap1.root = ap1.active
          ∧ tree_at ap1.mem
            (s_operand [expr_unary_minus, expr_unary_minus, expr_unary_minus]
              (Leaf.sym (some 1)).tree) ap1.root) :=
  by
  have h := unary_chaining example_pool example_pool_ok
    [expr_unary_minus, expr_unary_minus, expr_unary_minus] (Leaf.sym (some 1))
  exact ⟨example_pool_ok, h⟩

/-- C10: a unary operator binds tighter than the binary operators around it.
On a freshly reset pool, (i) push_unary_op(u); push(a); push_binary_op(o);
push(b) leaves Binary(o, Unary(u, a), b) under root, and (ii) push(a);
push_binary_op(o); push_unary_op(u); push(b); push_binary_op(o2); push(c)
leaves the tree of the three-operand law with Unary(u, b) in the place of b. -/
theorem unary_binds_tighter (ap : lily_ast_pool) (hp : pool_ok ap) (u o o2 : lily_expr_op)
    (a b c : Leaf) :
    ends_with [Op.push_unary_op u, a.push, Op.push_binary_op o, b.push]
        (lily_ast_reset_pool ap)
        (fun ap1 => tree_at ap1.mem (Tree.binary o (Tree.unary u a.tree) b.tree) ap1.root)
      ∧ ends_with [a.push, Op.push_binary_op o, Op.push_unary_op u, b.push,
          Op.push_binary_op o2, c.push] (lily_ast_reset_pool ap)
        (fun ap1 => tree_at ap1.mem
          (if priority_for_op o2 > priority_for_op o ∨ priority_for_op o2 = 0 then
            Tree.binary o a.tree (Tree.binary o2 (Tree.unary u b.tree) c.tree)
          else Tree.binary o2 (Tree.binary o a.tree (Tree.unary u b.tree)) c.tree)
          ap1.root) := by
  constructor
  · refine ends_with_tree hp
      ⟨[⟨o, Tree.unary u a.tree, false⟩], [], some (b.kind, b.handle)⟩ ?_ ?_
    · simp only [s_run, SState.empty, s_step_leaf_lit, s_step_unary_lit, s_step_binary_nil,
        List.nil_append, s_operand, Leaf.tree]
    · simp [SState.tree, s_close, s_operand, Leaf.tree]
  · by_cases hq : priority_for_op o2 > priority_for_op o ∨ priority_for_op o2 = 0
    · refine ends_with_tree hp
        ⟨[⟨o2, Tree.unary u b.tree, false⟩, ⟨o, a.tree, false⟩], [],
          some (c.kind, c.handle)⟩ ?_ ?_
      · simp only [s_run, SState.empty, s_step_leaf_lit, s_step_unary_lit, s_step_binary_nil,
          s_step_binary_cons, if_pos hq, List.nil_append, s_operand, Leaf.tree]
      · simp [SState.tree, s_close, s_operand, Leaf.tree, hq]
    · refine ends_with_tree hp
        ⟨[⟨o2, Tree.binary o a.tree (Tree.unary u b.tree), false⟩], [],
          some (c.kind, c.handle)⟩ ?_ ?_
      · simp only [s_run, SState.empty, s_step_leaf_lit, s_step_unary_lit, s_step_binary_nil,
          s_step_binary_cons, if_neg hq, List.nil_append, s_operand, s_climb, Leaf.tree]
      · simp [SState.tree, s_close, s_operand, Leaf.tree, hq]

/-- C10, witness: `-a + b` gives `(+ (neg a) b)`, and `a + -b * c`. -/
theorem unary_binds_tighter_witness :
    pool_ok example_pool
      ∧ (ends_with [Op.push_unary_op expr_unary_minus, (Leaf.sym (some 1)).push,
            Op.push_binary_op expr_plus, (Leaf.sym (some 2)).push]
          (lily_ast_reset_pool example_pool)
          (fun ap1 => tree_at ap1.mem
            (Tree.binary expr_plus (Tree.unary expr_unary_minus (Leaf.sym (some 1)).tree)
              (Leaf.sym (some 2)).tree) ap1.root)
        ∧ ends_with [(Leaf.sym (some 1)).push, Op.push_binary_op expr_plus,
            Op.push_unary_op expr_unary_minus, (Leaf.sym (some 2)).push,
            Op.push_binary_op expr_multiply, (Leaf.sym (some 3)).push]
          (lily_ast_reset_pool example_pool)
          (fun ap1 => tree_at ap1.mem
            (if priority_for_op expr_multiply > priority_for_op expr_plus
                ∨ priority_for_op expr_multiply = 0 then
              Tree.binary expr_plus (Leaf.sym (some 1)).tree
                (Tree.binary expr_multiply
                  (Tree.unary expr_unary_minus (Leaf.sym (some 2)).tree)
                  (Leaf.sym (some 3)).tree)
            else Tree.binary expr_multiply
              (Tree.binary expr_plus (Leaf.sym (some 1)).tree
                (Tree.unary expr_unary_minus (Leaf.sym (some 2)).tree))
              (Leaf.sym (some 3)).tree) ap1.root)) :=
  by
  have h := unary_binds_tighter example_pool example_pool_ok expr_unary_minus expr_plus
    expr_multiply (Leaf.sym (some 1)) (Leaf.sym (some 2)) (Leaf.sym (some 3))
  exact ⟨example_pool_ok, h⟩

/-- C3, counterexample: `a || b = c` on a freshly reset pool leaves
`(|| a (= b c))` under root, where the assignment (priority 0) is the right
child of the logical-or (priority 1): the precedence property of the claim
fails for the tree under root. -/
theorem precedence_counterexample :
    ends_with (alternating (Leaf.sym (some 1))
        [(expr_logical_or, Leaf.sym (some 2)), (expr_assign, Leaf.sym (some 3))])
      (lily_ast_reset_pool example_pool)
      (fun ap1 => (∃ t, tree_at ap1.mem t ap1.root)
        ∧ ∀ t, tree_at ap1.mem t ap1.root → ¬ prec_claim t) := by
  obtain ⟨ss, h1, h2⟩ := three_operand_shape (Leaf.sym (some 1)) (Leaf.sym (some 2))
    (Leaf.sym (some 3)) expr_logical_or expr_assign
  have h := ends_with_tree example_pool_ok ss h1 h2
  refine ends_with_mono (fun x hx => ⟨⟨_, hx⟩, fun t ht => ?_⟩) h
  rw [tree_at_unique t _ _ ht hx]
  simp [prec_claim, root_prio, priority_for_op]

/-- C3, amended: for every expression built on a freshly reset pool by values
and binary operators in turn, the tree under root is in order: a binary child
C of a binary B has a higher priority than B, or the same priority and is the
left child with that priority not 0, or is the right child and has priority
0. -/
theorem precedence_invariant (ap : lily_ast_pool) (hp : pool_ok ap) (v0 : Leaf)
    (rest : List (lily_expr_op × Leaf)) :
    ends_with (alternating v0 rest) (lily_ast_reset_pool ap)
      (fun ap1 => ∃ t, tree_at ap1.mem t ap1.root ∧ prec_ok t) := by
  obtain ⟨ss, t, h1, h2⟩ := alternating_runs rest [] [] v0.kind v0.handle
  have hrun : s_run (alternating v0 rest) SState.empty = some ss := by
    simp only [alternating, s_run, SState.empty, s_step_leaf_lit]
    exact h1
  exact ends_with_mono (fun x hx => ⟨t, hx, tree_ok _ ss t hrun h2⟩)
    (ends_with_tree hp ss hrun h2)

/-- C3, witness: `a || b = c`. -/
theorem precedence_invariant_witness :
    pool_ok example_pool
      ∧ ends_with (alternating (Leaf.sym (some 1))
          [(expr_logical_or, Leaf.sym (some 2)), (expr_assign, Leaf.sym (some 3))])
        (lily_ast_reset_pool example_pool)
        (fun ap1 => ∃ t, tree_at ap1.mem t ap1.root ∧ prec_ok t) := by
  have h := precedence_invariant example_pool example_pool_ok (Leaf.sym (some 1))
    [(expr_logical_or, Leaf.sym (some 2)), (expr_assign, Leaf.sym (some 3))]
  exact ⟨example_pool_ok, h⟩

/-- C7: argument list of a plain grouping.  In a pool whose chain of free trees
and save stack are well formed, if lily_ast_enter_tree is called, for any kind
of tree, when `active` is empty or is a binary tree in use with an empty
`right`, and is followed by k argument sub-expressions separated by
lily_ast_collect_arg and closed by lily_ast_leave_tree (for k = 0 by
lily_ast_leave_tree at once), then the calls end without a fault and the tree G
that lily_ast_enter_tree took has `args_collected` = k, the chain from
`arg_start` along `next_arg` is the list of the k roots of the sub-expressions
in order and ends at NULL (for k = 0, `arg_start` is NULL), and every one of
these roots has `parent` = G. -/
theorem plain_grouping (ap : lily_ast_pool) (F : List Nat) (hch : chain_ok ap F)
    (hst : stack_ok ap)
    (hact : ap.active = none ∨ ∃ B, ap.active = some B ∧ B < ap.brk ∧ B ∉ F
      ∧ (ap.mem B).tree_type = tree_binary ∧ (ap.mem B).right = none)
    (tt : lily_tree_type) (var : Option Nat) (segs : List (List Op))
    (hsegs : ∀ seg ∈ segs, isolated seg) :
    ∃ ape roots, lily_ast_enter_tree ap tt var = .ok ape
      ∧ arg_roots segs ape = roots.map some ∧ roots.length = segs.length
      ∧ ends_with (Op.enter_tree tt var :: args_ops segs) ap (fun ap1 =>
          (ap1.mem (acquire_tree ap).1).tree_type = tt
          ∧ (ap1.mem (acquire_tree ap).1).args_collected = (segs.length : Int)
          ∧ arg_chain ap1.mem roots (ap1.mem (acquire_tree ap).1).arg_start
          ∧ ∀ r ∈ roots, (ap1.mem r).parent = some (acquire_tree ap).1) := by
  rcases hacq : acquire_tree ap with ⟨G, ap0⟩
  obtain ⟨_, _, hGn, _, _, _, hmem0, hact0, hroot0, _, _, _, _⟩ := acquire_inuse hacq hch
  have key : ∀ ap2 : lily_ast_pool,
      merge_value (poke ap0 G (fun n =>
        { n with tree_type := tt, line_num := ap0.lex_linenum, result := var,
                 args_collected := 0, arg_start := none, arg_top := none })) G = .ok ap2 →
      (∀ y, y ≠ G → ¬ (y < ap.brk ∧ y ∉ F) → ap2.mem y = ap0.mem y) →
      ap2.brk = ap0.brk → ap2.available_current = ap0.available_current →
      ap2.saved_trees = ap0.saved_trees → ap2.save_index = ap0.save_index →
      ap2.save_size = ap0.save_size →
      (ap2.mem G).tree_type = tt → (ap2.mem G).args_collected = 0 →
      (ap2.mem G).arg_start = none → (ap2.mem G).arg_top = none →
      ∃ ape roots, lily_ast_enter_tree ap tt var = .ok ape
        ∧ arg_roots segs ape = roots.map some ∧ roots.length = segs.length
        ∧ ends_with (Op.enter_tree tt var :: args_ops segs) ap (fun ap1 =>
            (ap1.mem G).tree_type = tt
            ∧ (ap1.mem G).args_collected = (segs.length : Int)
            ∧ arg_chain ap1.mem roots (ap1.mem G).arg_start
            ∧ ∀ r ∈ roots, (ap1.mem r).parent = some G) := by
    intro ap2 hmv hm hb hav hsv hsi hsz hk hcnt hs htop
    obtain ⟨ape, ap1, F1, roots, hen, hroots, hlen, hrun, hcl, _, _⟩ :=
      grouping_run tt var [] hch hst hacq hmv (by simp) List.nodup_nil hm hb hav hsv hsi hsz
        hk (by simpa using hcnt) (by rw [hs]; rfl) (by rw [htop]; rfl) segs hsegs
    refine ⟨ape, roots, hen, hroots, hlen, ?_⟩
    unfold ends_with
    rw [hrun]
    have := closed_args hcl rfl
    rw [hlen] at this
    exact this
  rcases hact with ha | ⟨B, ha, hBb, hBF, hBt, hBr⟩
  · by_cases hr : ap.root = none
    · refine key { poke ap0 G (fun n =>
          { n with tree_type := tt, line_num := ap0.lex_linenum, result := var,
                   args_collected := 0, arg_start := none, arg_top := none }) with
          root := some G, active := some G } ?_ ?_ rfl rfl rfl rfl rfl ?_ ?_ ?_ ?_
      · simp [merge_value, hact0, ha, hroot0, hr]
      · intro y hy _; simp [hy]
      · simp
      · simp
      · simp
      · simp
    · refine key { poke ap0 G (fun n =>
          { n with tree_type := tt, line_num := ap0.lex_linenum, result := var,
                   args_collected := 0, arg_start := none, arg_top := none }) with
          active := some G } ?_ ?_ rfl rfl rfl rfl rfl ?_ ?_ ?_ ?_
      · simp [merge_value, hact0, ha, hroot0, hr]
      · intro y hy _; simp [hy]
      · simp
      · simp
      · simp
      · simp
  · have hBG : B ≠ G := fun e => hGn (e ▸ ⟨hBb, hBF⟩)
    refine key (poke (poke ap0 G (fun n =>
          { n with tree_type := tt, line_num := ap0.lex_linenum, result := var,
                   args_collected := 0, arg_start := none, arg_top := none }))
          B (fun n => { n with right := some G })) ?_ ?_ rfl rfl rfl rfl rfl ?_ ?_ ?_ ?_
    · simp [merge_value, hact0, ha, hBG, hmem0 B hBG, hBt, hBr, tree_rank]
    · intro y hy hyu
      have hyB : y ≠ B := fun e => hyu (e ▸ ⟨hBb, hBF⟩)
      simp [hy, hyB]
    · simp [hBG, Ne.symm hBG]
    · simp [hBG, Ne.symm hBG]
    · simp [hBG, Ne.symm hBG]
    · simp [hBG, Ne.symm hBG]

/-- C7, witness: the call `f(a, (2))` on the reset example pool. -/
theorem plain_grouping_witness :
    chain_ok (lily_ast_reset_pool example_pool) [1, 0]
      ∧ stack_ok (lily_ast_reset_pool example_pool)
      ∧ (∀ seg ∈ example_args, isolated seg)
      ∧ ∃ ape roots,
        lily_ast_enter_tree (lily_ast_reset_pool example_pool) tree_call (some 7) = .ok ape
        ∧ arg_roots example_args ape = roots.map some ∧ roots.length = example_args.length
        ∧ ends_with (Op.enter_tree tree_call (some 7) :: args_ops example_args)
          (lily_ast_reset_pool example_pool) (fun ap1 =>
            (ap1.mem (acquire_tree (lily_ast_reset_pool example_pool)).1).tree_type = tree_call
            ∧ (ap1.mem (acquire_tree (lily_ast_reset_pool example_pool)).1).args_collected
                = (example_args.length : Int)
            ∧ arg_chain ap1.mem roots
                (ap1.mem (acquire_tree (lily_ast_reset_pool example_pool)).1).arg_start
            ∧ ∀ r ∈ roots, (ap1.mem r).parent
                = some (acquire_tree (lily_ast_reset_pool example_pool)).1) := by
  have hs : ∀ seg ∈ example_args, isolated seg := by
    intro seg h
    simp only [example_args, List.mem_cons, List.mem_singleton, List.not_mem_nil, or_false] at h
    rcases h with e | e
    · rw [e]; exact leaf_isolated (Leaf.sym (some 1))
    · rw [e]
      exact grouping_isolated tree_parenth none [[Op.push_literal (some 2)]]
        (fun x hx => by
          rw [List.mem_singleton] at hx
          rw [hx]; exact leaf_isolated (Leaf.literal (some 2)))
  have h := plain_grouping (lily_ast_reset_pool example_pool) [1, 0] example_chain_ok
    example_stack_ok (Or.inl rfl) tree_call (some 7) example_args hs
  exact ⟨example_chain_ok, example_stack_ok, hs, h⟩

/-- C8: receiver absorption.  On a freshly reset pool with a well-formed save
stack, for every leaf x and every kind of grouping (Call and Subscript among
them), push(x); lily_ast_enter_tree; k argument sub-expressions separated by
lily_ast_collect_arg; lily_ast_leave_tree end without a fault with `root` =
`active` = the tree G of the grouping, `args_collected` of G = 1 + k, and the
chain from `arg_start` of G along `next_arg` is the tree of x followed by the
roots of the k sub-expressions in order, ending at NULL. -/
theorem receiver_absorption (ap : lily_ast_pool) (hp : pool_ok ap) (hst : stack_ok ap)
    (x : Leaf) (tt : lily_tree_type) (var : Option Nat) (segs : List (List Op))
    (hsegs : ∀ seg ∈ segs, isolated seg) :
    ∃ apx ape xa G roots, step (lily_ast_reset_pool ap) x.push = .ok apx
      ∧ apx.root = some xa ∧ G = (acquire_tree apx).1
      ∧ lily_ast_enter_tree apx tt var = .ok ape
      ∧ arg_roots segs ape = roots.map some ∧ roots.length = segs.length
      ∧ ends_with (x.push :: Op.enter_tree tt var :: args_ops segs) (lily_ast_reset_pool ap)
          (fun ap1 => ap1.root = some G ∧ ap1.active = some G
            ∧ (ap1.mem G).tree_type = tt ∧ (ap1.mem G).parent = none
            ∧ (ap1.mem G).args_collected = 1 + (segs.length : Int)
            ∧ arg_chain ap1.mem (xa :: roots) (ap1.mem G).arg_start
            ∧ tree_at ap1.mem x.tree (some xa)) := by
  obtain ⟨F, c1, c2, c3⟩ := hp
  have hch : chain_ok (lily_ast_reset_pool ap) F := ⟨c1, c2, c3⟩
  rcases hacq : acquire_tree (lily_ast_reset_pool ap) with ⟨xa, ap0⟩
  obtain ⟨F1, hch1, hxn, hxb, hxF, huse, hmem0, hact0, hroot0, hsv0, hsi0, hsz0, _⟩ :=
    acquire_inuse hacq hch
  have heq := push_leaf_eq (lily_ast_reset_pool ap) x
  rw [hacq] at heq
  simp only at heq
  obtain ⟨apx, hapx⟩ : ∃ apx : lily_ast_pool, apx =
      { poke ap0 xa (fun nd =>
          { nd with tree_type := x.kind, line_num := ap0.lex_linenum, result := x.handle }) with
        root := some xa, active := some xa } := ⟨_, rfl⟩
  have hstep : step (lily_ast_reset_pool ap) x.push = .ok apx := by
    rw [heq, hapx]
    have ha : ap0.active = none := hact0
    have hr : ap0.root = none := hroot0
    simp [merge_value, ha, hr]
  have hchx : chain_ok apx F1 := by
    obtain ⟨d1, d2, d3⟩ := hch1
    rw [hapx]
    refine ⟨?_, d2, d3⟩
    refine free_chain_congr F1 _ (fun y hy => ?_) d1
    have : y ≠ xa := fun e => hxF (e ▸ hy)
    simp [this]
  have hstx : stack_ok apx := by
    obtain ⟨s0, s1, s2, s3⟩ := hst
    rw [hapx]
    exact ⟨by show 0 ≤ ap0.save_index; rw [hsi0]; exact s0,
      by show ap0.save_index % 2 = 0; rw [hsi0]; exact s1,
      by show ap0.save_index ≤ ap0.save_size; rw [hsi0, hsz0]; exact s2,
      by show 1 ≤ ap0.save_size; rw [hsz0]; exact s3⟩
  have hxk : (apx.mem xa).tree_type = x.kind ∧ (apx.mem xa).result = x.handle := by
    rw [hapx]; simp
  have hxu : xa < apx.brk ∧ xa ∉ F1 := ⟨by rw [hapx]; exact hxb, hxF⟩
  rcases hacq2 : acquire_tree apx with ⟨G, ap0x⟩
  obtain ⟨_, _, hGn, _, _, _, hmemG, hactG, hrootG, _, _, _, _⟩ := acquire_inuse hacq2 hchx
  have hxG : xa ≠ G := fun e => hGn (e ▸ hxu)
  have hrk : ¬ tree_rank tree_typecast ≤ tree_rank x.kind := by
    have := leaf_rank x
    simp only [tree_rank] at this ⊢
    omega
  have hnu : x.kind ≠ tree_unary := by cases x <;> simp [Leaf.kind]
  have hax : ap0x.active = some xa := by rw [hactG, hapx]
  have hrx : ap0x.root = some xa := by rw [hrootG, hapx]
  have hm0x : (ap0x.mem xa).tree_type = x.kind := by rw [hmemG xa hxG]; exact hxk.1
  obtain ⟨ap2, hap2⟩ : ∃ ap2 : lily_ast_pool, ap2 =
      poke { poke ap0x G (fun n =>
          { n with tree_type := tt, line_num := ap0x.lex_linenum, result := var,
                   args_collected := 0, arg_start := none, arg_top := none }) with
        root := some G, active := some G } G (fun n =>
      { n with arg_start := some xa, arg_top := some xa, args_collected := 1,
               next_arg := none }) := ⟨_, rfl⟩
  have hmv : merge_value (poke ap0x G (fun n =>
      { n with tree_type := tt, line_num := ap0x.lex_linenum, result := var,
               args_collected := 0, arg_start := none, arg_top := none })) G = .ok ap2 := by
    rw [hap2]
    simp [merge_value, merge_absorb, hax, hrx, hxG, hm0x, hrk, hnu]
  obtain ⟨ape, ap1, F2, roots, hen, hroots, hlen, hrun, hcl, _, hmy⟩ :=
    grouping_run tt var [xa] hchx hstx hacq2 hmv (by simpa using hxu) (List.nodup_singleton _)
      (fun y hy _ => by rw [hap2]; simp [hy]) (by rw [hap2]; rfl) (by rw [hap2]; rfl)
      (by rw [hap2]; rfl) (by rw [hap2]; rfl) (by rw [hap2]; rfl)
      (by rw [hap2]; simp) (by rw [hap2]; simp) (by rw [hap2]; simp [open_chain])
      (by rw [hap2]; simp [last_opt, last_from]) segs hsegs
  refine ⟨apx, ape, xa, G, roots, hstep, by rw [hapx], by rw [hacq2], hen, hroots, hlen, ?_⟩
  unfold ends_with
  have hrun2 : run (x.push :: Op.enter_tree tt var :: args_ops segs) (lily_ast_reset_pool ap)
      = .ok ap1 := by
    rw [run, hstep]
    exact hrun
  rw [hrun2]
  obtain ⟨hpu, _, hroot, hactive⟩ := hcl
  have h2r : ap2.root = some G := by rw [hap2]; rfl
  have h2a : ap2.active = some G := by rw [hap2]; rfl
  have hcount := hpu.count
  have hargs := hpu.args
  have hup := hpu.up_eq
  have hkept := hpu.pre_kept xa (List.mem_singleton_self _)
  simp only [h2a, if_true] at hup
  simp only [List.singleton_append, List.length_cons, Nat.cast_add, Nat.cast_one] at hcount hargs
  refine ⟨by rw [hroot, h2r], by rw [hactive, h2a], hpu.kind_eq, hup,
    by rw [hcount, hlen]; exact add_comm _ _, hargs, ?_⟩
  have e1 : ape.mem xa = apx.mem xa := by
    rw [hmy xa hxG, hap2]
    simp [hxG, hmemG xa hxG]
  show (ap1.mem xa).tree_type = x.kind ∧ (ap1.mem xa).result = x.handle
    ∧ tree_rank x.kind < tree_rank tree_unary
  refine ⟨?_, ?_, leaf_rank x⟩
  · rw [hkept.1]; show (ape.mem xa).tree_type = _; rw [e1]; exact hxk.1
  · rw [hkept.2]; show (ape.mem xa).result = _; rw [e1]; exact hxk.2

/-- C8, witness: `a.concat("b")`, that is push_sym a; enter_tree Call(concat);
push_literal "b"; leave_tree, gives the call with `args_collected` = 2 and the
chain a, "b". -/
theorem receiver_absorption_witness :
    pool_ok example_pool ∧ stack_ok example_pool
      ∧ (∀ seg ∈ [[Op.push_literal (some 2)]], isolated seg)
      ∧ ∃ apx ape xa G roots,
        step (lily_ast_reset_pool example_pool) (Leaf.sym (some 1)).push = .ok apx
        ∧ apx.root = some xa ∧ G = (acquire_tree apx).1
        ∧ lily_ast_enter_tree apx tree_call (some 3) = .ok ape
        ∧ arg_roots [[Op.push_literal (some 2)]] ape = roots.map some
        ∧ roots.length = [[Op.push_literal (some 2)]].length
        ∧ ends_with ((Leaf.sym (some 1)).push :: Op.enter_tree tree_call (some 3)
            :: args_ops [[Op.push_literal (some 2)]]) (lily_ast_reset_pool example_pool)
          (fun ap1 => ap1.root = some G ∧ ap1.active = some G
            ∧ (ap1.mem G).tree_type = tree_call ∧ (ap1.mem G).parent = none
            ∧ (ap1.mem G).args_collected
                = 1 + ([[Op.push_literal (some 2)]].length : Int)
            ∧ arg_chain ap1.mem (xa :: roots) (ap1.mem G).arg_start
            ∧ tree_at ap1.mem (Leaf.sym (some 1)).tree (some xa)) := by
  have hs : ∀ seg ∈ [[Op.push_literal (some 2)]], isolated seg := by
    intro seg h
    rw [List.mem_singleton] at h
    rw [h]; exact leaf_isolated (Leaf.literal (some 2))
  have hst : stack_ok example_pool := by
    simp [stack_ok, example_pool, lily_new_ast_pool]
  have h := receiver_absorption example_pool example_pool_ok hst (Leaf.sym (some 1))
    tree_call (some 3) [[Op.push_literal (some 2)]] hs
  exact ⟨example_pool_ok, hst, hs, h⟩

/-- The parents in an expression of operators: on a freshly reset pool, for
every completed expression built
by values, unary operators and binary operators none of which has to go between
two binary trees (the branch `tree->parent != NULL` of the climb of
lily_ast_push_binary_op), the calls end without a fault, the tree under `root`
is the tree of the expression, and in it every binary tree other than the root
and every operand of a unary tree has a `parent` that points to the tree that
refers to it, through `left` or through `right` and not through both. -/
theorem binary_parents (ap : lily_ast_pool) (hp : pool_ok ap) (ops : List Op) (ss : SState)
    (t : Tree) (hr : s_run ops SState.empty = some ss) (ht : ss.tree = some t)
    (hf : s_splice_free ops SState.empty = true) :
    ends_with ops (lily_ast_reset_pool ap)
      (fun ap1 => tree_at ap1.mem t ap1.root ∧ parents_at ap1.mem t ap1.root) := by
  obtain ⟨F, h0⟩ := reset_refines hp
  obtain ⟨ap1, s1, used1, F1, e1, e2, e3, e4, e5⟩ :=
    run_parents ops ⟨[], [], none⟩ [] F _ ss h0 trivial trivial hr hf
  unfold ends_with
  rw [e1]
  exact ⟨refines_tree e2 (by rw [e3]; exact ht), refines_parents e2 e4 e5 (by rw [e3]; exact ht)⟩

/-- An instance: `a * -b + 3` gives `(+ (* a (- b)) 3)`; the binary
`*` has the root as `parent`, and `b` has the unary. -/
theorem binary_parents_witness :
    pool_ok example_pool
      ∧ s_run [Op.push_sym (some 1), Op.push_binary_op expr_multiply,
          Op.push_unary_op expr_unary_minus, Op.push_sym (some 2),
          Op.push_binary_op expr_plus, Op.push_literal (some 3)] SState.empty
        = some ⟨[⟨expr_plus, Tree.binary expr_multiply (Tree.leaf tree_var (some 1))
            (Tree.unary expr_unary_minus (Tree.leaf tree_var (some 2))), false⟩], [],
            some (tree_literal, some 3)⟩
      ∧ ends_with [Op.push_sym (some 1), Op.push_binary_op expr_multiply,
          Op.push_unary_op expr_unary_minus, Op.push_sym (some 2),
          Op.push_binary_op expr_plus, Op.push_literal (some 3)]
        (lily_ast_reset_pool example_pool)
        (fun ap1 =>
          tree_at ap1.mem (Tree.binary expr_plus
            (Tree.binary expr_multiply (Tree.leaf tree_var (some 1))
              (Tree.unary expr_unary_minus (Tree.leaf tree_var (some 2))))
            (Tree.leaf tree_literal (some 3))) ap1.root
          ∧ parents_at ap1.mem (Tree.binary expr_plus
            (Tree.binary expr_multiply (Tree.leaf tree_var (some 1))
              (Tree.unary expr_unary_minus (Tree.leaf tree_var (some 2))))
            (Tree.leaf tree_literal (some 3))) ap1.root) := by
  have hr : s_run [Op.push_sym (some 1), Op.push_binary_op expr_multiply,
      Op.push_unary_op expr_unary_minus, Op.push_sym (some 2),
      Op.push_binary_op expr_plus, Op.push_literal (some 3)] SState.empty
    = some ⟨[⟨expr_plus, Tree.binary expr_multiply (Tree.leaf tree_var (some 1))
        (Tree.unary expr_unary_minus (Tree.leaf tree_var (some 2))), false⟩], [],
        some (tree_literal, some 3)⟩ := by decide
  have h := binary_parents example_pool example_pool_ok _ _
    (Tree.binary expr_plus
      (Tree.binary expr_multiply (Tree.leaf tree_var (some 1))
        (Tree.unary expr_unary_minus (Tree.leaf tree_var (some 2))))
      (Tree.leaf tree_literal (some 3))) hr rfl (by decide)
  exact ⟨example_pool_ok, hr, h⟩

/-- C15: postcondition and frame of lily_ast_reset_pool.  For every state, after
the reset `available_current` is `available_start` and `root` and `active` are
empty; the memory (every field of every tree, `next_tree` included), `brk`,
`available_start` and with them the chain of the pool, and `saved_trees`,
`save_index` and `save_size` are what they were. -/
theorem reset_postcondition (ap : lily_ast_pool) :
    (lily_ast_reset_pool ap).available_current = ap.available_start
      ∧ (lily_ast_reset_pool ap).root = none ∧ (lily_ast_reset_pool ap).active = none
      ∧ (lily_ast_reset_pool ap).mem = ap.mem ∧ (lily_ast_reset_pool ap).brk = ap.brk
      ∧ (lily_ast_reset_pool ap).available_start = ap.available_start
      ∧ (∀ P, free_chain (lily_ast_reset_pool ap).mem P (lily_ast_reset_pool ap).available_start
          ↔ free_chain ap.mem P ap.available_start)
      ∧ (lily_ast_reset_pool ap).saved_trees = ap.saved_trees
      ∧ (lily_ast_reset_pool ap).save_index = ap.save_index
      ∧ (lily_ast_reset_pool ap).save_size = ap.save_size
      ∧ (lily_ast_reset_pool ap).lex_linenum = ap.lex_linenum :=
  ⟨rfl, rfl, rfl, rfl, rfl, rfl, fun _ => Iff.rfl, rfl, rfl, rfl, rfl⟩

/-- C16, counterexample: on the reset example pool, whose save stack is empty,
lily_ast_enter_tree for a call followed by lily_ast_reset_pool while the call
is open ends with `save_index` = 2, and lily_ast_caller_tree_type then still
returns the kind of the cancelled call. -/
theorem reset_keeps_frames_counterexample :
    (lily_ast_reset_pool example_pool).save_index = 0
      ∧ ends_with [Op.enter_tree tree_call none, Op.reset_pool]
        (lily_ast_reset_pool example_pool)
        (fun ap1 => ap1.save_index = 2 ∧ ap1.root = none ∧ ap1.active = none
          ∧ lily_ast_caller_tree_type ap1 = .ok tree_call) := by
  refine ⟨rfl, ?_⟩
  obtain ⟨ape, F1, hen, hcol, hie, hre, hae⟩ :=
    enter_fresh tree_call none example_chain_ok example_stack_ok rfl rfl
  have hrun : run [Op.enter_tree tree_call none, Op.reset_pool]
      (lily_ast_reset_pool example_pool) = .ok (lily_ast_reset_pool ape) := by
    simp only [run, step, hen]
  have h0 : ((lily_ast_reset_pool example_pool).save_index.toNat : Int) = 0 := rfl
  rw [h0] at hie
  unfold ends_with
  rw [hrun]
  refine ⟨by show ape.save_index = 2; rw [hie]; rfl, rfl, rfl, ?_⟩
  have hc := hcol.caller hie
  exact hc

/-- C16, amended: lily_ast_reset_pool does not touch the save stack.  For every
state, `save_index` (like `save_size` and `saved_trees`) is after the reset what
it was before, so the save stack is empty right after the reset exactly when it
was empty before it. -/
theorem reset_keeps_save_index (ap : lily_ast_pool) :
    (lily_ast_reset_pool ap).save_index = ap.save_index
      ∧ (lily_ast_reset_pool ap).save_size = ap.save_size
      ∧ (lily_ast_reset_pool ap).saved_trees = ap.saved_trees
      ∧ ((lily_ast_reset_pool ap).save_index = 0 ↔ ap.save_index = 0) :=
  ⟨rfl, rfl, rfl, Iff.rfl⟩

/-- C12: balanced grouping restores the save stack.  For every pool,
lily_ast_enter_tree that returns has raised `save_index` by 2 (one frame of two
entries) and lily_ast_leave_tree that returns has lowered it by 2; for every
sequence `inner` of calls in which every lily_ast_enter_tree has its
lily_ast_leave_tree, a run of lily_ast_enter_tree, `inner`, lily_ast_leave_tree
ends with `save_index` where it started, and so does a run of `inner` alone, so
that a completed expression that starts at 0 ends at 0; and in a pool with a
well-formed chain and save stack and with `root` and `active` empty, a grouping
whose arguments are well-formed sub-expressions does end without a fault, with
`save_index` where it started. -/
theorem balanced_grouping_restores_stack (ap : lily_ast_pool) (tt : lily_tree_type)
    (var : Option Nat) (inner : List Op) (hb : balanced inner) :
    (∀ ape, lily_ast_enter_tree ap tt var = .ok ape → ape.save_index = ap.save_index + 2)
      ∧ (∀ apl, lily_ast_leave_tree ap = .ok apl → apl.save_index = ap.save_index - 2)
      ∧ (∀ ap1, run (Op.enter_tree tt var :: (inner ++ [Op.leave_tree])) ap = .ok ap1 →
          ap1.save_index = ap.save_index)
      ∧ (∀ ap1, run inner ap = .ok ap1 → ap1.save_index = ap.save_index)
      ∧ (∀ (F : List Nat) (segs : List (List Op)), chain_ok ap F → stack_ok ap →
          ap.root = none → ap.active = none → (∀ seg ∈ segs, isolated seg) →
          ends_with (Op.enter_tree tt var :: args_ops segs) ap
            (fun ap1 => ap1.save_index = ap.save_index)) := by
  refine ⟨fun ape h => (enter_frame h).2, fun apl h => (leave_frame h).2, fun ap1 h => ?_,
    fun ap1 h => balanced_index hb ap ap1 h, fun F segs hch hst hr ha hsegs => ?_⟩
  · exact balanced_index (balanced.group tt var inner [] hb balanced.nil) ap ap1 h
  · obtain ⟨ap1, F1, r, hrun, _, _, _, _, _, _, _, hidx, _⟩ :=
      grouping_isolated tt var segs hsegs ap F hch hst hr ha
    unfold ends_with
    rw [hrun]
    exact hidx

/-- C12, witness: `f(g(1), 2)` on the reset example pool, as lily_ast_enter_tree
for `f` followed by the calls for `g(1), 2` and lily_ast_leave_tree. -/
theorem balanced_grouping_restores_stack_witness :
    balanced [Op.enter_tree tree_call (some 8), Op.push_literal (some 1), Op.leave_tree,
        Op.collect_arg, Op.push_literal (some 2)]
      ∧ ends_with [Op.enter_tree tree_call (some 7), Op.enter_tree tree_call (some 8),
          Op.push_literal (some 1), Op.leave_tree, Op.collect_arg, Op.push_literal (some 2),
          Op.leave_tree] (lily_ast_reset_pool example_pool) (fun ap1 => ap1.save_index = 0) := by
  have hb : balanced [Op.enter_tree tree_call (some 8), Op.push_literal (some 1), Op.leave_tree,
      Op.collect_arg, Op.push_literal (some 2)] :=
    balanced.group tree_call (some 8) [Op.push_literal (some 1)]
      [Op.collect_arg, Op.push_literal (some 2)]
      (balanced.plain _ _ (fun _ _ h => by cases h) (fun h => by cases h) balanced.nil)
      (balanced.plain _ _ (fun _ _ h => by cases h) (fun h => by cases h)
        (balanced.plain _ _ (fun _ _ h => by cases h) (fun h => by cases h) balanced.nil))
  refine ⟨hb, ?_⟩
  have h := (balanced_grouping_restores_stack (lily_ast_reset_pool example_pool) tree_call
    (some 7) _ hb).2.2.2.2 [1, 0]
    [Op.enter_tree tree_call (some 8) :: args_ops [[Op.push_literal (some 1)]],
      [Op.push_literal (some 2)]]
    example_chain_ok example_stack_ok rfl rfl
    (fun seg hs => by
      simp only [List.mem_cons, List.mem_singleton, List.not_mem_nil, or_false] at hs
      rcases hs with e | e
      · rw [e]
        exact grouping_isolated tree_call (some 8) [[Op.push_literal (some 1)]]
          (fun x hx => by
            rw [List.mem_singleton] at hx
            rw [hx]; exact leaf_isolated (Leaf.literal (some 1)))
      · rw [e]; exact leaf_isolated (Leaf.literal (some 2)))
  exact h

/-- C14: pool conservation.  For a pool made by lily_new_ast_pool with `c`
trees, on any memory, and any calls `ops` that return, the expressions of `ops`
being separated by lily_ast_reset_pool and `largest_expr ops 0` being the
largest number of trees one of them takes: the chain from `available_start` is
a list of distinct trees of length max(c, largest), which is at most c +
largest, and these are all the trees obtained from lily_malloc; the reset
leaves the chain and the number of trees as they are; and calls after a reset
that take no more trees than the pool holds obtain no tree from lily_malloc and
leave the length of the chain as it is. -/
theorem pool_conservation (mem : Nat → lily_ast) (buf : Nat → Option Nat) (line c : Nat)
    (ops : List Op) (ap1 : lily_ast_pool)
    (h : run ops (lily_new_ast_pool mem buf line c) = .ok ap1) :
    (∃ P, free_chain ap1.mem P ap1.available_start ∧ P.Nodup
        ∧ P.length = max c (largest_expr ops 0) ∧ P.length ≤ c + largest_expr ops 0
        ∧ ap1.brk = P.length)
      ∧ ((∀ P, free_chain (lily_ast_reset_pool ap1).mem P (lily_ast_reset_pool ap1).available_start
            ↔ free_chain ap1.mem P ap1.available_start)
          ∧ (lily_ast_reset_pool ap1).brk = ap1.brk)
      ∧ (∀ (expr : List Op) (ap2 : lily_ast_pool),
          run (Op.reset_pool :: expr) ap1 = .ok ap2 → largest_expr expr 0 ≤ ap1.brk →
          ap2.brk = ap1.brk
            ∧ ∃ P, free_chain ap2.mem P ap2.available_start ∧ P.length = ap1.brk) := by
  obtain ⟨P0, hs0, hl0⟩ := new_pool_pool_split mem buf line c
  obtain ⟨U1, Fc1, k1, k2⟩ := pool_run ops _ ap1 [] P0 hs0 h
  rw [List.nil_append, hl0, List.length_nil] at k2
  refine ⟨⟨U1 ++ Fc1, k1.1, k1.2.2.1, k2, by rw [k2]; omega, k1.2.2.2.2⟩,
    ⟨fun P => Iff.rfl, rfl⟩, fun expr ap2 hr hle => ?_⟩
  obtain ⟨apm, hst, hr2⟩ := run_cons_ok hr
  simp only [step, Except.ok.injEq] at hst
  subst hst
  obtain ⟨U2, Fc2, m1, m2⟩ := pool_run expr _ ap2 [] (U1 ++ Fc1) (pool_split_reset k1) hr2
  rw [List.nil_append, List.length_nil] at m2
  have hb := k1.2.2.2.2
  have hlen : (U2 ++ Fc2).length = ap1.brk := by
    rw [m2, hb]
    rw [hb] at hle
    omega
  exact ⟨by rw [m1.2.2.2.2, hlen], U2 ++ Fc2, m1.1, hlen⟩

/-- C14, witness: `a + b`, a reset, then `a`, on the example pool of two trees:
the pool ends with three trees. -/
theorem pool_conservation_witness :
    ∃ ap1, run [Op.push_sym (some 1), Op.push_binary_op expr_plus, Op.push_sym (some 2),
        Op.reset_pool, Op.push_sym (some 1)] example_pool = .ok ap1
      ∧ ∃ P, free_chain ap1.mem P ap1.available_start ∧ P.length = 3 ∧ ap1.brk = 3 := by
  have hr : ∃ ap1, run [Op.push_sym (some 1), Op.push_binary_op expr_plus, Op.push_sym (some 2),
      Op.reset_pool, Op.push_sym (some 1)] example_pool = .ok ap1 := ⟨_, rfl⟩
  obtain ⟨ap1, h⟩ := hr
  obtain ⟨⟨P, p1, _, p3, _, p5⟩, _⟩ :=
    pool_conservation (fun _ => blank_tree) (fun _ => none) 1 2 _ ap1 h
  have e : max 2 (largest_expr [Op.push_sym (some 1), Op.push_binary_op expr_plus,
      Op.push_sym (some 2), Op.reset_pool, Op.push_sym (some 1)] 0) = 3 := by decide
  rw [e] at p3
  exact ⟨ap1, h, P, p1, p3, by rw [p5, p3]⟩

/-- C13: lily_ast_leave_tree restores the outer handles.  In a pool whose chain
of free trees and save stack are well formed, let lily_ast_enter_tree be called
when `root` and `active` are empty, or when `active` is a binary tree B in use
with an empty `right`, and be followed by argument sub-expressions separated by
lily_ast_collect_arg and closed by lily_ast_leave_tree.  Then the calls end
without a fault, `root` is the root that lily_ast_enter_tree saved in
`saved_trees` and `active` is the `parent` that lily_ast_enter_tree recorded in
the tree G of the grouping; in the first case `root` = `active` = G and the
`parent` of G is NULL, in the second `active` = B, `root` is what it was before
lily_ast_enter_tree, the `right` of B is G and the `parent` of G is B. -/
theorem leave_restores_handles (ap : lily_ast_pool) (F : List Nat) (hch : chain_ok ap F)
    (hst : stack_ok ap)
    (hact : (ap.active = none ∧ ap.root = none) ∨ ∃ B, ap.active = some B ∧ B < ap.brk ∧ B ∉ F
      ∧ (ap.mem B).tree_type = tree_binary ∧ (ap.mem B).right = none)
    (tt : lily_tree_type) (var : Option Nat) (segs : List (List Op))
    (hsegs : ∀ seg ∈ segs, isolated seg) :
    ∃ ape, lily_ast_enter_tree ap tt var = .ok ape
      ∧ ends_with (Op.enter_tree tt var :: args_ops segs) ap (fun ap1 =>
          ap1.root = ape.saved_trees ap.save_index.toNat
          ∧ ap1.active = (ape.mem (acquire_tree ap).1).parent
          ∧ (ap.active = none → ap1.root = some (acquire_tree ap).1
              ∧ ap1.active = some (acquire_tree ap).1
              ∧ (ap1.mem (acquire_tree ap).1).parent = none)
          ∧ (∀ B, ap.active = some B → ap1.active = some B ∧ ap1.root = ap.root
              ∧ (ap1.mem B).right = some (acquire_tree ap).1
              ∧ (ap1.mem (acquire_tree ap).1).parent = some B)) := by
  rcases hacq : acquire_tree ap with ⟨G, ap0⟩
  obtain ⟨_, _, hGn, _, _, _, hmem0, hact0, hroot0, _, _, _, _⟩ := acquire_inuse hacq hch
  have key : ∀ ap2 : lily_ast_pool,
      merge_value (poke ap0 G (fun n =>
        { n with tree_type := tt, line_num := ap0.lex_linenum, result := var,
                 args_collected := 0, arg_start := none, arg_top := none })) G = .ok ap2 →
      (∀ y, y ≠ G → ¬ (y < ap.brk ∧ y ∉ F) → ap2.mem y = ap0.mem y) →
      ap2.brk = ap0.brk → ap2.available_current = ap0.available_current →
      ap2.saved_trees = ap0.saved_trees → ap2.save_index = ap0.save_index →
      ap2.save_size = ap0.save_size →
      (ap2.mem G).tree_type = tt → (ap2.mem G).args_collected = 0 →
      (ap2.mem G).arg_start = none → (ap2.mem G).arg_top = none →
      ∃ ape, lily_ast_enter_tree ap tt var = .ok ape
        ∧ ape.saved_trees ap.save_index.toNat = ap2.root
        ∧ (ape.mem G).parent = ap2.active
        ∧ (∀ y, y ≠ G → ape.mem y = ap2.mem y)
        ∧ ends_with (Op.enter_tree tt var :: args_ops segs) ap (fun ap1 =>
            ap1.root = ap2.root ∧ ap1.active = ap2.active
            ∧ (ap1.mem G).parent = (if ap2.active = some G then none else ap2.active)
            ∧ ∀ y, (y < ap.brk ∧ y ∉ F) → ap1.mem y = ape.mem y) := by
    intro ap2 hmv hm hb hav hsv hsi hsz hk hcnt hs htop
    obtain ⟨ape0, _, hen0, hcol, _⟩ :=
      enter_collecting tt var [] hch hst hacq hmv (by simp) List.nodup_nil hm hb hav hsv hsi
        hsz hk (by simpa using hcnt) (by rw [hs]; rfl) (by rw [htop]; rfl)
    obtain ⟨ape, ap1, F1, roots, hen, hroots, hlen, hrun, hcl, _, hmy⟩ :=
      grouping_run tt var [] hch hst hacq hmv (by simp) List.nodup_nil hm hb hav hsv hsi hsz
        hk (by simpa using hcnt) (by rw [hs]; rfl) (by rw [htop]; rfl) segs hsegs
    have e : ape0 = ape := by
      rw [hen0] at hen
      exact Except.ok.inj hen
    subst e
    refine ⟨ape0, hen0, hcol.saved_root, hcol.up_eq, hmy, ?_⟩
    unfold ends_with
    rw [hrun]
    obtain ⟨hp, _, hroot, hactive⟩ := hcl
    exact ⟨hroot, hactive, hp.up_eq, fun y hy => (hp.frame y ⟨hy, by simp⟩).2.2⟩
  rcases hact with ⟨ha, hr⟩ | ⟨B, ha, hBb, hBF, hBt, hBr⟩
  · obtain ⟨ape, hen, k1, k2, _, k4⟩ := key { poke ap0 G (fun n =>
          { n with tree_type := tt, line_num := ap0.lex_linenum, result := var,
                   args_collected := 0, arg_start := none, arg_top := none }) with
          root := some G, active := some G }
        (by simp [merge_value, hact0, ha, hroot0, hr])
        (by intro y hy _; simp [hy]) rfl rfl rfl rfl rfl (by simp) (by simp) (by simp) (by simp)
    refine ⟨ape, hen, ends_with_mono (fun ap1 h => ?_) k4⟩
    obtain ⟨h1, h2, h3, _⟩ := h
    simp only [if_true] at h3
    refine ⟨by rw [h1, k1], by rw [h2, k2], fun _ => ⟨h1, h2, h3⟩, fun B hB => ?_⟩
    rw [ha] at hB
    cases hB
  · have hBG : B ≠ G := fun e => hGn (e ▸ ⟨hBb, hBF⟩)
    obtain ⟨ape, hen, k1, k2, k3, k4⟩ := key (poke (poke ap0 G (fun n =>
          { n with tree_type := tt, line_num := ap0.lex_linenum, result := var,
                   args_collected := 0, arg_start := none, arg_top := none }))
          B (fun n => { n with right := some G }))
        (by simp [merge_value, hact0, ha, hBG, hmem0 B hBG, hBt, hBr, tree_rank])
        (by
          intro y hy hyu
          have hyB : y ≠ B := fun e => hyu (e ▸ ⟨hBb, hBF⟩)
          simp [hy, hyB])
        rfl rfl rfl rfl rfl (by simp [hBG, Ne.symm hBG]) (by simp [hBG, Ne.symm hBG])
        (by simp [hBG, Ne.symm hBG]) (by simp [hBG, Ne.symm hBG])
    refine ⟨ape, hen, ends_with_mono (fun ap1 h => ?_) k4⟩
    obtain ⟨h1, h2, h3, h4⟩ := h
    have hact2 : (poke (poke ap0 G (fun n =>
          { n with tree_type := tt, line_num := ap0.lex_linenum, result := var,
                   args_collected := 0, arg_start := none, arg_top := none }))
          B (fun n => { n with right := some G })).active = some B := by
      show ap0.active = some B
      rw [hact0, ha]
    have hroot2 : (poke (poke ap0 G (fun n =>
          { n with tree_type := tt, line_num := ap0.lex_linenum, result := var,
                   args_collected := 0, arg_start := none, arg_top := none }))
          B (fun n => { n with right := some G })).root = ap.root := hroot0
    rw [hact2] at h2 h3 k2
    rw [hroot2] at h1 k1
    rw [if_neg (by simp [hBG])] at h3
    refine ⟨by rw [h1, k1], by rw [h2, k2], fun hn => ?_, fun B1 hB1 => ?_⟩
    · rw [ha] at hn; cases hn
    · rw [ha] at hB1
      cases hB1
      refine ⟨h2, h1, ?_, h3⟩
      rw [h4 B ⟨hBb, hBF⟩, k3 B hBG]
      simp

/-- C13, witness: `f(a, (2))` on the reset example pool, `root` and `active`
being empty when lily_ast_enter_tree is called; and the same call after
`x +`, `active` being the binary tree, which is the tree 0. -/
theorem leave_restores_handles_witness :
    (∃ ape, lily_ast_enter_tree (lily_ast_reset_pool example_pool) tree_call (some 7) = .ok ape
      ∧ ends_with (Op.enter_tree tree_call (some 7) :: args_ops example_args)
          (lily_ast_reset_pool example_pool) (fun ap1 =>
          ap1.root = ape.saved_trees 0
          ∧ ap1.active = (ape.mem 1).parent
          ∧ ap1.root = some 1 ∧ ap1.active = some 1 ∧ (ap1.mem 1).parent = none))
      ∧ ∃ apb ape, run [Op.push_sym (some 5), Op.push_binary_op expr_plus]
            (lily_ast_reset_pool example_pool) = .ok apb
          ∧ lily_ast_enter_tree apb tree_call (some 7) = .ok ape
          ∧ ends_with (Op.enter_tree tree_call (some 7) :: args_ops example_args) apb
              (fun ap1 => ap1.active = some 0 ∧ ap1.root = some 0
                ∧ (ap1.mem 0).right = some 2 ∧ (ap1.mem 2).parent = some 0) := by
  have hs : ∀ seg ∈ example_args, isolated seg := by
    intro seg h
    simp only [example_args, List.mem_cons, List.mem_singleton, List.not_mem_nil, or_false] at h
    rcases h with e | e
    · rw [e]; exact leaf_isolated (Leaf.sym (some 1))
    · rw [e]
      exact grouping_isolated tree_parenth none [[Op.push_literal (some 2)]]
        (fun x hx => by
          rw [List.mem_singleton] at hx
          rw [hx]; exact leaf_isolated (Leaf.literal (some 2)))
  refine ⟨?_, ?_⟩
  · obtain ⟨ape, h1, h2⟩ := leave_restores_handles (lily_ast_reset_pool example_pool) [1, 0]
      example_chain_ok example_stack_ok (Or.inl ⟨rfl, rfl⟩) tree_call (some 7) example_args hs
    exact ⟨ape, h1, ends_with_mono (fun ap1 h => ⟨h.1, h.2.1, h.2.2.1 rfl⟩) h2⟩
  · obtain ⟨apb, hb⟩ : ∃ apb, run [Op.push_sym (some 5), Op.push_binary_op expr_plus]
        (lily_ast_reset_pool example_pool) = .ok apb := ⟨_, rfl⟩
    have e : apb = (match run [Op.push_sym (some 5), Op.push_binary_op expr_plus]
        (lily_ast_reset_pool example_pool) with | .ok x => x | .error _ => example_pool) := by
      rw [hb]
    have hch : chain_ok apb [] := by
      rw [e]
      exact ⟨rfl, List.nodup_nil, by simp⟩
    have hst : stack_ok apb := by
      rw [e]
      exact ⟨by decide, by decide, by decide, by decide⟩
    obtain ⟨ape, h1, h2⟩ := leave_restores_handles apb [] hch hst
      (Or.inr ⟨0, by rw [e]; rfl, by rw [e]; decide, by simp, by rw [e]; rfl, by rw [e]; rfl⟩)
      tree_call (some 7) example_args hs
    refine ⟨apb, ape, hb, h1, ends_with_mono (fun ap1 h => ?_) h2⟩
    have hG : (acquire_tree apb).1 = 2 := by rw [e]; rfl
    have hroot : apb.root = some 0 := by rw [e]; rfl
    obtain ⟨k1, k2, k3, k4⟩ := h.2.2.2 0 (by rw [e]; rfl)
    rw [hG] at k3 k4
    exact ⟨k1, k2.trans hroot, k3, k4⟩

/-- C17: lily_ast_caller_tree_type returns the kind of the innermost open
grouping.  On a pool made by lily_new_ast_pool, after any calls `pre`, a call
of lily_ast_enter_tree with kind `tt`, and calls `inner` without a reset in
which every lily_ast_enter_tree has its lily_ast_leave_tree (values, operators,
lily_ast_collect_arg and complete nested groupings in any order), if the calls
return then lily_ast_caller_tree_type returns `tt`; and in a pool with a
well-formed chain and save stack and with `root` and `active` empty,
lily_ast_enter_tree followed by complete argument sub-expressions, each
followed by lily_ast_collect_arg, does return, and lily_ast_caller_tree_type
returns `tt` then.  The function returns the kind only: it has no state to
give back. -/
theorem caller_tree_type_innermost (mem : Nat → lily_ast) (buf : Nat → Option Nat)
    (line c : Nat) (pre inner : List Op) (tt : lily_tree_type) (var : Option Nat)
    (hb : balanced inner) (hre : Op.reset_pool ∉ inner) :
    (∀ ap1, run (pre ++ Op.enter_tree tt var :: inner) (lily_new_ast_pool mem buf line c)
        = .ok ap1 → lily_ast_caller_tree_type ap1 = .ok tt)
      ∧ (∀ (ap : lily_ast_pool) (F : List Nat) (segs : List (List Op)), chain_ok ap F →
          stack_ok ap → ap.root = none → ap.active = none → (∀ seg ∈ segs, isolated seg) →
          ends_with (Op.enter_tree tt var :: collected segs) ap
            (fun ap1 => lily_ast_caller_tree_type ap1 = .ok tt)) := by
  refine ⟨fun ap1 h => ?_, fun ap F segs hch hst hr ha hsegs => ?_⟩
  · obtain ⟨apm, h1, h2⟩ := run_append_split h
    obtain ⟨⟨F, hch⟩, h0⟩ := run_new_pool h1
    exact caller_after hch h0 hb hre h2
  · obtain ⟨ape, F1, hen, hcol, hie, hre1, hae⟩ := enter_fresh tt var hch hst hr ha
    obtain ⟨ap1, F2, rs1, k1, k2, k3, _, _⟩ :=
      collected_loop _ segs hsegs [] ape F1 hcol hie hre1 hae
    unfold ends_with
    simp only [run, step, hen, k1]
    exact k2.caller k3

/-- C17, witness: after `x + f(a, (2), 3 *` on the example pool the caller is
the call. -/
theorem caller_tree_type_innermost_witness :
    ∃ ap1, run ([Op.push_sym (some 5), Op.push_binary_op expr_plus]
        ++ Op.enter_tree tree_call (some 7) :: [Op.push_sym (some 1), Op.collect_arg,
          Op.enter_tree tree_parenth none, Op.push_literal (some 2), Op.leave_tree,
          Op.collect_arg, Op.push_literal (some 3), Op.push_binary_op expr_multiply])
        example_pool = .ok ap1
      ∧ lily_ast_caller_tree_type ap1 = .ok tree_call := by
  obtain ⟨ap1, h⟩ : ∃ ap1, run ([Op.push_sym (some 5), Op.push_binary_op expr_plus]
      ++ Op.enter_tree tree_call (some 7) :: [Op.push_sym (some 1), Op.collect_arg,
        Op.enter_tree tree_parenth none, Op.push_literal (some 2), Op.leave_tree,
        Op.collect_arg, Op.push_literal (some 3), Op.push_binary_op expr_multiply])
      example_pool = .ok ap1 := ⟨_, rfl⟩
  have hp : ∀ o : Op, (∀ tt var, o ≠ Op.enter_tree tt var) → o ≠ Op.leave_tree →
      ∀ os, balanced os → balanced (o :: os) := fun o h1 h2 os h => balanced.plain o os h1 h2 h
  have hb : balanced [Op.push_sym (some 1), Op.collect_arg,
      Op.enter_tree tree_parenth none, Op.push_literal (some 2), Op.leave_tree,
      Op.collect_arg, Op.push_literal (some 3), Op.push_binary_op expr_multiply] :=
    hp _ (fun _ _ e => by cases e) (fun e => by cases e) _
      (hp _ (fun _ _ e => by cases e) (fun e => by cases e) _
        (balanced.group tree_parenth none [Op.push_literal (some 2)]
          [Op.collect_arg, Op.push_literal (some 3), Op.push_binary_op expr_multiply]
          (hp _ (fun _ _ e => by cases e) (fun e => by cases e) _ balanced.nil)
          (hp _ (fun _ _ e => by cases e) (fun e => by cases e) _
            (hp _ (fun _ _ e => by cases e) (fun e => by cases e) _
              (hp _ (fun _ _ e => by cases e) (fun e => by cases e) _ balanced.nil)))))
  exact ⟨ap1, h, (caller_tree_type_innermost (fun _ => blank_tree) (fun _ => none) 1 2 _ _
    tree_call (some 7) hb (by decide)).1 ap1 h⟩

/-- C11: a subscript that took its receiver over is the left operand of a
following binary operator.  On a freshly reset pool whose save stack is empty,
for all leaves x, i, c and every binary operator o, push(x);
lily_ast_enter_tree(tree_subscript); push(i); lily_ast_leave_tree;
lily_ast_push_binary_op(o); push(c) end without a fault; the tree under `root`
is Binary(o, S, c) where S, the `left` of the root, is the subscript tree, with
`args_collected` = 2 and the chain from `arg_start` along `next_arg` being the
tree of x, then the tree of i, then NULL; and `save_index` is 0. -/
theorem subscript_left_operand (ap : lily_ast_pool) (hp : pool_ok ap) (hst : stack_ok ap)
    (h0 : ap.save_index = 0) (x i c : Leaf) (o : lily_expr_op) (var : Option Nat) :
    ends_with [x.push, Op.enter_tree tree_subscript var, i.push, Op.leave_tree,
        Op.push_binary_op o, c.push] (lily_ast_reset_pool ap)
      (fun ap1 => ∃ n S xa ia,
        tree_at ap1.mem (Tree.binary o (Tree.leaf tree_subscript var) c.tree) ap1.root
        ∧ ap1.root = some n ∧ (ap1.mem n).left = some S
        ∧ (ap1.mem S).tree_type = tree_subscript ∧ (ap1.mem S).args_collected = 2
        ∧ arg_chain ap1.mem [xa, ia] (ap1.mem S).arg_start
        ∧ tree_at ap1.mem x.tree (some xa) ∧ tree_at ap1.mem i.tree (some ia)
        ∧ ap1.save_index = 0) := by
  obtain ⟨F, c1, c2, c3⟩ := hp
  have hch : chain_ok (lily_ast_reset_pool ap) F := ⟨c1, c2, c3⟩
  -- push(x)
  obtain ⟨xa, ap1, F1, _, hs1, ⟨hch1, _, hxb, hxF, _, hss1⟩, _, hr1, ha1, hk1, hres1⟩ :=
    leaf_fresh_step x hch rfl rfl
  have hst1 : stack_ok ap1 := stack_ok_of_same hst hss1
  -- the subscript
  obtain ⟨G, ape, ap2, F2, roots, _, hen, hroots, hlen, hrun2, hch2, hGn, hGu, huse2, hru, _,
      hfr2, hxk, hr2, ha2, hGk, hGres, _, hGc, hGargs, hidx2, _, _⟩ :=
    receiver_root_grouping hch1 hst1 hr1 ha1 ⟨hxb, hxF⟩ (by rw [hk1]; exact leaf_rank x)
      tree_subscript var [[i.push]]
      (fun seg hs => by
        rw [List.mem_singleton] at hs
        rw [hs]; exact leaf_isolated i)
  obtain ⟨hre, hae⟩ := enter_clears hen
  have hrunA : run (args_ops [[i.push]]) ape = .ok ap2 := by
    obtain ⟨apm, hs, hr⟩ := run_cons_ok hrun2
    have e : apm = ape := by
      have hs : lily_ast_enter_tree ap1 tree_subscript var = .ok apm := hs
      rw [hen] at hs
      exact (Except.ok.inj hs).symm
    rw [e] at hr
    exact hr
  obtain ⟨hroots1, hik, hires⟩ := leaf_argument i hre hae hroots hrunA
  obtain ⟨ia, hia⟩ : ∃ ia, ia = (acquire_tree ape).1 := ⟨_, rfl⟩
  rw [← hia] at hroots1 hik hires
  subst hroots1
  have hiau := (hru ia (List.mem_singleton_self _)).1
  have hxau := huse2 xa hxb hxF
  -- the binary operator
  obtain ⟨n, ap3, F3, _, hs3, ⟨hch3, hnn, hnb, hnF, huse3, hss3⟩, hm3, hnk, hno, hnp, hnl, hnr,
      _, ha3, hr3⟩ :=
    binary_value_step o hch2 ha2 hGu (by rw [hGk]; simp [tree_rank])
  rw [hr2, if_pos rfl] at hr3
  -- push(c)
  obtain ⟨m, ap4, F4, _, hs4, ⟨_, hmn, _, _, _, hss4⟩, hm4, hB4, hr4, _, hmk, hmres⟩ :=
    leaf_right_step c hch3 ha3 ⟨hnb, hnF⟩ hnk hnr
  have hGn3 : G ≠ n := fun e => hnn (e ▸ hGu)
  have hxn3 : xa ≠ n := fun e => hnn (e ▸ hxau)
  have hin3 : ia ≠ n := fun e => hnn (e ▸ hiau)
  have hGm : G ≠ m := fun e => hmn (e ▸ huse3 G hGu.1 hGu.2)
  have hxm : xa ≠ m := fun e => hmn (e ▸ huse3 xa hxau.1 hxau.2)
  have him : ia ≠ m := fun e => hmn (e ▸ huse3 ia hiau.1 hiau.2)
  have hnm : n ≠ m := fun e => hmn (e ▸ ⟨hnb, hnF⟩)
  have hG4 : ap4.mem G = ap2.mem G := by rw [hm4 G hGm hGn3, hm3 G hGn3]
  have hx4 : ap4.mem xa = ap2.mem xa := by rw [hm4 xa hxm hxn3, hm3 xa hxn3]
  have hi4 : ap4.mem ia = ap2.mem ia := by rw [hm4 ia him hin3, hm3 ia hin3]
  have hrun : run [x.push, Op.enter_tree tree_subscript var, i.push, Op.leave_tree,
      Op.push_binary_op o, c.push] (lily_ast_reset_pool ap) = .ok ap4 := by
    have hT : run ((Op.enter_tree tree_subscript var :: args_ops [[i.push]])
        ++ [Op.push_binary_op o, c.push]) ap1 = .ok ap4 := by
      rw [run_append_ok hrun2]
      simp only [run, hs3, hs4]
    rw [run, hs1]
    exact hT
  unfold ends_with
  rw [hrun]
  refine ⟨n, G, xa, ia, ?_, hr4.trans hr3, by rw [hB4]; exact hnl, by rw [hG4]; exact hGk,
    by rw [hG4, hGc]; simp, ?_, ?_, ?_, ?_⟩
  · rw [hr4, hr3]
    refine ⟨by rw [hB4]; exact hnk, by rw [hB4]; exact hno, by rw [hB4]; exact hnp, ?_, ?_⟩
    · rw [hB4]
      show tree_at ap4.mem (Tree.leaf tree_subscript var) (ap3.mem n).left
      rw [hnl]
      exact ⟨by rw [hG4]; exact hGk, by rw [hG4]; exact hGres, by simp [tree_rank]⟩
    · rw [hB4]
      exact ⟨hmk, hmres, leaf_rank c⟩
  · rw [hG4]
    refine arg_chain_same _ _ (fun r hr => ?_) hGargs
    simp only [List.mem_cons, List.mem_singleton, List.not_mem_nil, or_false] at hr
    rcases hr with e | e
    · rw [e, hx4]
    · rw [e, hi4]
  · exact ⟨by rw [hx4, hxk.1]; exact hk1, by rw [hx4, hxk.2]; exact hres1, leaf_rank x⟩
  · exact ⟨by rw [hi4]; exact hik, by rw [hi4]; exact hires, leaf_rank i⟩
  · rw [hss4.2.1, hss3.2.1, hidx2, hss1.2.1]
    exact h0

/-- C11, witness: `x[0] + 1` on the example pool gives
`(+ (subscript x 0) 1)`. -/
theorem subscript_left_operand_witness :
    pool_ok example_pool ∧ stack_ok example_pool ∧ example_pool.save_index = 0
      ∧ ends_with [Op.push_sym (some 1), Op.enter_tree tree_subscript none,
          Op.push_literal (some 0), Op.leave_tree, Op.push_binary_op expr_plus,
          Op.push_literal (some 1)] (lily_ast_reset_pool example_pool)
        (fun ap1 => ∃ n S xa ia,
          tree_at ap1.mem (Tree.binary expr_plus (Tree.leaf tree_subscript none)
            (Tree.leaf tree_literal (some 1))) ap1.root
          ∧ ap1.root = some n ∧ (ap1.mem n).left = some S
          ∧ (ap1.mem S).tree_type = tree_subscript ∧ (ap1.mem S).args_collected = 2
          ∧ arg_chain ap1.mem [xa, ia] (ap1.mem S).arg_start
          ∧ tree_at ap1.mem (Tree.leaf tree_var (some 1)) (some xa)
          ∧ tree_at ap1.mem (Tree.leaf tree_literal (some 0)) (some ia)
          ∧ ap1.save_index = 0) := by
  have h := subscript_left_operand example_pool example_pool_ok example_stack_ok rfl
    (Leaf.sym (some 1)) (Leaf.literal (some 0)) (Leaf.literal (some 1)) expr_plus none
  exact ⟨example_pool_ok, example_stack_ok, rfl, h⟩

/-- C19: a grouping in right-operand position obeys the precedence law like a
leaf.  On a freshly reset pool with a well-formed save stack, for all leaves a,
b, c, all binary operators o1, o2 and k >= 0 argument sub-expressions, push(a);
lily_ast_push_binary_op(o1); push(b); lily_ast_enter_tree(tree_call); the
arguments; lily_ast_leave_tree end without a fault with the binary tree of o1
as `root` and as `active`; followed by lily_ast_push_binary_op(o2); push(c)
they end with the tree of the three-operand law under `root`,
Binary(o1, a, Binary(o2, X, c)) when o2 has a higher priority than o1 or
priority 0 and Binary(o2, Binary(o1, a, X), c) otherwise, where X, in the place
of the middle operand, is the call tree: its `args_collected` is 1 + k and its
chain from `arg_start` along `next_arg` is the tree of b followed by the roots
of the k sub-expressions in order, then NULL. -/
theorem grouping_right_operand (ap : lily_ast_pool) (hp : pool_ok ap) (hst : stack_ok ap)
    (a b c : Leaf) (o1 o2 : lily_expr_op) (var : Option Nat) (segs : List (List Op))
    (hsegs : ∀ seg ∈ segs, isolated seg) :
    ∃ ap3 ape X xb roots,
      run [a.push, Op.push_binary_op o1, b.push] (lily_ast_reset_pool ap) = .ok ap3
      ∧ lily_ast_enter_tree ap3 tree_call var = .ok ape
      ∧ arg_roots segs ape = roots.map some ∧ roots.length = segs.length
      ∧ ends_with ([a.push, Op.push_binary_op o1, b.push]
            ++ (Op.enter_tree tree_call var :: args_ops segs)) (lily_ast_reset_pool ap)
          (fun ap1 => ∃ B, ap1.root = some B ∧ ap1.active = some B
            ∧ (ap1.mem B).tree_type = tree_binary ∧ (ap1.mem B).op = o1
            ∧ (ap1.mem B).right = some X)
      ∧ ends_with ([a.push, Op.push_binary_op o1, b.push]
            ++ (Op.enter_tree tree_call var :: args_ops segs)
            ++ [Op.push_binary_op o2, c.push]) (lily_ast_reset_pool ap)
          (fun ap1 =>
            tree_at ap1.mem
              (if priority_for_op o2 > priority_for_op o1 ∨ priority_for_op o2 = 0 then
                Tree.binary o1 a.tree (Tree.binary o2 (Tree.leaf tree_call var) c.tree)
              else Tree.binary o2 (Tree.binary o1 a.tree (Tree.leaf tree_call var)) c.tree)
              ap1.root
            ∧ (∃ r p, ap1.root = some r
                ∧ (if priority_for_op o2 > priority_for_op o1 ∨ priority_for_op o2 = 0 then
                    (ap1.mem r).right = some p ∧ (ap1.mem p).left = some X
                  else (ap1.mem r).left = some p ∧ (ap1.mem p).right = some X))
            ∧ (ap1.mem X).tree_type = tree_call
            ∧ (ap1.mem X).args_collected = 1 + (segs.length : Int)
            ∧ arg_chain ap1.mem (xb :: roots) (ap1.mem X).arg_start
            ∧ tree_at ap1.mem b.tree (some xb)) := by
  obtain ⟨F, c1, c2, c3⟩ := hp
  have hch : chain_ok (lily_ast_reset_pool ap) F := ⟨c1, c2, c3⟩
  -- push(a)
  obtain ⟨na, p1, F1, _, hs1, ⟨hch1, _, hab, haF, _, hss1⟩, _, hr1, ha1, hak, hares⟩ :=
    leaf_fresh_step a hch rfl rfl
  -- o1
  obtain ⟨B, p2, F2, _, hs2, ⟨hch2, hBn, hBb, hBF, huse2, hss2⟩, hm2, hBk, hBo, hBp, hBl, hBr,
      hBpar, ha2, hr2⟩ :=
    binary_value_step o1 hch1 ha1 ⟨hab, haF⟩
      (by rw [hak]; exact lt_trans (leaf_rank a) (by simp [tree_rank]))
  rw [hr1, if_pos rfl] at hr2
  have hau2 := huse2 na hab haF
  have haB : na ≠ B := fun e => hBn (e ▸ ⟨hab, haF⟩)
  -- push(b)
  obtain ⟨xb, p3, F3, _, hs3, ⟨hch3, hxn, hxb, hxF, huse3, hss3⟩, hm3, hB3, hr3, ha3, hxk,
      hxres⟩ :=
    leaf_right_step b hch2 ha2 ⟨hBb, hBF⟩ hBk hBr
  have hau3 := huse3 na hau2.1 hau2.2
  have hBu3 := huse3 B hBb hBF
  have hax : na ≠ xb := fun e => hxn (e ▸ hau2)
  have hBx : B ≠ xb := fun e => hxn (e ▸ ⟨hBb, hBF⟩)
  have hst3 : stack_ok p3 :=
    stack_ok_of_same (stack_ok_of_same (stack_ok_of_same hst hss1) hss2) hss3
  have hrun3 : run [a.push, Op.push_binary_op o1, b.push] (lily_ast_reset_pool ap) = .ok p3 := by
    simp only [run, hs1, hs2, hs3]
  -- the call
  have hnu : (p3.mem xb).tree_type ≠ tree_unary := by
    rw [hxk]; cases b <;> simp [Leaf.kind]
  obtain ⟨G, ape, p4, F4, roots, _, hen, hroots, hlen, hrun4, hch4, hGn, hGu, huse4, hru, _,
      hfr4, hB4, hxkept, hr4, ha4, hGk, hGres, _, hGc, hGargs, _, _, _⟩ :=
    receiver_right_grouping hch3 hst3 ha3 hBu3 (by rw [hB3]; exact hBk) (by rw [hB3])
      ⟨hxb, hxF⟩ (Ne.symm hBx) hnu tree_call var segs hsegs
  have hau4 := huse4 na hau3.1 hau3.2
  have hBu4 := huse4 B hBu3.1 hBu3.2
  have hxu4 := huse4 xb hxb hxF
  have haG : na ≠ G := fun e => hGn (e ▸ hau3)
  have hBG : B ≠ G := fun e => hGn (e ▸ hBu3)
  have hxG : xb ≠ G := fun e => hGn (e ▸ ⟨hxb, hxF⟩)
  have hrunA : run ([a.push, Op.push_binary_op o1, b.push]
      ++ (Op.enter_tree tree_call var :: args_ops segs)) (lily_ast_reset_pool ap) = .ok p4 := by
    rw [run_append_ok hrun3]
    exact hrun4
  have hB4k : (p4.mem B).tree_type = tree_binary := by rw [hB4, hB3]; exact hBk
  have hB4o : (p4.mem B).op = o1 := by rw [hB4, hB3]; exact hBo
  have hB4p : (p4.mem B).priority = priority_for_op o1 := by rw [hB4, hB3]; exact hBp
  have hB4l : (p4.mem B).left = some na := by rw [hB4, hB3]; exact hBl
  have hB4r : (p4.mem B).right = some G := by rw [hB4]
  have hB4par : (p4.mem B).parent = none := by rw [hB4, hB3]; exact hBpar
  have ha4m : p4.mem na = p1.mem na := by
    rw [hfr4 na hau3.1 hau3.2 hax haB, hm3 na hax haB, hm2 na haB]
  refine ⟨p3, ape, G, xb, roots, hrun3, hen, hroots, hlen, ?_, ?_⟩
  · unfold ends_with
    rw [hrunA]
    exact ⟨B, hr4.trans (hr3.trans hr2), ha4, hB4k, hB4o, hB4r⟩
  -- o2 and push(c)
  have hroot4 : p4.root = some B := hr4.trans (hr3.trans hr2)
  by_cases hprio : priority_for_op o2 > priority_for_op o1 ∨ priority_for_op o2 = 0
  · rw [if_pos hprio]
    simp only [if_pos hprio]
    obtain ⟨n, p5, F5, _, hs5, ⟨hch5, hnn, hnb, hnF, huse5, _⟩, hm5, hB5, hnk, hno, hnp, hnl,
        hnr, _, ha5, hr5⟩ :=
      binary_steal_step o2 hch4 ha4 hBu4 hB4k (by rw [hB4p]; exact hprio)
    obtain ⟨m, p6, F6, _, hs6, ⟨_, hmn, _, _, _, _⟩, hm6, hn6, hr6, _, hmk, hmres⟩ :=
      leaf_right_step c hch5 ha5 ⟨hnb, hnF⟩ hnk hnr
    have hne : ∀ y, (y < p4.brk ∧ y ∉ F4) → y ≠ n ∧ y ≠ m := fun y hy =>
      ⟨fun e => hnn (e ▸ hy), fun e => hmn (e ▸ huse5 y hy.1 hy.2)⟩
    have hkeep : ∀ y, (y < p4.brk ∧ y ∉ F4) → y ≠ B → p6.mem y = p4.mem y := fun y hy hyB => by
      rw [hm6 y (hne y hy).2 (hne y hy).1, hm5 y (hne y hy).1 hyB]
    have hB6 : p6.mem B = { p4.mem B with right := some n } := by
      rw [hm6 B (hne B hBu4).2 (hne B hBu4).1, hB5]
    have hrun : run ([a.push, Op.push_binary_op o1, b.push]
        ++ (Op.enter_tree tree_call var :: args_ops segs)
        ++ [Op.push_binary_op o2, c.push]) (lily_ast_reset_pool ap) = .ok p6 := by
      rw [run_append_ok hrunA]
      simp only [run, hs5, hs6]
    unfold ends_with
    rw [hrun]
    have hroot6 : p6.root = some B := hr6.trans (hr5.trans hroot4)
    refine ⟨?_, ⟨B, n, hroot6, by rw [hB6], by rw [hn6]; exact hnl.trans hB4r⟩,
      by rw [hkeep G hGu (Ne.symm hBG)]; exact hGk,
      by rw [hkeep G hGu (Ne.symm hBG)]; exact hGc, ?_, ?_⟩
    · rw [hroot6]
      refine ⟨by rw [hB6]; exact hB4k, by rw [hB6]; exact hB4o, by rw [hB6]; exact hB4p, ?_, ?_⟩
      · have e : (p6.mem B).left = some na := by rw [hB6]; exact hB4l
        rw [e]
        exact ⟨by rw [hkeep na hau4 haB, ha4m]; exact hak,
          by rw [hkeep na hau4 haB, ha4m]; exact hares, leaf_rank a⟩
      · have e : (p6.mem B).right = some n := by rw [hB6]
        rw [e]
        refine ⟨by rw [hn6]; exact hnk, by rw [hn6]; exact hno, by rw [hn6]; exact hnp, ?_, ?_⟩
        · have e2 : (p6.mem n).left = some G := by rw [hn6]; exact hnl.trans hB4r
          rw [e2]
          exact ⟨by rw [hkeep G hGu (Ne.symm hBG)]; exact hGk,
            by rw [hkeep G hGu (Ne.symm hBG)]; exact hGres, by simp [tree_rank]⟩
        · have e2 : (p6.mem n).right = some m := by rw [hn6]
          rw [e2]
          exact ⟨hmk, hmres, leaf_rank c⟩
    · rw [hkeep G hGu (Ne.symm hBG)]
      refine arg_chain_same _ _ (fun r hr => ?_) hGargs
      rcases List.mem_cons.mp hr with e | e
      · rw [e, hkeep xb hxu4 (Ne.symm hBx)]
      · have hr4u := (hru r e).1
        have hrB : r ≠ B := fun e2 => (hru r e).2.1 (e2 ▸ hBu3)
        rw [hkeep r hr4u hrB]
    · exact ⟨by rw [hkeep xb hxu4 (Ne.symm hBx), hxkept.1]; exact hxk,
        by rw [hkeep xb hxu4 (Ne.symm hBx), hxkept.2]; exact hxres, leaf_rank b⟩
  · rw [if_neg hprio]
    simp only [if_neg hprio]
    obtain ⟨n, p5, F5, _, hs5, ⟨hch5, hnn, hnb, hnF, huse5, _⟩, hm5, hB5, hnk, hno, hnp, hnl,
        hnr, ha5, hr5⟩ :=
      binary_over_step o2 hch4 ha4 hBu4 hB4k (by rw [hB4p]; exact hprio) hB4par
    obtain ⟨m, p6, F6, _, hs6, ⟨_, hmn, _, _, _, _⟩, hm6, hn6, hr6, _, hmk, hmres⟩ :=
      leaf_right_step c hch5 ha5 ⟨hnb, hnF⟩ hnk hnr
    have hne : ∀ y, (y < p4.brk ∧ y ∉ F4) → y ≠ n ∧ y ≠ m := fun y hy =>
      ⟨fun e => hnn (e ▸ hy), fun e => hmn (e ▸ huse5 y hy.1 hy.2)⟩
    have hkeep : ∀ y, (y < p4.brk ∧ y ∉ F4) → y ≠ B → p6.mem y = p4.mem y := fun y hy hyB => by
      rw [hm6 y (hne y hy).2 (hne y hy).1, hm5 y (hne y hy).1 hyB]
    have hB6 : p6.mem B = { p4.mem B with parent := some n } := by
      rw [hm6 B (hne B hBu4).2 (hne B hBu4).1, hB5]
    have hrun : run ([a.push, Op.push_binary_op o1, b.push]
        ++ (Op.enter_tree tree_call var :: args_ops segs)
        ++ [Op.push_binary_op o2, c.push]) (lily_ast_reset_pool ap) = .ok p6 := by
      rw [run_append_ok hrunA]
      simp only [run, hs5, hs6]
    unfold ends_with
    rw [hrun]
    have hroot6 : p6.root = some n := hr6.trans hr5
    refine ⟨?_, ⟨n, B, hroot6, by rw [hn6]; exact hnl, by rw [hB6]; exact hB4r⟩,
      by rw [hkeep G hGu (Ne.symm hBG)]; exact hGk,
      by rw [hkeep G hGu (Ne.symm hBG)]; exact hGc, ?_, ?_⟩
    · rw [hroot6]
      refine ⟨by rw [hn6]; exact hnk, by rw [hn6]; exact hno, by rw [hn6]; exact hnp, ?_, ?_⟩
      · have e : (p6.mem n).left = some B := by rw [hn6]; exact hnl
        rw [e]
        refine ⟨by rw [hB6]; exact hB4k, by rw [hB6]; exact hB4o, by rw [hB6]; exact hB4p,
          ?_, ?_⟩
        · have e2 : (p6.mem B).left = some na := by rw [hB6]; exact hB4l
          rw [e2]
          exact ⟨by rw [hkeep na hau4 haB, ha4m]; exact hak,
            by rw [hkeep na hau4 haB, ha4m]; exact hares, leaf_rank a⟩
        · have e2 : (p6.mem B).right = some G := by rw [hB6]; exact hB4r
          rw [e2]
          exact ⟨by rw [hkeep G hGu (Ne.symm hBG)]; exact hGk,
            by rw [hkeep G hGu (Ne.symm hBG)]; exact hGres, by simp [tree_rank]⟩
      · have e : (p6.mem n).right = some m := by rw [hn6]
        rw [e]
        exact ⟨hmk, hmres, leaf_rank c⟩
    · rw [hkeep G hGu (Ne.symm hBG)]
      refine arg_chain_same _ _ (fun r hr => ?_) hGargs
      rcases List.mem_cons.mp hr with e | e
      · rw [e, hkeep xb hxu4 (Ne.symm hBx)]
      · have hr4u := (hru r e).1
        have hrB : r ≠ B := fun e2 => (hru r e).2.1 (e2 ▸ hBu3)
        rw [hkeep r hr4u hrB]
    · exact ⟨by rw [hkeep xb hxu4 (Ne.symm hBx), hxkept.1]; exact hxk,
        by rw [hkeep xb hxu4 (Ne.symm hBx), hxkept.2]; exact hxres, leaf_rank b⟩

/-- C19, witness: `a = b.concat("c") < d` on the example pool gives
`(= a (< (call b "c") d))`; and the expression of the source comment,
`a = b.concat("c") < b.concat("d")`, run on the example pool, gives
`(= a (< (call b "c") (call b "d")))`: the trees are numbered in the order the
calls take them (1, 0, then 2, 3, ...). -/
theorem grouping_right_operand_witness :
    ends_with ([Op.push_sym (some 1), Op.push_binary_op expr_assign, Op.push_sym (some 2)]
        ++ (Op.enter_tree tree_call (some 9) :: args_ops [[Op.push_literal (some 3)]])
        ++ [Op.push_binary_op expr_lt, Op.push_sym (some 4)]) (lily_ast_reset_pool example_pool)
      (fun ap1 => tree_at ap1.mem
        (Tree.binary expr_assign (Tree.leaf tree_var (some 1))
          (Tree.binary expr_lt (Tree.leaf tree_call (some 9)) (Tree.leaf tree_var (some 4))))
        ap1.root)
      ∧ ∃ ap1, run [Op.push_sym (some 1), Op.push_binary_op expr_assign, Op.push_sym (some 2),
            Op.enter_tree tree_call (some 9), Op.push_literal (some 3), Op.leave_tree,
            Op.push_binary_op expr_lt, Op.push_sym (some 2),
            Op.enter_tree tree_call (some 9), Op.push_literal (some 4), Op.leave_tree]
          (lily_ast_reset_pool example_pool) = .ok ap1
        ∧ tree_at ap1.mem
            (Tree.binary expr_assign (Tree.leaf tree_var (some 1))
              (Tree.binary expr_lt (Tree.leaf tree_call (some 9))
                (Tree.leaf tree_call (some 9)))) ap1.root
        ∧ ap1.root = some 0 ∧ (ap1.mem 0).right = some 5
        ∧ (ap1.mem 5).left = some 3 ∧ (ap1.mem 5).right = some 7
        ∧ arg_chain ap1.mem [2, 4] (ap1.mem 3).arg_start
        ∧ arg_chain ap1.mem [6, 8] (ap1.mem 7).arg_start
        ∧ tree_at ap1.mem (Tree.leaf tree_var (some 2)) (some 2)
        ∧ tree_at ap1.mem (Tree.leaf tree_literal (some 3)) (some 4)
        ∧ tree_at ap1.mem (Tree.leaf tree_var (some 2)) (some 6)
        ∧ tree_at ap1.mem (Tree.leaf tree_literal (some 4)) (some 8)
        ∧ ap1.save_index = 0 := by
  refine ⟨?_, ?_⟩
  · obtain ⟨_, _, _, _, _, _, _, _, _, _, h⟩ :=
      grouping_right_operand example_pool example_pool_ok example_stack_ok (Leaf.sym (some 1))
        (Leaf.sym (some 2)) (Leaf.sym (some 4)) expr_assign expr_lt (some 9)
        [[Op.push_literal (some 3)]]
        (fun seg hs => by
          rw [List.mem_singleton] at hs
          rw [hs]; exact leaf_isolated (Leaf.literal (some 3)))
    refine ends_with_mono (fun x hx => ?_) h
    have h1 := hx.1
    rw [if_pos (Or.inl (by decide))] at h1
    exact h1
  · obtain ⟨ap1, h⟩ : ∃ ap1, run [Op.push_sym (some 1), Op.push_binary_op expr_assign,
          Op.push_sym (some 2),
          Op.enter_tree tree_call (some 9), Op.push_literal (some 3), Op.leave_tree,
          Op.push_binary_op expr_lt, Op.push_sym (some 2),
          Op.enter_tree tree_call (some 9), Op.push_literal (some 4), Op.leave_tree]
        (lily_ast_reset_pool example_pool) = .ok ap1 := ⟨_, rfl⟩
    have e : ap1 = (match run [Op.push_sym (some 1), Op.push_binary_op expr_assign,
          Op.push_sym (some 2),
          Op.enter_tree tree_call (some 9), Op.push_literal (some 3), Op.leave_tree,
          Op.push_binary_op expr_lt, Op.push_sym (some 2),
          Op.enter_tree tree_call (some 9), Op.push_literal (some 4), Op.leave_tree]
        (lily_ast_reset_pool example_pool) with | .ok x => x | .error _ => example_pool) := by
      rw [h]
    refine ⟨ap1, h, ?_⟩
    rw [e]
    exact ⟨⟨rfl, rfl, rfl, ⟨rfl, rfl, by decide⟩, rfl, rfl, rfl, ⟨rfl, rfl, by decide⟩,
      ⟨rfl, rfl, by decide⟩⟩, rfl, rfl, rfl, rfl, ⟨rfl, rfl, rfl⟩, ⟨rfl, rfl, rfl⟩,
      ⟨rfl, rfl, by decide⟩, ⟨rfl, rfl, by decide⟩, ⟨rfl, rfl, by decide⟩,
      ⟨rfl, rfl, by decide⟩, rfl⟩

/-- C18, the divergence: `-x[i] +` on the reset example pool.  The calls
lily_ast_push_unary_op(-); push_sym(x); lily_ast_enter_tree(tree_subscript);
push_literal(i); lily_ast_leave_tree; lily_ast_push_binary_op(+) end without a
fault with `root` the unary tree (tree 1) and `active` the new binary tree
(tree 4), which is not the root and is not reachable from it: the trees
reachable from the root are the subscript (2), x (0) and i (3).  After push(c)
the tree under `root` is still the unary tree over the subscript, and the
`right` of the binary tree outside it holds c. -/
theorem active_outside_tree :
    ∃ ap1, run [Op.push_unary_op expr_unary_minus, Op.push_sym (some 7),
          Op.enter_tree tree_subscript none, Op.push_literal (some 8), Op.leave_tree,
          Op.push_binary_op expr_plus] (lily_ast_reset_pool example_pool) = .ok ap1
      ∧ ap1.root = some 1 ∧ ap1.active = some 4 ∧ ¬ reach ap1.mem 1 4
      ∧ (∀ y, reach ap1.mem 1 y → y = 2 ∨ y = 0 ∨ y = 3)
      ∧ (ap1.mem 4).tree_type = tree_binary ∧ (ap1.mem 4).left = some 2
      ∧ ∃ ap2, step ap1 (Op.push_literal (some 9)) = .ok ap2
        ∧ ap2.root = some 1 ∧ (ap2.mem 1).tree_type = tree_unary
        ∧ (ap2.mem 1).left = some 2 ∧ (ap2.mem 2).tree_type = tree_subscript
        ∧ ap2.active = some 4 ∧ (ap2.mem 4).right = some 5 := by
  obtain ⟨ap1, h⟩ : ∃ ap1, run [Op.push_unary_op expr_unary_minus, Op.push_sym (some 7),
        Op.enter_tree tree_subscript none, Op.push_literal (some 8), Op.leave_tree,
        Op.push_binary_op expr_plus] (lily_ast_reset_pool example_pool) = .ok ap1 := ⟨_, rfl⟩
  have e : ap1 = (match run [Op.push_unary_op expr_unary_minus, Op.push_sym (some 7),
        Op.enter_tree tree_subscript none, Op.push_literal (some 8), Op.leave_tree,
        Op.push_binary_op expr_plus] (lily_ast_reset_pool example_pool) with
      | .ok x => x | .error _ => example_pool) := by
    rw [h]
  have k1 : (ap1.mem 1).tree_type = tree_unary ∧ (ap1.mem 1).left = some 2 := by
    rw [e]; exact ⟨rfl, rfl⟩
  have k2 : (ap1.mem 2).tree_type = tree_subscript ∧ (ap1.mem 2).arg_start = some 0 := by
    rw [e]; exact ⟨rfl, rfl⟩
  have k0 : (ap1.mem 0).tree_type = tree_var ∧ (ap1.mem 0).next_arg = some 3 := by
    rw [e]; exact ⟨rfl, rfl⟩
  have k3 : (ap1.mem 3).tree_type = tree_literal ∧ (ap1.mem 3).next_arg = none := by
    rw [e]; exact ⟨rfl, rfl⟩
  have hclosed : ∀ p y, reach ap1.mem p y → (p = 1 ∨ p = 2 ∨ p = 0 ∨ p = 3) →
      (y = 2 ∨ y = 0 ∨ y = 3) := by
    intro p y hr
    induction hr with
    | left p x hl =>
      intro hp
      obtain ⟨ht, hx⟩ := hl
      rcases hp with e1 | e1 | e1 | e1 <;> subst e1
      · rw [k1.2] at hx
        exact Or.inl (Option.some.inj hx).symm
      · rw [k2.1] at ht; simp at ht
      · rw [k0.1] at ht; simp at ht
      · rw [k3.1] at ht; simp at ht
    | right p x hl =>
      intro hp
      obtain ⟨ht, _⟩ := hl
      rcases hp with e1 | e1 | e1 | e1 <;> subst e1
      · rw [k1.1] at ht; simp at ht
      · rw [k2.1] at ht; simp at ht
      · rw [k0.1] at ht; simp at ht
      · rw [k3.1] at ht; simp at ht
    | args p x hl =>
      intro hp
      obtain ⟨ht, hx⟩ := hl
      rcases hp with e1 | e1 | e1 | e1 <;> subst e1
      · rw [k1.1] at ht; simp [tree_rank] at ht
      · rw [k2.2] at hx
        cases hx with
        | head => exact Or.inr (Or.inl rfl)
        | next _ _ hx2 =>
          rw [k0.2] at hx2
          cases hx2 with
          | head => exact Or.inr (Or.inr rfl)
          | next _ _ hx3 =>
            rw [k3.2] at hx3
            cases hx3
      · rw [k0.1] at ht; simp [tree_rank] at ht
      · rw [k3.1] at ht; simp [tree_rank] at ht
    | trans p z x _ _ ih1 ih2 =>
      intro hp
      exact ih2 (Or.inr (ih1 hp))
  refine ⟨ap1, h, by rw [e]; rfl, by rw [e]; rfl, fun hr => ?_,
    fun y hy => hclosed 1 y hy (Or.inl rfl), by rw [e]; rfl, by rw [e]; rfl, ?_⟩
  · have := hclosed 1 4 hr (Or.inl rfl)
    omega
  · obtain ⟨ap2, h2⟩ : ∃ ap2, step (match run [Op.push_unary_op expr_unary_minus,
          Op.push_sym (some 7),
          Op.enter_tree tree_subscript none, Op.push_literal (some 8), Op.leave_tree,
          Op.push_binary_op expr_plus] (lily_ast_reset_pool example_pool) with
        | .ok x => x | .error _ => example_pool) (Op.push_literal (some 9)) = .ok ap2 :=
      ⟨_, rfl⟩
    have e2 : ap2 = (match step (match run [Op.push_unary_op expr_unary_minus,
          Op.push_sym (some 7),
          Op.enter_tree tree_subscript none, Op.push_literal (some 8), Op.leave_tree,
          Op.push_binary_op expr_plus] (lily_ast_reset_pool example_pool) with
        | .ok x => x | .error _ => example_pool) (Op.push_literal (some 9)) with
        | .ok x => x | .error _ => example_pool) := by
      rw [h2]
    refine ⟨ap2, by rw [e]; exact h2, ?_⟩
    rw [e2]
    exact ⟨rfl, rfl, rfl, rfl, rfl, rfl⟩

/-- C20, the divergence: `a = b + c * d - e - f` on the reset example pool (the
values are var 1 .. var 6).  The eleven calls end without a fault with
`(= a (- (+ b (* c d)) f))` under `root`: the in-order traversal of the tree
under `root` is not the sequence of the calls, the value e is not in it, and it
holds four binary operators where five were pushed. -/
theorem operand_lost :
    ends_with (alternating (Leaf.sym (some 1))
        [(expr_assign, Leaf.sym (some 2)), (expr_plus, Leaf.sym (some 3)),
          (expr_multiply, Leaf.sym (some 4)), (expr_minus, Leaf.sym (some 5)),
          (expr_minus, Leaf.sym (some 6))])
      (lily_ast_reset_pool example_pool)
      (fun ap1 =>
        tree_at ap1.mem
          (Tree.binary expr_assign (Tree.leaf tree_var (some 1))
            (Tree.binary expr_minus
              (Tree.binary expr_plus (Tree.leaf tree_var (some 2))
                (Tree.binary expr_multiply (Tree.leaf tree_var (some 3))
                  (Tree.leaf tree_var (some 4))))
              (Tree.leaf tree_var (some 6)))) ap1.root
        ∧ ∀ t, tree_at ap1.mem t ap1.root →
            t.inorder ≠ tokens (Leaf.sym (some 1))
              [(expr_assign, Leaf.sym (some 2)), (expr_plus, Leaf.sym (some 3)),
                (expr_multiply, Leaf.sym (some 4)), (expr_minus, Leaf.sym (some 5)),
                (expr_minus, Leaf.sym (some 6))]
            ∧ Token.val tree_var (some 5) ∉ t.inorder
            ∧ t.inorder = [Token.val tree_var (some 1), Token.op expr_assign,
                Token.val tree_var (some 2), Token.op expr_plus, Token.val tree_var (some 3),
                Token.op expr_multiply, Token.val tree_var (some 4), Token.op expr_minus,
                Token.val tree_var (some 6)]) := by
  have h : ends_with (alternating (Leaf.sym (some 1))
        [(expr_assign, Leaf.sym (some 2)), (expr_plus, Leaf.sym (some 3)),
          (expr_multiply, Leaf.sym (some 4)), (expr_minus, Leaf.sym (some 5)),
          (expr_minus, Leaf.sym (some 6))])
      (lily_ast_reset_pool example_pool)
      (fun ap1 => tree_at ap1.mem
          (Tree.binary expr_assign (Tree.leaf tree_var (some 1))
            (Tree.binary expr_minus
              (Tree.binary expr_plus (Tree.leaf tree_var (some 2))
                (Tree.binary expr_multiply (Tree.leaf tree_var (some 3))
                  (Tree.leaf tree_var (some 4))))
              (Tree.leaf tree_var (some 6)))) ap1.root) :=
    ends_with_tree example_pool_ok
      ⟨[⟨expr_minus, Tree.binary expr_plus (Tree.leaf tree_var (some 2))
            (Tree.binary expr_multiply (Tree.leaf tree_var (some 3))
              (Tree.leaf tree_var (some 4))), true⟩,
          ⟨expr_assign, Tree.leaf tree_var (some 1), false⟩], [], some (tree_var, some 6)⟩
      (by decide) rfl
  refine ends_with_mono (fun x hx => ⟨hx, fun t ht => ?_⟩) h
  rw [tree_at_unique t _ _ ht hx]
  decide

/-- C28: symbol identities are unique and sequential. lily_new_symtab with any
seeds followed by any sequence of lily_new_var and lily_new_literal calls, as long
as the number of vars and the number of literals stay within INT_MAX, returns
without fault; the calls return the objects obtained from lily_malloc in the order
of the calls; afterwards the list from var_start along next holds the vars in
insertion order and ends at NULL, var_top is the last inserted var, the var number
j has id j and next_var_id is the number of vars; the same holds of the literals
with lit_start, lit_top and next_lit_id; no two vars and no two literals share an
id. -/
theorem symbol_ids_sequential (var_mem : Nat → lily_var) (var_brk : Nat)
    (lit_mem : Nat → lily_literal) (lit_brk line : Nat)
    (seeds : List (Option Nat × Option Nat × Option Nat)) (ops : List SymOp)
    (hv : seeds.length + count_vars ops ≤ 2147483647)
    (hl : count_lits ops ≤ 2147483647) :
    ∃ st0 st,
      lily_new_symtab var_mem var_brk lit_mem lit_brk line seeds = .ok st0
      ∧ vars_ok var_brk seeds.length st0 ∧ lits_ok lit_brk 0 st0
      ∧ sym_trace ops st0
          = .ok ((List.range (count_vars ops)).map (fun j => var_brk + seeds.length + j),
                 (List.range (count_lits ops)).map (fun j => lit_brk + 0 + j), st)
      ∧ vars_ok var_brk (seeds.length + count_vars ops) st
      ∧ lits_ok lit_brk (0 + count_lits ops) st
      ∧ (∀ i j, i < seeds.length + count_vars ops → j < seeds.length + count_vars ops →
          (st.var_mem (var_brk + i)).id = (st.var_mem (var_brk + j)).id → i = j)
      ∧ (∀ i j, i < count_lits ops → j < count_lits ops →
          (st.lit_mem (lit_brk + i)).id = (st.lit_mem (lit_brk + j)).id → i = j) := by
  have hv0 : vars_ok var_brk 0
      { var_mem := var_mem, var_brk := var_brk, lit_mem := lit_mem, lit_brk := lit_brk,
        next_lit_id := 0, next_var_id := 0, var_start := none, var_top := none,
        lit_start := none, lit_top := none, lex_linenum := line } :=
    ⟨rfl, rfl, rfl, rfl, fun j hj => absurd hj (Nat.not_lt_zero j)⟩
  have hl0 : lits_ok lit_brk 0
      { var_mem := var_mem, var_brk := var_brk, lit_mem := lit_mem, lit_brk := lit_brk,
        next_lit_id := 0, next_var_id := 0, var_start := none, var_top := none,
        lit_start := none, lit_top := none, lex_linenum := line } :=
    ⟨rfl, rfl, rfl, rfl, fun j hj => absurd hj (Nat.not_lt_zero j)⟩
  obtain ⟨st0, e0, hv1, hl1, _⟩ := init_symbols_grows seeds hv0 hl0
    (by unfold INT_MAX; push_cast; omega)
  rw [Nat.zero_add] at hv1
  obtain ⟨st, e, hv2, hl2⟩ := sym_trace_grows ops hv1 hl1
    (by unfold INT_MAX; push_cast; omega) (by unfold INT_MAX; push_cast; omega)
  refine ⟨st0, st, e0, hv1, hl1, e, hv2, hl2, ?_, ?_⟩
  · intro i j hi hj h
    rw [hv2.2.2.2.2 i hi, hv2.2.2.2.2 j hj] at h
    exact Int.ofNat_inj.mp h
  · intro i j hi hj h
    rw [hl2.2.2.2.2 i (by omega), hl2.2.2.2.2 j (by omega)] at h
    exact Int.ofNat_inj.mp h

/-- Two seeds, then a var, a literal, a var and a literal. -/
theorem symbol_ids_sequential_witness :
    (2 + count_vars [SymOp.new_var none none, SymOp.new_literal none,
        SymOp.new_var none none, SymOp.new_literal none] ≤ 2147483647)
    ∧ ∃ st0 st,
      lily_new_symtab (fun _ => ⟨7, some 3, none, none, none, 0⟩) 10 (fun _ => ⟨9, some 2, none⟩)
          20 1 [(none, none, none), (none, none, none)] = .ok st0
      ∧ vars_ok 10 2 st0 ∧ lits_ok 20 0 st0
      ∧ sym_trace [SymOp.new_var none none, SymOp.new_literal none,
          SymOp.new_var none none, SymOp.new_literal none] st0
          = .ok ([12, 13], [20, 21], st)
      ∧ vars_ok 10 4 st ∧ lits_ok 20 2 st
      ∧ (∀ i j, i < 4 → j < 4 →
          (st.var_mem (10 + i)).id = (st.var_mem (10 + j)).id → i = j)
      ∧ (∀ i j, i < 2 → j < 2 →
          (st.lit_mem (20 + i)).id = (st.lit_mem (20 + j)).id → i = j) :=
  ⟨by decide,
   symbol_ids_sequential (fun _ => ⟨7, some 3, none, none, none, 0⟩) 10
     (fun _ => ⟨9, some 2, none⟩) 20 1 [(none, none, none), (none, none, none)]
     [SymOp.new_var none none, SymOp.new_literal none,
        SymOp.new_var none none, SymOp.new_literal none] (by decide) (by decide)⟩

/-- C27: no tree is handed out twice within one expression. In a state reached
from lily_new_ast_pool by any calls, let lily_ast_reset_pool be followed by calls
that are not resets and that return. Then every call that takes a tree is counted,
the trees handed out are pairwise distinct, and for every k up to the length of
the chain P that starts at available_start at the reset the first k trees handed
out are the first k trees of P; and once available_current is NULL after some of
the calls it is NULL after all of them. -/
theorem no_tree_handed_twice (mem : Nat → lily_ast) (buf : Nat → Option Nat) (line c : Nat)
    (ops0 ops : List Op) (ap0 ap1 : lily_ast_pool)
    (h0 : run ops0 (lily_new_ast_pool mem buf line c) = .ok ap0)
    (hn : Op.reset_pool ∉ ops)
    (h1 : run ops (lily_ast_reset_pool ap0) = .ok ap1) :
    ∃ P, free_chain ap0.mem P ap0.available_start
      ∧ (handed_out ops (lily_ast_reset_pool ap0)).length = (ops.filter Op.acquires).length
      ∧ (handed_out ops (lily_ast_reset_pool ap0)).Nodup
      ∧ (∀ k, k ≤ P.length → k ≤ (handed_out ops (lily_ast_reset_pool ap0)).length →
          (handed_out ops (lily_ast_reset_pool ap0)).take k = P.take k)
      ∧ (∀ (pre post : List Op) (apm : lily_ast_pool), ops = pre ++ post →
          run pre (lily_ast_reset_pool ap0) = .ok apm → apm.available_current = none →
          ap1.available_current = none) := by
  obtain ⟨P0, hs0, _⟩ := new_pool_pool_split mem buf line c
  obtain ⟨U1, Fc1, k1, _⟩ := pool_run ops0 _ ap0 [] P0 hs0 h0
  have hreset := pool_split_reset k1
  obtain ⟨U, Fc, _, hd, _, hP⟩ := handed_run (U1 ++ Fc1) ops _ ap1 []
    ⟨[], U1 ++ Fc1, hreset, List.nodup_nil, fun x => Iff.rfl, Or.inl rfl⟩ hn h1
  rw [List.nil_append] at hd hP
  refine ⟨U1 ++ Fc1, k1.1, handed_out_length ops _ ap1 h1, hd, ?_, ?_⟩
  · intro k hk1 hk2
    rcases hP with e | ⟨_, t, e⟩
    · rw [← e, List.take_append_of_le_length hk2]
    · rw [← e, List.take_append_of_le_length hk1]
  · intro pre post apm e hr hc
    subst e
    obtain ⟨apm1, hr1, hr2⟩ := run_append_split h1
    rw [hr] at hr1
    cases hr1
    exact run_current_none post apm ap1 (fun hm => hn (List.mem_append_right _ hm)) hr2 hc

/-- C27, witness: `a + b` on the example pool of two trees, a reset, then
`a + b + c`: the five trees handed out are 2, 1, 0 from the chain, then the new
trees 3 and 4. -/
theorem no_tree_handed_twice_witness :
    ∃ ap0 ap1,
      run [Op.push_sym (some 1), Op.push_binary_op expr_plus, Op.push_sym (some 2)]
        example_pool = .ok ap0
      ∧ run [Op.push_sym (some 1), Op.push_binary_op expr_plus, Op.push_sym (some 2),
          Op.push_binary_op expr_plus, Op.push_sym (some 3)] (lily_ast_reset_pool ap0) = .ok ap1
      ∧ ∃ P, free_chain ap0.mem P ap0.available_start
        ∧ (handed_out [Op.push_sym (some 1), Op.push_binary_op expr_plus, Op.push_sym (some 2),
              Op.push_binary_op expr_plus, Op.push_sym (some 3)]
            (lily_ast_reset_pool ap0)).length = 5
        ∧ (handed_out [Op.push_sym (some 1), Op.push_binary_op expr_plus, Op.push_sym (some 2),
              Op.push_binary_op expr_plus, Op.push_sym (some 3)]
            (lily_ast_reset_pool ap0)).Nodup := by
  have hr : ∃ ap1, run ([Op.push_sym (some 1), Op.push_binary_op expr_plus,
      Op.push_sym (some 2)] ++ (Op.reset_pool :: [Op.push_sym (some 1),
      Op.push_binary_op expr_plus, Op.push_sym (some 2),
      Op.push_binary_op expr_plus, Op.push_sym (some 3)])) example_pool = .ok ap1 := ⟨_, rfl⟩
  obtain ⟨ap1, h⟩ := hr
  obtain ⟨ap0, h0, h1⟩ := run_append_split h
  obtain ⟨apr, hs, h2⟩ := run_cons_ok h1
  simp only [step, Except.ok.injEq] at hs
  subst hs
  obtain ⟨P, p1, p2, p3, _, _⟩ :=
    no_tree_handed_twice (fun _ => blank_tree) (fun _ => none) 1 2 _ _ ap0 ap1 h0
      (by decide) h2
  exact ⟨ap0, ap1, h0, h2, P, p1, p2, p3⟩

/-- C21, the divergence: the splice of lily_ast_push_binary_op on the reset
example pool.  First `a = b + c` followed by lily_ast_push_binary_op(-): the
active tree A is `+` (tree 3), the climb stops at T = A, whose parent P is `=`
(tree 0) with T in its `right`; the call ends without a fault with the new tree N
(tree 5) in the `right` of P, N.left = T, N.parent = P, active = N and `root`
unchanged, but the `parent` of T is still P, not N.  Then `a = b + c * d` followed
by lily_ast_push_binary_op(-): A is `*` (tree 5), the climb stops at T = `+`
(tree 3), a strict ancestor of A, whose parent P is `=` (tree 0); the new tree N
(tree 7) is in the `right` of P and N.left = T, but N.parent is T (the parent of
A), not P, and the `parent` of T is still P, not N. -/
theorem splice_parent_links :
    (∃ ap ap1,
      run [Op.push_sym (some 1), Op.push_binary_op expr_assign, Op.push_sym (some 2),
          Op.push_binary_op expr_plus, Op.push_sym (some 3)]
        (lily_ast_reset_pool example_pool) = .ok ap
      ∧ step ap (Op.push_binary_op expr_minus) = .ok ap1
      ∧ (ap.active = some 3 ∧ (ap.mem 3).tree_type = tree_binary ∧ (acquire_tree ap).1 = 5
        ∧ (ap.mem 3).priority = 9 ∧ priority_for_op expr_minus = 9
        ∧ climb ap.mem (priority_for_op expr_minus) ap.brk 3 = some 3
        ∧ (ap.mem 3).parent = some 0 ∧ (ap.mem 0).right = some 3)
      ∧ ((ap1.mem 0).right = some 5 ∧ (ap1.mem 5).left = some 3
        ∧ (ap1.mem 5).parent = some 0 ∧ ap1.active = some 5 ∧ ap1.root = ap.root
        ∧ (ap1.mem 3).parent = some 0)
      ∧ (ap1.mem 3).parent ≠ some 5)
    ∧ (∃ ap ap1,
      run [Op.push_sym (some 1), Op.push_binary_op expr_assign, Op.push_sym (some 2),
          Op.push_binary_op expr_plus, Op.push_sym (some 3),
          Op.push_binary_op expr_multiply, Op.push_sym (some 4)]
        (lily_ast_reset_pool example_pool) = .ok ap
      ∧ step ap (Op.push_binary_op expr_minus) = .ok ap1
      ∧ (ap.active = some 5 ∧ (ap.mem 5).tree_type = tree_binary ∧ (acquire_tree ap).1 = 7
        ∧ (ap.mem 5).priority = 10 ∧ priority_for_op expr_minus = 9
        ∧ climb ap.mem (priority_for_op expr_minus) ap.brk 5 = some 3
        ∧ (ap.mem 5).parent = some 3
        ∧ (ap.mem 3).parent = some 0 ∧ (ap.mem 0).right = some 3)
      ∧ ((ap1.mem 0).right = some 7 ∧ (ap1.mem 7).left = some 3
        ∧ ap1.active = some 7 ∧ ap1.root = ap.root
        ∧ (ap1.mem 7).parent = some 3 ∧ (ap1.mem 3).parent = some 0)
      ∧ (ap1.mem 7).parent ≠ some 0 ∧ (ap1.mem 3).parent ≠ some 7) := by
  constructor
  · refine ⟨_, _, @state_of_returned (run [Op.push_sym (some 1),
        Op.push_binary_op expr_assign, Op.push_sym (some 2),
        Op.push_binary_op expr_plus, Op.push_sym (some 3)]
        (lily_ast_reset_pool example_pool)) (by decide!),
      @state_of_returned (step (state_of (run [Op.push_sym (some 1),
        Op.push_binary_op expr_assign, Op.push_sym (some 2),
        Op.push_binary_op expr_plus, Op.push_sym (some 3)]
        (lily_ast_reset_pool example_pool))) (Op.push_binary_op expr_minus)) (by decide!),
      by decide!, by decide!, by decide!⟩
  · refine ⟨_, _, @state_of_returned (run [Op.push_sym (some 1),
        Op.push_binary_op expr_assign, Op.push_sym (some 2),
        Op.push_binary_op expr_plus, Op.push_sym (some 3),
        Op.push_binary_op expr_multiply, Op.push_sym (some 4)]
        (lily_ast_reset_pool example_pool)) (by decide!),
      @state_of_returned (step (state_of (run [Op.push_sym (some 1),
        Op.push_binary_op expr_assign, Op.push_sym (some 2),
        Op.push_binary_op expr_plus, Op.push_sym (some 3),
        Op.push_binary_op expr_multiply, Op.push_sym (some 4)]
        (lily_ast_reset_pool example_pool))) (Op.push_binary_op expr_minus)) (by decide!),
      by decide!, by decide!, by decide!⟩

/-- C22, the divergence: `-x[i]` on the reset example pool.  The calls
lily_ast_push_unary_op(expr_unary_minus); push_sym(x); lily_ast_enter_tree(
tree_subscript); push_literal(i); lily_ast_leave_tree end without a fault with
`root` the unary tree (tree 1), whose `left` holds the subscript tree S (tree 2)
and no longer x (tree 0); the arguments of S are x then i and its args_collected
is 2; but the `parent` of S is NULL, not the unary tree, and `active` is S. -/
theorem subscript_under_unary :
    ∃ ap1, run [Op.push_unary_op expr_unary_minus, Op.push_sym (some 7),
          Op.enter_tree tree_subscript none, Op.push_literal (some 8), Op.leave_tree]
          (lily_ast_reset_pool example_pool) = .ok ap1
      ∧ (ap1.root = some 1 ∧ (ap1.mem 1).tree_type = tree_unary
        ∧ (ap1.mem 1).op = expr_unary_minus
        ∧ (ap1.mem 1).left = some 2 ∧ (ap1.mem 2).tree_type = tree_subscript
        ∧ (ap1.mem 0).tree_type = tree_var ∧ (ap1.mem 0).result = some 7
        ∧ (ap1.mem 3).tree_type = tree_literal ∧ (ap1.mem 3).result = some 8)
      ∧ arg_chain ap1.mem [0, 3] (ap1.mem 2).arg_start
      ∧ ((ap1.mem 2).arg_top = some 3
        ∧ (ap1.mem 2).args_collected = 2
        ∧ (ap1.mem 2).parent = none ∧ (ap1.mem 2).parent ≠ some 1
        ∧ ap1.active = some 2) := by
  refine ⟨_, @state_of_returned (run [Op.push_unary_op expr_unary_minus,
      Op.push_sym (some 7), Op.enter_tree tree_subscript none, Op.push_literal (some 8),
      Op.leave_tree] (lily_ast_reset_pool example_pool)) (by decide!),
    by decide!, (by show _ = some 0 ∧ _ = some 3 ∧ _ = none; decide!), by decide!⟩

/-- C23, the divergence: `-x[i] + c` on the reset example pool.  The calls
lily_ast_push_unary_op(expr_unary_minus); push_sym(x);
lily_ast_enter_tree(tree_subscript); push_literal(i); lily_ast_leave_tree;
lily_ast_push_binary_op(expr_plus); push_sym(c) end without a fault with `root`
still the unary tree (tree 1) over the subscript (tree 2) of x (tree 0) and i
(tree 3): `root` is not a binary tree, and neither the binary tree for `+`
(tree 4), which has the subscript as `left` and c (tree 5) as `right`, nor c is
reachable from `root`. -/
theorem binary_after_unary_subscript :
    ∃ ap1, run [Op.push_unary_op expr_unary_minus, Op.push_sym (some 7),
          Op.enter_tree tree_subscript none, Op.push_literal (some 8), Op.leave_tree,
          Op.push_binary_op expr_plus, Op.push_sym (some 9)]
          (lily_ast_reset_pool example_pool) = .ok ap1
      ∧ (ap1.root = some 1 ∧ (ap1.mem 1).tree_type = tree_unary
        ∧ (ap1.mem 1).op = expr_unary_minus
        ∧ (ap1.mem 1).left = some 2 ∧ (ap1.mem 2).tree_type = tree_subscript)
      ∧ arg_chain ap1.mem [0, 3] (ap1.mem 2).arg_start
      ∧ ((ap1.mem 4).tree_type = tree_binary ∧ (ap1.mem 4).op = expr_plus
        ∧ (ap1.mem 4).left = some 2 ∧ (ap1.mem 4).right = some 5
        ∧ (ap1.mem 5).tree_type = tree_var ∧ (ap1.mem 5).result = some 9
        ∧ ap1.active = some 4)
      ∧ (∀ y, reach ap1.mem 1 y → y = 2 ∨ y = 0 ∨ y = 3)
      ∧ ¬ reach ap1.mem 1 4 ∧ ¬ reach ap1.mem 1 5
      ∧ ∀ l r, ¬ tree_at ap1.mem (Tree.binary expr_plus l r) ap1.root := by
  have k1 : ((state_of (run [Op.push_unary_op expr_unary_minus, Op.push_sym (some 7),
      Op.enter_tree tree_subscript none, Op.push_literal (some 8), Op.leave_tree,
      Op.push_binary_op expr_plus, Op.push_sym (some 9)]
      (lily_ast_reset_pool example_pool))).mem 1).tree_type = tree_unary
      ∧ ((state_of (run [Op.push_unary_op expr_unary_minus, Op.push_sym (some 7),
      Op.enter_tree tree_subscript none, Op.push_literal (some 8), Op.leave_tree,
      Op.push_binary_op expr_plus, Op.push_sym (some 9)]
      (lily_ast_reset_pool example_pool))).mem 1).left = some 2 := by decide!
  have k2 : ((state_of (run [Op.push_unary_op expr_unary_minus, Op.push_sym (some 7),
      Op.enter_tree tree_subscript none, Op.push_literal (some 8), Op.leave_tree,
      Op.push_binary_op expr_plus, Op.push_sym (some 9)]
      (lily_ast_reset_pool example_pool))).mem 2).tree_type = tree_subscript
      ∧ ((state_of (run [Op.push_unary_op expr_unary_minus, Op.push_sym (some 7),
      Op.enter_tree tree_subscript none, Op.push_literal (some 8), Op.leave_tree,
      Op.push_binary_op expr_plus, Op.push_sym (some 9)]
      (lily_ast_reset_pool example_pool))).mem 2).arg_start = some 0 := by decide!
  have k0 : ((state_of (run [Op.push_unary_op expr_unary_minus, Op.push_sym (some 7),
      Op.enter_tree tree_subscript none, Op.push_literal (some 8), Op.leave_tree,
      Op.push_binary_op expr_plus, Op.push_sym (some 9)]
      (lily_ast_reset_pool example_pool))).mem 0).tree_type = tree_var
      ∧ ((state_of (run [Op.push_unary_op expr_unary_minus, Op.push_sym (some 7),
      Op.enter_tree tree_subscript none, Op.push_literal (some 8), Op.leave_tree,
      Op.push_binary_op expr_plus, Op.push_sym (some 9)]
      (lily_ast_reset_pool example_pool))).mem 0).next_arg = some 3 := by decide!
  have k3 : ((state_of (run [Op.push_unary_op expr_unary_minus, Op.push_sym (some 7),
      Op.enter_tree tree_subscript none, Op.push_literal (some 8), Op.leave_tree,
      Op.push_binary_op expr_plus, Op.push_sym (some 9)]
      (lily_ast_reset_pool example_pool))).mem 3).tree_type = tree_literal
      ∧ ((state_of (run [Op.push_unary_op expr_unary_minus, Op.push_sym (some 7),
      Op.enter_tree tree_subscript none, Op.push_literal (some 8), Op.leave_tree,
      Op.push_binary_op expr_plus, Op.push_sym (some 9)]
      (lily_ast_reset_pool example_pool))).mem 3).next_arg = none := by decide!
  have hroot : (state_of (run [Op.push_unary_op expr_unary_minus, Op.push_sym (some 7),
      Op.enter_tree tree_subscript none, Op.push_literal (some 8), Op.leave_tree,
      Op.push_binary_op expr_plus, Op.push_sym (some 9)]
      (lily_ast_reset_pool example_pool))).root = some 1 := by decide!
  have hclosed := reach_unary_subscript k1 k2 k0 k3
  refine ⟨_, @state_of_returned (run [Op.push_unary_op expr_unary_minus,
      Op.push_sym (some 7), Op.enter_tree tree_subscript none, Op.push_literal (some 8),
      Op.leave_tree, Op.push_binary_op expr_plus, Op.push_sym (some 9)]
      (lily_ast_reset_pool example_pool)) (by decide!),
    by decide!, (by show _ = some 0 ∧ _ = some 3 ∧ _ = none; decide!), by decide!,
    fun y hy => hclosed 1 y hy (Or.inl rfl), fun hr => ?_, fun hr => ?_, fun l r ht => ?_⟩
  · have := hclosed 1 4 hr (Or.inl rfl)
    omega
  · have := hclosed 1 5 hr (Or.inl rfl)
    omega
  · rw [hroot] at ht
    have ht1 := ht.1
    rw [k1.1] at ht1
    cases ht1

/-- C25: the climb of lily_ast_push_binary_op terminates. Take a builder made by
lily_new_ast_pool with at least one tree, any calls that return, then
lily_ast_reset_pool followed by calls `ops` that return, are not resets, enter
groupings of the kinds call, subscript, list and parenth only, and close or
collect for no grouping that they did not enter. If `active` is then a binary
tree, the chain of `parent` links from it ends at a tree with no parent, its
trees are pairwise distinct binary trees of the sub-expression in progress
(current_trees), so it is no longer than the number of binary trees there; and
for every operator the next lily_ast_push_binary_op does not run out of the
iterations given to its loop: the climb returns a tree after fewer iterations
than the chain has trees. -/
theorem climb_terminates (mem : Nat → lily_ast) (buf : Nat → Option Nat) (line c : Nat)
    (ops0 ops : List Op) (ap0 ap1 : lily_ast_pool) (a : Nat) (hc : 1 ≤ c)
    (h0 : run ops0 (lily_new_ast_pool mem buf line c) = .ok ap0)
    (hn : Op.reset_pool ∉ ops)
    (hk : ∀ tt var, Op.enter_tree tt var ∈ ops → tree_rank tt ≤ tree_rank tree_parenth)
    (hpre : ∀ pre, pre <+: ops → 0 ≤ open_count pre)
    (hcol : ∀ pre post, ops = pre ++ Op.collect_arg :: post → 1 ≤ open_count pre)
    (h1 : run ops (lily_ast_reset_pool ap0) = .ok ap1)
    (ha : ap1.active = some a) (hb : (ap1.mem a).tree_type = tree_binary) :
    ∃ chain, parent_chain ap1.mem (some a) chain ∧ chain.Nodup
      ∧ (∀ x ∈ chain, (ap1.mem x).tree_type = tree_binary
          ∧ x ∈ current_trees ops (lily_ast_reset_pool ap0))
      ∧ chain.length ≤ ((current_trees ops (lily_ast_reset_pool ap0)).filter
          (fun x => decide ((ap1.mem x).tree_type = tree_binary))).length
      ∧ ∀ o : lily_expr_op,
          lily_ast_push_binary_op ap1 o ≠ .error Fault.no_return
            ∧ ∃ k T, climb (binary_init ap1 o).mem (priority_for_op o)
                  (binary_init ap1 o).brk a = some T
                ∧ climb_count (binary_init ap1 o).mem (priority_for_op o)
                  (binary_init ap1 o).brk a = some k
                ∧ k + 1 ≤ chain.length := by
  obtain ⟨F, hinv0, _⟩ := reset_level mem buf line c hc h0
  obtain ⟨F1, Lv1, stack1, hh1, r1, r2, _⟩ :=
    level_run ops _ ap1 F [] [] _ _ hinv0 hn hk
      (fun pre hp => by
        have := hpre pre hp
        simp only [List.length_nil]
        push_cast
        omega)
      (fun pre post e => by
        have := hcol pre post e
        simp only [List.length_nil]
        push_cast
        omega) h1
  have hLv : Lv1 = current_trees ops (lily_ast_reset_pool ap0) := congrArg Prod.fst r2
  rw [← hLv]
  obtain ⟨chain, c1, c2, c3, c4, _⟩ := level_chain r1 ha hb
  refine ⟨chain, c1, c2, c3, c4, fun o => ⟨push_binary_returns r1 o, ?_⟩⟩
  obtain ⟨k, T, k1, k2, k3, _⟩ := level_climb r1 o ha hb c1
  exact ⟨k, T, k1, k2, k3⟩

/-- C25, witness: `a + b * c` on the reset example pool. `active` is `*` (tree
3), whose parent is `+` (tree 0): the chain has these two trees, and
lily_ast_push_binary_op(-) returns. -/
theorem climb_terminates_witness :
    ∃ ap1 chain,
      run [Op.push_sym (some 1), Op.push_binary_op expr_plus, Op.push_sym (some 2),
          Op.push_binary_op expr_multiply, Op.push_sym (some 3)]
        (lily_ast_reset_pool example_pool) = .ok ap1
      ∧ ap1.active = some 3 ∧ (ap1.mem 3).tree_type = tree_binary
      ∧ parent_chain ap1.mem (some 3) chain ∧ chain.Nodup
      ∧ chain.length ≤ 2
      ∧ lily_ast_push_binary_op ap1 expr_minus ≠ .error Fault.no_return := by
  have hr := @state_of_returned (run [Op.push_sym (some 1), Op.push_binary_op expr_plus,
    Op.push_sym (some 2), Op.push_binary_op expr_multiply, Op.push_sym (some 3)]
    (lily_ast_reset_pool example_pool)) (by decide!)
  obtain ⟨chain, c1, c2, _, c4, c5⟩ := climb_terminates (fun _ => blank_tree) (fun _ => none) 1 2
    [] [Op.push_sym (some 1), Op.push_binary_op expr_plus,
      Op.push_sym (some 2), Op.push_binary_op expr_multiply, Op.push_sym (some 3)]
    example_pool _ 3 (by decide) rfl (by decide) (fun tt var hm => by simp at hm)
    (fun pre hp =>
      (by decide : ∀ p ∈ List.inits [Op.push_sym (some 1), Op.push_binary_op expr_plus,
        Op.push_sym (some 2), Op.push_binary_op expr_multiply, Op.push_sym (some 3)],
        0 ≤ open_count p) pre ((List.mem_inits _ _).mpr hp))
    (fun pre post e => by
      have hm : Op.collect_arg ∈ [Op.push_sym (some 1), Op.push_binary_op expr_plus,
          Op.push_sym (some 2), Op.push_binary_op expr_multiply, Op.push_sym (some 3)] := by
        rw [e]
        simp
      exact absurd hm (by decide))
    hr (by decide!) (by decide!)
  refine ⟨_, chain, hr, by decide!, by decide!, c1, c2, le_trans c4 ?_, (c5 expr_minus).1⟩
  decide!

/-- C26: sub-expressions are isolated from the enclosing expression. Take a
builder made by lily_new_ast_pool with at least one tree, any calls that return,
then lily_ast_reset_pool followed by calls `pre` that return (no reset, no close
or collect without a grouping), then lily_ast_enter_tree, which returns and
takes the tree G, then calls `inner` that return and do not close G (no reset;
every grouping of the kinds call, subscript, list, parenth). Then every tree
handed out by `pre`, that is every tree in use before lily_ast_enter_tree, has
after `inner` the fields it had right after lily_ast_enter_tree, except that
next_arg of the receiver absorbed by G (its arg_start) may differ; G has the
same fields except arg_start, arg_top and args_collected; and the entries of
`saved_trees` up to the two written by lily_ast_enter_tree, the saved root among
them, are the same. -/
theorem inner_calls_isolated (mem : Nat → lily_ast) (buf : Nat → Option Nat) (line c : Nat)
    (ops0 pre inner : List Op) (tt : lily_tree_type) (var : Option Nat)
    (ap0 apB apE ap2 : lily_ast_pool) (hc : 1 ≤ c)
    (h0 : run ops0 (lily_new_ast_pool mem buf line c) = .ok ap0)
    (hn : Op.reset_pool ∉ pre ++ inner)
    (hk : ∀ t v, Op.enter_tree t v ∈ pre ++ Op.enter_tree tt var :: inner →
      tree_rank t ≤ tree_rank tree_parenth)
    (hpre : ∀ p, p <+: pre → 0 ≤ open_count p)
    (hcol : ∀ p post, pre = p ++ Op.collect_arg :: post → 1 ≤ open_count p)
    (hin : ∀ p, p <+: inner → 0 ≤ open_count p)
    (hB : run pre (lily_ast_reset_pool ap0) = .ok apB)
    (hE : lily_ast_enter_tree apB tt var = .ok apE)
    (h2 : run inner apE = .ok ap2) :
    (∀ x ∈ handed_out pre (lily_ast_reset_pool ap0),
        (apE.mem (acquire_tree apB).1).arg_start ≠ some x → ap2.mem x = apE.mem x)
      ∧ (∀ x ∈ handed_out pre (lily_ast_reset_pool ap0),
          { ap2.mem x with next_arg := (apE.mem x).next_arg } = apE.mem x)
      ∧ { ap2.mem (acquire_tree apB).1 with
            arg_start := (apE.mem (acquire_tree apB).1).arg_start,
            arg_top := (apE.mem (acquire_tree apB).1).arg_top,
            args_collected := (apE.mem (acquire_tree apB).1).args_collected }
          = apE.mem (acquire_tree apB).1
      ∧ (∀ i, i ≤ apB.save_index.toNat + 1 → ap2.saved_trees i = apE.saved_trees i)
      ∧ (acquire_tree apB).1 ∉ handed_out pre (lily_ast_reset_pool ap0) := by
  obtain ⟨F, hinv0, _⟩ := reset_level mem buf line c hc h0
  obtain ⟨FB, LvB, stackB, hhB, r1, _, _, _, r5⟩ :=
    level_run pre _ apB F [] [] _ _ hinv0 (fun hm => hn (List.mem_append_left _ hm))
      (fun t v hm => hk t v (List.mem_append_left _ hm))
      (fun p hp => by
        have := hpre p hp
        simp only [List.length_nil]
        push_cast
        omega)
      (fun p post e => by
        have := hcol p post e
        simp only [List.length_nil]
        push_cast
        omega) hB
  have hidx := r1.2.2.1
  have hst := r1.2.1
  obtain ⟨FE, e1, _, e3, e4, _⟩ := level_enter r1 hE
    (hk tt var (List.mem_append_right _ (List.mem_cons_self _ _)))
  obtain ⟨q1, q2, q3, q4⟩ := inner_run _ stackB inner apE ap2 FE [] [] hhB _ e1
    (fun hm => hn (List.mem_append_right _ hm))
    (fun t v hm => hk t v (List.mem_append_right _ (List.mem_cons_of_mem _ hm)))
    (fun p hp => by
      have := hin p hp
      simp only [List.length_nil]
      push_cast
      omega) h2
  have hold : ∀ x ∈ handed_out pre (lily_ast_reset_pool ap0),
      (x < apE.brk ∧ x ∉ FE) ∧ x ≠ (acquire_tree apB).1 := by
    intro x hx
    obtain ⟨_, b1, b2⟩ := r5 x hx
    exact ⟨e4 x b1 b2, fun e => e3 (e ▸ ⟨b1, b2⟩)⟩
  refine ⟨fun x hx hr => q2 x (hold x hx).1 (hold x hx).2 hr,
    fun x hx => q1 x (hold x hx).1 (hold x hx).2, q3, fun i hi => q4 i ?_,
    fun hm => (hold _ hm).2 rfl⟩
  have := hst.1
  omega

/-- C26, witness: `a + f(x * y, z` on the reset example pool. The call absorbs
`f` (tree 2) as its receiver; after the calls inside the grouping, `a` (tree 1)
and `+` (tree 0) have every field they had right after lily_ast_enter_tree, `f`
has every field but next_arg, which now points to the first argument, and the
saved root is the same. -/
theorem inner_calls_isolated_witness :
    ∃ apB apE ap2,
      run [Op.push_sym (some 1), Op.push_binary_op expr_plus, Op.push_sym (some 2)]
        (lily_ast_reset_pool example_pool) = .ok apB
      ∧ lily_ast_enter_tree apB tree_call none = .ok apE
      ∧ run [Op.push_sym (some 3), Op.push_binary_op expr_multiply, Op.push_sym (some 4),
          Op.collect_arg, Op.push_sym (some 5)] apE = .ok ap2
      ∧ (apE.mem (acquire_tree apB).1).arg_start = some 2
      ∧ ap2.mem 1 = apE.mem 1 ∧ ap2.mem 0 = apE.mem 0
      ∧ { ap2.mem 2 with next_arg := (apE.mem 2).next_arg } = apE.mem 2
      ∧ (ap2.mem 2).next_arg ≠ (apE.mem 2).next_arg
      ∧ ap2.saved_trees 0 = apE.saved_trees 0 := by
  have hB := @state_of_returned (run [Op.push_sym (some 1), Op.push_binary_op expr_plus,
    Op.push_sym (some 2)] (lily_ast_reset_pool example_pool)) (by decide!)
  have hE := @state_of_returned (lily_ast_enter_tree (state_of (run [Op.push_sym (some 1),
    Op.push_binary_op expr_plus, Op.push_sym (some 2)] (lily_ast_reset_pool example_pool)))
    tree_call none) (by decide!)
  have h2 := @state_of_returned (run [Op.push_sym (some 3), Op.push_binary_op expr_multiply,
    Op.push_sym (some 4), Op.collect_arg, Op.push_sym (some 5)]
    (state_of (lily_ast_enter_tree (state_of (run [Op.push_sym (some 1),
      Op.push_binary_op expr_plus, Op.push_sym (some 2)] (lily_ast_reset_pool example_pool)))
      tree_call none))) (by decide!)
  obtain ⟨k1, k2, _, k4, _⟩ := inner_calls_isolated (fun _ => blank_tree) (fun _ => none) 1 2
    [] [Op.push_sym (some 1), Op.push_binary_op expr_plus, Op.push_sym (some 2)]
    [Op.push_sym (some 3), Op.push_binary_op expr_multiply, Op.push_sym (some 4),
      Op.collect_arg, Op.push_sym (some 5)] tree_call none example_pool _ _ _
    (by decide) rfl (by decide)
    (fun t v hm => by
      simp only [List.mem_append, List.mem_cons, List.mem_singleton, List.not_mem_nil,
        Op.enter_tree.injEq, reduceCtorEq, false_or, or_false, false_and] at hm
      rw [hm.1]
      decide)
    (fun p hp =>
      (by decide : ∀ q ∈ List.inits [Op.push_sym (some 1), Op.push_binary_op expr_plus,
        Op.push_sym (some 2)], 0 ≤ open_count q) p ((List.mem_inits _ _).mpr hp))
    (fun p post e => by
      have hm : Op.collect_arg ∈ [Op.push_sym (some 1), Op.push_binary_op expr_plus,
          Op.push_sym (some 2)] := by
        rw [e]
        simp
      exact absurd hm (by decide))
    (fun p hp =>
      (by decide : ∀ q ∈ List.inits [Op.push_sym (some 3), Op.push_binary_op expr_multiply,
        Op.push_sym (some 4), Op.collect_arg, Op.push_sym (some 5)], 0 ≤ open_count q) p
        ((List.mem_inits _ _).mpr hp))
    hB hE h2
  exact ⟨_, _, _, hB, hE, h2, by decide!, k1 1 (by decide!) (by decide!),
    k1 0 (by decide!) (by decide!), k2 2 (by decide!), by decide!, k4 0 (by decide!)⟩

end Lily
